import Mathlib

namespace Gar

/-!
# gar2: generalized files, ZIP local-header walker and DEFLATE decoder

Shallow embedding of `gfile.c`, `gfilecrt.c`, `ginflate.c` and `garlib.c`.

Conventions of the embedding.
* Bytes are natural numbers below 256; byte arrays are lists.
* `unsigned int` is 32 bits, `unsigned long`, `size_t` and `gar_off_t` are 64 bits (LP64).
  Wrap-around is written out with `%` where a C operation can wrap.
* A `longjmp` through `_gar_error` is an error result; the state reached at the jump is
  returned next to it, because the C objects survive the jump.
* Allocation (`_gar_malloc`, `_gar_realloc`) and host file I/O are assumed to succeed.
* Loops are recursions on an iteration bound computed from the input.
-/


/-! ## Errors (garerror.c) -/

/-- Messages passed to `_gar_error`. Two values are not messages of the program:
`model_fuel` marks an exhausted iteration bound of the embedding, and `c_undefined` marks a
point where the C program leaves defined behaviour (it dereferences a null pointer or writes
past the end of an array). -/
inductive gar_error_t where
  | out_of_range
  | c_err_eof
  | c_err_corrupt
  | c_err_unknown
  | c_err_seek
  | c_err_dup
  | model_fuel
  | c_undefined
  deriving DecidableEq, Repr

instance {ε α : Type} [DecidableEq ε] [DecidableEq α] : DecidableEq (Except ε α) :=
  fun a b =>
    match a, b with
    | .ok x, .ok y => decidable_of_iff (x = y) (by simp)
    | .error x, .error y => decidable_of_iff (x = y) (by simp)
    | .ok _, .error _ => isFalse (by simp)
    | .error _, .ok _ => isFalse (by simp)

/-! ## Generalized files (gfile.c, gfilecrt.c) -/

/-- The `gar_gfile_t` instances that can sit under a decoder or an archive:
the null stream (`c_gfile_null`), the C-runtime file stream (`c_gfile_file`, a regular file
holding `data`, with the `FILE` position `fpos`), and the partial stream (`c_gfile_part`,
`gfile_part_ud_t` with its owned source `gf`). -/
inductive gar_gfile_t where
  | null
  | file (data : List Nat) (fpos : Nat)
  | part (gf : gar_gfile_t) (pos off len : Nat)
  deriving DecidableEq, Repr

/-- Two to the 64: the modulus of `gar_off_t` and `size_t`. -/
abbrev U64 : Nat := 18446744073709551616

/-- Two to the 32: the modulus of `ginflate_uint_t`. -/
abbrev U32 : Nat := 4294967296

/-- `check_off`: raise the error if `off` is out of the range `[0, len]`. -/
def check_off (off len : Nat) : Except gar_error_t Unit :=
  if off > len then .error .out_of_range else .ok ()

/-- `offmin`. -/
def offmin (x y : Nat) : Nat := if x < y then x else y

/-- `gar_gfile_read`, dispatching to `gfile_null_on_read`, `gfile_file_on_read` (an `fread`
on a regular file) and `gfile_part_on_read`. Returns the bytes copied and the stream after. -/
def gar_gfile_read : gar_gfile_t → Nat → List Nat × gar_gfile_t
  | .null, _ => ([], .null)
  | .file data fpos, n =>
      let bs := (data.drop fpos).take n
      (bs, .file data (fpos + bs.length))
  | .part gf pos off len, n =>
      let m := offmin n ((len + U64 - pos) % U64)
      let r := gar_gfile_read gf m
      (r.1, .part r.2 ((pos + r.1.length) % U64) off len)

/-- `gar_gfile_seek`, dispatching to `gfile_null_on_seek`, `gfile_file_on_seek` and
`gfile_part_on_seek`. A failed seek leaves the stream as it was. -/
def gar_gfile_seek : gar_gfile_t → Nat → Except gar_error_t gar_gfile_t
  | .null, off =>
      match check_off off 0 with
      | .error e => .error e
      | .ok _ => .ok .null
  | .file data _, off =>
      if off > data.length then .error .out_of_range else .ok (.file data off)
  | .part gf pos off0 len, off =>
      match check_off off len with
      | .error e => .error e
      | .ok _ =>
        match gar_gfile_seek gf ((off0 + off) % U64) with
        | .error e => .error e
        | .ok gf1 => .ok (.part gf1 off off0 len)

/-- `gar_gfile_open_part` (with `gfile_part_on_open`): seek the source to `off`, then wrap it.
When the seek raises, the handler of `gfile_part_on_open` runs `gfile_part_on_close(pud)`
with `pud` still `NULL`, and that function calls `gar_gfile_close(&pud->gf)`, which reads the
`close` field through the null pointer. -/
def gar_gfile_open_part (gf : gar_gfile_t) (off len : Nat) : Except gar_error_t gar_gfile_t :=
  match gar_gfile_seek gf off with
  | .error _ => .error .c_undefined
  | .ok gf1 => .ok (.part gf1 0 off len)

/-- `gar_gfile_dup`, dispatching to `gfile_null_on_dup`, `gfile_file_on_dup` (reopen the same
file) and `gfile_part_on_dup`. The duplicated stream is returned; the source is untouched. -/
def gar_gfile_dup : gar_gfile_t → Except gar_error_t gar_gfile_t
  | .null => .ok .null
  | .file data _ => .ok (.file data 0)
  | .part gf _ off len =>
      match gar_gfile_dup gf with
      | .error e => .error e
      | .ok d => gar_gfile_open_part d off len

/-- `gar_gfile_close`: close, then reset to the null stream. -/
def gar_gfile_close (_gf : gar_gfile_t) : gar_gfile_t := .null

/-- The bytes a stream still delivers to successive reads. -/
def gfile_rest : gar_gfile_t → List Nat
  | .null => []
  | .file data fpos => data.drop fpos
  | .part gf pos _ len => (gfile_rest gf).take (len - pos)

/-- The largest offset a seek accepts at the outermost stream. -/
def gfile_limit : gar_gfile_t → Nat
  | .null => 0
  | .file data _ => data.length
  | .part _ _ _ len => len

/-! ## DEFLATE decoder state (ginflate.c) -/

/-- The decoding phase stored in `ginflate_t::infl`. -/
inductive infl_fn where
  | inflate_block
  | inflate_stored
  | inflate_compressed
  | inflate_error
  deriving DecidableEq, Repr

/-- `ginflate_hdic_t`; the array `lookup` is a list of words, read with `getD`. -/
structure ginflate_hdic_t where
  max_codelen : Nat
  lookup : List Nat

/-- `ginflate_t`. `input` holds the bytes of `inputbuf` between `input_p` and `input_pend`;
`ringbuf` is the list of its 65536 bytes. -/
structure ginflate_t where
  ringbuf_pos : Nat
  bits_acc : Nat
  bits_len : Nat
  input : List Nat
  match_len : Nat
  match_dist : Nat
  bfinal : Nat
  err : Nat
  ringbuf : List Nat
  hdic_lit : ginflate_hdic_t
  hdic_dist : ginflate_hdic_t
  infl : infl_fn
  gf : gar_gfile_t

/-- Outcome of a decoder operation: a value, or an error raised by `error`; the decoder
state after the operation comes with both. -/
inductive Res (α : Type) where
  | ok (a : α) (I : ginflate_t)
  | err (msg : gar_error_t) (I : ginflate_t)

/-- `extra_def_t`. -/
structure extra_def_t where
  bits : Nat
  base : Nat
  deriving DecidableEq, Repr

/-- `c_clen_order`. -/
def c_clen_order : List Nat :=
  [16, 17, 18, 0, 8, 7, 9, 6, 10, 5, 11, 4, 12, 3, 13, 2, 14, 1, 15]

/-- Modelled from the spec: the file `lenext.inc` is missing; the spec says the table holds
the standard DEFLATE constants for length symbols 257 to 285 (lengths 3 to 258). -/
def c_lenext : List extra_def_t :=
  [⟨0, 3⟩, ⟨0, 4⟩, ⟨0, 5⟩, ⟨0, 6⟩, ⟨0, 7⟩, ⟨0, 8⟩, ⟨0, 9⟩, ⟨0, 10⟩,
   ⟨1, 11⟩, ⟨1, 13⟩, ⟨1, 15⟩, ⟨1, 17⟩, ⟨2, 19⟩, ⟨2, 23⟩, ⟨2, 27⟩, ⟨2, 31⟩,
   ⟨3, 35⟩, ⟨3, 43⟩, ⟨3, 51⟩, ⟨3, 59⟩, ⟨4, 67⟩, ⟨4, 83⟩, ⟨4, 99⟩, ⟨4, 115⟩,
   ⟨5, 131⟩, ⟨5, 163⟩, ⟨5, 195⟩, ⟨5, 227⟩, ⟨0, 258⟩]

/-- Modelled from the spec: the file `distext.inc` is missing; the spec says the table holds
the standard DEFLATE constants for distance symbols 0 to 29 (distances 1 to 32768). -/
def c_distext : List extra_def_t :=
  [⟨0, 1⟩, ⟨0, 2⟩, ⟨0, 3⟩, ⟨0, 4⟩, ⟨1, 5⟩, ⟨1, 7⟩, ⟨2, 9⟩, ⟨2, 13⟩,
   ⟨3, 17⟩, ⟨3, 25⟩, ⟨4, 33⟩, ⟨4, 49⟩, ⟨5, 65⟩, ⟨5, 97⟩, ⟨6, 129⟩, ⟨6, 193⟩,
   ⟨7, 257⟩, ⟨7, 385⟩, ⟨8, 513⟩, ⟨8, 769⟩, ⟨9, 1025⟩, ⟨9, 1537⟩, ⟨10, 2049⟩, ⟨10, 3073⟩,
   ⟨11, 4097⟩, ⟨11, 6145⟩, ⟨12, 8193⟩, ⟨12, 12289⟩, ⟨13, 16385⟩, ⟨13, 24577⟩]

/-- `c_clenext`. -/
def c_clenext : List extra_def_t := [⟨2, 3⟩, ⟨3, 3⟩, ⟨7, 11⟩]

/-- `umin`. -/
def umin (x y : Nat) : Nat := if x < y then x else y

/-- `error`: stop decompressing (`infl` becomes `inflate_error`) and raise `msg`. -/
def error {α : Type} (I : ginflate_t) (msg : gar_error_t) : Res α :=
  .err msg { I with infl := .inflate_error }

/-! ## Bitwise operations -/

/-- `fetch_bytes`: refill `inputbuf` (1024 bytes) from the source stream. `none` is the
`NULL` result; otherwise the returned pointer is the start of the refilled buffer. -/
def fetch_bytes (I : ginflate_t) : Option (List Nat) × ginflate_t :=
  let r := gar_gfile_read I.gf 1024
  if r.1.length = 0 then (none, { I with gf := r.2 })
  else (some r.1, { I with gf := r.2, input := r.1 })

/-- `bitmask`. -/
def bitmask (n : Nat) : Nat := (1 <<< n) - 1

/-- The `while` loop of `fetch_bits`; the first argument bounds the iterations. -/
def fetch_bits_loop (n : Nat) : Nat → ginflate_t → ginflate_t
  | 0, I => I
  | fuel + 1, I =>
    if I.bits_len < n then
      match (if I.input = [] then fetch_bytes I else (some I.input, I)) with
      | (none, I1) => I1
      | (some [], I1) => I1
      | (some (b :: rest), I1) =>
        fetch_bits_loop n fuel
          { I1 with bits_acc := (I1.bits_acc + (b <<< I1.bits_len) % U32) % U32,
                    bits_len := I1.bits_len + 8,
                    input := rest }
    else I

/-- `fetch_bits`: every pass of the loop adds eight bits, so `n` passes are enough. -/
def fetch_bits (I : ginflate_t) (n : Nat) : Nat × ginflate_t :=
  let I1 := fetch_bits_loop n n I
  (I1.bits_acc &&& bitmask n, I1)

/-- `drop_bits`. -/
def drop_bits (I : ginflate_t) (n : Nat) : Res Unit :=
  if n > I.bits_len then error I .c_err_eof
  else .ok () { I with bits_acc := I.bits_acc >>> n, bits_len := I.bits_len - n }

/-- `drop_to_byte`. -/
def drop_to_byte (I : ginflate_t) : ginflate_t :=
  let m := I.bits_len % 8
  { I with bits_acc := I.bits_acc >>> m, bits_len := I.bits_len - m }

/-- The `do ... while (bl < n)` loop of `get_bits` over the locals `p`, `bs`, `bl`. -/
def get_bits_loop (n : Nat) : Nat → ginflate_t → List Nat → Nat → Nat → Res Nat
  | 0, I, _, _, _ => .err .model_fuel I
  | fuel + 1, I, p, bs, bl =>
    match (if p = [] then fetch_bytes I else (some p, I)) with
    | (none, I1) => error I1 .c_err_eof
    | (some [], I1) => .err .model_fuel I1
    | (some (b :: rest), I1) =>
      let bs1 := (bs + (b <<< bl) % U32) % U32
      let bl1 := bl + 8
      if bl1 < n then get_bits_loop n fuel I1 rest bs1 bl1
      else .ok (bs1 &&& bitmask n)
             { I1 with input := rest, bits_acc := bs1 >>> n, bits_len := bl1 - n }

/-- `get_bits`. -/
def get_bits (I : ginflate_t) (n : Nat) : Res Nat :=
  if n ≤ I.bits_len then
    .ok (I.bits_acc &&& bitmask n)
      { I with bits_acc := I.bits_acc >>> n, bits_len := I.bits_len - n }
  else get_bits_loop n n I I.input I.bits_acc I.bits_len

/-! ## Decoding Huffman and extra codes -/

/-- `codelen_bits`. -/
abbrev codelen_bits : Nat := 4

/-- `codelen_limit`. -/
abbrev codelen_limit : Nat := 16

/-- `pack_symb_and_bl`; the result is a `ginflate_word_t` (16 bits). -/
def pack_symb_and_bl (symb bl : Nat) : Nat := ((symb <<< codelen_bits) + bl) % 65536

/-- `unpack_symb`. -/
def unpack_symb (packed : Nat) : Nat := packed >>> codelen_bits

/-- `unpack_bl`. -/
def unpack_bl (packed : Nat) : Nat := packed &&& bitmask codelen_bits

/-- The `for` loop of `reverse_bits`, `k` passes left, over the locals `c` and `d`. -/
def reverse_bits_loop : Nat → Nat → Nat → Nat
  | 0, _, d => d
  | k + 1, c, d => reverse_bits_loop k (c >>> 1) ((d <<< 1) + (c &&& 1))

/-- `reverse_bits`. -/
def reverse_bits (c n : Nat) : Nat := reverse_bits_loop n c 0

/-- First loop of `init_huffdic`: count the codes of each code length, into the array
`bl_count` of `codelen_limit` zeros. -/
def count_codelens (codelens : List Nat) (num_codes : Nat) : List Nat :=
  (List.range num_codes).foldl
    (fun bl_count i =>
      bl_count.set (codelens.getD i 0) (bl_count.getD (codelens.getD i 0) 0 + 1))
    (List.replicate codelen_limit 0)

/-- Second loop of `init_huffdic`: the smallest code of each code length. The state is the
pair of the local `code` and the array `next_code`. -/
def first_codes (bl_count : List Nat) : Nat × List Nat :=
  (List.range' 1 (codelen_limit - 1)).foldl
    (fun st i =>
      let code := (st.1 + bl_count.getD (i - 1) 0) <<< 1
      (code, st.2.set i code))
    (0, List.replicate codelen_limit 0)

/-- Third loop of `init_huffdic`: the largest code length in use. -/
def find_max_codelen (bl_count : List Nat) : Nat :=
  (List.range' 1 15).foldl (fun m i => if bl_count.getD i 0 ≠ 0 then i else m) 0

/-- Innermost loop of `init_huffdic`: `for (; c < hdic_size; c += cstep) lookup[c] = w`. -/
def fill_lookup (w cstep hdic_size : Nat) : Nat → Nat → List Nat → List Nat
  | 0, _, lookup => lookup
  | fuel + 1, c, lookup =>
    if c < hdic_size then
      fill_lookup w cstep hdic_size fuel (c + cstep) (lookup.set c w)
    else lookup

/-- Last loop of `init_huffdic`: assign the codes to the lookup table. The state is the pair
of the array `next_code` and the table. -/
def assign_codes (codelens : List Nat) (num_codes hdic_size : Nat)
    (next_code : List Nat) (lookup : List Nat) : List Nat × List Nat :=
  (List.range num_codes).foldl
    (fun st i =>
      let bl := codelens.getD i 0
      if bl > 0 then
        let c := st.1.getD bl 0
        let w := pack_symb_and_bl i bl
        let cstep := 1 <<< bl
        (st.1.set bl (c + 1),
         fill_lookup w cstep hdic_size hdic_size (reverse_bits c bl) st.2)
      else st)
    (next_code, lookup)

/-- `init_huffdic`. -/
def init_huffdic (codelens : List Nat) (num_codes : Nat) (hdic : ginflate_hdic_t) :
    ginflate_hdic_t :=
  let bl_count := (count_codelens codelens num_codes).set 0 0
  let next_code := (first_codes bl_count).2
  let max_codelen := find_max_codelen bl_count
  let hdic_size := 1 <<< max_codelen
  let cleared := List.replicate hdic_size 0 ++ hdic.lookup.drop hdic_size
  { max_codelen := max_codelen,
    lookup := (assign_codes codelens num_codes hdic_size next_code cleared).2 }

/-- `decode_huff`. -/
def decode_huff (I : ginflate_t) (hdic : ginflate_hdic_t) : Res Nat :=
  let r := fetch_bits I hdic.max_codelen
  let w := hdic.lookup.getD r.1 0
  match drop_bits r.2 (unpack_bl w) with
  | .err e I1 => .err e I1
  | .ok _ I1 => .ok (unpack_symb w) I1

/-- `decode_ext`. For an index past the end of the table, `ext[c]` reads outside the array,
which has no defined behaviour. -/
def decode_ext (I : ginflate_t) (ext : List extra_def_t) (c : Nat) : Res Nat :=
  if c < ext.length then
    match get_bits I (ext.getD c ⟨0, 0⟩).bits with
    | .err e I1 => .err e I1
    | .ok v I1 => .ok ((ext.getD c ⟨0, 0⟩).base + v) I1
  else .err .c_undefined I

/-! ## Block headers -/

/-- `setup_stored`. -/
def setup_stored (I : ginflate_t) : Res Unit :=
  match get_bits (drop_to_byte I) 16 with
  | .err e I1 => .err e I1
  | .ok len I1 =>
    match get_bits I1 16 with
    | .err e I2 => .err e I2
    | .ok nlen I2 =>
      if len ≠ nlen ^^^ 0xffff then error I2 .c_err_corrupt
      else .ok () { I2 with match_len := len, infl := .inflate_stored }

/-- The code lengths `setup_fixed_huffman` writes for the literal/length alphabet. -/
def fixed_lit_clbuf : List Nat :=
  List.replicate 144 8 ++ List.replicate 112 9 ++ List.replicate 24 7 ++ List.replicate 8 8

/-- The buffer `clbuf` of `setup_fixed_huffman` after its second filling: 32 distance code
lengths of 5 over the first entries. -/
def fixed_dist_clbuf : List Nat :=
  List.replicate 32 5 ++ fixed_lit_clbuf.drop 32

/-- `setup_fixed_huffman`. -/
def setup_fixed_huffman (I : ginflate_t) : Res Unit :=
  let lit := init_huffdic fixed_lit_clbuf 288 I.hdic_lit
  let dist := init_huffdic fixed_dist_clbuf 32 I.hdic_dist
  .ok () { I with hdic_lit := lit, hdic_dist := dist, infl := .inflate_compressed }

/-- The inner `for` loop of `decode_clen`: `clbuf[i+j] = c` for `j < n`, for a run that
stays inside the array. -/
def store_run (clbuf : List Nat) (i c : Nat) : Nat → List Nat
  | 0 => clbuf
  | n + 1 => (store_run clbuf i c n).set (i + n) c

/-- The `while (i < num_codes)` loop of `decode_clen`; every pass advances `i`, so the
first argument, at least `num_codes`, bounds the passes. The loop does not compare a run
with `num_codes`; a run that goes past the end of `clbuf` (288 bytes on the stack of the
caller) writes outside the array. -/
def decode_clen_loop (hdic_clen : ginflate_hdic_t) (num_codes : Nat) :
    Nat → ginflate_t → List Nat → Nat → Res (List Nat)
  | 0, I, clbuf, i => if i < num_codes then .err .model_fuel I else .ok clbuf I
  | fuel + 1, I, clbuf, i =>
    if i < num_codes then
      match decode_huff I hdic_clen with
      | .err e I1 => .err e I1
      | .ok l I1 =>
        if l < 16 then
          decode_clen_loop hdic_clen num_codes fuel I1 (clbuf.set i (l % 256)) (i + 1)
        else
          let c := if i > 0 ∧ l = 16 then clbuf.getD (i - 1) 0 else 0
          match decode_ext I1 c_clenext (l - 16) with
          | .err e I2 => .err e I2
          | .ok n I2 =>
            if i + n > clbuf.length then .err .c_undefined I2
            else decode_clen_loop hdic_clen num_codes fuel I2 (store_run clbuf i c n) (i + n)
    else .ok clbuf I

/-- `decode_clen`. -/
def decode_clen (I : ginflate_t) (hdic_clen : ginflate_hdic_t) (clbuf : List Nat)
    (num_codes : Nat) : Res (List Nat) :=
  decode_clen_loop hdic_clen num_codes num_codes I clbuf 0

/-- First loop of `setup_dynamic_huffman`: `clbuf[c_clen_order[i]] = get_bits(I, 3)` for
the `k` indices from `i` on. -/
def read_clen_lens : Nat → Nat → ginflate_t → List Nat → Res (List Nat)
  | 0, _, I, clbuf => .ok clbuf I
  | k + 1, i, I, clbuf =>
    match get_bits I 3 with
    | .err e I1 => .err e I1
    | .ok v I1 => read_clen_lens k (i + 1) I1 (clbuf.set (c_clen_order.getD i 0) v)

/-- `setup_dynamic_huffman`. -/
def setup_dynamic_huffman (I : ginflate_t) : Res Unit :=
  match get_bits I 5 with
  | .err e I1 => .err e I1
  | .ok hlit I1 =>
  match get_bits I1 5 with
  | .err e I2 => .err e I2
  | .ok hdist I2 =>
  match get_bits I2 4 with
  | .err e I3 => .err e I3
  | .ok hclen I3 =>
  match read_clen_lens (hclen + 4) 0 I3 (List.replicate 288 0) with
  | .err e I4 => .err e I4
  | .ok clbuf1 I4 =>
  let hdic_clen := init_huffdic clbuf1 19 I4.hdic_dist
  let I5 := { I4 with hdic_dist := hdic_clen }
  match decode_clen I5 hdic_clen clbuf1 (hlit + 257) with
  | .err e I6 => .err e I6
  | .ok clbuf2 I6 =>
  let I7 := { I6 with hdic_lit := init_huffdic clbuf2 (hlit + 257) I6.hdic_lit }
  match decode_clen I7 hdic_clen clbuf2 (hdist + 1) with
  | .err e I8 => .err e I8
  | .ok clbuf3 I8 =>
  .ok () { I8 with hdic_dist := init_huffdic clbuf3 (hdist + 1) I8.hdic_dist,
                   infl := .inflate_compressed }

/-- `setup_error`. -/
def setup_error (I : ginflate_t) : Res Unit := error I .c_err_corrupt

/-- `c_setup_fn[btype]`. -/
def c_setup_fn (btype : Nat) (I : ginflate_t) : Res Unit :=
  match btype with
  | 0 => setup_stored I
  | 1 => setup_fixed_huffman I
  | 2 => setup_dynamic_huffman I
  | _ => setup_error I

/-! ## Decompression -/

/-- `ringbuf_put`; the argument is converted to a byte. -/
def ringbuf_put (I : ginflate_t) (c : Nat) : Nat × ginflate_t :=
  (c % 256,
   { I with ringbuf := I.ringbuf.set I.ringbuf_pos (c % 256),
            ringbuf_pos := (I.ringbuf_pos + 1) % 65536 })

/-- The `for` loop of `inflate_stored`: `k` bytes through `get_bits(I, 8)`; `out` is what
the call has written so far. -/
def stored_loop : Nat → ginflate_t → List Nat → Res (List Nat)
  | 0, I, out => .ok out I
  | k + 1, I, out =>
    match get_bits I 8 with
    | .err e I1 => .err e I1
    | .ok v I1 =>
      let r := ringbuf_put I1 v
      stored_loop k r.2 (out ++ [r.1])

/-- The `for` loop of `expand_match` over the locals `pos` and `ringbuf`, `k` passes left. -/
def expand_loop (dist : Nat) : Nat → Nat → List Nat → List Nat → Nat × List Nat × List Nat
  | 0, pos, ringbuf, out => (pos, ringbuf, out)
  | k + 1, pos, ringbuf, out =>
    let c := ringbuf.getD (((pos + U32 - dist) % U32) % 65536) 0
    expand_loop dist k ((pos + 1) % 65536) (ringbuf.set pos c) (out ++ [c])

/-- `expand_match`; `room` is `pend - p`, converted to `ginflate_uint_t` by `umin`. Returns
the decoder, the output so far and the room left. -/
def expand_match (I : ginflate_t) (out : List Nat) (room : Nat) :
    ginflate_t × List Nat × Nat :=
  let n := umin I.match_len (room % U32)
  let r := expand_loop I.match_dist n I.ringbuf_pos I.ringbuf out
  ({ I with match_len := I.match_len - n, ringbuf_pos := r.1, ringbuf := r.2.1 },
   r.2.2, room - n)

/-- Where a pass of the decoding recursion stands: at a call through `I->infl`, or inside
the `while (p < pend)` loop of `inflate_compressed`. -/
inductive run_at where
  | call
  | comp_loop
  deriving DecidableEq, Repr

/-- The phase functions `inflate_block`, `inflate_stored`, `inflate_compressed` and
`inflate_error` with their tail calls, as one recursion. `out` holds the bytes written to
the caller's buffer so far and `room` is `pend - p`. The first argument bounds the passes. -/
def inflate_run : Nat → run_at → ginflate_t → List Nat → Nat → Res (List Nat)
  | 0, _, I, _, _ => .err .model_fuel I
  | fuel + 1, .call, I, out, room =>
    match I.infl with
    | .inflate_error => error I .c_err_unknown
    | .inflate_block =>
      if I.bfinal ≠ 0 then .ok out I
      else
        match get_bits I 1 with
        | .err e I1 => .err e I1
        | .ok bfinal I1 =>
          match get_bits I1 2 with
          | .err e I2 => .err e I2
          | .ok btype I2 =>
            match c_setup_fn btype { I2 with bfinal := bfinal } with
            | .err e I3 => .err e I3
            | .ok _ I3 => inflate_run fuel .call I3 out room
    | .inflate_stored =>
      let n := umin I.match_len (room % U32)
      match stored_loop n I out with
      | .err e I1 => .err e I1
      | .ok out1 I1 =>
        let I2 := { I1 with match_len := I1.match_len - n }
        if I2.match_len = 0 then
          inflate_run fuel .call { I2 with infl := .inflate_block } out1 (room - n)
        else .ok out1 I2
    | .inflate_compressed =>
      if I.match_len > 0 then
        let r := expand_match I out room
        inflate_run fuel .comp_loop r.1 r.2.1 r.2.2
      else inflate_run fuel .comp_loop I out room
  | fuel + 1, .comp_loop, I, out, room =>
    if 0 < room then
      match decode_huff I I.hdic_lit with
      | .err e I1 => .err e I1
      | .ok l I1 =>
        if l < 256 then
          let r := ringbuf_put I1 l
          inflate_run fuel .comp_loop r.2 (out ++ [r.1]) (room - 1)
        else if l ≥ 257 then
          match decode_ext I1 c_lenext (l - 257) with
          | .err e I2 => .err e I2
          | .ok len I2 =>
            match decode_huff { I2 with match_len := len } I2.hdic_dist with
            | .err e I3 => .err e I3
            | .ok d I3 =>
              match decode_ext I3 c_distext d with
              | .err e I4 => .err e I4
              | .ok dist I4 =>
                let r := expand_match { I4 with match_dist := dist } out room
                inflate_run fuel .comp_loop r.1 r.2.1 r.2.2
        else inflate_run fuel .call { I1 with infl := .inflate_block } out room
    else .ok out I

/-- `ginflate_init`; the ring buffer and the tables keep what the memory held. -/
def ginflate_init (I : ginflate_t) : ginflate_t :=
  { I with ringbuf_pos := 0, bits_acc := 0, bits_len := 0, input := [],
           match_len := 0, match_dist := 0, bfinal := 0, err := 0,
           infl := .inflate_block, gf := .null }

/-- The number of input bits a decoder can still consume. -/
def bits_left (I : ginflate_t) : Nat :=
  I.bits_len + 8 * (I.input.length + (gfile_rest I.gf).length)

/-- `ginflate`: one read of at most `n` bytes. Every two passes of the recursion consume an
input bit or an output byte, which gives the bound on the passes. -/
def ginflate (I : ginflate_t) (n : Nat) : Res (List Nat) :=
  inflate_run (2 * (bits_left I + n) + 8) .call I [] n

/-- `ginflate_on_open`: initialize the allocated decoder `mem` and move the source in. -/
def ginflate_on_open (gf : gar_gfile_t) (mem : ginflate_t) : ginflate_t :=
  { ginflate_init mem with gf := gf }

/-! ## Archives and zipped files (garlib.c) -/

/-- `struct gar`. -/
structure gar_t where
  gf : gar_gfile_t
  deriving DecidableEq, Repr

/-- `gar_archive_gopen`: move the given generalized file into a new archive. -/
def gar_archive_gopen (gf : gar_gfile_t) : gar_t := ⟨gf⟩

/-- `gar_archive_open_file` on a regular file holding `data`: `gar_gfile_open_file` leaves
the new stream at offset 0. -/
def gar_archive_open_file (data : List Nat) : gar_t := gar_archive_gopen (.file data 0)

/-- `pk0304_header_t`. -/
structure pk0304_header_t where
  sig : Nat
  need_ver : Nat
  flags : Nat
  comp_method : Nat
  last_mod_time : Nat
  last_mod_date : Nat
  crc32 : Nat
  comp_size : Nat
  uncomp_size : Nat
  fname_len : Nat
  extra_len : Nat
  deriving DecidableEq, Repr

/-- `decode_u32_le` on the four bytes of `s` from index `i`. -/
def decode_u32_le (s : List Nat) (i : Nat) : Nat :=
  ((s.getD i 0 ||| (s.getD (i + 1) 0 <<< 8)) ||| (s.getD (i + 2) 0 <<< 16))
    ||| (s.getD (i + 3) 0 <<< 24)

/-- `decode_u16_le` on the two bytes of `s` from index `i`; the result is a `u16_t`. -/
def decode_u16_le (s : List Nat) (i : Nat) : Nat :=
  (s.getD i 0 ||| (s.getD (i + 1) 0 <<< 8)) % 65536

/-- The signature `"PK\3\4"`. -/
def pk0304_sig : List Nat := [0x50, 0x4B, 3, 4]

/-- `read_pk0304_header`: `none` is the result 0 (there is no more chunk). -/
def read_pk0304_header (gf : gar_gfile_t) : Option pk0304_header_t × gar_gfile_t :=
  let r := gar_gfile_read gf 30
  let s := r.1
  if s.length < 30 ∨ s.take 4 ≠ pk0304_sig then (none, r.2)
  else
    (some { sig := decode_u32_le s 0, need_ver := decode_u16_le s 4,
            flags := decode_u16_le s 6, comp_method := decode_u16_le s 8,
            last_mod_time := decode_u16_le s 10, last_mod_date := decode_u16_le s 12,
            crc32 := decode_u32_le s 14, comp_size := decode_u32_le s 18,
            uncomp_size := decode_u32_le s 22, fname_len := decode_u16_le s 26,
            extra_len := decode_u16_le s 28 },
     r.2)

/-- `gar_fstat_t`. `fname` is `none` for the null pointer; otherwise it holds the bytes the
pointer refers to, which in memory are followed by a zero byte. -/
structure gar_fstat_t where
  fname : Option (List Nat)
  fsize : Nat
  deriving DecidableEq, Repr

/-- `gar_zstat_t`. -/
structure gar_zstat_t where
  fstat : gar_fstat_t
  comp_method : Nat
  data_off : Nat
  data_len : Nat
  deriving DecidableEq, Repr

/-- The callback type `gar_enum_t` with its user data of type `σ`: the callback gets the
status (through the pointer to its `fstat` member) and returns its `int`, or raises. -/
abbrev gar_enum_t (σ : Type) : Type := gar_zstat_t → σ → Except gar_error_t Int × σ

/-- The `for (;;)` loop of `gar_enum` over the locals `off` and `result`; the first argument
bounds the passes. Returns the result, the archive stream and the user data after. -/
def gar_enum_loop {σ : Type} (fn : gar_enum_t σ) :
    Nat → gar_gfile_t → σ → Nat → Int → Except gar_error_t Int × gar_gfile_t × σ
  | 0, gf, ud, _, _ => (.error .model_fuel, gf, ud)
  | fuel + 1, gf, ud, off, result =>
    match gar_gfile_seek gf off with
    | .error e => (.error e, gf, ud)
    | .ok gf1 =>
      match read_pk0304_header gf1 with
      | (none, gf2) => (.ok result, gf2, ud)
      | (some hdr, gf2) =>
        let r := gar_gfile_read gf2 hdr.fname_len
        if r.1.length < hdr.fname_len then (.ok result, r.2, ud)
        else
          let zstat : gar_zstat_t :=
            { fstat := { fname := some r.1, fsize := hdr.uncomp_size },
              comp_method := hdr.comp_method,
              data_off := (off + 30 + hdr.fname_len + hdr.extra_len) % U64,
              data_len := hdr.comp_size }
          let c := fn zstat ud
          match c.1 with
          | .error e => (.error e, r.2, c.2)
          | .ok result1 =>
            if result1 ≠ 0 then (.ok result1, r.2, c.2)
            else
              gar_enum_loop fn fuel r.2 c.2
                ((off + (30 + hdr.fname_len + hdr.extra_len + hdr.comp_size)) % U64) result1

/-- `gar_enum`. A pass that continues moves `off` forward by at least 30 and needs a
successful seek to `off`, which bounds the passes by the seek limit of the stream. -/
def gar_enum {σ : Type} (G : gar_t) (fn : gar_enum_t σ) (ud : σ) :
    Except gar_error_t Int × gar_t × σ :=
  let r := gar_enum_loop fn (gfile_limit G.gf + 2) G.gf ud 0 0
  (r.1, ⟨r.2.1⟩, r.2.2)

/-- The bytes of a C string: what precedes the first zero byte. -/
def cstr (s : List Nat) : List Nat := s.takeWhile (fun b => b ≠ 0)

/-- `strcmp(a, b) == 0` for two buffers that are each followed by a zero byte. -/
def strcmp_eq (a b : List Nat) : Bool := cstr a = cstr b

/-- `find_ud_t`: the name to find and the location `zstat` points to. -/
structure find_ud_t where
  fname : List Nat
  zstat : gar_zstat_t
  deriving DecidableEq, Repr

/-- `on_find`. -/
def on_find : gar_enum_t find_ud_t := fun zstat fud =>
  match zstat.fstat.fname with
  | some nm =>
    if strcmp_eq fud.fname nm then
      (.ok 1, { fud with zstat := { zstat with fstat := { zstat.fstat with fname := none } } })
    else (.ok 0, fud)
  | none => (.ok 0, fud)

/-- What an uninitialized `gar_zstat_t` local holds in the embedding. -/
def zstat_uninit : gar_zstat_t := ⟨⟨none, 0⟩, 0, 0, 0⟩

/-- `gar_zstat`: the result of the enumeration, the archive after and the status stored
through the `zstat` pointer. -/
def gar_zstat (G : gar_t) (fname : List Nat) : Except gar_error_t Int × gar_t × gar_zstat_t :=
  let r := gar_enum G on_find ⟨fname, zstat_uninit⟩
  (r.1, r.2.1, r.2.2.zstat)

/-- `gar_stat`: the returned `int` with the status stored through `fstat`. -/
def gar_stat (G : gar_t) (fname : List Nat) :
    Except gar_error_t (Int × gar_fstat_t) × gar_t :=
  match gar_zstat G fname with
  | (.error e, G1, _) => (.error e, G1)
  | (.ok r, G1, zstat) =>
    if r ≠ 0 then (.ok (1, { zstat.fstat with fname := some fname }), G1)
    else (.ok (0, { fname := none, fsize := 0 }), G1)

/-- `struct gar_fdata`: the stream of a zipped file is a plain generalized file, or the
DEFLATE stream `c_ginflate_fn` made by `gar_inflate`, which owns a decoder. -/
inductive gar_fdata_t where
  | plain (gf : gar_gfile_t)
  | inflate (I : ginflate_t)

/-- `open_fdata`; `mem` is the memory `gar_inflate` gets for its decoder. -/
def open_fdata (G : gar_t) (zstat : gar_zstat_t) (mem : ginflate_t) :
    Except gar_error_t gar_fdata_t :=
  match gar_gfile_dup G.gf with
  | .error e => .error e
  | .ok d =>
    match gar_gfile_open_part d zstat.data_off zstat.data_len with
    | .error e => .error e
    | .ok p =>
      if zstat.comp_method = 8 then .ok (.inflate (ginflate_on_open p mem))
      else .ok (.plain p)

/-- `gar_open`: `none` is the null pointer (the file is not found). -/
def gar_open (G : gar_t) (fname : List Nat) (mem : ginflate_t) :
    Except gar_error_t (Option gar_fdata_t) × gar_t :=
  match gar_zstat G fname with
  | (.error e, G1, _) => (.error e, G1)
  | (.ok r, G1, zstat) =>
    if r ≠ 0 then
      match open_fdata G1 zstat mem with
      | .error e => (.error e, G1)
      | .ok fd => (.ok (some fd), G1)
    else (.ok none, G1)

/-- `gar_read`: the bytes read (or the error raised) and the stream after. -/
def gar_read (fd : Option gar_fdata_t) (n : Nat) :
    Except gar_error_t (List Nat) × Option gar_fdata_t :=
  match fd with
  | none => (.ok [], none)
  | some (.plain gf) =>
    let r := gar_gfile_read gf n
    (.ok r.1, some (.plain r.2))
  | some (.inflate I) =>
    match ginflate I n with
    | .ok bs I1 => (.ok bs, some (.inflate I1))
    | .err e I1 => (.error e, some (.inflate I1))

/-- `ginflate_on_seek`: the decoder stream is not seekable. -/
def ginflate_on_seek (_I : ginflate_t) (_off : Nat) : Except gar_error_t ginflate_t :=
  .error .c_err_seek

/-- `ginflate_on_dup`: the decoder stream cannot be duplicated. -/
def ginflate_on_dup (_I : ginflate_t) : Except gar_error_t ginflate_t :=
  .error .c_err_dup

/-- `gar_gfile_read` on the stream of an entry handle, which is a partial stream or the
decoder stream (`c_ginflate_fn`) over one. -/
def fdata_read (fd : gar_fdata_t) (n : Nat) : Except gar_error_t (List Nat) × gar_fdata_t :=
  match fd with
  | .plain gf =>
    let r := gar_gfile_read gf n
    (.ok r.1, .plain r.2)
  | .inflate I =>
    match ginflate I n with
    | .ok bs I1 => (.ok bs, .inflate I1)
    | .err e I1 => (.error e, .inflate I1)

/-- `gar_gfile_seek` on the stream of an entry handle. -/
def fdata_seek (fd : gar_fdata_t) (off : Nat) : Except gar_error_t gar_fdata_t :=
  match fd with
  | .plain gf =>
    match gar_gfile_seek gf off with
    | .error e => .error e
    | .ok gf1 => .ok (.plain gf1)
  | .inflate I =>
    match ginflate_on_seek I off with
    | .error e => .error e
    | .ok I1 => .ok (.inflate I1)

/-- `gar_gfile_dup` on the stream of an entry handle. -/
def fdata_dup (fd : gar_fdata_t) : Except gar_error_t gar_fdata_t :=
  match fd with
  | .plain gf =>
    match gar_gfile_dup gf with
    | .error e => .error e
    | .ok gf1 => .ok (.plain gf1)
  | .inflate I =>
    match ginflate_on_dup I with
    | .error e => .error e
    | .ok I1 => .ok (.inflate I1)

/-- `gar_gfile_close` on the stream of an entry handle: the `close` function of the stream
(`gfile_null_on_close`, `gfile_part_on_close`, or `ginflate_on_close`, which closes the
source of the decoder and frees the decoder), then `gar_gfile_null`. -/
def fdata_close (_fd : gar_fdata_t) : gar_fdata_t := .plain .null

/-- Successive `gar_read` calls with the sizes `ns`: the results in order and the stream
after the last call. -/
def gar_read_seq (fd : Option gar_fdata_t) :
    List Nat → List (Except gar_error_t (List Nat)) × Option gar_fdata_t
  | [] => ([], fd)
  | n :: ns =>
    let r := gar_read fd n
    let rs := gar_read_seq r.2 ns
    (r.1 :: rs.1, rs.2)

/-! ## Reference definitions for the archive walk -/

/-- The statuses the loop of `gar_enum` hands to its callback, from the cursor `off` on, in
a file holding `A` when no callback stops it, with the way that walk ends: `.ok 0` at a
chunk that is no header, the error of a refused seek otherwise. -/
def walk (A : List Nat) : Nat → Nat → List gar_zstat_t × Except gar_error_t Int
  | 0, _ => ([], .error .model_fuel)
  | fuel + 1, off =>
    if off > A.length then ([], .error .out_of_range)
    else
      let s := (A.drop off).take 30
      if s.length < 30 ∨ s.take 4 ≠ pk0304_sig then ([], .ok 0)
      else
        let nm := (A.drop (off + 30)).take (decode_u16_le s 26)
        if nm.length < decode_u16_le s 26 then ([], .ok 0)
        else
          let r := walk A fuel
            ((off + (30 + decode_u16_le s 26 + decode_u16_le s 28 + decode_u32_le s 18)) % U64)
          ({ fstat := { fname := some nm, fsize := decode_u32_le s 22 },
             comp_method := decode_u16_le s 8,
             data_off := (off + 30 + decode_u16_le s 26 + decode_u16_le s 28) % U64,
             data_len := decode_u32_le s 18 } :: r.1, r.2)

/-- A callback that records every status it gets and always continues. -/
def record_all : gar_enum_t (List gar_zstat_t) := fun z log => (.ok 0, log ++ [z])

/-- The entries of the archive file holding `A`, in file order: what `gar_enum` hands to a
callback that never stops it. -/
def gar_entries (A : List Nat) : List gar_zstat_t :=
  (gar_enum (gar_archive_open_file A) record_all []).2.2

/-- How the full walk over the archive file holding `A` ends: `.ok 0`, or the error raised. -/
def gar_walk_end (A : List Nat) : Except gar_error_t Int :=
  (gar_enum (gar_archive_open_file A) record_all []).1

/-- Calling `fn` on the entries `zs` in order until it returns nonzero or raises; `e` is the
outcome when no call stops the walk. -/
def gar_visit {σ : Type} (fn : gar_enum_t σ) :
    List gar_zstat_t → Except gar_error_t Int → σ → Except gar_error_t Int × σ
  | [], e, ud => (e, ud)
  | z :: zs, e, ud =>
    match (fn z ud).1 with
    | .error err => (.error err, (fn z ud).2)
    | .ok r => if r ≠ 0 then (.ok r, (fn z ud).2) else gar_visit fn zs e (fn z ud).2

/-- The name comparison of `on_find` against the entry `z`. -/
def name_matches (fname : List Nat) (z : gar_zstat_t) : Bool :=
  match z.fstat.fname with
  | some nm => strcmp_eq fname nm
  | none => false

/-- What successive reads of the sizes `ns` return from a stream that holds `data`. -/
def read_chunks : List Nat → List Nat → List (List Nat)
  | _, [] => []
  | data, n :: ns => data.take n :: read_chunks (data.drop n) ns

/-- Little-endian bytes of a 16-bit value. -/
def le16 (x : Nat) : List Nat := [x % 256, x / 256 % 256]

/-- Little-endian bytes of a 32-bit value. -/
def le32 (x : Nat) : List Nat := [x % 256, x / 256 % 256, x / 65536 % 256, x / 16777216 % 256]

/-- A chunk of the on-disk format: the header fields that are not lengths, then the name,
the extra field and the payload. -/
structure pk_chunk where
  need_ver : Nat
  flags : Nat
  comp_method : Nat
  last_mod_time : Nat
  last_mod_date : Nat
  crc32 : Nat
  uncomp_size : Nat
  fname : List Nat
  extra : List Nat
  payload : List Nat
  deriving DecidableEq, Repr

/-- The bytes of a chunk: the 30-byte local file header with the signature, then
`fname_len` name bytes, `extra_len` extra bytes and `comp_size` payload bytes. -/
def pk_chunk.bytes (c : pk_chunk) : List Nat :=
  pk0304_sig ++ le16 c.need_ver ++ le16 c.flags ++ le16 c.comp_method ++
  le16 c.last_mod_time ++ le16 c.last_mod_date ++ le32 c.crc32 ++
  le32 c.payload.length ++ le32 c.uncomp_size ++ le16 c.fname.length ++
  le16 c.extra.length ++ c.fname ++ c.extra ++ c.payload

/-- The fields of a well-formed chunk fit their header slots. -/
def pk_chunk.wf (c : pk_chunk) : Prop :=
  c.comp_method < 65536 ∧ c.uncomp_size < 4294967296 ∧ c.fname.length < 65536 ∧
  c.extra.length < 65536 ∧ c.payload.length < 4294967296

instance (c : pk_chunk) : Decidable c.wf := by
  unfold pk_chunk.wf; infer_instance

/-- The status `gar_enum` is to report for the chunk `c` that starts at offset `off`. -/
def pk_chunk.zstat (c : pk_chunk) (off : Nat) : gar_zstat_t :=
  { fstat := { fname := some c.fname, fsize := c.uncomp_size },
    comp_method := c.comp_method,
    data_off := off + 30 + c.fname.length + c.extra.length,
    data_len := c.payload.length }

/-- The statuses of the chunks `cs` laid out one after the other from offset `off`. -/
def chunk_zstats : List pk_chunk → Nat → List gar_zstat_t
  | [], _ => []
  | c :: cs, off => c.zstat off :: chunk_zstats cs (off + c.bytes.length)

/-- The number of bytes a list of read results returned. -/
def bytes_returned : List (Except gar_error_t (List Nat)) → Nat
  | [] => 0
  | .ok bs :: rs => bs.length + bytes_returned rs
  | .error _ :: rs => bytes_returned rs

/-- A table of 32768 zero words. -/
def hdic_zero : ginflate_hdic_t := ⟨0, List.replicate 32768 0⟩

/-- A decoder memory block filled with zero bytes. -/
def ginflate_zero_mem : ginflate_t :=
  { ringbuf_pos := 0, bits_acc := 0, bits_len := 0, input := [], match_len := 0,
    match_dist := 0, bfinal := 0, err := 0, ringbuf := List.replicate 65536 0, hdic_lit := hdic_zero,
    hdic_dist := hdic_zero, infl := .inflate_block, gf := .null }

/-- `gar_open` followed by successive `gar_read` calls of the sizes `ns` on the returned
handle: the results of the reads, or the error `gar_open` raised. -/
def gar_open_read (G : gar_t) (fname : List Nat) (mem : ginflate_t) (ns : List Nat) :
    Except gar_error_t (List (Except gar_error_t (List Nat))) :=
  match (gar_open G fname mem).1 with
  | .error e => .error e
  | .ok fd => .ok (gar_read_seq fd ns).1

/-- Whether `gar_open` returned the null pointer. -/
def gar_open_is_null (G : gar_t) (fname : List Nat) (mem : ginflate_t) :
    Except gar_error_t Bool :=
  match (gar_open G fname mem).1 with
  | .error e => .error e
  | .ok fd => .ok fd.isNone

/-- All elements are byte values. -/
def bytes_ok (A : List Nat) : Prop := ∀ b ∈ A, b < 256

instance (A : List Nat) : Decidable (bytes_ok A) := by
  unfold bytes_ok; infer_instance

/-! ## Example archives -/

/-- A stored entry named `a.txt` with the payload `hello` and a line feed. -/
def ex_chunk_hello : pk_chunk :=
  { need_ver := 20, flags := 0, comp_method := 0, last_mod_time := 0, last_mod_date := 0,
    crc32 := 0x363a3020, uncomp_size := 6, fname := [0x61, 0x2E, 0x74, 0x78, 0x74],
    extra := [], payload := [0x68, 0x65, 0x6C, 0x6C, 0x6F, 0x0A] }

/-- The archive that holds `ex_chunk_hello` alone. -/
def ex_archive_hello : List Nat := ex_chunk_hello.bytes

/-- The status of the entry of `ex_archive_hello`. -/
def ex_hello_zstat : gar_zstat_t :=
  ⟨⟨some [0x61, 0x2E, 0x74, 0x78, 0x74], 6⟩, 0, 35, 6⟩

/-- A truncated archive: the header of a stored entry named `a` that declares 100 payload
bytes, and its name; the file ends there. -/
def ex_archive_truncated : List Nat :=
  [0x50, 0x4B, 3, 4, 20, 0, 0, 0, 0, 0, 0, 0, 0, 0, 0, 0, 0, 0,
   100, 0, 0, 0, 100, 0, 0, 0, 1, 0, 0, 0, 0x61]

/-- An archive with one stored entry named `a` whose header declares a compressed size of 2
and an uncompressed size of 3; the payload is the bytes 1 and 2. -/
def ex_archive_sizes : List Nat :=
  [0x50, 0x4B, 3, 4, 20, 0, 0, 0, 0, 0, 0, 0, 0, 0, 0, 0, 0, 0,
   2, 0, 0, 0, 3, 0, 0, 0, 1, 0, 0, 0, 0x61, 1, 2]

/-- An archive with one stored, empty entry whose three name bytes are `a`, zero, `b`. -/
def ex_archive_nul : List Nat :=
  [0x50, 0x4B, 3, 4, 20, 0, 0, 0, 0, 0, 0, 0, 0, 0, 0, 0, 0, 0,
   0, 0, 0, 0, 0, 0, 0, 0, 3, 0, 0, 0, 0x61, 0, 0x62]

/-- An archive with three entries: those of `ex_archive_hello`, `ex_archive_nul` and
`ex_archive_sizes`, in this order. -/
def ex_archive_three : List Nat := ex_archive_hello ++ ex_archive_nul ++ ex_archive_sizes

/-- A callback that counts its calls in the user data and returns 5 from its second call, 0
from every other call. -/
def count_stop : gar_enum_t Nat := fun _ n => (.ok (if n = 1 then 5 else 0), n + 1)

/-- The callback `fn` with a log of the statuses it is called with next to its user data. -/
def visit_log {σ : Type} (fn : gar_enum_t σ) : gar_enum_t (σ × List gar_zstat_t) :=
  fun z s => ((fn z s.1).1, ((fn z s.1).2, s.2 ++ [z]))

/-! ## Reference definitions for the bit stream -/

/-- The `n` low bits of `v`, least significant first. -/
def nat_bits (v : Nat) : Nat → List Bool
  | 0 => []
  | n + 1 => decide (v % 2 = 1) :: nat_bits (v / 2) n

/-- The value of a bit list whose first bit has weight 1. -/
def bits_val : List Bool → Nat
  | [] => 0
  | b :: bs => (if b then 1 else 0) + 2 * bits_val bs

/-- The bits of a byte string: bytes in order, each byte least significant bit first. -/
def bits_of_bytes : List Nat → List Bool
  | [] => []
  | b :: bs => nat_bits b 8 ++ bits_of_bytes bs

/-- The input bits a decoder has not consumed yet: the accumulated bits, then the bytes left in
the input buffer, then the bytes the source stream still delivers. -/
def bitstream (I : ginflate_t) : List Bool :=
  nat_bits I.bits_acc I.bits_len ++ bits_of_bytes (I.input ++ gfile_rest I.gf)

/-- Partial streams down a stream keep their position inside their window, and their
windows are 64-bit lengths. -/
def gfile_ok : gar_gfile_t → Bool
  | .null => true
  | .file _ _ => true
  | .part gf pos _ len => decide (pos ≤ len) && decide (len < U64) && gfile_ok gf

/-- The bit accumulator holds `bits_len` bits, at most 22, and the input consists of bytes. -/
def bits_ok (I : ginflate_t) : Prop :=
  I.bits_acc < 2 ^ I.bits_len ∧ I.bits_len ≤ 22 ∧ bytes_ok I.input ∧
  bytes_ok (gfile_rest I.gf) ∧ gfile_ok I.gf = true

instance (I : ginflate_t) : Decidable (bits_ok I) := by
  unfold bits_ok; infer_instance

/-- The fields of a decoder that the bit operations leave alone. -/
def frame (I : ginflate_t) :
    Nat × Nat × Nat × Nat × Nat × List Nat × ginflate_hdic_t × ginflate_hdic_t × infl_fn :=
  (I.ringbuf_pos, I.match_len, I.match_dist, I.bfinal, I.err, I.ringbuf, I.hdic_lit,
   I.hdic_dist, I.infl)

/-! ## Reference definitions for canonical Huffman codes (RFC 1951, 3.2.2) -/

/-- The smallest code of each code length: `code = 0; bl_count[0] = 0;` then, for each
length in turn, `code = (code + bl_count[bits-1]) << 1`. -/
def canon_first (L : List Nat) : Nat → Nat
  | 0 => 0
  | l + 1 => (canon_first L l + (if l = 0 then 0 else L.count l)) * 2

/-- The canonical code of the symbol `s` under the code lengths `L`: codes of one length are
consecutive values from the smallest code of that length on, in symbol order. -/
def canon_code (L : List Nat) (s : Nat) : Nat :=
  canon_first L (L.getD s 0) + (L.take s).count (L.getD s 0)

/-- The bits of the canonical code of `s`, most significant bit first, as they stand in a
DEFLATE stream. -/
def code_bits (L : List Nat) (s : Nat) : List Bool :=
  (nat_bits (canon_code L s) (L.getD s 0)).reverse

/-- The Kraft sum of the code lengths in units of `2 ^ -15`. -/
def kraft_sum (L : List Nat) : Nat :=
  ((L.filter (fun l => l ≠ 0)).map (fun l => 2 ^ (15 - l))).sum

/-- The code lengths are at most 15 and not over-subscribed. -/
def lengths_ok (L : List Nat) : Prop :=
  (∀ l ∈ L, l ≤ 15) ∧ kraft_sum L ≤ 2 ^ 15

instance (L : List Nat) : Decidable (lengths_ok L) := by
  unfold lengths_ok; infer_instance

/-- The part of the Kraft sum that comes from the code lengths 1 to `l - 1`. -/
def kraft_below (L : List Nat) : Nat → Nat
  | 0 => 0
  | l + 1 => kraft_below L l + (if l = 0 then 0 else L.count l * 2 ^ (15 - l))

/-! ## Reference definitions for fixed-Huffman streams (RFC 1951, 3.2.5 and 3.2.6) -/

/-- The code lengths of the fixed distance code: 5 bits for each of the 32 symbols. -/
def fixed_dist_lens : List Nat := List.replicate 32 5

/-- The pieces of a stream of fixed-Huffman blocks: a block header with its `BFINAL` bit, a
literal byte, a match given by its length symbol `257 + ls` with the extra-bits value `le` and
its distance symbol `ds` with the extra-bits value `de`, and the end-of-block symbol. -/
inductive ftok where
  | hdr (bfinal : Nat)
  | lit (b : Nat)
  | mtch (ls le ds de : Nat)
  | eob
  deriving DecidableEq, Repr

/-- The match length a length symbol and its extra bits stand for. -/
def len_of (ls le : Nat) : Nat := (c_lenext.getD ls ⟨0, 0⟩).base + le

/-- The match distance a distance symbol and its extra bits stand for. -/
def dist_of (ds de : Nat) : Nat := (c_distext.getD ds ⟨0, 0⟩).base + de

/-- The bits of one piece, in stream order: header bits and extra bits least significant
first, Huffman codes most significant first. -/
def ftok.bits : ftok → List Bool
  | .hdr bfinal => [decide (bfinal = 1), true, false]
  | .lit b => code_bits fixed_lit_clbuf b
  | .mtch ls le ds de =>
    code_bits fixed_lit_clbuf (257 + ls) ++ nat_bits le (c_lenext.getD ls ⟨0, 0⟩).bits
      ++ code_bits fixed_dist_lens ds ++ nat_bits de (c_distext.getD ds ⟨0, 0⟩).bits
  | .eob => code_bits fixed_lit_clbuf 256

/-- The bits of a sequence of pieces. -/
def toks_bits : List ftok → List Bool
  | [] => []
  | t :: ts => t.bits ++ toks_bits ts

/-- The output after copying `k` bytes from `d` bytes back, one byte at a time. -/
def ref_copy (d : Nat) : Nat → List Nat → List Nat
  | 0, hist => hist
  | k + 1, hist => ref_copy d k (hist ++ [hist.getD (hist.length - d) 0])

/-- Reference decoding: the output after the pieces `ts`, from the output `hist` produced so
far. -/
def ref_toks : List Nat → List ftok → List Nat
  | hist, [] => hist
  | hist, .lit b :: ts => ref_toks (hist ++ [b]) ts
  | hist, .mtch ls le ds de :: ts => ref_toks (ref_copy (dist_of ds de) (len_of ls le) hist) ts
  | hist, _ :: ts => ref_toks hist ts

/-- Well-formed sequences of pieces. `inb` says whether a block is open, `bf` is the `BFINAL`
bit of the last header and `h` the number of bytes produced so far. Blocks follow a header
whose predecessor was not final, the sequence ends after the end of a final block, literals
are bytes, length symbols are 257 to 285 and distance symbols 0 to 29 with extra-bits values
in range, and no distance reaches back past the start of the output. -/
def toks_wf : Bool → Nat → Nat → List ftok → Bool
  | false, bf, _, [] => decide (bf = 1)
  | false, bf, h, .hdr b :: ts => decide (bf = 0) && decide (b ≤ 1) && toks_wf true b h ts
  | true, bf, h, .lit b :: ts => decide (b < 256) && toks_wf true bf (h + 1) ts
  | true, bf, h, .mtch ls le ds de :: ts =>
    decide (ls ≤ 28) && decide (le < 2 ^ (c_lenext.getD ls ⟨0, 0⟩).bits)
      && decide (ds ≤ 29) && decide (de < 2 ^ (c_distext.getD ds ⟨0, 0⟩).bits)
      && decide (dist_of ds de ≤ h) && toks_wf true bf (h + len_of ls le) ts
  | true, bf, h, .eob :: ts => toks_wf false bf h ts
  | _, _, _, _ => false

/-- The ring buffer at position `pos` holds the last 65536 bytes of the output `hist`. -/
def ring_ok (pos : Nat) (ringbuf hist : List Nat) : Prop :=
  ringbuf.length = 65536 ∧ pos = hist.length % 65536
  ∧ ∀ j, j < hist.length → hist.length ≤ j + 65536 → ringbuf.getD (j % 65536) 0 = hist.getD j 0

/-- The tables of the decoder are those `setup_fixed_huffman` builds, over whatever the
table memory held. -/
def fixed_tables (I : ginflate_t) : Prop :=
  ∃ h1 h2, I.hdic_lit = init_huffdic fixed_lit_clbuf 288 h1
    ∧ I.hdic_dist = init_huffdic fixed_dist_clbuf 32 h2

/-- The phase of a decoder that has produced `h` bytes and has the pieces `ts` before it.
Inside a block (`inb`) it is in the compressed phase with the fixed tables, `match_len` bytes
of a match at the distance `match_dist` still to copy; between blocks it is at a block
header with no match pending. -/
def fixed_phase (I : ginflate_t) (h : Nat) : Bool → List ftok → Prop
  | true, ts =>
    I.infl = .inflate_compressed ∧ fixed_tables I
    ∧ (0 < I.match_len → 1 ≤ I.match_dist ∧ I.match_dist ≤ 32768 ∧ I.match_dist ≤ h)
    ∧ toks_wf true I.bfinal (h + I.match_len) ts = true
  | false, ts =>
    I.infl = .inflate_block ∧ I.match_len = 0 ∧ toks_wf false I.bfinal h ts = true

/-- The decoder `I` stands in a stream of fixed-Huffman blocks: it has produced `hist`, the
ring buffer holds the end of `hist`, and its unread bits are the pieces `ts` and then `tail`. -/
def fixed_rep (I : ginflate_t) (hist : List Nat) (inb : Bool) (ts : List ftok)
    (tail : List Bool) : Prop :=
  bits_ok I ∧ bitstream I = toks_bits ts ++ tail ∧ ring_ok I.ringbuf_pos I.ringbuf hist
  ∧ fixed_phase I hist.length inb ts

/-- The whole output the reference decoding gives from the standing of the decoder `I`: the
pending match, then the pieces `ts`. -/
def fixed_total (I : ginflate_t) (hist : List Nat) (ts : List ftok) : List Nat :=
  ref_toks (ref_copy I.match_dist I.match_len hist) ts

/-! ## Example streams -/

/-- The raw fixed-Huffman stream 4B 4C 04 02 00: two literals `a`, a match of length 3 at
distance 1, end of block. -/
def ex_fixed_aaaaa : List Nat := [0x4B, 0x4C, 0x04, 0x02, 0x00]

/-- Code lengths of the code-length alphabet in the example dynamic block: the symbols 1, 2,
16 and 18 have 2-bit codes. -/
def ex_clen_lens : List Nat := [0, 2, 2, 0, 0, 0, 0, 0, 0, 0, 0, 0, 0, 0, 0, 0, 2, 0, 2]

/-- Literal/length code lengths of the example dynamic block (`HLIT + 257 = 258`): `a` has a
1-bit code, the symbols 256 and 257 have 2-bit codes. -/
def ex_lit_lens : List Nat := List.replicate 97 0 ++ [1] ++ List.replicate 158 0 ++ [2, 2]

/-- Distance code lengths of the example dynamic block (`HDIST + 1 = 4`). -/
def ex_dist_lens : List Nat := [2, 2, 2, 2]

/-- A final dynamic-Huffman block that encodes `aaaa` as the literal `a`, a match of length 3
at distance 1 and the end-of-block symbol. Its 262 code lengths are sent as 97 zeros (symbol
18), the length 1, 158 zeros (symbol 18 twice), the length 2 for symbol 256, symbol 16
repeating that length four times, over the literal/length symbol 257 and the distance
symbols 0, 1 and 2, and the length 2 for the distance symbol 3. -/
def ex_dynamic_crossing : List Nat :=
  [0x0D, 0xC3, 0x05, 0x01, 0x00, 0x00, 0x00, 0x80, 0xA0, 0xAD, 0xFC, 0x3F, 0x61, 0x69, 0x02]

/-- The bits of the example dynamic block, field by field as RFC 1951 (3.2.7) lays them out. -/
def ex_dynamic_crossing_bits : List Bool :=
  [true, false, true] ++ nat_bits 1 5 ++ nat_bits 3 5 ++ nat_bits 14 4
    ++ ((c_clen_order.take 18).map (fun s => nat_bits (ex_clen_lens.getD s 0) 3)).flatten
    ++ code_bits ex_clen_lens 18 ++ nat_bits 86 7
    ++ code_bits ex_clen_lens 1
    ++ code_bits ex_clen_lens 18 ++ nat_bits 127 7
    ++ code_bits ex_clen_lens 18 ++ nat_bits 9 7
    ++ code_bits ex_clen_lens 2
    ++ code_bits ex_clen_lens 16 ++ nat_bits 1 2
    ++ code_bits ex_clen_lens 2
    ++ code_bits ex_lit_lens 97 ++ code_bits ex_lit_lens 257 ++ code_bits ex_dist_lens 0
    ++ code_bits ex_lit_lens 256
    ++ [false, false, false, false, false]

/-- A final stored block with the payload `abc`. -/
def ex_stored_abc : List Nat := [0x01, 0x03, 0x00, 0xFC, 0xFF, 0x61, 0x62, 0x63]

/-- Code lengths of the code-length alphabet in the over-subscribed example: the symbols 0
and 1 have 2-bit codes, the symbol 18 has a 1-bit code. -/
def ex_over_clen_lens : List Nat := [2, 2, 0, 0, 0, 0, 0, 0, 0, 0, 0, 0, 0, 0, 0, 0, 0, 0, 1]

/-- Literal/length code lengths of the over-subscribed example (`HLIT + 257 = 257`): the
three symbols `a`, `b` and 256 all have the code length 1. -/
def ex_over_lit_lens : List Nat := List.replicate 97 0 ++ [1, 1] ++ List.replicate 157 0 ++ [1]

/-- A final dynamic-Huffman block whose literal/length code lengths are over-subscribed:
three symbols with 1-bit codes. After the tables come the data bits 1, 1, 0. -/
def ex_dynamic_oversubscribed : List Nat :=
  [0x05, 0xC0, 0x81, 0x08, 0x00, 0x00, 0x00, 0x00, 0x20, 0xD6, 0xF7, 0x87, 0xF8, 0x01]

/-- The bits of the over-subscribed example, field by field as RFC 1951 (3.2.7) lays them
out: `BFINAL = 1`, `BTYPE = 2`, `HLIT = 0`, `HDIST = 0`, `HCLEN = 14`, the code lengths of
the code-length alphabet, then 97 zeros, the lengths 1 and 1, 157 zeros and the length 1 for
the literal/length alphabet, the length 1 for the one distance code, the data bits and the
padding of the last byte. -/
def ex_dynamic_oversubscribed_bits : List Bool :=
  [true, false, true] ++ nat_bits 0 5 ++ nat_bits 0 5 ++ nat_bits 14 4
    ++ ((c_clen_order.take 18).map (fun s => nat_bits (ex_over_clen_lens.getD s 0) 3)).flatten
    ++ code_bits ex_over_clen_lens 18 ++ nat_bits 86 7
    ++ code_bits ex_over_clen_lens 1
    ++ code_bits ex_over_clen_lens 1
    ++ code_bits ex_over_clen_lens 18 ++ nat_bits 127 7
    ++ code_bits ex_over_clen_lens 18 ++ nat_bits 8 7
    ++ code_bits ex_over_clen_lens 1
    ++ code_bits ex_over_clen_lens 1
    ++ [true, true, false]
    ++ [false, false, false, false, false, false]

/-- The header of a final dynamic-Huffman block with `HLIT = 0` and the code-length alphabet
of `ex_over_clen_lens`, whose code lengths start with three symbol-18 repeats of 138, 100 and
138 zeros: the third repeat starts at entry 238 and ends at entry 376, past the 257
literal/length entries and past the 288 entries of `clbuf`. -/
def ex_dynamic_overrun : List Nat :=
  [0x05, 0xC0, 0x81, 0x08, 0x00, 0x00, 0x00, 0x00, 0x20, 0x7F, 0x59, 0x7F]

/-- The bits of `ex_dynamic_overrun`, field by field, and the padding of the last byte. -/
def ex_dynamic_overrun_bits : List Bool :=
  [true, false, true] ++ nat_bits 0 5 ++ nat_bits 0 5 ++ nat_bits 14 4
    ++ ((c_clen_order.take 18).map (fun s => nat_bits (ex_over_clen_lens.getD s 0) 3)).flatten
    ++ code_bits ex_over_clen_lens 18 ++ nat_bits 127 7
    ++ code_bits ex_over_clen_lens 18 ++ nat_bits 89 7
    ++ code_bits ex_over_clen_lens 18 ++ nat_bits 127 7
    ++ [false]

/-! ## Sequences of stream operations -/

/-- A call on a stream: `gar_gfile_read` of `n` bytes or `gar_gfile_seek` to `off`. -/
inductive gfile_op where
  | read (n : Nat)
  | seek (off : Nat)
  deriving DecidableEq, Repr

/-- The stream after a sequence of reads and seeks; a seek that raises leaves the stream as
it was. -/
def gfile_run : gar_gfile_t → List gfile_op → gar_gfile_t
  | gf, [] => gf
  | gf, .read n :: ops => gfile_run (gar_gfile_read gf n).2 ops
  | gf, .seek off :: ops =>
    match gar_gfile_seek gf off with
    | .ok g => gfile_run g ops
    | .error _ => gfile_run gf ops

/-! ## Reference definitions for bit fields, code-length runs and stream contents -/

/-- Successive `get_bits` calls with the widths `ns`; the first failure ends the sequence. -/
def get_bits_seq : ginflate_t → List Nat → Res (List Nat)
  | I, [] => .ok [] I
  | I, n :: ns =>
    match get_bits I n with
    | .err e J => .err e J
    | .ok v J =>
      match get_bits_seq J ns with
      | .err e K => .err e K
      | .ok vs K => .ok (v :: vs) K

/-- Reference definition: the successive fields of the widths `ns` of a bit list, each field
read with its first bit as the least significant one. -/
def bit_fields : List Bool → List Nat → List Nat
  | _, [] => []
  | bs, n :: ns => bits_val (bs.take n) :: bit_fields (bs.drop n) ns

/-- The call `fetch_bits(I, n)` followed by `drop_bits(I, n)`, with the fetched value as the
result. -/
def fetch_drop (I : ginflate_t) (n : Nat) : Res Nat :=
  match drop_bits (fetch_bits I n).2 n with
  | .err e J => .err e J
  | .ok _ J => .ok (fetch_bits I n).1 J

/-- The contents of the regular file at the bottom of a stream are bytes. -/
def gfile_bytes_ok : gar_gfile_t → Bool
  | .null => true
  | .file data _ => decide (bytes_ok data)
  | .part gf _ _ _ => gfile_bytes_ok gf

/-- The number of extra bits that follow the code-length symbol `l` (RFC 1951, 3.2.7). -/
def clen_extra_bits (l : Nat) : Nat :=
  if l = 16 then 2 else if l = 17 then 3 else if l = 18 then 7 else 0

/-- Reference definition (RFC 1951, 3.2.7): the code lengths the code-length symbol `l` with
the extra-bits value `e` stands for, after the code lengths `acc`: the length `l` itself below 16; `3 + e` copies of the previous
length for 16, zeros when there is no previous length; `3 + e` zeros for 17; `11 + e` zeros
for 18. -/
def clen_run (acc : List Nat) (l e : Nat) : List Nat :=
  if l < 16 then [l]
  else if l = 16 then
    List.replicate (3 + e) (if acc.length > 0 then acc.getD (acc.length - 1) 0 else 0)
  else if l = 17 then List.replicate (3 + e) 0
  else List.replicate (11 + e) 0

/-- Reference definition: the run-length expansion of the code-length symbols `ts` (pairs of
a symbol and its extra-bits value) after the code lengths `acc`. -/
def clen_expand : List Nat → List (Nat × Nat) → List Nat
  | acc, [] => acc
  | acc, t :: ts => clen_expand (acc ++ clen_run acc t.1 t.2) ts

/-- The bits of the code-length symbols `ts` under the code-length code with the lengths
`L`: each symbol's code, then its extra bits. -/
def clen_toks_bits (L : List Nat) : List (Nat × Nat) → List Bool
  | [] => []
  | t :: ts => code_bits L t.1 ++ (nat_bits t.2 (clen_extra_bits t.1) ++ clen_toks_bits L ts)

/-- The symbols are code-length symbols that have a code in `L`, with extra-bits values in
range. -/
def clen_toks_wf (L : List Nat) : List (Nat × Nat) → Bool
  | [] => true
  | t :: ts =>
    decide (t.1 ≤ 18) && decide (0 < L.getD t.1 0) && decide (t.2 < 2 ^ clen_extra_bits t.1)
      && clen_toks_wf L ts

/-- The symbols `ts` fill the code lengths from `acc` on up to `num_codes`: every symbol
starts below `num_codes` and no run ends past `lim`; after the last symbol `num_codes`
lengths are there. -/
def clen_fits (num_codes lim : Nat) : List Nat → List (Nat × Nat) → Bool
  | acc, [] => decide (num_codes ≤ acc.length)
  | acc, t :: ts =>
    decide (acc.length < num_codes) && decide (acc.length + (clen_run acc t.1 t.2).length ≤ lim)
      && clen_fits num_codes lim (acc ++ clen_run acc t.1 t.2) ts

/-- The ring buffer of a decoder with its write position. -/
def ring_of (I : ginflate_t) : Nat × List Nat := (I.ringbuf_pos, I.ringbuf)

/-- The decoder state an operation leaves, whether it succeeded or raised an error. -/
def res_state {α : Type} : Res α → ginflate_t
  | .ok _ J => J
  | .err _ J => J

/-! ## Example states and streams -/

/-- A decoder in the compressed phase whose next input bit is the 1-bit code of the
end-of-block symbol 256 (the only code of its table), after a `BFINAL` = 1 header. -/
def ex_eob_state : ginflate_t :=
  { ringbuf_pos := 0, bits_acc := 0, bits_len := 1, input := [], match_len := 0,
    match_dist := 0, bfinal := 1, err := 0, ringbuf := [], hdic_lit := ⟨1, [4097, 4097]⟩,
    hdic_dist := ⟨0, []⟩, infl := .inflate_compressed, gf := .null }

/-- The state `ex_eob_state` after its last input bit is consumed. -/
def ex_eob_state_after : ginflate_t :=
  { ex_eob_state with bits_len := 0 }

/-- A decoder that has emitted the byte `a` and has a match of length 3 at distance 1
pending. -/
def ex_match_state : ginflate_t :=
  { ginflate_zero_mem with ringbuf_pos := 1, ringbuf := (List.replicate 65536 0).set 0 0x61,
                           match_len := 3, match_dist := 1, infl := .inflate_compressed }

/-- A final stored block with a payload of 32768 zero bytes: 01, `LEN` = 0x8000,
`NLEN` = 0x7FFF, then the payload. -/
def ex_stored_32k : List Nat := [0x01, 0x00, 0x80, 0xFF, 0x7F] ++ List.replicate 32768 0

/-- A decoder whose unread input is 7 zero bits, the fixed code of the end-of-block symbol,
with nothing after them. -/
def ex_eob_tail_state : ginflate_t :=
  { ginflate_zero_mem with bits_len := 7 }

/-- Code-length symbols with their extra-bits values: a repeat at the first position, the
length 2, a repeat of that length and a run of zeros; they fill 19 lengths. -/
def ex_clen_toks : List (Nat × Nat) := [(16, 0), (2, 0), (16, 1), (18, 0)]

/-- Code-length symbols whose repeat runs from entry 1 to entry 6, past `num_codes` = 4. -/
def ex_clen_toks_past : List (Nat × Nat) := [(2, 0), (16, 3)]

/-! ## Streams in memory (gfile.c, gfilecrt.c)

The streams above are values. Here a `struct gar_gfile` holds the address of its `ud` block
and the blocks lie in a memory, so that two streams can share a block. -/

/-- A `struct gar_gfile` as it lies in memory: its method table (`c_gfile_null`,
`c_gfile_file` or `c_gfile_part`) and its `ud` pointer, the address of a block. -/
inductive gfile_ref where
  | null
  | file (ud : Nat)
  | part (ud : Nat)
  deriving DecidableEq, Repr

/-- A block of memory: not allocated, a `gfile_file_ud_t` with the `FILE` it owns (the
contents of the file, whose length is `fsize`, and the position of the `FILE`), or a
`gfile_part_ud_t` (the `struct gar_gfile` of its source, `pos`, `off`, `len`). -/
inductive mem_block where
  | free
  | file_ud (data : List Nat) (fpos : Nat)
  | part_ud (gf : gfile_ref) (pos off len : Nat)
  deriving DecidableEq, Repr

/-- The memory: the blocks by address. `_gar_malloc` hands out the next address. -/
abbrev gar_mem : Type := List mem_block

/-- `gar_gfile_read` through the `ud` pointers: `gfile_null_on_read`, `gfile_file_on_read`
and `gfile_part_on_read`, which reads from its source and then adds the count to the `pos`
of its block. Returns the bytes and the memory after. A `ud` pointer to a block of another
kind has no defined behaviour; the first argument bounds the nesting of slices. -/
def mem_read : Nat → gar_mem → gfile_ref → Nat → Except gar_error_t (List Nat × gar_mem)
  | _, M, .null, _ => .ok ([], M)
  | _, M, .file a, n =>
    match M.getD a .free with
    | .file_ud data fpos =>
      .ok ((data.drop fpos).take n,
           M.set a (.file_ud data (fpos + ((data.drop fpos).take n).length)))
    | _ => .error .c_undefined
  | 0, _, .part _, _ => .error .model_fuel
  | k + 1, M, .part a, n =>
    match M.getD a .free with
    | .part_ud gf pos _ len =>
      match mem_read k M gf (offmin n ((len + U64 - pos) % U64)) with
      | .error e => .error e
      | .ok r =>
        match r.2.getD a .free with
        | .part_ud gf1 pos1 off1 len1 =>
          .ok (r.1, r.2.set a (.part_ud gf1 ((pos1 + r.1.length) % U64) off1 len1))
        | _ => .error .c_undefined
    | _ => .error .c_undefined

/-- `gar_gfile_seek` through the `ud` pointers: `gfile_null_on_seek`, `gfile_file_on_seek`
and `gfile_part_on_seek`, which checks the offset, seeks its source and then stores `pos`.
A seek that raises leaves the memory as it was. -/
def mem_seek : Nat → gar_mem → gfile_ref → Nat → Except gar_error_t gar_mem
  | _, M, .null, off =>
    match check_off off 0 with
    | .error e => .error e
    | .ok _ => .ok M
  | _, M, .file a, off =>
    match M.getD a .free with
    | .file_ud data _ =>
      if off > data.length then .error .out_of_range else .ok (M.set a (.file_ud data off))
    | _ => .error .c_undefined
  | 0, _, .part _, _ => .error .model_fuel
  | k + 1, M, .part a, off =>
    match M.getD a .free with
    | .part_ud gf _ off0 len =>
      match check_off off len with
      | .error e => .error e
      | .ok _ =>
        match mem_seek k M gf ((off0 + off) % U64) with
        | .error e => .error e
        | .ok M1 =>
          match M1.getD a .free with
          | .part_ud gf1 _ off1 len1 => .ok (M1.set a (.part_ud gf1 off off1 len1))
          | _ => .error .c_undefined
    | _ => .error .c_undefined

/-- `gar_gfile_open_part` with `gfile_part_on_open`: seek the source to `off`, allocate a
`gfile_part_ud_t` that takes the `struct gar_gfile` of the source, and return the slice.
When the seek raises, the handler reaches a null pointer (see `gar_gfile_open_part`). -/
def mem_open_part (k : Nat) (M : gar_mem) (gf : gfile_ref) (off len : Nat) :
    Except gar_error_t (gfile_ref × gar_mem) :=
  match mem_seek k M gf off with
  | .error _ => .error .c_undefined
  | .ok M1 => .ok (.part M1.length, M1 ++ [.part_ud gf 0 off len])

/-- `gar_gfile_dup` through the `ud` pointers: `gfile_null_on_dup`; `gfile_file_on_dup`,
which opens the file of the same name again, in a new block with a `FILE` of its own at
position 0; and `gfile_part_on_dup`, which duplicates the source of the slice and opens a
new slice with the `off` and `len` of the block on the duplicate. Returns the new
`struct gar_gfile` and the memory after. -/
def mem_dup : Nat → gar_mem → gfile_ref → Except gar_error_t (gfile_ref × gar_mem)
  | _, M, .null => .ok (.null, M)
  | _, M, .file a =>
    match M.getD a .free with
    | .file_ud data _ => .ok (.file M.length, M ++ [.file_ud data 0])
    | _ => .error .c_undefined
  | 0, _, .part _ => .error .model_fuel
  | k + 1, M, .part a =>
    match M.getD a .free with
    | .part_ud gf _ _ _ =>
      match mem_dup k M gf with
      | .error e => .error e
      | .ok r =>
        match r.2.getD a .free with
        | .part_ud _ _ off len => mem_open_part k r.2 r.1 off len
        | _ => .error .c_undefined
    | _ => .error .c_undefined

/-- The `ud` pointer of the stream, if it has one, is below the address `a`. -/
def ref_below : gfile_ref → Nat → Bool
  | .null, _ => true
  | .file b, a => decide (b < a)
  | .part b, a => decide (b < a)

/-- Reference definition: the stream value a `struct gar_gfile` stands for in the memory `M`,
against which the operations through the `ud` pointers are compared. It is defined when its
blocks are of the kinds its method tables expect and the source of every slice lies at a
lower address than the block of the slice, which is the order in which the blocks are
allocated; the first argument bounds the nesting of slices. -/
def mem_abs : Nat → gar_mem → gfile_ref → Option gar_gfile_t
  | _, _, .null => some .null
  | _, M, .file a =>
    match M.getD a .free with
    | .file_ud data fpos => some (.file data fpos)
    | _ => none
  | 0, _, .part _ => none
  | k + 1, M, .part a =>
    match M.getD a .free with
    | .part_ud gf pos off len =>
      if ref_below gf a then
        match mem_abs k M gf with
        | some v => some (.part v pos off len)
        | none => none
      else none
    | _ => none

/-- Reference definition: the addresses of the blocks of a stream, its own block and those
of its sources. -/
def mem_blocks : Nat → gar_mem → gfile_ref → List Nat
  | _, _, .null => []
  | _, _, .file a => [a]
  | 0, _, .part a => [a]
  | k + 1, M, .part a =>
    a :: (match M.getD a .free with
          | .part_ud gf _ _ _ => mem_blocks k M gf
          | _ => [])

/-- The bytes a read through the `ud` pointers copies out, `none` when the read has no
result. -/
def mem_read_bytes (k : Nat) (M : gar_mem) (g : gfile_ref) (n : Nat) : Option (List Nat) :=
  match mem_read k M g n with
  | .ok r => some r.1
  | .error _ => none

/-- The memory after one read or seek on the stream `g`; a seek that raises leaves it as it
was. -/
def mem_op (k : Nat) (M : gar_mem) (g : gfile_ref) : gfile_op → gar_mem
  | .read n =>
    match mem_read k M g n with
    | .ok r => r.2
    | .error _ => M
  | .seek off =>
    match mem_seek k M g off with
    | .ok M1 => M1
    | .error _ => M

/-- The memory after a sequence of reads and seeks on two streams, in any interleaving:
the flag of an operation is `false` for the stream `g1` and `true` for `g2`. -/
def mem_run2 (k : Nat) (g1 g2 : gfile_ref) : gar_mem → List (Bool × gfile_op) → gar_mem
  | M, [] => M
  | M, x :: ops => mem_run2 k g1 g2 (mem_op k M (if x.1 then g2 else g1) x.2) ops

/-- The operations of an interleaving that carry the flag `b`, in order. -/
def ops_of (b : Bool) (ops : List (Bool × gfile_op)) : List gfile_op :=
  (ops.filter (fun x => x.1 == b)).map (fun x => x.2)

/-- A memory with a file of four bytes open at position 2 and the slice `[1, 3)` of it,
standing at position 1. -/
def ex_mem : gar_mem := [.file_ud [1, 2, 3, 4] 2, .part_ud (.file 0) 1 1 2]

/-- The memory `ex_mem` after the slice at address 1 has been duplicated: the file is open a
second time, at position 1, and the new slice stands at position 0. -/
def ex_mem_dup : gar_mem :=
  [.file_ud [1, 2, 3, 4] 2, .part_ud (.file 0) 1 1 2,
   .file_ud [1, 2, 3, 4] 1, .part_ud (.file 2) 0 1 2]

/-! ## File streams -/

theorem gar_gfile_seek_file (A : List Nat) (p off : Nat) :
    gar_gfile_seek (.file A p) off =
      if off > A.length then .error .out_of_range else .ok (.file A off) := rfl

theorem gar_gfile_read_file (A : List Nat) (p n : Nat) :
    gar_gfile_read (.file A p) n =
      ((A.drop p).take n, .file A (p + ((A.drop p).take n).length)) := rfl

theorem read_pk0304_header_file_stream (A : List Nat) (p : Nat) :
    (read_pk0304_header (.file A p)).2 = .file A (p + ((A.drop p).take 30).length) := by
  unfold read_pk0304_header
  simp only [gar_gfile_read_file]
  split <;> rfl

/-! ## The enumeration loop against the reference walk -/

theorem gar_enum_loop_file {σ : Type} (fn : gar_enum_t σ) (A : List Nat) :
    ∀ (fuel p : Nat) (ud : σ) (off : Nat),
      ((gar_enum_loop fn fuel (.file A p) ud off 0).1,
        (gar_enum_loop fn fuel (.file A p) ud off 0).2.2)
        = gar_visit fn (walk A fuel off).1 (walk A fuel off).2 ud
      ∧ ∃ q, (gar_enum_loop fn fuel (.file A p) ud off 0).2.1 = .file A q := by
  intro fuel
  induction fuel with
  | zero => intro p ud off; exact ⟨rfl, p, rfl⟩
  | succ k ih =>
    intro p ud off
    unfold gar_enum_loop walk
    simp only [gar_gfile_seek_file]
    by_cases hoff : off > A.length
    · simp only [hoff, if_true]
      exact ⟨rfl, p, rfl⟩
    · simp only [hoff, if_false]
      unfold read_pk0304_header
      simp only [gar_gfile_read_file]
      by_cases hs : ((A.drop off).take 30).length < 30 ∨ ((A.drop off).take 30).take 4 ≠ pk0304_sig
      · simp only [hs, if_true]
        exact ⟨rfl, _, rfl⟩
      · simp only [hs, if_false]
        have h30 : ((A.drop off).take 30).length = 30 := by
          have h1 : ¬ ((A.drop off).take 30).length < 30 := fun h => hs (Or.inl h)
          have h2 : ((A.drop off).take 30).length ≤ 30 := List.length_take_le _ _
          omega
        simp only [h30, gar_gfile_read_file]
        by_cases hn : ((A.drop (off + 30)).take (decode_u16_le ((A.drop off).take 30) 26)).length
            < decode_u16_le ((A.drop off).take 30) 26
        · simp only [hn, if_true]
          exact ⟨rfl, _, rfl⟩
        · simp only [hn, if_false]
          simp only [gar_visit]
          split
          · exact ⟨rfl, _, rfl⟩
          · rename_i r hfn
            by_cases hr : r ≠ 0
            · simp only [if_pos hr]
              exact ⟨trivial, _, rfl⟩
            · simp only [if_neg hr]
              have hr0 : r = 0 := not_not.mp hr
              subst hr0
              exact ih _ _ _

theorem gar_visit_record_all (zs : List gar_zstat_t) (e : Except gar_error_t Int) :
    ∀ log : List gar_zstat_t, gar_visit record_all zs e log = (e, log ++ zs) := by
  induction zs with
  | nil => intro log; simp [gar_visit]
  | cons z zs ih =>
    intro log
    simp only [gar_visit, record_all, ne_eq, not_true_eq_false, if_false]
    rw [ih]
    simp

theorem gar_entries_eq_walk (A : List Nat) :
    gar_entries A = (walk A (A.length + 2) 0).1 ∧ gar_walk_end A = (walk A (A.length + 2) 0).2 := by
  have h := (gar_enum_loop_file record_all A (A.length + 2) 0 [] 0).1
  rw [gar_visit_record_all] at h
  simp only [List.nil_append, Prod.mk.injEq] at h
  unfold gar_entries gar_walk_end gar_enum gar_archive_open_file gar_archive_gopen gfile_limit
  exact ⟨h.2, h.1⟩

/-- The enumeration over a file-backed archive, whatever the position of its stream, calls
the callback on the entries in order, as `gar_visit` does, and leaves a stream on the file. -/
theorem gar_enum_file {σ : Type} (fn : gar_enum_t σ) (A : List Nat) (p : Nat) (ud : σ) :
    ((gar_enum ⟨.file A p⟩ fn ud).1, (gar_enum ⟨.file A p⟩ fn ud).2.2)
        = gar_visit fn (gar_entries A) (gar_walk_end A) ud
      ∧ ∃ q, (gar_enum ⟨.file A p⟩ fn ud).2.1 = ⟨.file A q⟩ := by
  have h := gar_enum_loop_file fn A (A.length + 2) p ud 0
  rw [(gar_entries_eq_walk A).1, (gar_entries_eq_walk A).2]
  unfold gar_enum gfile_limit
  refine ⟨h.1, ?_⟩
  obtain ⟨q, hq⟩ := h.2
  exact ⟨q, by simp only [hq]⟩

/-! ## The lookup callback -/

theorem gar_visit_on_find_none (N : List Nat) (z0 : gar_zstat_t) (e : Except gar_error_t Int) :
    ∀ zs : List gar_zstat_t, (∀ y ∈ zs, name_matches N y = false) →
      gar_visit on_find zs e ⟨N, z0⟩ = (e, ⟨N, z0⟩) := by
  intro zs
  induction zs with
  | nil => intro _; rfl
  | cons z zs ih =>
    intro h
    have hz : name_matches N z = false := h z (List.mem_cons_self _ _)
    have hfn : on_find z ⟨N, z0⟩ = (.ok 0, ⟨N, z0⟩) := by
      unfold on_find
      unfold name_matches at hz
      cases hnm : z.fstat.fname with
      | none => rfl
      | some nm => simp only [hnm] at hz; simp [hz]
    simp only [gar_visit, hfn, ne_eq, not_true_eq_false, if_false]
    exact ih (fun y hy => h y (List.mem_cons_of_mem _ hy))

theorem gar_visit_on_find_some (N : List Nat) (z0 : gar_zstat_t) (e : Except gar_error_t Int)
    (z : gar_zstat_t) (post : List gar_zstat_t) (hz : name_matches N z = true) :
    ∀ pre : List gar_zstat_t, (∀ y ∈ pre, name_matches N y = false) →
      gar_visit on_find (pre ++ z :: post) e ⟨N, z0⟩
        = (.ok 1, ⟨N, { z with fstat := { z.fstat with fname := none } }⟩) := by
  intro pre
  induction pre with
  | nil =>
    intro _
    have hfn : on_find z ⟨N, z0⟩
        = (.ok 1, ⟨N, { z with fstat := { z.fstat with fname := none } }⟩) := by
      unfold on_find
      unfold name_matches at hz
      cases hnm : z.fstat.fname with
      | none => simp [hnm] at hz
      | some nm => simp only [hnm] at hz; simp [hz]
    simp [gar_visit, hfn]
  | cons y pre ih =>
    intro h
    have hy : name_matches N y = false := h y (List.mem_cons_self _ _)
    have hfn : on_find y ⟨N, z0⟩ = (.ok 0, ⟨N, z0⟩) := by
      unfold on_find
      unfold name_matches at hy
      cases hnm : y.fstat.fname with
      | none => rfl
      | some nm => simp only [hnm] at hy; simp [hy]
    simp only [List.cons_append, gar_visit, hfn, ne_eq, not_true_eq_false, if_false]
    exact ih (fun w hw => h w (List.mem_cons_of_mem _ hw))

/-- Splitting a list at its first element that satisfies `f`. -/
theorem exists_first_match {α : Type} (f : α → Bool) :
    ∀ l : List α, (∃ z ∈ l, f z = true) →
      ∃ pre z post, l = pre ++ z :: post ∧ (∀ y ∈ pre, f y = false) ∧ f z = true := by
  intro l
  induction l with
  | nil => rintro ⟨z, hz, _⟩; cases hz
  | cons a l ih =>
    intro h
    by_cases ha : f a = true
    · exact ⟨[], a, l, rfl, by simp, ha⟩
    · have h2 : ∃ z ∈ l, f z = true := by
        obtain ⟨z, hz, hfz⟩ := h
        rcases List.mem_cons.mp hz with rfl | hz
        · exact absurd hfz ha
        · exact ⟨z, hz, hfz⟩
      obtain ⟨pre, z, post, hl, hpre, hz⟩ := ih h2
      refine ⟨a :: pre, z, post, by simp [hl], ?_, hz⟩
      intro y hy
      rcases List.mem_cons.mp hy with rfl | hy
      · simpa using ha
      · exact hpre y hy

/-! ## The lookup over a file-backed archive -/

theorem walk_end_ok_zero (A : List Nat) :
    ∀ (fuel off : Nat) (r : Int), (walk A fuel off).2 = .ok r → r = 0 := by
  intro fuel
  induction fuel with
  | zero => intro off r h; simp [walk] at h
  | succ k ih =>
    intro off r h
    unfold walk at h
    split at h
    · simp at h
    · dsimp only at h
      split at h
      · simp only [Except.ok.injEq] at h; exact h.symm
      · split at h
        · simp only [Except.ok.injEq] at h; exact h.symm
        · exact ih _ r h

theorem gar_walk_end_ok_zero (A : List Nat) (r : Int) (h : gar_walk_end A = .ok r) : r = 0 := by
  rw [(gar_entries_eq_walk A).2] at h
  exact walk_end_ok_zero A _ _ r h

theorem gar_zstat_file (A : List Nat) (p : Nat) (N : List Nat) :
    (gar_zstat ⟨.file A p⟩ N).1
        = (gar_visit on_find (gar_entries A) (gar_walk_end A) ⟨N, zstat_uninit⟩).1
      ∧ (gar_zstat ⟨.file A p⟩ N).2.2
        = (gar_visit on_find (gar_entries A) (gar_walk_end A) ⟨N, zstat_uninit⟩).2.zstat
      ∧ ∃ q, (gar_zstat ⟨.file A p⟩ N).2.1 = ⟨.file A q⟩ := by
  have h := gar_enum_file on_find A p ⟨N, zstat_uninit⟩
  obtain ⟨h1, q, hq⟩ := h
  have h1a := congrArg Prod.fst h1
  have h1b := congrArg Prod.snd h1
  simp only at h1a h1b
  unfold gar_zstat
  exact ⟨h1a, by simp only [h1b], q, hq⟩

theorem gar_zstat_file_none (A : List Nat) (p : Nat) (N : List Nat)
    (h : ∀ y ∈ gar_entries A, name_matches N y = false) :
    (gar_zstat ⟨.file A p⟩ N).1 = gar_walk_end A := by
  rw [(gar_zstat_file A p N).1, gar_visit_on_find_none N _ _ _ h]

theorem gar_zstat_file_some (A : List Nat) (p : Nat) (N : List Nat)
    (pre : List gar_zstat_t) (z : gar_zstat_t) (post : List gar_zstat_t)
    (hw : gar_entries A = pre ++ z :: post)
    (hpre : ∀ y ∈ pre, name_matches N y = false) (hz : name_matches N z = true) :
    (gar_zstat ⟨.file A p⟩ N).1 = .ok 1
      ∧ (gar_zstat ⟨.file A p⟩ N).2.2 = { z with fstat := { z.fstat with fname := none } } := by
  have h := gar_zstat_file A p N
  rw [hw, gar_visit_on_find_some N _ _ z post hz pre hpre] at h
  exact ⟨h.1, h.2.1⟩

theorem name_matches_self (N : List Nat) (z : gar_zstat_t) (h : z.fstat.fname = some N) :
    name_matches N z = true := by
  unfold name_matches strcmp_eq
  simp [h]

/-! ## Reading a stored entry -/

theorem part_file_read (A : List Nat) (d c pos n : Nat) (h1 : pos ≤ c)
    (h2 : d + c ≤ A.length) (h3 : A.length < U64) :
    gar_gfile_read (.part (.file A (d + pos)) pos d c) n
      = ((((A.drop d).take c).drop pos).take n,
         .part (.file A (d + (pos + ((((A.drop d).take c).drop pos).take n).length)))
           (pos + ((((A.drop d).take c).drop pos).take n).length) d c) := by
  have hlist : (A.drop (d + pos)).take (offmin n ((c + U64 - pos) % U64))
      = (((A.drop d).take c).drop pos).take n := by
    have hm : (c + U64 - pos) % U64 = c - pos := by
      have h3a : A.length < 18446744073709551616 := h3
      show (c + 18446744073709551616 - pos) % 18446744073709551616 = c - pos
      omega
    rw [hm]
    rw [List.drop_take, List.drop_drop, List.take_take]
    congr 1
    unfold offmin
    split <;> omega
  have hk : ((((A.drop d).take c).drop pos).take n).length ≤ c - pos := by
    simp only [List.length_take, List.length_drop]
    omega
  simp only [gar_gfile_read, hlist]
  have hmod : (pos + ((((A.drop d).take c).drop pos).take n).length) % U64
      = pos + ((((A.drop d).take c).drop pos).take n).length := by
    apply Nat.mod_eq_of_lt
    exact Nat.lt_of_le_of_lt (by omega) h3
  rw [hmod, Nat.add_assoc]

theorem drop_length_take {α : Type} (M : List α) (n : Nat) :
    M.drop (M.take n).length = M.drop n := by
  rw [List.length_take]
  by_cases h : n ≤ M.length
  · rw [Nat.min_eq_left h]
  · have h1 : M.length ≤ n := by omega
    rw [Nat.min_eq_right h1, List.drop_of_length_le (Nat.le_refl _), List.drop_of_length_le h1]

theorem gar_read_seq_part_file (A : List Nat) (d c : Nat)
    (h2 : d + c ≤ A.length) (h3 : A.length < U64) :
    ∀ (ns : List Nat) (pos : Nat), pos ≤ c →
      (gar_read_seq (some (.plain (.part (.file A (d + pos)) pos d c))) ns).1
        = (read_chunks (((A.drop d).take c).drop pos) ns).map .ok := by
  intro ns
  induction ns with
  | nil => intro pos _; rfl
  | cons n ns ih =>
    intro pos hpos
    have hk : ((((A.drop d).take c).drop pos).take n).length ≤ c - pos := by
      simp only [List.length_take, List.length_drop]
      omega
    simp only [gar_read_seq, gar_read, part_file_read A d c pos n hpos h2 h3, read_chunks,
      List.map_cons]
    rw [ih _ (by omega)]
    congr 2
    rw [← List.drop_drop, drop_length_take]

theorem open_fdata_stored (A : List Nat) (q : Nat) (z : gar_zstat_t) (mem : ginflate_t)
    (hm : z.comp_method = 0) (hd : z.data_off + z.data_len ≤ A.length) :
    open_fdata ⟨.file A q⟩ z mem
      = .ok (.plain (.part (.file A z.data_off) 0 z.data_off z.data_len)) := by
  have hoff : ¬ z.data_off > A.length := by omega
  simp [open_fdata, gar_gfile_dup, gar_gfile_open_part, gar_gfile_seek_file, hoff, hm]

theorem gar_open_stored_aux (A N : List Nat) (p : Nat) (mem : ginflate_t)
    (pre : List gar_zstat_t) (z : gar_zstat_t) (post : List gar_zstat_t)
    (hwalk : gar_entries A = pre ++ z :: post)
    (hpre : ∀ y ∈ pre, name_matches N y = false)
    (hname : name_matches N z = true)
    (hmeth : z.comp_method = 0)
    (hdata : z.data_off + z.data_len ≤ A.length) :
    (gar_open ⟨.file A p⟩ N mem).1
      = .ok (some (.plain (.part (.file A z.data_off) 0 z.data_off z.data_len))) := by
  obtain ⟨h1, h2⟩ := gar_zstat_file_some A p N pre z post hwalk hpre hname
  obtain ⟨q, hq⟩ := (gar_zstat_file A p N).2.2
  unfold gar_open
  rcases hzs : gar_zstat ⟨.file A p⟩ N with ⟨r, G1, zs⟩
  rw [hzs] at h1 h2 hq
  simp only at h1 h2 hq
  subst h1 h2 hq
  have ho := open_fdata_stored A q { z with fstat := { z.fstat with fname := none } } mem hmeth hdata
  simp only [ho]
  rfl

/-! ## Chunks of the on-disk format -/

theorem lor_shiftLeft_eq_add (a b i : Nat) (h : a < 2 ^ i) : a ||| (b <<< i) = a + b * 2 ^ i := by
  rw [Nat.shiftLeft_eq, Nat.lor_comm, Nat.mul_comm, ← Nat.mul_add_lt_is_or h, Nat.add_comm,
    Nat.mul_comm]

theorem decode_le16 (x : Nat) (h : x < 65536) :
    (x % 256 ||| (x / 256 % 256) <<< 8) % 65536 = x := by
  rw [lor_shiftLeft_eq_add _ _ 8 (by norm_num; omega)]
  norm_num
  omega

theorem decode_le32 (x : Nat) (h : x < 4294967296) :
    ((x % 256 ||| (x / 256 % 256) <<< 8) ||| (x / 65536 % 256) <<< 16)
      ||| (x / 16777216 % 256) <<< 24 = x := by
  rw [lor_shiftLeft_eq_add _ _ 8 (by norm_num; omega)]
  rw [lor_shiftLeft_eq_add _ _ 16 (by norm_num; omega)]
  rw [lor_shiftLeft_eq_add _ _ 24 (by norm_num; omega)]
  norm_num
  omega

/-- The 30 header bytes of a chunk. -/
theorem pk_chunk_bytes_eq (c : pk_chunk) :
    c.bytes =
      [0x50, 0x4B, 3, 4, c.need_ver % 256, c.need_ver / 256 % 256,
        c.flags % 256, c.flags / 256 % 256, c.comp_method % 256, c.comp_method / 256 % 256,
        c.last_mod_time % 256, c.last_mod_time / 256 % 256,
        c.last_mod_date % 256, c.last_mod_date / 256 % 256,
        c.crc32 % 256, c.crc32 / 256 % 256, c.crc32 / 65536 % 256, c.crc32 / 16777216 % 256,
        c.payload.length % 256, c.payload.length / 256 % 256,
        c.payload.length / 65536 % 256, c.payload.length / 16777216 % 256,
        c.uncomp_size % 256, c.uncomp_size / 256 % 256,
        c.uncomp_size / 65536 % 256, c.uncomp_size / 16777216 % 256,
        c.fname.length % 256, c.fname.length / 256 % 256,
        c.extra.length % 256, c.extra.length / 256 % 256]
      ++ (c.fname ++ (c.extra ++ c.payload)) := by
  simp [pk_chunk.bytes, le16, le32, pk0304_sig]

theorem pk_chunk_bytes_length (c : pk_chunk) :
    c.bytes.length = 30 + c.fname.length + c.extra.length + c.payload.length := by
  rw [pk_chunk_bytes_eq]
  simp only [List.length_append, List.length_cons, List.length_nil]
  omega

theorem walk_chunks (tail : List Nat) (htail : tail.length < 30 ∨ tail.take 4 ≠ pk0304_sig) :
    ∀ (cs : List pk_chunk) (pre : List Nat) (fuel : Nat),
      (∀ c ∈ cs, c.wf) →
      (pre ++ ((cs.map pk_chunk.bytes).flatten ++ tail)).length < U64 →
      cs.length < fuel →
      walk (pre ++ ((cs.map pk_chunk.bytes).flatten ++ tail)) fuel pre.length
        = (chunk_zstats cs pre.length, .ok 0) := by
  intro cs
  induction cs with
  | nil =>
    intro pre fuel _ _ hfuel
    obtain ⟨k, rfl⟩ : ∃ k, fuel = k + 1 := ⟨fuel - 1, by simp at hfuel; omega⟩
    unfold walk
    have h1 : ¬ pre.length > (pre ++ (([] : List pk_chunk).map pk_chunk.bytes).flatten ++ tail).length := by
      simp
    simp only [List.map_nil, List.flatten_nil, List.nil_append, List.length_append,
      gt_iff_lt, Nat.lt_irrefl, List.drop_left, chunk_zstats]
    have h2 : ¬ (pre.length + tail.length < pre.length) := by omega
    rw [if_neg h2]
    have h3 : (tail.take 30).length < 30 ∨ (tail.take 30).take 4 ≠ pk0304_sig := by
      rcases htail with h | h
      · left; simp only [List.length_take]; omega
      · right; rw [List.take_take]; simpa using h
    rw [if_pos h3]
  | cons c cs ih =>
    intro pre fuel hwf hlen hfuel
    obtain ⟨k, rfl⟩ : ∃ k, fuel = k + 1 := ⟨fuel - 1, by simp at hfuel; omega⟩
    have hc : c.wf := hwf c (List.mem_cons_self _ _)
    obtain ⟨hc1, hc2, hc3, hc4, hc5⟩ := hc
    have hA : pre ++ (((c :: cs).map pk_chunk.bytes).flatten ++ tail)
        = (pre ++ c.bytes) ++ ((cs.map pk_chunk.bytes).flatten ++ tail) := by
      simp [List.append_assoc]
    have hlen2 : ((pre ++ c.bytes) ++ ((cs.map pk_chunk.bytes).flatten ++ tail)).length < U64 := by
      rw [← hA]; exact hlen
    have hih := ih (pre ++ c.bytes) k (fun x hx => hwf x (List.mem_cons_of_mem _ hx)) hlen2
      (by simp at hfuel; omega)
    have hlenA : pre.length + c.bytes.length
        ≤ (pre ++ (((c :: cs).map pk_chunk.bytes).flatten ++ tail)).length := by
      rw [hA]; simp only [List.length_append]; omega
    have hbl := pk_chunk_bytes_length c
    have hdrop : (pre ++ (((c :: cs).map pk_chunk.bytes).flatten ++ tail)).drop pre.length
        = c.bytes ++ ((cs.map pk_chunk.bytes).flatten ++ tail) := by
      rw [hA, List.append_assoc, List.drop_left]
    have hdrop30 : (pre ++ (((c :: cs).map pk_chunk.bytes).flatten ++ tail)).drop (pre.length + 30)
        = c.fname ++ (c.extra ++ c.payload) ++ ((cs.map pk_chunk.bytes).flatten ++ tail) := by
      rw [← List.drop_drop, hdrop, pk_chunk_bytes_eq, List.append_assoc]
      exact List.drop_left' (by rfl)
    unfold walk
    rw [if_neg (by omega)]
    rw [hdrop, hdrop30]
    have htake : (c.bytes ++ ((cs.map pk_chunk.bytes).flatten ++ tail)).take 30
        = [0x50, 0x4B, 3, 4, c.need_ver % 256, c.need_ver / 256 % 256,
        c.flags % 256, c.flags / 256 % 256, c.comp_method % 256, c.comp_method / 256 % 256,
        c.last_mod_time % 256, c.last_mod_time / 256 % 256,
        c.last_mod_date % 256, c.last_mod_date / 256 % 256,
        c.crc32 % 256, c.crc32 / 256 % 256, c.crc32 / 65536 % 256, c.crc32 / 16777216 % 256,
        c.payload.length % 256, c.payload.length / 256 % 256,
        c.payload.length / 65536 % 256, c.payload.length / 16777216 % 256,
        c.uncomp_size % 256, c.uncomp_size / 256 % 256,
        c.uncomp_size / 65536 % 256, c.uncomp_size / 16777216 % 256,
        c.fname.length % 256, c.fname.length / 256 % 256,
        c.extra.length % 256, c.extra.length / 256 % 256] := by
      rw [pk_chunk_bytes_eq, List.append_assoc]
      exact List.take_left' (by rfl)
    rw [htake]
    have hf26 : decode_u16_le [0x50, 0x4B, 3, 4, c.need_ver % 256, c.need_ver / 256 % 256,
        c.flags % 256, c.flags / 256 % 256, c.comp_method % 256, c.comp_method / 256 % 256,
        c.last_mod_time % 256, c.last_mod_time / 256 % 256,
        c.last_mod_date % 256, c.last_mod_date / 256 % 256,
        c.crc32 % 256, c.crc32 / 256 % 256, c.crc32 / 65536 % 256, c.crc32 / 16777216 % 256,
        c.payload.length % 256, c.payload.length / 256 % 256,
        c.payload.length / 65536 % 256, c.payload.length / 16777216 % 256,
        c.uncomp_size % 256, c.uncomp_size / 256 % 256,
        c.uncomp_size / 65536 % 256, c.uncomp_size / 16777216 % 256,
        c.fname.length % 256, c.fname.length / 256 % 256,
        c.extra.length % 256, c.extra.length / 256 % 256] 26 = c.fname.length := by
      simp only [decode_u16_le, List.getD_cons_succ, List.getD_cons_zero]
      exact decode_le16 _ hc3
    have hf28 : decode_u16_le [0x50, 0x4B, 3, 4, c.need_ver % 256, c.need_ver / 256 % 256,
        c.flags % 256, c.flags / 256 % 256, c.comp_method % 256, c.comp_method / 256 % 256,
        c.last_mod_time % 256, c.last_mod_time / 256 % 256,
        c.last_mod_date % 256, c.last_mod_date / 256 % 256,
        c.crc32 % 256, c.crc32 / 256 % 256, c.crc32 / 65536 % 256, c.crc32 / 16777216 % 256,
        c.payload.length % 256, c.payload.length / 256 % 256,
        c.payload.length / 65536 % 256, c.payload.length / 16777216 % 256,
        c.uncomp_size % 256, c.uncomp_size / 256 % 256,
        c.uncomp_size / 65536 % 256, c.uncomp_size / 16777216 % 256,
        c.fname.length % 256, c.fname.length / 256 % 256,
        c.extra.length % 256, c.extra.length / 256 % 256] 28 = c.extra.length := by
      simp only [decode_u16_le, List.getD_cons_succ, List.getD_cons_zero]
      exact decode_le16 _ hc4
    have hf8 : decode_u16_le [0x50, 0x4B, 3, 4, c.need_ver % 256, c.need_ver / 256 % 256,
        c.flags % 256, c.flags / 256 % 256, c.comp_method % 256, c.comp_method / 256 % 256,
        c.last_mod_time % 256, c.last_mod_time / 256 % 256,
        c.last_mod_date % 256, c.last_mod_date / 256 % 256,
        c.crc32 % 256, c.crc32 / 256 % 256, c.crc32 / 65536 % 256, c.crc32 / 16777216 % 256,
        c.payload.length % 256, c.payload.length / 256 % 256,
        c.payload.length / 65536 % 256, c.payload.length / 16777216 % 256,
        c.uncomp_size % 256, c.uncomp_size / 256 % 256,
        c.uncomp_size / 65536 % 256, c.uncomp_size / 16777216 % 256,
        c.fname.length % 256, c.fname.length / 256 % 256,
        c.extra.length % 256, c.extra.length / 256 % 256] 8 = c.comp_method := by
      simp only [decode_u16_le, List.getD_cons_succ, List.getD_cons_zero]
      exact decode_le16 _ hc1
    have hf18 : decode_u32_le [0x50, 0x4B, 3, 4, c.need_ver % 256, c.need_ver / 256 % 256,
        c.flags % 256, c.flags / 256 % 256, c.comp_method % 256, c.comp_method / 256 % 256,
        c.last_mod_time % 256, c.last_mod_time / 256 % 256,
        c.last_mod_date % 256, c.last_mod_date / 256 % 256,
        c.crc32 % 256, c.crc32 / 256 % 256, c.crc32 / 65536 % 256, c.crc32 / 16777216 % 256,
        c.payload.length % 256, c.payload.length / 256 % 256,
        c.payload.length / 65536 % 256, c.payload.length / 16777216 % 256,
        c.uncomp_size % 256, c.uncomp_size / 256 % 256,
        c.uncomp_size / 65536 % 256, c.uncomp_size / 16777216 % 256,
        c.fname.length % 256, c.fname.length / 256 % 256,
        c.extra.length % 256, c.extra.length / 256 % 256] 18 = c.payload.length := by
      simp only [decode_u32_le, List.getD_cons_succ, List.getD_cons_zero]
      exact decode_le32 _ hc5
    have hf22 : decode_u32_le [0x50, 0x4B, 3, 4, c.need_ver % 256, c.need_ver / 256 % 256,
        c.flags % 256, c.flags / 256 % 256, c.comp_method % 256, c.comp_method / 256 % 256,
        c.last_mod_time % 256, c.last_mod_time / 256 % 256,
        c.last_mod_date % 256, c.last_mod_date / 256 % 256,
        c.crc32 % 256, c.crc32 / 256 % 256, c.crc32 / 65536 % 256, c.crc32 / 16777216 % 256,
        c.payload.length % 256, c.payload.length / 256 % 256,
        c.payload.length / 65536 % 256, c.payload.length / 16777216 % 256,
        c.uncomp_size % 256, c.uncomp_size / 256 % 256,
        c.uncomp_size / 65536 % 256, c.uncomp_size / 16777216 % 256,
        c.fname.length % 256, c.fname.length / 256 % 256,
        c.extra.length % 256, c.extra.length / 256 % 256] 22 = c.uncomp_size := by
      simp only [decode_u32_le, List.getD_cons_succ, List.getD_cons_zero]
      exact decode_le32 _ hc2
    simp only [hf26, hf28, hf8, hf18, hf22]
    have hsig : ¬ ((30 : Nat) < 30 ∨ [0x50, 0x4B, 3, 4] ≠ pk0304_sig) := by
      simp [pk0304_sig]
    simp only [List.length_cons, List.length_nil, List.take_succ_cons, List.take_zero]
    rw [if_neg hsig]
    have hnm : (c.fname ++ (c.extra ++ c.payload) ++ ((cs.map pk_chunk.bytes).flatten ++ tail)).take
        c.fname.length = c.fname := by
      rw [List.append_assoc]
      exact List.take_left' rfl
    rw [hnm, if_neg (Nat.lt_irrefl _)]
    have hU : pre.length + c.bytes.length < U64 := Nat.lt_of_le_of_lt hlenA hlen
    have hoff : (pre.length + (30 + c.fname.length + c.extra.length + c.payload.length)) % U64
        = (pre ++ c.bytes).length := by
      rw [List.length_append, hbl]
      apply Nat.mod_eq_of_lt
      rw [← hbl]; exact hU
    have hdoff : (pre.length + 30 + c.fname.length + c.extra.length) % U64
        = pre.length + 30 + c.fname.length + c.extra.length := by
      apply Nat.mod_eq_of_lt
      exact Nat.lt_of_le_of_lt (by omega) hU
    rw [hoff, hdoff, hA, hih]
    simp only [chunk_zstats, pk_chunk.zstat, List.length_append]

/-! ## Callbacks that return zero, and the end of the walk -/

theorem gar_visit_all_zero {σ : Type} (fn : gar_enum_t σ) (e : Except gar_error_t Int) :
    ∀ (zs : List gar_zstat_t) (ud : σ), (∀ y ∈ zs, ∀ u, (fn y u).1 = .ok 0) →
      gar_visit fn zs e ud = (e, zs.foldl (fun u z => (fn z u).2) ud) := by
  intro zs
  induction zs with
  | nil => intro ud _; rfl
  | cons z zs ih =>
    intro ud h
    simp only [gar_visit, h z (List.mem_cons_self _ _) ud, ne_eq, not_true_eq_false, if_false,
      List.foldl_cons]
    exact ih _ (fun y hy => h y (List.mem_cons_of_mem _ hy))

theorem gar_visit_stop {σ : Type} (fn : gar_enum_t σ) (e : Except gar_error_t Int)
    (z : gar_zstat_t) (post : List gar_zstat_t) (r : Int) (hr : r ≠ 0)
    (hz : ∀ u, (fn z u).1 = .ok r) :
    ∀ (pre : List gar_zstat_t) (ud : σ), (∀ y ∈ pre, ∀ u, (fn y u).1 = .ok 0) →
      gar_visit fn (pre ++ z :: post) e ud
        = (.ok r, (fn z (pre.foldl (fun u y => (fn y u).2) ud)).2) := by
  intro pre
  induction pre with
  | nil =>
    intro ud _
    simp only [List.nil_append, gar_visit, hz ud, if_pos hr, List.foldl_nil]
  | cons y pre ih =>
    intro ud h
    simp only [List.cons_append, gar_visit, h y (List.mem_cons_self _ _) ud, ne_eq,
      not_true_eq_false, if_false, List.foldl_cons]
    exact ih _ (fun w hw => h w (List.mem_cons_of_mem _ hw))

theorem getD_lt_of_bytes_ok (s : List Nat) (i : Nat) (h : bytes_ok s) : s.getD i 0 < 256 := by
  rw [List.getD_eq_getElem?_getD]
  cases hs : s[i]? with
  | none => simp
  | some b =>
    simp only [Option.getD_some]
    obtain ⟨hi, hb2⟩ := List.getElem?_eq_some_iff.mp hs
    exact h b (hb2 ▸ List.getElem_mem hi)

theorem decode_u32_le_lt (s : List Nat) (i : Nat) (h : bytes_ok s) :
    decode_u32_le s i < 4294967296 := by
  unfold decode_u32_le
  have h0 := getD_lt_of_bytes_ok s i h
  have h1 := getD_lt_of_bytes_ok s (i + 1) h
  have h2 := getD_lt_of_bytes_ok s (i + 2) h
  have h3 := getD_lt_of_bytes_ok s (i + 3) h
  have e : (4294967296 : Nat) = 2 ^ 32 := by norm_num
  rw [e]
  apply Nat.or_lt_two_pow
  · apply Nat.or_lt_two_pow
    · apply Nat.or_lt_two_pow
      · omega
      · rw [Nat.shiftLeft_eq]; omega
    · rw [Nat.shiftLeft_eq]; omega
  · rw [Nat.shiftLeft_eq]; omega

theorem decode_u16_le_lt (s : List Nat) (i : Nat) : decode_u16_le s i < 65536 := by
  unfold decode_u16_le
  exact Nat.mod_lt _ (by norm_num)

theorem walk_end_no_fuel (A : List Nat) (hb : bytes_ok A) (hl : A.length < 2 ^ 63) :
    ∀ (fuel off : Nat), A.length + 2 ≤ fuel + off → 1 ≤ fuel →
      (walk A fuel off).2 ≠ .error .model_fuel := by
  intro fuel
  induction fuel with
  | zero => intro off _ h; omega
  | succ k ih =>
    intro off h _
    unfold walk
    split
    · simp
    · dsimp only
      split
      · simp
      · split
        · simp
        · rename_i hoff _ _
          have hs : bytes_ok ((A.drop off).take 30) := by
            intro b hb2
            exact hb b (List.mem_of_mem_drop (List.mem_of_mem_take hb2))
          have h18 := decode_u32_le_lt _ 18 hs
          have h26 := decode_u16_le_lt ((A.drop off).take 30) 26
          have h28 := decode_u16_le_lt ((A.drop off).take 30) 28
          have hl2 : A.length < 9223372036854775808 := by
            have e : (2 : Nat) ^ 63 = 9223372036854775808 := by norm_num
            rw [e] at hl; exact hl
          have hmod : (off + (30 + decode_u16_le ((A.drop off).take 30) 26
              + decode_u16_le ((A.drop off).take 30) 28
              + decode_u32_le ((A.drop off).take 30) 18)) % U64
              = off + (30 + decode_u16_le ((A.drop off).take 30) 26
              + decode_u16_le ((A.drop off).take 30) 28
              + decode_u32_le ((A.drop off).take 30) 18) := by
            apply Nat.mod_eq_of_lt
            show _ < 18446744073709551616
            omega
          rw [hmod]
          by_cases hk : off + (30 + decode_u16_le ((A.drop off).take 30) 26
              + decode_u16_le ((A.drop off).take 30) 28
              + decode_u32_le ((A.drop off).take 30) 18) > A.length
          · cases k with
            | zero => omega
            | succ j =>
              unfold walk
              rw [if_pos hk]
              simp
          · exact ih _ (by omega) (by omega)

theorem gar_walk_end_cases (A : List Nat) (hb : bytes_ok A) (hl : A.length < 2 ^ 63) :
    gar_walk_end A = .ok 0 ∨ gar_walk_end A = .error .out_of_range := by
  have hnf := walk_end_no_fuel A hb hl (A.length + 2) 0 (by omega) (by omega)
  rw [(gar_entries_eq_walk A).2]
  have key : ∀ (fuel off : Nat), (walk A fuel off).2 = .ok 0
      ∨ (walk A fuel off).2 = .error .out_of_range
      ∨ (walk A fuel off).2 = .error .model_fuel := by
    intro fuel
    induction fuel with
    | zero => intro off; right; right; rfl
    | succ k ih =>
      intro off
      unfold walk
      split
      · right; left; rfl
      · dsimp only
        split
        · left; rfl
        · split
          · left; rfl
          · exact ih _
  rcases key (A.length + 2) 0 with h | h | h
  · exact Or.inl h
  · exact Or.inr h
  · exact absurd h hnf

/-! ## Independence of the stream position -/

theorem gar_enum_file_indep {σ : Type} (fn : gar_enum_t σ) (A : List Nat) (p : Nat) (ud : σ) :
    (gar_enum ⟨.file A p⟩ fn ud).1 = (gar_enum (gar_archive_open_file A) fn ud).1
      ∧ (gar_enum ⟨.file A p⟩ fn ud).2.2 = (gar_enum (gar_archive_open_file A) fn ud).2.2 := by
  have h1 := (gar_enum_file fn A p ud).1
  have h2 := (gar_enum_file fn A 0 ud).1
  have h := h1.trans h2.symm
  simp only [Prod.mk.injEq] at h
  exact h

theorem gar_zstat_file_indep (A : List Nat) (p : Nat) (N : List Nat) :
    (gar_zstat ⟨.file A p⟩ N).1 = (gar_zstat (gar_archive_open_file A) N).1
      ∧ (gar_zstat ⟨.file A p⟩ N).2.2 = (gar_zstat (gar_archive_open_file A) N).2.2 := by
  have h1 := gar_zstat_file A p N
  have h2 := gar_zstat_file A 0 N
  exact ⟨h1.1.trans h2.1.symm, h1.2.1.trans h2.2.1.symm⟩

theorem gar_stat_file_indep (A : List Nat) (p : Nat) (N : List Nat) :
    (gar_stat ⟨.file A p⟩ N).1 = (gar_stat (gar_archive_open_file A) N).1 := by
  obtain ⟨h1, h2⟩ := gar_zstat_file_indep A p N
  unfold gar_stat
  rcases ha : gar_zstat ⟨.file A p⟩ N with ⟨r, G1, zs⟩
  rcases hb : gar_zstat (gar_archive_open_file A) N with ⟨r2, G2, zs2⟩
  rw [ha, hb] at h1 h2
  simp only at h1 h2
  subst h1 h2
  cases r with
  | error e => rfl
  | ok r =>
    dsimp only
    split <;> rfl

theorem open_fdata_file_indep (A : List Nat) (p q : Nat) (z : gar_zstat_t) (mem : ginflate_t) :
    open_fdata ⟨.file A p⟩ z mem = open_fdata ⟨.file A q⟩ z mem := rfl

theorem gar_open_file_indep (A : List Nat) (p : Nat) (N : List Nat) (mem : ginflate_t) :
    (gar_open ⟨.file A p⟩ N mem).1 = (gar_open (gar_archive_open_file A) N mem).1 := by
  obtain ⟨h1, h2⟩ := gar_zstat_file_indep A p N
  obtain ⟨q1, hq1⟩ := (gar_zstat_file A p N).2.2
  obtain ⟨q2, hq2⟩ := (gar_zstat_file A 0 N).2.2
  unfold gar_open
  rcases ha : gar_zstat ⟨.file A p⟩ N with ⟨r, G1, zs⟩
  rcases hb : gar_zstat (gar_archive_open_file A) N with ⟨r2, G2, zs2⟩
  have hb2 : gar_zstat ⟨.file A 0⟩ N = (r2, G2, zs2) := hb
  rw [ha] at h1 h2 hq1
  rw [hb] at h1 h2
  rw [hb2] at hq2
  simp only at h1 h2 hq1 hq2
  subst h1 h2 hq1 hq2
  cases r with
  | error e => rfl
  | ok r =>
    dsimp only
    split
    · rw [open_fdata_file_indep A q1 q2]
      split <;> rfl
    · rfl

/-! ## Totals of successive reads -/

theorem read_chunks_append (n : Nat) :
    ∀ (ns : List Nat) (D : List Nat),
      read_chunks D (ns ++ [n]) = read_chunks D ns ++ [(D.drop ns.sum).take n] := by
  intro ns
  induction ns with
  | nil => intro D; simp [read_chunks]
  | cons m ns ih =>
    intro D
    show List.take m D :: read_chunks (List.drop m D) (ns ++ [n]) = _
    rw [ih]
    simp only [read_chunks, List.cons_append, List.sum_cons, List.drop_drop]

theorem bytes_returned_map_ok :
    ∀ (cs : List (List Nat)), bytes_returned (cs.map .ok) = (cs.map List.length).sum := by
  intro cs
  induction cs with
  | nil => rfl
  | cons c cs ih => simp [bytes_returned, ih]

theorem read_chunks_total :
    ∀ (ns : List Nat) (D : List Nat),
      ((read_chunks D ns).map List.length).sum = min ns.sum D.length := by
  intro ns
  induction ns with
  | nil => intro D; simp [read_chunks]
  | cons m ns ih =>
    intro D
    simp only [read_chunks, List.map_cons, List.sum_cons, ih, List.length_take,
      List.length_drop]
    omega

theorem chunk_zstats_length :
    ∀ (cs : List pk_chunk) (off : Nat), (chunk_zstats cs off).length = cs.length := by
  intro cs
  induction cs with
  | nil => intro off; rfl
  | cons c cs ih => intro off; simp only [chunk_zstats, List.length_cons, ih]

theorem chunk_zstats_get :
    ∀ (cs : List pk_chunk) (off i : Nat) (c : pk_chunk), cs[i]? = some c →
      ∃ z, (chunk_zstats cs off)[i]? = some z ∧ z.fstat = ⟨some c.fname, c.uncomp_size⟩ := by
  intro cs
  induction cs with
  | nil => intro off i c h; simp at h
  | cons a cs ih =>
    intro off i c h
    cases i with
    | zero =>
      simp only [List.getElem?_cons_zero, Option.some.injEq] at h
      subst h
      exact ⟨a.zstat off, by simp only [chunk_zstats, List.getElem?_cons_zero], rfl⟩
    | succ j =>
      simp only [List.getElem?_cons_succ] at h
      obtain ⟨z, hz, hf⟩ := ih (off + a.bytes.length) j c h
      exact ⟨z, by simp only [chunk_zstats, List.getElem?_cons_succ, hz], hf⟩

theorem flatten_chunks_length_ge (cs : List pk_chunk) :
    cs.length ≤ ((cs.map pk_chunk.bytes).flatten).length := by
  induction cs with
  | nil => simp
  | cons c cs ih =>
    simp only [List.map_cons, List.flatten_cons, List.length_append, List.length_cons]
    have := pk_chunk_bytes_length c
    omega

/-! ## Bit lists -/

theorem nat_bits_length (n : Nat) : ∀ v : Nat, (nat_bits v n).length = n := by
  induction n with
  | zero => intro v; rfl
  | succ n ih => intro v; simp [nat_bits, ih]

theorem bits_of_bytes_length (bs : List Nat) : (bits_of_bytes bs).length = 8 * bs.length := by
  induction bs with
  | nil => rfl
  | cons b bs ih => simp [bits_of_bytes, nat_bits_length, ih]; omega

theorem bits_of_bytes_append (xs ys : List Nat) :
    bits_of_bytes (xs ++ ys) = bits_of_bytes xs ++ bits_of_bytes ys := by
  induction xs with
  | nil => rfl
  | cons b bs ih => simp [bits_of_bytes, ih]

theorem nat_bits_add_mul (k : Nat) :
    ∀ (a b m : Nat), a < 2 ^ k → nat_bits (a + b * 2 ^ k) (k + m) = nat_bits a k ++ nat_bits b m := by
  induction k with
  | zero =>
    intro a b m h
    have : a = 0 := by simpa using h
    subst this
    simp [nat_bits]
  | succ k ih =>
    intro a b m h
    have e : k + 1 + m = (k + m) + 1 := by omega
    rw [e]
    simp only [nat_bits, List.cons_append]
    have hb : b * 2 ^ (k + 1) = 2 * (b * 2 ^ k) := by rw [pow_succ]; ring
    have h1 : (a + b * 2 ^ (k + 1)) % 2 = a % 2 := by
      rw [hb]; omega
    have h2 : (a + b * 2 ^ (k + 1)) / 2 = a / 2 + b * 2 ^ k := by
      rw [hb]; omega
    have h3 : a / 2 < 2 ^ k := by
      rw [pow_succ] at h; omega
    rw [h1, h2, ih _ _ _ h3]

theorem bits_val_nat_bits (n : Nat) : ∀ v : Nat, bits_val (nat_bits v n) = v % 2 ^ n := by
  induction n with
  | zero => intro v; simp [nat_bits, bits_val, Nat.mod_one]
  | succ n ih =>
    intro v
    simp only [nat_bits, bits_val, ih]
    have h : v % 2 ^ (n + 1) = v % 2 + 2 * (v / 2 % 2 ^ n) := by
      rw [pow_succ', Nat.mod_mul]
    rw [h]
    by_cases hv : v % 2 = 1
    · simp [hv]
    · have : v % 2 = 0 := by omega
      simp [this]

theorem bits_val_lt (l : List Bool) : bits_val l < 2 ^ l.length := by
  induction l with
  | nil => simp [bits_val]
  | cons b l ih =>
    simp only [bits_val, List.length_cons, pow_succ]
    split <;> omega

theorem bits_val_append (l1 l2 : List Bool) :
    bits_val (l1 ++ l2) = bits_val l1 + 2 ^ l1.length * bits_val l2 := by
  induction l1 with
  | nil => simp [bits_val]
  | cons b l ih =>
    rw [List.cons_append]
    simp only [bits_val, List.length_cons, pow_succ]
    rw [ih]
    ring

theorem nat_bits_bits_val (l : List Bool) : nat_bits (bits_val l) l.length = l := by
  induction l with
  | nil => rfl
  | cons b l ih =>
    simp only [List.length_cons, nat_bits, bits_val]
    have h1 : ((if b = true then 1 else 0) + 2 * bits_val l) / 2 = bits_val l := by
      split <;> omega
    rw [h1, ih]
    cases b <;> simp

theorem take_nat_bits (n : Nat) :
    ∀ (len v : Nat), n ≤ len → (nat_bits v len).take n = nat_bits v n := by
  induction n with
  | zero => intro len v _; simp [nat_bits]
  | succ n ih =>
    intro len v h
    obtain ⟨m, rfl⟩ : ∃ m, len = m + 1 := ⟨len - 1, by omega⟩
    simp only [nat_bits, List.take_succ_cons]
    rw [ih m _ (by omega)]

theorem drop_nat_bits (n : Nat) :
    ∀ (len v : Nat), (nat_bits v len).drop n = nat_bits (v / 2 ^ n) (len - n) := by
  induction n with
  | zero => intro len v; simp
  | succ n ih =>
    intro len v
    cases len with
    | zero => simp [nat_bits]
    | succ m =>
      simp only [nat_bits, List.drop_succ_cons]
      rw [ih m]
      have e1 : v / 2 / 2 ^ n = v / 2 ^ (n + 1) := by
        rw [Nat.div_div_eq_div_mul, pow_succ, Nat.mul_comm]
      have e2 : m + 1 - (n + 1) = m - n := by omega
      rw [e1, e2]

theorem bits_val_take (l : List Bool) (n : Nat) : bits_val (l.take n) = bits_val l % 2 ^ n := by
  by_cases h : n ≤ l.length
  · have h1 : l = l.take n ++ l.drop n := (List.take_append_drop n l).symm
    have h2 : (l.take n).length = n := by simp [h]
    conv_rhs => rw [h1, bits_val_append, h2]
    have h3 := bits_val_lt (l.take n)
    rw [h2] at h3
    rw [Nat.add_mul_mod_self_left, Nat.mod_eq_of_lt h3]
  · have h1 : l.take n = l := List.take_of_length_le (by omega)
    rw [h1]
    have h3 := bits_val_lt l
    have h4 : 2 ^ l.length ≤ 2 ^ n := Nat.pow_le_pow_right (by norm_num) (by omega)
    rw [Nat.mod_eq_of_lt (by omega)]

theorem bitmask_eq (n : Nat) : bitmask n = 2 ^ n - 1 := by
  unfold bitmask
  rw [Nat.shiftLeft_eq, Nat.one_mul]

theorem and_bitmask (x n : Nat) : x &&& bitmask n = x % 2 ^ n := by
  rw [bitmask_eq]
  exact Nat.and_pow_two_sub_one_eq_mod x n

/-! ## Reads from the source stream -/

theorem gfile_read_spec : ∀ (gf : gar_gfile_t) (n : Nat), gfile_ok gf = true →
    (gar_gfile_read gf n).1 = (gfile_rest gf).take n
    ∧ gfile_rest (gar_gfile_read gf n).2 = (gfile_rest gf).drop n
    ∧ gfile_ok (gar_gfile_read gf n).2 = true := by
  intro gf
  induction gf with
  | null => intro n _; simp [gar_gfile_read, gfile_rest, gfile_ok]
  | file data fpos =>
    intro n _
    simp only [gar_gfile_read, gfile_rest, gfile_ok, List.drop_drop, true_and, and_true]
    rw [← List.drop_drop, ← List.drop_drop, drop_length_take]
  | part gf pos off len ih =>
    intro n h
    simp only [gfile_ok, Bool.and_eq_true, decide_eq_true_eq] at h
    obtain ⟨⟨h1, h2⟩, h3⟩ := h
    have hm : (len + U64 - pos) % U64 = len - pos := by
      have h2a : len < 18446744073709551616 := h2
      show (len + 18446744073709551616 - pos) % 18446744073709551616 = len - pos
      omega
    obtain ⟨i1, i2, i3⟩ := ih (offmin n (len - pos)) h3
    have hmin : offmin n (len - pos) = min n (len - pos) := by
      unfold offmin; split <;> omega
    have hk : ((gfile_rest gf).take (offmin n (len - pos))).length ≤ len - pos := by
      rw [hmin, List.length_take]; omega
    have hmod : (pos + ((gfile_rest gf).take (offmin n (len - pos))).length) % U64
        = pos + ((gfile_rest gf).take (offmin n (len - pos))).length := by
      apply Nat.mod_eq_of_lt
      exact Nat.lt_of_le_of_lt (by omega) h2
    simp only [gar_gfile_read, gfile_rest, gfile_ok, hm, i1, i2, i3, hmod, Bool.and_eq_true,
      decide_eq_true_eq, and_true]
    refine ⟨?_, ?_, ⟨by omega, h2⟩⟩
    · rw [hmin, List.take_take]
    · rw [hmin]
      by_cases hc : n ≤ len - pos
      · rw [Nat.min_eq_left hc]
        by_cases hx : n ≤ (gfile_rest gf).length
        · have : ((gfile_rest gf).take n).length = n := by simp [hx]
          rw [this, List.drop_take]
          congr 1
          omega
        · have e1 : (gfile_rest gf).drop n = [] := List.drop_of_length_le (by omega)
          rw [e1, List.take_nil]
          symm
          apply List.drop_of_length_le
          simp only [List.length_take]
          omega
      · have hc2 : len - pos ≤ n := by omega
        rw [Nat.min_eq_right hc2]
        have e2 : ((gfile_rest gf).take (len - pos)).drop n = [] := by
          apply List.drop_of_length_le
          simp only [List.length_take]
          omega
        rw [e2]
        by_cases hx : len - pos ≤ (gfile_rest gf).length
        · have : ((gfile_rest gf).take (len - pos)).length = len - pos := by simp [hx]
          rw [this]
          have : len - (pos + (len - pos)) = 0 := by omega
          rw [this, List.take_zero]
        · have e1 : (gfile_rest gf).drop (len - pos) = [] := List.drop_of_length_le (by omega)
          rw [e1, List.take_nil]

/-! ## The bit operations of the decoder -/

theorem bytes_ok_append (xs ys : List Nat) : bytes_ok (xs ++ ys) ↔ bytes_ok xs ∧ bytes_ok ys := by
  unfold bytes_ok
  simp only [List.mem_append]
  constructor
  · intro h
    exact ⟨fun b hb => h b (Or.inl hb), fun b hb => h b (Or.inr hb)⟩
  · rintro ⟨h1, h2⟩ b (hb | hb)
    · exact h1 b hb
    · exact h2 b hb

theorem bytes_ok_cons (x : Nat) (xs : List Nat) : bytes_ok (x :: xs) ↔ x < 256 ∧ bytes_ok xs := by
  unfold bytes_ok
  simp

theorem fetch_bytes_spec (I : ginflate_t) (h : gfile_ok I.gf = true) :
    (gfile_rest I.gf = [] →
      ∃ g, fetch_bytes I = (none, { I with gf := g }) ∧ gfile_rest g = [] ∧ gfile_ok g = true)
    ∧ (gfile_rest I.gf ≠ [] →
      ∃ g b rest, fetch_bytes I = (some (b :: rest), { I with gf := g, input := b :: rest })
        ∧ (b :: rest) ++ gfile_rest g = gfile_rest I.gf ∧ gfile_ok g = true) := by
  obtain ⟨h1, h2, h3⟩ := gfile_read_spec I.gf 1024 h
  constructor
  · intro he
    refine ⟨(gar_gfile_read I.gf 1024).2, ?_, ?_, h3⟩
    · unfold fetch_bytes
      simp only [h1, he, List.take_nil, List.length_nil, if_true]
    · rw [h2, he, List.drop_nil]
  · intro hne
    obtain ⟨b, rest, hbr⟩ : ∃ b rest, (gfile_rest I.gf).take 1024 = b :: rest := by
      cases hr : gfile_rest I.gf with
      | nil => exact absurd hr hne
      | cons x xs => exact ⟨x, xs.take 1023, by simp⟩
    refine ⟨(gar_gfile_read I.gf 1024).2, b, rest, ?_, ?_, h3⟩
    · unfold fetch_bytes
      simp only [h1, hbr, List.length_cons]
      rw [if_neg (by omega)]
    · rw [h2, ← hbr, List.take_append_drop]

theorem acc_add_shift (acc b len : Nat) (hacc : acc < 2 ^ len) (hb : b < 256) (hl : len ≤ 15) :
    (acc + (b <<< len) % U32) % U32 = acc + b * 2 ^ len
    ∧ acc + b * 2 ^ len < 2 ^ (len + 8) := by
  have hp : 2 ^ len ≤ 2 ^ 15 := Nat.pow_le_pow_right (by norm_num) hl
  have hbl : b * 2 ^ len ≤ 255 * 2 ^ len := Nat.mul_le_mul_right _ (by omega)
  have e15 : (2 : Nat) ^ 15 = 32768 := by norm_num
  rw [e15] at hp
  rw [Nat.shiftLeft_eq]
  constructor
  · rw [Nat.mod_eq_of_lt (show b * 2 ^ len < U32 by show _ < 4294967296; omega)]
    exact Nat.mod_eq_of_lt (show acc + b * 2 ^ len < U32 by show _ < 4294967296; omega)
  · rw [pow_add]
    norm_num
    omega

theorem shr_lt (acc len n : Nat) (hacc : acc < 2 ^ len) (hn : n ≤ len) :
    acc >>> n < 2 ^ (len - n) := by
  rw [Nat.shiftRight_eq_div_pow]
  apply Nat.div_lt_of_lt_mul
  rw [← pow_add]
  have : n + (len - n) = len := by omega
  rw [this]
  exact hacc

theorem fetch_bits_loop_spec (n : Nat) (hn : n ≤ 15) :
    ∀ (fuel : Nat) (I : ginflate_t), bits_ok I → n ≤ I.bits_len + 8 * fuel →
      bits_ok (fetch_bits_loop n fuel I)
      ∧ bitstream (fetch_bits_loop n fuel I) = bitstream I
      ∧ frame (fetch_bits_loop n fuel I) = frame I
      ∧ (n ≤ (fetch_bits_loop n fuel I).bits_len
          ∨ (bitstream I).length = (fetch_bits_loop n fuel I).bits_len) := by
  intro fuel
  induction fuel with
  | zero =>
    intro I hI hf
    exact ⟨hI, rfl, rfl, Or.inl (by simpa using hf)⟩
  | succ k ih =>
    intro I hI hf
    obtain ⟨hacc, hlen, hin, hrest, hgf⟩ := hI
    unfold fetch_bits_loop
    by_cases hlt : I.bits_len < n
    · rw [if_pos hlt]
      cases hinp : I.input with
      | nil =>
        simp only [if_true]
        by_cases hr : gfile_rest I.gf = []
        · obtain ⟨g, hfb, hg1, hg2⟩ := (fetch_bytes_spec I hgf).1 hr
          rw [hfb]
          dsimp only
          refine ⟨⟨hacc, hlen, hin, ?_, hg2⟩, ?_, rfl, Or.inr ?_⟩
          · rw [hg1]; intro b hb; cases hb
          · simp only [bitstream, hg1, hr]
          · simp only [bitstream, hinp, hr, List.append_nil, bits_of_bytes, nat_bits_length]
        · obtain ⟨g, b, rest, hfb, hg1, hg2⟩ := (fetch_bytes_spec I hgf).2 hr
          rw [hfb]
          dsimp only
          have hall : bytes_ok ((b :: rest) ++ gfile_rest g) := by rw [hg1]; exact hrest
          obtain ⟨hbr, hgr⟩ := (bytes_ok_append _ _).mp hall
          obtain ⟨hb, hrs⟩ := (bytes_ok_cons _ _).mp hbr
          obtain ⟨e1, e2⟩ := acc_add_shift I.bits_acc b I.bits_len hacc hb (by omega)
          have hI2 : bits_ok { I with gf := g, input := rest, bits_acc := (I.bits_acc + (b <<< I.bits_len) % U32) % U32, bits_len := I.bits_len + 8 } := by
            refine ⟨?_, ?_, hrs, hgr, hg2⟩
            · show (I.bits_acc + (b <<< I.bits_len) % U32) % U32 < 2 ^ (I.bits_len + 8)
              rw [e1]; exact e2
            · show I.bits_len + 8 ≤ 22
              omega
          obtain ⟨j1, j2, j3, j4⟩ := ih _ hI2 (by show n ≤ I.bits_len + 8 + 8 * k; omega)
          have hbs : bitstream { I with gf := g, input := rest, bits_acc := (I.bits_acc + (b <<< I.bits_len) % U32) % U32, bits_len := I.bits_len + 8 } = bitstream I := by
            simp only [bitstream, hinp, List.nil_append, e1]
            rw [nat_bits_add_mul _ _ _ _ hacc, ← hg1]
            simp only [List.cons_append, bits_of_bytes, List.append_assoc, List.append_eq]
          refine ⟨j1, j2.trans hbs, j3, ?_⟩
          rcases j4 with j4 | j4
          · exact Or.inl j4
          · exact Or.inr (by rw [← hbs]; exact j4)
      | cons b rest =>
        rw [if_neg (List.cons_ne_nil b rest)]
        dsimp only
        obtain ⟨hb, hrs⟩ := (bytes_ok_cons _ _).mp (hinp ▸ hin)
        obtain ⟨e1, e2⟩ := acc_add_shift I.bits_acc b I.bits_len hacc hb (by omega)
        have hI2 : bits_ok { I with input := rest, bits_acc := (I.bits_acc + (b <<< I.bits_len) % U32) % U32, bits_len := I.bits_len + 8 } := by
          refine ⟨?_, ?_, hrs, hrest, hgf⟩
          · show (I.bits_acc + (b <<< I.bits_len) % U32) % U32 < 2 ^ (I.bits_len + 8)
            rw [e1]; exact e2
          · show I.bits_len + 8 ≤ 22
            omega
        obtain ⟨j1, j2, j3, j4⟩ := ih _ hI2 (by show n ≤ I.bits_len + 8 + 8 * k; omega)
        have hbs : bitstream { I with input := rest, bits_acc := (I.bits_acc + (b <<< I.bits_len) % U32) % U32, bits_len := I.bits_len + 8 } = bitstream I := by
          simp only [bitstream, hinp, e1]
          rw [nat_bits_add_mul _ _ _ _ hacc]
          simp only [List.cons_append, bits_of_bytes, List.append_assoc, List.append_eq]
        refine ⟨j1, j2.trans hbs, j3, ?_⟩
        rcases j4 with j4 | j4
        · exact Or.inl j4
        · exact Or.inr (by rw [← hbs]; exact j4)
    · rw [if_neg hlt]
      exact ⟨⟨hacc, hlen, hin, hrest, hgf⟩, rfl, rfl, Or.inl (by omega)⟩

/-- The value `fetch_bits` returns is the value of the next `n` bits, short of input the
bits that are there; the decoder keeps its bit stream. -/
theorem fetch_bits_spec (I : ginflate_t) (n : Nat) (hI : bits_ok I) (hn : n ≤ 15) :
    (fetch_bits I n).1 = bits_val ((bitstream I).take n)
    ∧ bits_ok (fetch_bits I n).2
    ∧ bitstream (fetch_bits I n).2 = bitstream I
    ∧ frame (fetch_bits I n).2 = frame I
    ∧ (n ≤ (fetch_bits I n).2.bits_len
        ∨ (bitstream I).length = (fetch_bits I n).2.bits_len) := by
  obtain ⟨j1, j2, j3, j4⟩ := fetch_bits_loop_spec n hn n I hI (by omega)
  unfold fetch_bits
  refine ⟨?_, j1, j2, j3, j4⟩
  dsimp only
  rw [and_bitmask, ← j2, bits_val_take]
  unfold bitstream
  rw [bits_val_append, nat_bits_length, bits_val_nat_bits]
  have hacc := j1.1
  rw [Nat.mod_eq_of_lt hacc]
  rcases j4 with j4 | j4
  · -- enough bits in the accumulator
    have hd : 2 ^ n ∣ 2 ^ (fetch_bits_loop n n I).bits_len := pow_dvd_pow 2 j4
    obtain ⟨c, hc⟩ := hd
    rw [hc, Nat.mul_assoc, Nat.add_mul_mod_self_left]
  · -- the input is used up
    rw [← j2] at j4
    unfold bitstream at j4
    rw [List.length_append, nat_bits_length] at j4
    have hz : (bits_of_bytes ((fetch_bits_loop n n I).input
        ++ gfile_rest (fetch_bits_loop n n I).gf)).length = 0 := by omega
    have hnil := List.length_eq_zero.mp hz
    rw [hnil]
    simp [bits_val]

theorem drop_bits_spec (I : ginflate_t) (n : Nat) (hI : bits_ok I) (hn : n ≤ I.bits_len) :
    ∃ J, drop_bits I n = .ok () J ∧ bitstream J = (bitstream I).drop n ∧ bits_ok J
      ∧ frame J = frame I := by
  obtain ⟨hacc, hlen, hin, hrest, hgf⟩ := hI
  refine ⟨{ I with bits_acc := I.bits_acc >>> n, bits_len := I.bits_len - n }, ?_, ?_, ?_, rfl⟩
  · unfold drop_bits
    rw [if_neg (by omega)]
  · simp only [bitstream]
    rw [List.drop_append_of_le_length (by rw [nat_bits_length]; exact hn), drop_nat_bits,
      Nat.shiftRight_eq_div_pow]
  · exact ⟨shr_lt _ _ _ hacc hn, by show I.bits_len - n ≤ 22; omega, hin, hrest, hgf⟩

theorem get_bits_loop_spec (n : Nat) (hn : n ≤ 16) :
    ∀ (fuel : Nat) (I : ginflate_t) (p : List Nat) (bs bl : Nat),
      gfile_ok I.gf = true → bytes_ok (gfile_rest I.gf) → bytes_ok p → bs < 2 ^ bl → bl < n →
      n ≤ bl + 8 * fuel → n ≤ bl + 8 * (p.length + (gfile_rest I.gf).length) →
      ∃ J, get_bits_loop n fuel I p bs bl
          = .ok (bits_val ((nat_bits bs bl ++ bits_of_bytes (p ++ gfile_rest I.gf)).take n)) J
        ∧ bitstream J = (nat_bits bs bl ++ bits_of_bytes (p ++ gfile_rest I.gf)).drop n
        ∧ bits_ok J ∧ frame J = frame I := by
  intro fuel
  induction fuel with
  | zero => intro I p bs bl _ _ _ _ h1 h2 _; omega
  | succ k ih =>
    intro I p bs bl hgf hrest hp hbs hbl hfuel hdata
    -- one pass of the loop from a decoder `I1` whose next byte is `b`
    have step : ∀ (I1 : ginflate_t) (b : Nat) (rest : List Nat),
        gfile_ok I1.gf = true → bytes_ok (gfile_rest I1.gf) → bytes_ok (b :: rest) →
        (b :: rest) ++ gfile_rest I1.gf = p ++ gfile_rest I.gf → frame I1 = frame I →
        ∃ J, (if bl + 8 < n then
                get_bits_loop n k I1 rest ((bs + (b <<< bl) % U32) % U32) (bl + 8)
              else Res.ok (((bs + (b <<< bl) % U32) % U32) &&& bitmask n)
                { I1 with input := rest, bits_acc := ((bs + (b <<< bl) % U32) % U32) >>> n, bits_len := bl + 8 - n })
            = .ok (bits_val ((nat_bits bs bl ++ bits_of_bytes (p ++ gfile_rest I.gf)).take n)) J
          ∧ bitstream J = (nat_bits bs bl ++ bits_of_bytes (p ++ gfile_rest I.gf)).drop n
          ∧ bits_ok J ∧ frame J = frame I := by
      intro I1 b rest hgf1 hrest1 hbr hcat hfr
      obtain ⟨hb, hrs⟩ := (bytes_ok_cons _ _).mp hbr
      obtain ⟨e1, e2⟩ := acc_add_shift bs b bl hbs hb (by omega)
      have hS : nat_bits bs bl ++ bits_of_bytes (p ++ gfile_rest I.gf)
          = nat_bits (bs + b * 2 ^ bl) (bl + 8) ++ bits_of_bytes (rest ++ gfile_rest I1.gf) := by
        rw [← hcat, nat_bits_add_mul _ _ _ _ hbs]
        simp only [List.cons_append, bits_of_bytes, List.append_assoc, List.append_eq]
      rw [e1, hS]
      by_cases hlt : bl + 8 < n
      · rw [if_pos hlt]
        have hlen : (p ++ gfile_rest I.gf).length = (rest ++ gfile_rest I1.gf).length + 1 := by
          rw [← hcat]; simp
        obtain ⟨J, j1, j2, j3, j4⟩ := ih I1 rest (bs + b * 2 ^ bl) (bl + 8) hgf1 hrest1 hrs e2 hlt
          (by omega) (by simp only [List.length_append] at hlen hdata ⊢; omega)
        exact ⟨J, j1, j2, j3, j4.trans hfr⟩
      · rw [if_neg hlt]
        have hle : n ≤ bl + 8 := by omega
        refine ⟨{ I1 with input := rest, bits_acc := (bs + b * 2 ^ bl) >>> n, bits_len := bl + 8 - n }, ?_, ?_, ?_, hfr⟩
        · rw [and_bitmask, List.take_append_of_le_length (by rw [nat_bits_length]; exact hle),
            take_nat_bits _ _ _ hle, bits_val_nat_bits]
        · simp only [bitstream]
          rw [List.drop_append_of_le_length (by rw [nat_bits_length]; exact hle), drop_nat_bits,
            Nat.shiftRight_eq_div_pow]
        · exact ⟨shr_lt _ _ _ e2 hle, by show bl + 8 - n ≤ 22; omega, hrs, hrest1, hgf1⟩
    unfold get_bits_loop
    cases hpp : p with
    | nil =>
      subst hpp
      simp only [if_true]
      have hr : gfile_rest I.gf ≠ [] := by
        intro he
        rw [he] at hdata
        simp at hdata
        omega
      obtain ⟨g, b, rest, hfb, hg1, hg2⟩ := (fetch_bytes_spec I hgf).2 hr
      rw [hfb]
      dsimp only
      have hall : bytes_ok ((b :: rest) ++ gfile_rest g) := by rw [hg1]; exact hrest
      obtain ⟨hbr, hgr⟩ := (bytes_ok_append _ _).mp hall
      exact step { I with gf := g, input := b :: rest } b rest hg2 hgr hbr
        (by simpa using hg1) rfl
    | cons b rest =>
      subst hpp
      rw [if_neg (List.cons_ne_nil b rest)]
      exact step I b rest hgf hrest hp rfl rfl

/-- With `n` bits left in the input, `get_bits` returns the value of the next `n` bits and
consumes them. -/
theorem get_bits_spec (I : ginflate_t) (n : Nat) (hI : bits_ok I) (hn : n ≤ 16)
    (hdata : n ≤ (bitstream I).length) :
    ∃ J, get_bits I n = .ok (bits_val ((bitstream I).take n)) J
      ∧ bitstream J = (bitstream I).drop n ∧ bits_ok J ∧ frame J = frame I := by
  obtain ⟨hacc, hlen, hin, hrest, hgf⟩ := hI
  unfold get_bits
  by_cases hfast : n ≤ I.bits_len
  · rw [if_pos hfast]
    refine ⟨{ I with bits_acc := I.bits_acc >>> n, bits_len := I.bits_len - n }, ?_, ?_, ?_, rfl⟩
    · unfold bitstream
      rw [and_bitmask, List.take_append_of_le_length (by rw [nat_bits_length]; exact hfast),
        take_nat_bits _ _ _ hfast, bits_val_nat_bits]
    · simp only [bitstream]
      rw [List.drop_append_of_le_length (by rw [nat_bits_length]; exact hfast), drop_nat_bits,
        Nat.shiftRight_eq_div_pow]
    · exact ⟨shr_lt _ _ _ hacc hfast, by show I.bits_len - n ≤ 22; omega, hin, hrest, hgf⟩
  · rw [if_neg hfast]
    unfold bitstream at hdata
    rw [List.length_append, nat_bits_length, bits_of_bytes_length, List.length_append] at hdata
    exact get_bits_loop_spec n hn n I I.input I.bits_acc I.bits_len hgf hrest hin hacc
      (by omega) (by omega) hdata

theorem bitstream_length_mod (I : ginflate_t) : (bitstream I).length % 8 = I.bits_len % 8 := by
  unfold bitstream
  rw [List.length_append, nat_bits_length, bits_of_bytes_length]
  omega

theorem drop_to_byte_spec (I : ginflate_t) (hI : bits_ok I) :
    bitstream (drop_to_byte I) = (bitstream I).drop ((bitstream I).length % 8)
    ∧ bits_ok (drop_to_byte I) ∧ frame (drop_to_byte I) = frame I := by
  obtain ⟨hacc, hlen, hin, hrest, hgf⟩ := hI
  have hm : I.bits_len % 8 ≤ I.bits_len := Nat.mod_le _ _
  refine ⟨?_, ?_, rfl⟩
  · rw [bitstream_length_mod]
    simp only [bitstream, drop_to_byte]
    rw [List.drop_append_of_le_length (by rw [nat_bits_length]; exact hm), drop_nat_bits,
      Nat.shiftRight_eq_div_pow]
  · exact ⟨shr_lt _ _ _ hacc hm, by show I.bits_len - I.bits_len % 8 ≤ 22; omega, hin, hrest, hgf⟩

/-! ## The loops of `init_huffdic` -/

theorem foldl_range_inv {β : Type} (f : β → Nat → β) (P : Nat → β → Prop) (init : β) :
    ∀ n : Nat, P 0 init → (∀ i b, i < n → P i b → P (i + 1) (f b i)) →
      P n ((List.range n).foldl f init) := by
  intro n
  induction n with
  | zero => intro h0 _; simpa using h0
  | succ n ih =>
    intro h0 hstep
    rw [List.range_succ, List.foldl_append]
    simp only [List.foldl_cons, List.foldl_nil]
    exact hstep n _ (Nat.lt_succ_self n)
      (ih h0 (fun i b hi hp => hstep i b (Nat.lt_succ_of_lt hi) hp))

theorem foldl_range1_inv {β : Type} (f : β → Nat → β) (P : Nat → β → Prop) (init : β) :
    ∀ n : Nat, P 0 init → (∀ i b, i < n → P i b → P (i + 1) (f b (i + 1))) →
      P n ((List.range' 1 n).foldl f init) := by
  intro n
  induction n with
  | zero => intro h0 _; simpa using h0
  | succ n ih =>
    intro h0 hstep
    rw [List.range'_concat, List.foldl_append]
    simp only [List.foldl_cons, List.foldl_nil]
    rw [Nat.one_mul, Nat.add_comm 1 n]
    exact hstep n _ (Nat.lt_succ_self n)
      (ih h0 (fun i b hi hp => hstep i b (Nat.lt_succ_of_lt hi) hp))

theorem take_succ_getD (L : List Nat) (i : Nat) (h : i < L.length) :
    L.take (i + 1) = L.take i ++ [L.getD i 0] := by
  rw [List.take_succ, List.getD_eq_getElem?_getD, List.getElem?_eq_getElem h]
  rfl

theorem getD_set_eq (l : List Nat) (i j v : Nat) :
    (l.set i v).getD j 0 = if i = j ∧ i < l.length then v else l.getD j 0 := by
  simp only [List.getD_eq_getElem?_getD, List.getElem?_set]
  by_cases hij : i = j
  · subst hij
    by_cases hl : i < l.length
    · simp [hl]
    · simp [hl]
      rw [List.getElem?_eq_none (by omega)]
      rfl
  · simp [hij]

theorem count_codelens_spec (L : List Nat) :
    (count_codelens L L.length).length = 16
    ∧ ∀ l, l < 16 → (count_codelens L L.length).getD l 0 = L.count l := by
  have key := foldl_range_inv
    (fun bl_count i =>
      bl_count.set (L.getD i 0) (bl_count.getD (L.getD i 0) 0 + 1))
    (fun i bc => i ≤ L.length → (bc.length = 16
      ∧ ∀ l, l < 16 → bc.getD l 0 = (L.take i).count l))
    (List.replicate codelen_limit 0) L.length
    (by
      intro _
      refine ⟨by simp, ?_⟩
      intro l hl
      simp [List.getD_eq_getElem?_getD, List.getElem?_replicate, hl])
    (by
      intro i bc hi hP hle
      obtain ⟨h1, h2⟩ := hP (by omega)
      dsimp only
      refine ⟨by rw [List.length_set]; exact h1, ?_⟩
      intro l hl
      rw [getD_set_eq, take_succ_getD L i hi, List.count_append, h1]
      generalize L.getD i 0 = x
      by_cases hx : x = l
      · subst hx
        have hc : List.count x [x] = 1 := by simp
        rw [if_pos ⟨rfl, hl⟩, h2 _ hl, hc]
      · have hc : List.count l [x] = 0 := by
          rw [List.count_eq_zero]
          intro hm
          exact hx (List.mem_singleton.mp hm).symm
        rw [if_neg (fun h => hx h.1), h2 l hl, hc, Nat.add_zero])
  have h := key (Nat.le_refl _)
  rw [List.take_length] at h
  exact h

theorem first_codes_spec (L : List Nat) (bl_count : List Nat)
    (hb0 : bl_count.getD 0 0 = 0)
    (hb : ∀ l, 1 ≤ l → l < 16 → bl_count.getD l 0 = L.count l) :
    (first_codes bl_count).2.length = 16
    ∧ ∀ l, 1 ≤ l → l ≤ 15 → (first_codes bl_count).2.getD l 0 = canon_first L l := by
  have key := foldl_range1_inv
    (fun (st : Nat × List Nat) i =>
      (((st.1 + bl_count.getD (i - 1) 0) <<< 1),
        st.2.set i ((st.1 + bl_count.getD (i - 1) 0) <<< 1)))
    (fun j st => j ≤ 15 → (st.1 = canon_first L j ∧ st.2.length = 16
      ∧ ∀ l, 1 ≤ l → l ≤ j → st.2.getD l 0 = canon_first L l))
    (0, List.replicate codelen_limit 0) 15
    (by
      intro _
      refine ⟨rfl, by simp, ?_⟩
      intro l h1 h2
      omega)
    (by
      intro j st hj hP _
      obtain ⟨h1, h2, h3⟩ := hP (by omega)
      dsimp only
      have hcode : (st.1 + bl_count.getD (j + 1 - 1) 0) <<< 1 = canon_first L (j + 1) := by
        rw [Nat.shiftLeft_eq, h1]
        simp only [Nat.add_sub_cancel, pow_one, canon_first]
        by_cases hj0 : j = 0
        · subst hj0
          rw [hb0, if_pos rfl]
        · rw [hb j (by omega) (by omega), if_neg hj0]
      refine ⟨hcode, by rw [List.length_set]; exact h2, ?_⟩
      intro l hl1 hl2
      rw [getD_set_eq, h2]
      by_cases hx : j + 1 = l
      · subst hx
        rw [if_pos ⟨rfl, by omega⟩, hcode]
      · rw [if_neg (by intro h; exact hx h.1)]
        exact h3 l hl1 (by omega))
  have h := key (Nat.le_refl _)
  exact ⟨h.2.1, h.2.2⟩

theorem find_max_codelen_spec (bl_count : List Nat) :
    find_max_codelen bl_count ≤ 15
    ∧ ∀ l, 1 ≤ l → l ≤ 15 → bl_count.getD l 0 ≠ 0 → l ≤ find_max_codelen bl_count := by
  have key := foldl_range1_inv
    (fun (m : Nat) i => if bl_count.getD i 0 ≠ 0 then i else m)
    (fun j m => m ≤ j ∧ ∀ l, 1 ≤ l → l ≤ j → bl_count.getD l 0 ≠ 0 → l ≤ m)
    0 15
    (by
      refine ⟨Nat.le_refl _, ?_⟩
      intro l h1 h2
      omega)
    (by
      intro j m _ hP
      obtain ⟨h1, h2⟩ := hP
      dsimp only
      by_cases hc : bl_count.getD (j + 1) 0 ≠ 0
      · rw [if_pos hc]
        exact ⟨Nat.le_refl _, fun l _ hl _ => hl⟩
      · rw [if_neg hc]
        refine ⟨by omega, ?_⟩
        intro l hl1 hl2 hl3
        by_cases hx : l = j + 1
        · subst hx; exact absurd hl3 hc
        · exact h2 l hl1 (by omega) hl3)
  exact key

theorem fill_lookup_spec (w cstep hdic_size : Nat) (hc : 0 < cstep) :
    ∀ (fuel c : Nat) (lookup : List Nat), hdic_size ≤ lookup.length → hdic_size ≤ fuel + c →
      (fill_lookup w cstep hdic_size fuel c lookup).length = lookup.length
      ∧ ∀ idx, (fill_lookup w cstep hdic_size fuel c lookup).getD idx 0
          = if idx < hdic_size ∧ c ≤ idx ∧ (idx - c) % cstep = 0 then w
            else lookup.getD idx 0 := by
  intro fuel
  induction fuel with
  | zero =>
    intro c lookup _ hf
    refine ⟨rfl, ?_⟩
    intro idx
    rw [if_neg (by omega)]
    rfl
  | succ k ih =>
    intro c lookup hl hf
    unfold fill_lookup
    by_cases hlt : c < hdic_size
    · rw [if_pos hlt]
      obtain ⟨i1, i2⟩ := ih (c + cstep) (lookup.set c w) (by simpa using hl) (by omega)
      refine ⟨by rw [i1]; simp, ?_⟩
      intro idx
      rw [i2, getD_set_eq]
      by_cases hA : idx < hdic_size ∧ c + cstep ≤ idx ∧ (idx - (c + cstep)) % cstep = 0
      · have hD : idx < hdic_size ∧ c ≤ idx ∧ (idx - c) % cstep = 0 := by
          refine ⟨hA.1, by omega, ?_⟩
          have : idx - c = (idx - (c + cstep)) + cstep := by omega
          rw [this, Nat.add_mod_right]
          exact hA.2.2
        rw [if_pos hA, if_pos hD]
      · rw [if_neg hA]
        by_cases hB : c = idx ∧ c < lookup.length
        · have hD : idx < hdic_size ∧ c ≤ idx ∧ (idx - c) % cstep = 0 := by
            obtain ⟨hB1, _⟩ := hB
            subst hB1
            exact ⟨hlt, Nat.le_refl _, by simp⟩
          rw [if_pos hB, if_pos hD]
        · have hD : ¬ (idx < hdic_size ∧ c ≤ idx ∧ (idx - c) % cstep = 0) := by
            rintro ⟨d1, d2, d3⟩
            have hne : c ≠ idx := fun h => hB ⟨h, by omega⟩
            by_cases h1 : c + cstep ≤ idx
            · apply hA
              refine ⟨d1, h1, ?_⟩
              have : idx - c = (idx - (c + cstep)) + cstep := by omega
              rw [this, Nat.add_mod_right] at d3
              exact d3
            · have h5 : (idx - c) % cstep = idx - c := Nat.mod_eq_of_lt (by omega)
              rw [h5] at d3
              omega
          rw [if_neg hB, if_neg hD]
    · rw [if_neg hlt]
      refine ⟨rfl, ?_⟩
      intro idx
      rw [if_neg (by omega)]

theorem fill_cond_iff (idx c bl : Nat) (hc : c < 2 ^ bl) :
    (c ≤ idx ∧ (idx - c) % 2 ^ bl = 0) ↔ idx % 2 ^ bl = c := by
  constructor
  · rintro ⟨h1, h2⟩
    have : idx = (idx - c) + c := by omega
    rw [this, Nat.add_mod, h2, Nat.zero_add, Nat.mod_mod, Nat.mod_eq_of_lt hc]
  · intro h
    have h1 : c ≤ idx := by rw [← h]; exact Nat.mod_le _ _
    refine ⟨h1, ?_⟩
    have h2 := Nat.mod_add_div idx (2 ^ bl)
    have h3 : idx - c = 2 ^ bl * (idx / 2 ^ bl) := by omega
    rw [h3, Nat.mul_mod_right]

/-! ## Canonical codes are prefix codes -/

theorem canon_first_scaled (L : List Nat) :
    ∀ l, l ≤ 15 → canon_first L l * 2 ^ (15 - l) = kraft_below L l := by
  intro l
  induction l with
  | zero => intro _; simp [canon_first, kraft_below]
  | succ l ih =>
    intro hl
    have e : 2 ^ (15 - l) = 2 * 2 ^ (15 - (l + 1)) := by
      have : 15 - l = (15 - (l + 1)) + 1 := by omega
      rw [this, pow_succ]; ring
    simp only [canon_first, kraft_below]
    rw [← ih (by omega), e]
    by_cases h0 : l = 0
    · subst h0
      simp [canon_first]
    · simp only [if_neg h0]
      ring

theorem kraft_below_mono (L : List Nat) : ∀ l l2, l ≤ l2 → kraft_below L l ≤ kraft_below L l2 := by
  intro l l2 h
  induction l2 with
  | zero =>
    have : l = 0 := by omega
    subst this
    exact Nat.le_refl _
  | succ m ih =>
    by_cases hm : l ≤ m
    · have := ih hm
      simp only [kraft_below]
      omega
    · have : l = m + 1 := by omega
      subst this
      exact Nat.le_refl _

theorem kraft_below_cons (x : Nat) (L : List Nat) :
    ∀ l, kraft_below (x :: L) l
      = kraft_below L l + (if 1 ≤ x ∧ x < l then 2 ^ (15 - x) else 0) := by
  intro l
  induction l with
  | zero => simp [kraft_below]
  | succ l ih =>
    simp only [kraft_below, ih, List.count_cons]
    by_cases h0 : l = 0
    · subst h0
      simp
      omega
    · rw [if_neg h0, if_neg h0]
      by_cases hx : x = l
      · subst hx
        have h1 : ¬ (1 ≤ x ∧ x < x) := by omega
        have h2 : (1 ≤ x ∧ x < x + 1) := by omega
        rw [if_neg h1, if_pos h2]
        simp
        ring
      · have hb : (x == l) = false := by simpa using hx
        rw [hb]
        by_cases h3 : 1 ≤ x ∧ x < l
        · have h4 : 1 ≤ x ∧ x < l + 1 := by omega
          rw [if_pos h3, if_pos h4]
          simp
          omega
        · have h4 : ¬ (1 ≤ x ∧ x < l + 1) := by omega
          rw [if_neg h3, if_neg h4]
          simp

theorem kraft_below_16 (L : List Nat) (h : ∀ l ∈ L, l ≤ 15) : kraft_below L 16 = kraft_sum L := by
  induction L with
  | nil => simp [kraft_below, kraft_sum]
  | cons x L ih =>
    rw [kraft_below_cons, ih (fun l hl => h l (List.mem_cons_of_mem _ hl))]
    have hx : x ≤ 15 := h x (List.mem_cons_self _ _)
    unfold kraft_sum
    by_cases h0 : x = 0
    · subst h0
      simp
    · have h1 : 1 ≤ x ∧ x < 16 := by omega
      rw [if_pos h1]
      simp [List.filter_cons, h0]
      omega

theorem rank_lt_count (L : List Nat) (s : Nat) (hs : s < L.length) :
    (L.take s).count (L.getD s 0) + 1 ≤ L.count (L.getD s 0) := by
  have h1 : L = L.take s ++ (L.getD s 0 :: L.drop (s + 1)) := by
    rw [List.getD_eq_getElem?_getD, List.getElem?_eq_getElem hs]
    simp only [Option.getD_some]
    rw [← List.drop_eq_getElem_cons hs, List.take_append_drop]
  generalize L.getD s 0 = x at h1 ⊢
  conv_rhs => rw [h1]
  rw [List.count_append, List.count_cons_self]
  omega

theorem rank_mono (L : List Nat) (s t : Nat) (hst : s < t) (ht : t < L.length)
    (hl : L.getD s 0 = L.getD t 0) :
    (L.take s).count (L.getD s 0) + 1 ≤ (L.take t).count (L.getD t 0) := by
  have hlen : s < (L.take t).length := by
    rw [List.length_take]; omega
  have h := rank_lt_count (L.take t) s hlen
  have e1 : (L.take t).take s = L.take s := by
    rw [List.take_take, Nat.min_eq_left (by omega)]
  have e2 : (L.take t).getD s 0 = L.getD s 0 := by
    simp only [List.getD_eq_getElem?_getD, List.getElem?_take, if_pos hst]
  rw [e1, e2] at h
  rw [← hl]
  exact h

theorem getD_mem (L : List Nat) (s : Nat) (hs : s < L.length) : L.getD s 0 ∈ L := by
  rw [List.getD_eq_getElem?_getD, List.getElem?_eq_getElem hs]
  exact List.getElem_mem hs

/-- The code of a symbol, left-aligned at 15 bits, ends below the Kraft sum. -/
theorem canon_code_scaled_le (L : List Nat) (hL : lengths_ok L) (s : Nat) (hs : s < L.length)
    (hpos : 0 < L.getD s 0) :
    (canon_code L s + 1) * 2 ^ (15 - L.getD s 0) ≤ kraft_below L (L.getD s 0 + 1) := by
  have hl15 : L.getD s 0 ≤ 15 := hL.1 _ (getD_mem L s hs)
  have hr := rank_lt_count L s hs
  have h1 := canon_first_scaled L (L.getD s 0) hl15
  simp only [kraft_below, if_neg (Nat.pos_iff_ne_zero.mp hpos)]
  rw [← h1]
  unfold canon_code
  have : (canon_first L (L.getD s 0) + List.count (L.getD s 0) (List.take s L) + 1)
      ≤ canon_first L (L.getD s 0) + List.count (L.getD s 0) L := by omega
  calc (canon_first L (L.getD s 0) + List.count (L.getD s 0) (List.take s L) + 1)
        * 2 ^ (15 - L.getD s 0)
      ≤ (canon_first L (L.getD s 0) + List.count (L.getD s 0) L) * 2 ^ (15 - L.getD s 0) :=
        Nat.mul_le_mul_right _ this
    _ = _ := by ring

theorem canon_code_lt (L : List Nat) (hL : lengths_ok L) (s : Nat) (hs : s < L.length)
    (hpos : 0 < L.getD s 0) : canon_code L s < 2 ^ L.getD s 0 := by
  have hl15 : L.getD s 0 ≤ 15 := hL.1 _ (getD_mem L s hs)
  have h1 := canon_code_scaled_le L hL s hs hpos
  have h2 := kraft_below_mono L (L.getD s 0 + 1) 16 (by omega)
  rw [kraft_below_16 L hL.1] at h2
  have h3 := hL.2
  have e : (2 : Nat) ^ 15 = 2 ^ L.getD s 0 * 2 ^ (15 - L.getD s 0) := by
    rw [← pow_add]; congr 1; omega
  have h4 : (canon_code L s + 1) * 2 ^ (15 - L.getD s 0)
      ≤ 2 ^ L.getD s 0 * 2 ^ (15 - L.getD s 0) := by
    rw [← e]; omega
  have h5 := Nat.le_of_mul_le_mul_right h4 (Nat.two_pow_pos _)
  omega

/-- A code of a longer length cannot begin with the code of another symbol. -/
theorem canon_code_div_ne (L : List Nat) (hL : lengths_ok L) (s t : Nat)
    (hs : s < L.length) (ht : t < L.length) (hps : 0 < L.getD s 0)
    (hle : L.getD s 0 ≤ L.getD t 0)
    (hdiv : canon_code L t / 2 ^ (L.getD t 0 - L.getD s 0) = canon_code L s) : s = t := by
  have ht15 : L.getD t 0 ≤ 15 := hL.1 _ (getD_mem L t ht)
  by_cases heq : L.getD s 0 = L.getD t 0
  · rw [heq, Nat.sub_self, pow_zero, Nat.div_one] at hdiv
    by_contra hne
    rcases Nat.lt_or_gt_of_ne hne with h | h
    · have := rank_mono L s t h ht heq
      unfold canon_code at hdiv
      rw [heq] at this
      rw [heq] at hdiv
      omega
    · have := rank_mono L t s h hs heq.symm
      unfold canon_code at hdiv
      rw [heq] at hdiv
      rw [heq] at this
      omega
  · exfalso
    have hlt : L.getD s 0 < L.getD t 0 := by omega
    have h1 := canon_code_scaled_le L hL s hs hps
    have h2 := kraft_below_mono L (L.getD s 0 + 1) (L.getD t 0) (by omega)
    have h3 := canon_first_scaled L (L.getD t 0) ht15
    have h4 : canon_first L (L.getD t 0) * 2 ^ (15 - L.getD t 0)
        ≤ canon_code L t * 2 ^ (15 - L.getD t 0) := by
      apply Nat.mul_le_mul_right
      unfold canon_code
      omega
    have h5 : canon_code L t < (canon_code L s + 1) * 2 ^ (L.getD t 0 - L.getD s 0) := by
      rw [← hdiv]
      have := Nat.lt_succ_self (canon_code L t / 2 ^ (L.getD t 0 - L.getD s 0))
      exact (Nat.div_lt_iff_lt_mul (Nat.two_pow_pos _)).mp this
    have e : 2 ^ (15 - L.getD s 0)
        = 2 ^ (L.getD t 0 - L.getD s 0) * 2 ^ (15 - L.getD t 0) := by
      rw [← pow_add]; congr 1; omega
    have h6 : canon_code L t * 2 ^ (15 - L.getD t 0)
        < (canon_code L s + 1) * 2 ^ (15 - L.getD s 0) := by
      rw [e, ← Nat.mul_assoc]
      exact Nat.mul_lt_mul_of_pos_right h5 (Nat.two_pow_pos _)
    omega

/-! ## Bit reversal -/

theorem reverse_bits_loop_spec :
    ∀ (k c d : Nat), reverse_bits_loop k c d = d * 2 ^ k + bits_val ((nat_bits c k).reverse) := by
  intro k
  induction k with
  | zero => intro c d; simp [reverse_bits_loop, nat_bits, bits_val]
  | succ k ih =>
    intro c d
    simp only [reverse_bits_loop, nat_bits, List.reverse_cons]
    rw [ih, bits_val_append, List.length_reverse, nat_bits_length, Nat.shiftRight_eq_div_pow,
      Nat.shiftLeft_eq, Nat.and_one_is_mod]
    simp only [pow_one, bits_val, Nat.mul_zero, Nat.add_zero]
    have hc : c % 2 = 0 ∨ c % 2 = 1 := by omega
    rcases hc with hc | hc
    · simp [hc]; ring
    · simp [hc]; ring

theorem reverse_bits_eq (c n : Nat) : reverse_bits c n = bits_val ((nat_bits c n).reverse) := by
  unfold reverse_bits
  rw [reverse_bits_loop_spec]
  simp

theorem reverse_bits_mod (c n k : Nat) (hk : k ≤ n) :
    reverse_bits c n % 2 ^ k = reverse_bits (c / 2 ^ (n - k)) k := by
  rw [reverse_bits_eq, reverse_bits_eq, ← bits_val_take, List.take_reverse, nat_bits_length,
    drop_nat_bits]
  congr 3
  omega

theorem bits_val_inj (l1 l2 : List Bool) (hlen : l1.length = l2.length)
    (hv : bits_val l1 = bits_val l2) : l1 = l2 := by
  rw [← nat_bits_bits_val l1, ← nat_bits_bits_val l2, hlen, hv]

theorem reverse_bits_inj (a b k : Nat) (ha : a < 2 ^ k) (hb : b < 2 ^ k)
    (h : reverse_bits a k = reverse_bits b k) : a = b := by
  rw [reverse_bits_eq, reverse_bits_eq] at h
  have h1 := bits_val_inj _ _ (by simp [nat_bits_length]) h
  have h2 := List.reverse_injective h1
  have h3 := congrArg bits_val h2
  rw [bits_val_nat_bits, bits_val_nat_bits, Nat.mod_eq_of_lt ha, Nat.mod_eq_of_lt hb] at h3
  exact h3

theorem reverse_bits_lt (c n : Nat) : reverse_bits c n < 2 ^ n := by
  rw [reverse_bits_eq]
  have := bits_val_lt ((nat_bits c n).reverse)
  simpa [nat_bits_length] using this

/-- A table slot matches the code of at most one symbol. -/
theorem slot_unique (L : List Nat) (hL : lengths_ok L) (s t idx : Nat)
    (hs : s < L.length) (ht : t < L.length) (hps : 0 < L.getD s 0) (hpt : 0 < L.getD t 0)
    (hms : idx % 2 ^ L.getD s 0 = reverse_bits (canon_code L s) (L.getD s 0))
    (hmt : idx % 2 ^ L.getD t 0 = reverse_bits (canon_code L t) (L.getD t 0)) : s = t := by
  have key : ∀ (a b : Nat), a < L.length → b < L.length → 0 < L.getD a 0 →
      L.getD a 0 ≤ L.getD b 0 →
      idx % 2 ^ L.getD a 0 = reverse_bits (canon_code L a) (L.getD a 0) →
      idx % 2 ^ L.getD b 0 = reverse_bits (canon_code L b) (L.getD b 0) → a = b := by
    intro a b ha hb hpa hle hma hmb
    have hd : 2 ^ L.getD a 0 ∣ 2 ^ L.getD b 0 := pow_dvd_pow 2 hle
    have h1 : idx % 2 ^ L.getD b 0 % 2 ^ L.getD a 0 = idx % 2 ^ L.getD a 0 :=
      Nat.mod_mod_of_dvd idx hd
    rw [hmb, hma, reverse_bits_mod _ _ _ hle] at h1
    have hcb := canon_code_lt L hL b hb (by omega)
    have hca := canon_code_lt L hL a ha hpa
    have hdiv : canon_code L b / 2 ^ (L.getD b 0 - L.getD a 0) < 2 ^ L.getD a 0 := by
      apply Nat.div_lt_of_lt_mul
      rw [← pow_add]
      have : L.getD b 0 - L.getD a 0 + L.getD a 0 = L.getD b 0 := by omega
      rw [this]
      exact hcb
    have h2 := reverse_bits_inj _ _ _ hdiv hca h1
    exact canon_code_div_ne L hL a b ha hb hpa hle h2
  by_cases hle : L.getD s 0 ≤ L.getD t 0
  · exact key s t hs ht hps hle hms hmt
  · exact (key t s ht hs hpt (by omega) hmt hms).symm

/-! ## The table built by `init_huffdic` -/

theorem assign_codes_spec (L : List Nat) (hL : lengths_ok L) (hdic_size : Nat)
    (nc T0 : List Nat) (hnc_len : nc.length = 16)
    (hnc : ∀ l, 1 ≤ l → l ≤ 15 → nc.getD l 0 = canon_first L l)
    (hT : hdic_size ≤ T0.length) :
    ∀ idx, idx < hdic_size → ∀ s, s < L.length → 0 < L.getD s 0 →
      idx % 2 ^ L.getD s 0 = reverse_bits (canon_code L s) (L.getD s 0) →
      (assign_codes L L.length hdic_size nc T0).2.getD idx 0
        = pack_symb_and_bl s (L.getD s 0) := by
  have key := foldl_range_inv
    (fun (st : List Nat × List Nat) i =>
      if L.getD i 0 > 0 then
        (st.1.set (L.getD i 0) (st.1.getD (L.getD i 0) 0 + 1),
         fill_lookup (pack_symb_and_bl i (L.getD i 0)) (1 <<< L.getD i 0) hdic_size hdic_size
           (reverse_bits (st.1.getD (L.getD i 0) 0) (L.getD i 0)) st.2)
      else st)
    (fun i st => i ≤ L.length → (st.1.length = 16
      ∧ (∀ l, 1 ≤ l → l ≤ 15 → st.1.getD l 0 = canon_first L l + (L.take i).count l)
      ∧ hdic_size ≤ st.2.length
      ∧ (∀ idx, idx < hdic_size → ∀ s, s < i → 0 < L.getD s 0 →
          idx % 2 ^ L.getD s 0 = reverse_bits (canon_code L s) (L.getD s 0) →
          st.2.getD idx 0 = pack_symb_and_bl s (L.getD s 0))))
    (nc, T0) L.length
    (by
      intro _
      refine ⟨hnc_len, ?_, hT, ?_⟩
      · intro l h1 h2
        show nc.getD l 0 = canon_first L l + (List.take 0 L).count l
        rw [hnc l h1 h2, List.take_zero, List.count_nil]
        rfl
      · intro idx _ s hs
        omega)
    (by
      intro i st hi hP _
      obtain ⟨p1, p2, p3, p4⟩ := hP (by omega)
      have hbl15 : L.getD i 0 ≤ 15 := hL.1 _ (getD_mem L i hi)
      dsimp only
      by_cases hbl : L.getD i 0 > 0
      · rw [if_pos hbl]
        have hc : st.1.getD (L.getD i 0) 0 = canon_code L i := by
          rw [p2 _ hbl hbl15]
          rfl
        rw [hc]
        have hstep : (0 : Nat) < 1 <<< L.getD i 0 := by
          rw [Nat.shiftLeft_eq, Nat.one_mul]; exact Nat.two_pow_pos _
        obtain ⟨f1, f2⟩ := fill_lookup_spec (pack_symb_and_bl i (L.getD i 0))
          (1 <<< L.getD i 0) hdic_size hstep hdic_size
          (reverse_bits (canon_code L i) (L.getD i 0)) st.2 p3 (by omega)
        refine ⟨by rw [List.length_set]; exact p1, ?_, by rw [f1]; exact p3, ?_⟩
        · intro l h1 h2
          rw [getD_set_eq, take_succ_getD L i hi, List.count_append, p1]
          by_cases hx : L.getD i 0 = l
          · have hc1 : List.count l [L.getD i 0] = 1 := by rw [hx]; simp
            rw [if_pos ⟨hx, by omega⟩, hc1]
            have hcc : canon_code L i = canon_first L l + (L.take i).count l := by
              rw [← hx]
              rfl
            omega
          · have hc0 : List.count l [L.getD i 0] = 0 := by
              rw [List.count_eq_zero]
              intro hm
              exact hx (List.mem_singleton.mp hm).symm
            rw [if_neg (fun h => hx h.1), hc0, p2 l h1 h2]
            omega
        · intro idx hidx s hs hps hm
          rw [f2]
          have hrl := reverse_bits_lt (canon_code L i) (L.getD i 0)
          have hshift : (1 : Nat) <<< L.getD i 0 = 2 ^ L.getD i 0 := by
            rw [Nat.shiftLeft_eq, Nat.one_mul]
          rw [hshift]
          by_cases hsi : s = i
          · subst hsi
            have hcond := (fill_cond_iff idx _ _ hrl).mpr hm
            rw [if_pos ⟨hidx, hcond.1, hcond.2⟩]
          · have hslt : s < i := by omega
            have hncond : ¬ (idx < hdic_size
                ∧ reverse_bits (canon_code L i) (L.getD i 0) ≤ idx
                ∧ (idx - reverse_bits (canon_code L i) (L.getD i 0)) % 2 ^ L.getD i 0 = 0) := by
              rintro ⟨_, c1, c2⟩
              have hmi := (fill_cond_iff idx _ _ hrl).mp ⟨c1, c2⟩
              exact hsi (slot_unique L hL s i idx (by omega) hi hps hbl hm hmi)
            rw [if_neg hncond]
            exact p4 idx hidx s hslt hps hm
      · rw [if_neg hbl]
        have hz : L.getD i 0 = 0 := by omega
        refine ⟨p1, ?_, p3, ?_⟩
        · intro l h1 h2
          rw [take_succ_getD L i hi, List.count_append, hz]
          have hc0 : List.count l [0] = 0 := by
            rw [List.count_eq_zero]
            intro hm
            have := List.mem_singleton.mp hm
            omega
          rw [hc0, p2 l h1 h2]
          omega
        · intro idx hidx s hs hps hm
          have hsi : s ≠ i := by
            intro h; subst h; omega
          exact p4 idx hidx s (by omega) hps hm)
  intro idx hidx s hs hps hm
  exact (key (Nat.le_refl _)).2.2.2 idx hidx s hs hps hm

/-- The table `init_huffdic` builds from valid code lengths: every slot whose low bits are
the reversed canonical code of a symbol holds that symbol packed with its code length. -/
theorem init_huffdic_spec (L : List Nat) (hL : lengths_ok L) (h0 : ginflate_hdic_t) :
    (init_huffdic L L.length h0).max_codelen ≤ 15
    ∧ (∀ s, s < L.length → 0 < L.getD s 0 →
        L.getD s 0 ≤ (init_huffdic L L.length h0).max_codelen)
    ∧ (∀ idx, idx < 2 ^ (init_huffdic L L.length h0).max_codelen →
        ∀ s, s < L.length → 0 < L.getD s 0 →
        idx % 2 ^ L.getD s 0 = reverse_bits (canon_code L s) (L.getD s 0) →
        (init_huffdic L L.length h0).lookup.getD idx 0 = pack_symb_and_bl s (L.getD s 0)) := by
  obtain ⟨c1, c2⟩ := count_codelens_spec L
  have hb0 : ((count_codelens L L.length).set 0 0).getD 0 0 = 0 := by
    rw [getD_set_eq, if_pos ⟨rfl, by omega⟩]
  have hb : ∀ l, 1 ≤ l → l < 16 →
      ((count_codelens L L.length).set 0 0).getD l 0 = L.count l := by
    intro l h1 h2
    rw [getD_set_eq, if_neg (by omega), c2 l h2]
  obtain ⟨n1, n2⟩ := first_codes_spec L _ hb0 hb
  obtain ⟨m1, m2⟩ := find_max_codelen_spec ((count_codelens L L.length).set 0 0)
  have hmax : ∀ s, s < L.length → 0 < L.getD s 0 →
      L.getD s 0 ≤ find_max_codelen ((count_codelens L L.length).set 0 0) := by
    intro s hs hps
    have hl15 : L.getD s 0 ≤ 15 := hL.1 _ (getD_mem L s hs)
    apply m2 _ hps hl15
    rw [hb _ hps (by omega)]
    exact Nat.pos_iff_ne_zero.mp (List.count_pos_iff.mpr (getD_mem L s hs))
  refine ⟨m1, hmax, ?_⟩
  intro idx hidx s hs hps hm
  unfold init_huffdic at hidx ⊢
  dsimp only at hidx ⊢
  have hsz : (1 : Nat) <<< find_max_codelen ((count_codelens L L.length).set 0 0)
      = 2 ^ find_max_codelen ((count_codelens L L.length).set 0 0) := by
    rw [Nat.shiftLeft_eq, Nat.one_mul]
  rw [hsz]
  exact assign_codes_spec L hL _ _ _ n1 n2 (by simp) idx hidx s hs hps hm

theorem unpack_pack (s bl : Nat) (hs : s < 4096) (hbl : bl ≤ 15) :
    unpack_symb (pack_symb_and_bl s bl) = s ∧ unpack_bl (pack_symb_and_bl s bl) = bl := by
  unfold unpack_symb unpack_bl pack_symb_and_bl
  rw [and_bitmask, Nat.shiftLeft_eq, Nat.shiftRight_eq_div_pow]
  norm_num
  omega

/-- Round trip of the canonical code through the table and `decode_huff`. -/
theorem decode_huff_canonical (L : List Nat) (hL : lengths_ok L) (hlen : L.length ≤ 4096)
    (s : Nat) (hs : s < L.length) (hpos : 0 < L.getD s 0)
    (I : ginflate_t) (hI : bits_ok I) (h0 : ginflate_hdic_t) (rest : List Bool)
    (hbits : bitstream I = code_bits L s ++ rest) :
    ∃ J, decode_huff I (init_huffdic L L.length h0) = .ok s J ∧ bitstream J = rest
      ∧ bits_ok J ∧ frame J = frame I := by
  obtain ⟨t1, t2, t3⟩ := init_huffdic_spec L hL h0
  have hbl := t2 s hs hpos
  have hl15 : L.getD s 0 ≤ 15 := hL.1 _ (getD_mem L s hs)
  obtain ⟨f1, f2, f3, f4, f5⟩ := fetch_bits_spec I _ hI t1
  have hcl : (code_bits L s).length = L.getD s 0 := by
    unfold code_bits
    rw [List.length_reverse, nat_bits_length]
  have hidx : (fetch_bits I (init_huffdic L L.length h0).max_codelen).1
      < 2 ^ (init_huffdic L L.length h0).max_codelen := by
    rw [f1]
    have hlt := bits_val_lt ((bitstream I).take (init_huffdic L L.length h0).max_codelen)
    have hle : ((bitstream I).take (init_huffdic L L.length h0).max_codelen).length
        ≤ (init_huffdic L L.length h0).max_codelen := by
      rw [List.length_take]; omega
    exact Nat.lt_of_lt_of_le hlt (Nat.pow_le_pow_right (by norm_num) hle)
  have hmatch : (fetch_bits I (init_huffdic L L.length h0).max_codelen).1 % 2 ^ L.getD s 0
      = reverse_bits (canon_code L s) (L.getD s 0) := by
    rw [f1, ← bits_val_take, List.take_take, Nat.min_eq_left hbl, hbits,
      List.take_left' hcl, reverse_bits_eq]
    rfl
  have hw := t3 _ hidx s hs hpos hmatch
  obtain ⟨u1, u2⟩ := unpack_pack s (L.getD s 0) (by omega) hl15
  have hdrop : L.getD s 0 ≤ (fetch_bits I (init_huffdic L L.length h0).max_codelen).2.bits_len := by
    rcases f5 with h | h
    · omega
    · rw [← h, hbits, List.length_append, hcl]
      omega
  obtain ⟨J, j1, j2, j3, j4⟩ := drop_bits_spec _ (L.getD s 0) f2 hdrop
  refine ⟨J, ?_, ?_, j3, j4.trans f4⟩
  · unfold decode_huff
    dsimp only
    rw [hw, u1, u2, j1]
  · rw [j2, f3, hbits, List.drop_left' hcl]

/-! ## The fixed tables -/

theorem foldl_range_congr {β : Type} (f g : β → Nat → β) (init : β) :
    ∀ n : Nat, (∀ i b, i < n → f b i = g b i) →
      (List.range n).foldl f init = (List.range n).foldl g init := by
  intro n
  induction n with
  | zero => intro _; rfl
  | succ n ih =>
    intro h
    rw [List.range_succ, List.foldl_append, List.foldl_append,
      ih (fun i b hi => h i b (Nat.lt_succ_of_lt hi))]
    simp only [List.foldl_cons, List.foldl_nil]
    exact h n _ (Nat.lt_succ_self n)

theorem getD_take (L : List Nat) (n i : Nat) (h : i < n) :
    (L.take n).getD i 0 = L.getD i 0 := by
  simp [List.getD_eq_getElem?_getD, List.getElem?_take, h]

/-- The table `init_huffdic` builds depends on the first `num_codes` code lengths only. -/
theorem init_huffdic_take (L : List Nat) (n : Nat) (h0 : ginflate_hdic_t) :
    init_huffdic L n h0 = init_huffdic (L.take n) n h0 := by
  have hc : count_codelens L n = count_codelens (L.take n) n := by
    unfold count_codelens
    apply foldl_range_congr
    intro i b hi
    rw [getD_take L n i hi]
  have ha : ∀ sz nc T, assign_codes L n sz nc T = assign_codes (L.take n) n sz nc T := by
    intro sz nc T
    unfold assign_codes
    apply foldl_range_congr
    intro i b hi
    rw [getD_take L n i hi]
  unfold init_huffdic
  rw [hc]
  simp only [ha]

theorem fixed_lit_length : fixed_lit_clbuf.length = 288 := by decide!

theorem fixed_lit_lengths_ok : lengths_ok fixed_lit_clbuf := by decide!

theorem fixed_dist_take : fixed_dist_clbuf.take 32 = fixed_dist_lens := by decide

theorem fixed_dist_lengths_ok : lengths_ok fixed_dist_lens := by decide

theorem fixed_lit_pos (s : Nat) (hs : s < 288) : 0 < fixed_lit_clbuf.getD s 0 := by
  have h : ∀ l ∈ fixed_lit_clbuf, 0 < l := by decide!
  exact h _ (getD_mem fixed_lit_clbuf s (by rw [fixed_lit_length]; exact hs))

theorem fixed_dist_pos (s : Nat) (hs : s < 32) : 0 < fixed_dist_lens.getD s 0 := by
  have h : ∀ l ∈ fixed_dist_lens, 0 < l := by decide
  exact h _ (getD_mem fixed_dist_lens s (by simpa [fixed_dist_lens] using hs))

/-- Decoding a literal/length symbol with the fixed table. -/
theorem decode_huff_fixed_lit (I : ginflate_t) (s : Nat) (Y : List Bool) (h0 : ginflate_hdic_t)
    (hI : bits_ok I) (hs : s < 288) (hbits : bitstream I = code_bits fixed_lit_clbuf s ++ Y) :
    ∃ J, decode_huff I (init_huffdic fixed_lit_clbuf 288 h0) = .ok s J ∧ bitstream J = Y
      ∧ bits_ok J ∧ frame J = frame I := by
  have h := decode_huff_canonical fixed_lit_clbuf fixed_lit_lengths_ok
    (by rw [fixed_lit_length]; norm_num) s (by rw [fixed_lit_length]; exact hs)
    (fixed_lit_pos s hs) I hI h0 Y hbits
  rw [fixed_lit_length] at h
  exact h

/-- Decoding a distance symbol with the fixed table. -/
theorem decode_huff_fixed_dist (I : ginflate_t) (s : Nat) (Y : List Bool)
    (h0 : ginflate_hdic_t)
    (hI : bits_ok I) (hs : s < 32) (hbits : bitstream I = code_bits fixed_dist_lens s ++ Y) :
    ∃ J, decode_huff I (init_huffdic fixed_dist_clbuf 32 h0) = .ok s J ∧ bitstream J = Y
      ∧ bits_ok J ∧ frame J = frame I := by
  have hl : fixed_dist_lens.length = 32 := by decide
  have h := decode_huff_canonical fixed_dist_lens fixed_dist_lengths_ok
    (by rw [hl]; norm_num) s (by rw [hl]; exact hs)
    (fixed_dist_pos s hs) I hI h0 Y hbits
  rw [hl] at h
  rw [init_huffdic_take, fixed_dist_take]
  exact h

theorem decode_ext_spec (I : ginflate_t) (ext : List extra_def_t) (c v : Nat) (Y : List Bool)
    (hc : c < ext.length) (hI : bits_ok I) (hn : (ext.getD c ⟨0, 0⟩).bits ≤ 16)
    (hv : v < 2 ^ (ext.getD c ⟨0, 0⟩).bits)
    (hbits : bitstream I = nat_bits v (ext.getD c ⟨0, 0⟩).bits ++ Y) :
    ∃ J, decode_ext I ext c = .ok ((ext.getD c ⟨0, 0⟩).base + v) J ∧ bitstream J = Y
      ∧ bits_ok J ∧ frame J = frame I := by
  obtain ⟨J, j1, j2, j3, j4⟩ := get_bits_spec I _ hI hn
    (by rw [hbits, List.length_append, nat_bits_length]; omega)
  refine ⟨J, ?_, ?_, j3, j4⟩
  · unfold decode_ext
    rw [if_pos hc, j1, hbits, List.take_left' (nat_bits_length _ v), bits_val_nat_bits,
      Nat.mod_eq_of_lt hv]
  · rw [j2, hbits, List.drop_left' (nat_bits_length _ v)]

/-! ## The decoder: ring buffer, matches, stored blocks -/

theorem frame_fields (I J : ginflate_t) (h : frame J = frame I) :
    J.ringbuf_pos = I.ringbuf_pos ∧ J.match_len = I.match_len ∧ J.match_dist = I.match_dist
    ∧ J.bfinal = I.bfinal ∧ J.err = I.err ∧ J.ringbuf = I.ringbuf ∧ J.hdic_lit = I.hdic_lit
    ∧ J.hdic_dist = I.hdic_dist ∧ J.infl = I.infl := by
  simp only [frame, Prod.mk.injEq] at h
  exact h

theorem umin_eq_min (x y : Nat) : umin x y = min x y := by
  unfold umin
  split <;> omega

theorem getD_append_left (l1 l2 : List Nat) (j : Nat) (h : j < l1.length) :
    (l1 ++ l2).getD j 0 = l1.getD j 0 := by
  simp [List.getD_eq_getElem?_getD, List.getElem?_append_left h]

theorem getD_append_length (l1 : List Nat) (c : Nat) :
    (l1 ++ [c]).getD l1.length 0 = c := by
  simp [List.getD_eq_getElem?_getD]

theorem ring_ok_put (pos : Nat) (rb hist : List Nat) (c : Nat) (h : ring_ok pos rb hist) :
    ring_ok ((pos + 1) % 65536) (rb.set pos c) (hist ++ [c]) := by
  obtain ⟨h1, h2, h3⟩ := h
  refine ⟨by rw [List.length_set]; exact h1, ?_, ?_⟩
  · rw [List.length_append, List.length_singleton, h2]
    omega
  · intro j hj hw
    rw [List.length_append, List.length_singleton] at hj hw
    rw [getD_set_eq, h1]
    by_cases hjl : j = hist.length
    · subst hjl
      rw [if_pos ⟨h2, by omega⟩, getD_append_length]
    · rw [if_neg (by omega), h3 j (by omega) (by omega), getD_append_left _ _ _ (by omega)]

theorem ref_copy_prefix (d : Nat) : ∀ (k : Nat) (h : List Nat),
    ∃ ext, ref_copy d k h = h ++ ext ∧ ext.length = k := by
  intro k
  induction k with
  | zero => intro h; exact ⟨[], by simp [ref_copy], rfl⟩
  | succ k ih =>
    intro h
    obtain ⟨ext, e1, e2⟩ := ih (h ++ [h.getD (h.length - d) 0])
    refine ⟨h.getD (h.length - d) 0 :: ext, ?_, by simp [e2]⟩
    rw [ref_copy, e1]
    simp

theorem ref_copy_length (d k : Nat) (h : List Nat) : (ref_copy d k h).length = h.length + k := by
  obtain ⟨ext, e1, e2⟩ := ref_copy_prefix d k h
  rw [e1, List.length_append, e2]

theorem ref_copy_add (d : Nat) : ∀ (a b : Nat) (h : List Nat),
    ref_copy d (a + b) h = ref_copy d b (ref_copy d a h) := by
  intro a
  induction a with
  | zero => intro b h; simp [ref_copy]
  | succ a ih =>
    intro b h
    rw [show a + 1 + b = (a + b) + 1 from by omega, ref_copy, ref_copy, ih]

theorem ref_toks_prefix : ∀ (ts : List ftok) (h : List Nat), ∃ ext, ref_toks h ts = h ++ ext := by
  intro ts
  induction ts with
  | nil => intro h; exact ⟨[], by simp [ref_toks]⟩
  | cons t ts ih =>
    intro h
    cases t with
    | hdr b => exact ih h
    | eob => exact ih h
    | lit b =>
      obtain ⟨ext, e⟩ := ih (h ++ [b])
      exact ⟨b :: ext, by rw [ref_toks, e]; simp⟩
    | mtch ls le ds de =>
      obtain ⟨ext, e⟩ := ih (ref_copy (dist_of ds de) (len_of ls le) h)
      obtain ⟨ext2, e2, _⟩ := ref_copy_prefix (dist_of ds de) (len_of ls le) h
      exact ⟨ext2 ++ ext, by rw [ref_toks, e, e2]; simp⟩

theorem expand_loop_spec (dist : Nat) (hd1 : 1 ≤ dist) (hd2 : dist ≤ 65536) :
    ∀ (k pos : Nat) (rb hist : List Nat), ring_ok pos rb hist → dist ≤ hist.length →
      ∃ pos1 rb1, (∀ out, expand_loop dist k pos rb out
          = (pos1, rb1, out ++ (ref_copy dist k hist).drop hist.length))
        ∧ ring_ok pos1 rb1 (ref_copy dist k hist) := by
  intro k
  induction k with
  | zero =>
    intro pos rb hist hr _
    exact ⟨pos, rb, by intro out; simp [expand_loop, ref_copy], hr⟩
  | succ k ih =>
    intro pos rb hist hr hdl
    have hidx : ((pos + U32 - dist) % U32) % 65536 = (hist.length - dist) % 65536 := by
      have h2 := hr.2.1
      show ((pos + 4294967296 - dist) % 4294967296) % 65536 = (hist.length - dist) % 65536
      omega
    have hc : rb.getD (((pos + U32 - dist) % U32) % 65536) 0
        = hist.getD (hist.length - dist) 0 := by
      rw [hidx]
      exact hr.2.2 (hist.length - dist) (by omega) (by omega)
    obtain ⟨pos1, rb1, e1, e2⟩ := ih ((pos + 1) % 65536)
      (rb.set pos (hist.getD (hist.length - dist) 0))
      (hist ++ [hist.getD (hist.length - dist) 0])
      (ring_ok_put pos rb hist _ hr) (by rw [List.length_append]; omega)
    refine ⟨pos1, rb1, ?_, ?_⟩
    · intro out
      rw [expand_loop, hc, e1, ref_copy]
      obtain ⟨ext, x1, _⟩ := ref_copy_prefix dist k (hist ++ [hist.getD (hist.length - dist) 0])
      rw [x1]
      simp
    · rw [ref_copy]
      exact e2

/-- One call of `expand_match` with room for fewer than `2 ^ 32` bytes: it copies
`min match_len room` bytes of the match. -/
theorem expand_step (E : ginflate_t) (hist : List Nat) (room : Nat)
    (hroom : room < U32) (hr : ring_ok E.ringbuf_pos E.ringbuf hist)
    (hd1 : 1 ≤ E.match_dist) (hd2 : E.match_dist ≤ 65536) (hd3 : E.match_dist ≤ hist.length) :
    ∃ J ext, (∀ out, expand_match E out room = (J, out ++ ext, room - ext.length))
      ∧ ext.length = min E.match_len room ∧ J.match_len = E.match_len - ext.length
      ∧ bitstream J = bitstream E ∧ (bits_ok E → bits_ok J)
      ∧ J.match_dist = E.match_dist ∧ J.bfinal = E.bfinal ∧ J.hdic_lit = E.hdic_lit
      ∧ J.hdic_dist = E.hdic_dist ∧ J.infl = E.infl
      ∧ ring_ok J.ringbuf_pos J.ringbuf (hist ++ ext)
      ∧ ref_copy E.match_dist J.match_len (hist ++ ext)
          = ref_copy E.match_dist E.match_len hist := by
  obtain ⟨pos1, rb1, e1, e2⟩ := expand_loop_spec E.match_dist hd1 hd2 (min E.match_len room)
    E.ringbuf_pos E.ringbuf hist hr hd3
  obtain ⟨ext, x1, x2⟩ := ref_copy_prefix E.match_dist (min E.match_len room) hist
  rw [x1] at e1 e2
  refine ⟨{ E with match_len := E.match_len - min E.match_len room, ringbuf_pos := pos1,
                   ringbuf := rb1 }, ext, ?_, x2, by rw [x2], rfl, fun h => h, rfl, rfl, rfl,
    rfl, rfl, e2, ?_⟩
  · intro out
    unfold expand_match
    dsimp only
    rw [Nat.mod_eq_of_lt hroom, umin_eq_min, e1, List.drop_left, x2]
  · show ref_copy E.match_dist (E.match_len - min E.match_len room) (hist ++ ext) = _
    rw [← x1, ← ref_copy_add]
    congr 1
    omega

theorem bits_of_bytes_cons (b : Nat) (bs : List Nat) :
    bits_of_bytes (b :: bs) = nat_bits b 8 ++ bits_of_bytes bs := rfl

theorem bits_of_bytes_le16 (v : Nat) (hv : v < 65536) (X : List Nat) :
    bits_of_bytes (le16 v ++ X) = nat_bits v 16 ++ bits_of_bytes X := by
  have h := nat_bits_add_mul 8 (v % 256) (v / 256) 8 (Nat.mod_lt _ (by norm_num))
  have hv2 : v % 256 + v / 256 * 2 ^ 8 = v := by omega
  rw [hv2] at h
  have hq : v / 256 % 256 = v / 256 := Nat.mod_eq_of_lt (by omega)
  unfold le16
  rw [hq]
  simp only [List.cons_append, List.nil_append, bits_of_bytes_cons]
  rw [← List.append_assoc, ← h]

theorem take_append_length {α : Type} (l1 l2 : List α) (n : Nat) (h : l1.length = n) :
    (l1 ++ l2).take n = l1 := by
  subst h
  exact List.take_left _ _

theorem drop_append_length {α : Type} (l1 l2 : List α) (n : Nat) (h : l1.length = n) :
    (l1 ++ l2).drop n = l2 := by
  subst h
  exact List.drop_left _ _

/-- Reading `n` bits that hold the value `v`, followed by `Y`. -/
theorem get_bits_value (I : ginflate_t) (n v : Nat) (Y : List Bool) (hI : bits_ok I)
    (hn : n ≤ 16) (hv : v < 2 ^ n) (hbits : bitstream I = nat_bits v n ++ Y) :
    ∃ J, get_bits I n = .ok v J ∧ bitstream J = Y ∧ bits_ok J ∧ frame J = frame I := by
  obtain ⟨J, j1, j2, j3, j4⟩ := get_bits_spec I n hI hn
    (by rw [hbits, List.length_append, nat_bits_length]; omega)
  refine ⟨J, ?_, ?_, j3, j4⟩
  · rw [j1, hbits, take_append_length _ _ _ (nat_bits_length n v), bits_val_nat_bits,
      Nat.mod_eq_of_lt hv]
  · rw [j2, hbits, drop_append_length _ _ _ (nat_bits_length n v)]

theorem stored_loop_spec : ∀ (k : Nat) (I : ginflate_t) (P : List Nat) (Y : List Bool),
    bits_ok I → bitstream I = bits_of_bytes P ++ Y → bytes_ok P → k ≤ P.length →
    ∃ J, (∀ out, stored_loop k I out = .ok (out ++ P.take k) J)
      ∧ bitstream J = bits_of_bytes (P.drop k) ++ Y ∧ bits_ok J
      ∧ J.match_len = I.match_len ∧ J.match_dist = I.match_dist ∧ J.bfinal = I.bfinal
      ∧ J.err = I.err ∧ J.hdic_lit = I.hdic_lit ∧ J.hdic_dist = I.hdic_dist ∧ J.infl = I.infl
      ∧ (∀ hist, ring_ok I.ringbuf_pos I.ringbuf hist →
          ring_ok J.ringbuf_pos J.ringbuf (hist ++ P.take k)) := by
  intro k
  induction k with
  | zero =>
    intro I P Y hI hb _ _
    refine ⟨I, by intro out; simp [stored_loop], by simpa using hb, hI, rfl, rfl, rfl, rfl, rfl,
      rfl, rfl, ?_⟩
    intro hist hr
    simpa using hr
  | succ k ih =>
    intro I P Y hI hb hP hk
    cases P with
    | nil => simp at hk
    | cons b P =>
      have hb256 : b < 256 := ((bytes_ok_cons b P).mp hP).1
      have hP2 : bytes_ok P := ((bytes_ok_cons b P).mp hP).2
      rw [bits_of_bytes_cons, List.append_assoc] at hb
      obtain ⟨I1, g1, g2, g3, g4⟩ := get_bits_value I 8 b _ hI (by norm_num) hb256 hb
      obtain ⟨f1, f2, f3, f4, f5, f6, f7, f8, f9⟩ := frame_fields I I1 g4
      obtain ⟨J, j1, j2, j3, j4, j5, j6, j7, j8, j9, j10, j11⟩ :=
        ih (ringbuf_put I1 b).2 P Y g3 g2 hP2 (by simpa using hk)
      have hbm : b % 256 = b := Nat.mod_eq_of_lt hb256
      refine ⟨J, ?_, ?_, j3, j4.trans f2, j5.trans f3, j6.trans f4, j7.trans f5, j8.trans f7,
        j9.trans f8, j10.trans f9, ?_⟩
      · intro out
        rw [stored_loop, g1]
        dsimp only
        rw [j1]
        simp [ringbuf_put, hbm]
      · simpa using j2
      · intro hist hr
        have hr1 := ring_ok_put I1.ringbuf_pos I1.ringbuf hist b (by rw [f1, f6]; exact hr)
        have hr2 := j11 (hist ++ [b]) (by
          simp only [ringbuf_put, hbm]
          exact hr1)
        simpa using hr2

theorem setup_stored_spec (I : ginflate_t) (pad : List Bool) (len nlen : Nat) (Y : List Bool)
    (hI : bits_ok I) (hpad : pad.length < 8) (hlen : len < 65536) (hnlen : nlen < 65536)
    (hY : Y.length % 8 = 0)
    (hbits : bitstream I = pad ++ (nat_bits len 16 ++ (nat_bits nlen 16 ++ Y)))
    (hx : len = nlen ^^^ 0xffff) :
    ∃ J, setup_stored I = .ok () J ∧ bitstream J = Y ∧ bits_ok J
      ∧ J.infl = .inflate_stored ∧ J.match_len = len
      ∧ J.ringbuf_pos = I.ringbuf_pos ∧ J.ringbuf = I.ringbuf ∧ J.match_dist = I.match_dist
      ∧ J.bfinal = I.bfinal ∧ J.err = I.err ∧ J.hdic_lit = I.hdic_lit
      ∧ J.hdic_dist = I.hdic_dist := by
  obtain ⟨d1, d2, d3⟩ := drop_to_byte_spec I hI
  have hmod : (bitstream I).length % 8 = pad.length := by
    rw [hbits]
    simp only [List.length_append, nat_bits_length]
    omega
  rw [hmod, hbits, drop_append_length _ _ _ rfl] at d1
  obtain ⟨I1, g1, g2, g3, g4⟩ := get_bits_value _ 16 len _ d2 (by norm_num) (by norm_num; exact hlen) d1
  obtain ⟨I2, k1, k2, k3, k4⟩ := get_bits_value _ 16 nlen _ g3 (by norm_num) (by norm_num; exact hnlen) g2
  obtain ⟨f1, f2, f3, f4, f5, f6, f7, f8, f9⟩ := frame_fields _ _ (k4.trans (g4.trans d3))
  refine ⟨{ I2 with match_len := len, infl := .inflate_stored }, ?_, k2, k3, rfl, rfl,
    f1, f6, f3, f4, f5, f7, f8⟩
  unfold setup_stored
  rw [g1]
  dsimp only
  rw [k1]
  dsimp only
  rw [if_neg (not_not.mpr hx)]

set_option maxRecDepth 4000 in
theorem inflate_run_call (fuel : Nat) (I : ginflate_t) (out : List Nat) (room : Nat) :
    inflate_run (fuel + 1) .call I out room =
    match I.infl with
    | .inflate_error => error I .c_err_unknown
    | .inflate_block =>
      if I.bfinal ≠ 0 then .ok out I
      else
        match get_bits I 1 with
        | .err e I1 => .err e I1
        | .ok bfinal I1 =>
          match get_bits I1 2 with
          | .err e I2 => .err e I2
          | .ok btype I2 =>
            match c_setup_fn btype { I2 with bfinal := bfinal } with
            | .err e I3 => .err e I3
            | .ok _ I3 => inflate_run fuel .call I3 out room
    | .inflate_stored =>
      let n := umin I.match_len (room % U32)
      match stored_loop n I out with
      | .err e I1 => .err e I1
      | .ok out1 I1 =>
        let I2 := { I1 with match_len := I1.match_len - n }
        if I2.match_len = 0 then
          inflate_run fuel .call { I2 with infl := .inflate_block } out1 (room - n)
        else .ok out1 I2
    | .inflate_compressed =>
      if I.match_len > 0 then
        let r := expand_match I out room
        inflate_run fuel .comp_loop r.1 r.2.1 r.2.2
      else inflate_run fuel .comp_loop I out room := by
  rfl

set_option maxRecDepth 4000 in
theorem inflate_run_comp_loop (fuel : Nat) (I : ginflate_t) (out : List Nat) (room : Nat) :
    inflate_run (fuel + 1) .comp_loop I out room =
    if 0 < room then
      match decode_huff I I.hdic_lit with
      | .err e I1 => .err e I1
      | .ok l I1 =>
        if l < 256 then
          let r := ringbuf_put I1 l
          inflate_run fuel .comp_loop r.2 (out ++ [r.1]) (room - 1)
        else if l ≥ 257 then
          match decode_ext I1 c_lenext (l - 257) with
          | .err e I2 => .err e I2
          | .ok len I2 =>
            match decode_huff { I2 with match_len := len } I2.hdic_dist with
            | .err e I3 => .err e I3
            | .ok d I3 =>
              match decode_ext I3 c_distext d with
              | .err e I4 => .err e I4
              | .ok dist I4 =>
                let r := expand_match { I4 with match_dist := dist } out room
                inflate_run fuel .comp_loop r.1 r.2.1 r.2.2
        else inflate_run fuel .call { I1 with infl := .inflate_block } out room
    else .ok out I := by
  rfl

/-- One call of `inflate_block` on a block that is not the first after a final one: it reads
`BFINAL` and `BTYPE`, runs the setup function and calls the phase function it selected. -/
theorem inflate_block_step (I : ginflate_t) (b0 b1 b2 : Bool) (Y : List Bool)
    (hI : bits_ok I) (hinfl : I.infl = .inflate_block) (hbf : I.bfinal = 0)
    (hbits : bitstream I = b0 :: b1 :: b2 :: Y) :
    ∃ I2, bitstream I2 = Y ∧ bits_ok I2 ∧ frame I2 = frame I
      ∧ ∀ fuel out room, inflate_run (fuel + 1) .call I out room
          = match c_setup_fn (bits_val [b1, b2]) { I2 with bfinal := bits_val [b0] } with
            | .err e I3 => .err e I3
            | .ok _ I3 => inflate_run fuel .call I3 out room := by
  have hb1 : bitstream I = nat_bits (bits_val [b0]) 1 ++ (b1 :: b2 :: Y) := by
    rw [hbits]
    have := nat_bits_bits_val [b0]
    simp only [List.length_singleton] at this
    rw [this]
    rfl
  obtain ⟨I1, g1, g2, g3, g4⟩ := get_bits_value I 1 _ _ hI (by norm_num)
    (by have := bits_val_lt [b0]; simpa using this) hb1
  have hb2 : bitstream I1 = nat_bits (bits_val [b1, b2]) 2 ++ Y := by
    rw [g2]
    have := nat_bits_bits_val [b1, b2]
    simp only [List.length_cons, List.length_nil] at this
    rw [this]
    rfl
  obtain ⟨I2, k1, k2, k3, k4⟩ := get_bits_value I1 2 _ _ g3 (by norm_num)
    (by have := bits_val_lt [b1, b2]; simpa using this) hb2
  refine ⟨I2, k2, k3, k4.trans g4, ?_⟩
  intro fuel out room
  rw [inflate_run_call]
  simp only [hinfl, hbf, g1, k1]
  simp

theorem xor_ffff (n : Nat) (h : n < 65536) : n ^^^ 0xffff = 65535 - n := by
  apply Nat.eq_of_testBit_eq
  intro i
  have h1 : (65535 : Nat) = 2 ^ 16 - 1 := by norm_num
  have h2 : 65535 - n = 2 ^ 16 - (n + 1) := by omega
  rw [Nat.testBit_xor, h2, Nat.testBit_two_pow_sub_succ (by norm_num; exact h)]
  show Bool.xor (n.testBit i) ((65535 : Nat).testBit i) = _
  rw [h1, Nat.testBit_two_pow_sub_one]
  by_cases hi : i < 16
  · simp [hi]
  · have hn : n.testBit i = false := by
      apply Nat.testBit_lt_two_pow
      exact Nat.lt_of_lt_of_le (by norm_num; exact h) (Nat.pow_le_pow_right (by norm_num) (by omega : 16 ≤ i))
    simp [hi, hn]

/-- One call of `inflate_stored` with `P` the payload bytes not emitted yet; `umin` takes
the room modulo `2 ^ 32`. -/
theorem inflate_stored_step (I : ginflate_t) (P : List Nat) (Y : List Bool) (room : Nat)
    (hI : bits_ok I) (hinfl : I.infl = .inflate_stored) (hm : I.match_len = P.length)
    (hbits : bitstream I = bits_of_bytes P ++ Y) (hP : bytes_ok P) :
    (P.length ≤ room % U32 →
      ∃ J, (∀ fuel out, inflate_run (fuel + 1) .call I out room
              = inflate_run fuel .call J (out ++ P) (room - P.length))
        ∧ J.infl = .inflate_block ∧ J.match_len = 0 ∧ bitstream J = Y ∧ bits_ok J
        ∧ J.bfinal = I.bfinal ∧ J.match_dist = I.match_dist ∧ J.err = I.err
        ∧ J.hdic_lit = I.hdic_lit ∧ J.hdic_dist = I.hdic_dist
        ∧ (∀ hist, ring_ok I.ringbuf_pos I.ringbuf hist →
            ring_ok J.ringbuf_pos J.ringbuf (hist ++ P)))
    ∧ (room % U32 < P.length →
      ∃ J, (∀ fuel out, inflate_run (fuel + 1) .call I out room
              = .ok (out ++ P.take (room % U32)) J)
        ∧ J.infl = .inflate_stored ∧ J.match_len = P.length - room % U32
        ∧ bitstream J = bits_of_bytes (P.drop (room % U32)) ++ Y ∧ bits_ok J
        ∧ J.bfinal = I.bfinal ∧ J.match_dist = I.match_dist ∧ J.err = I.err
        ∧ J.hdic_lit = I.hdic_lit ∧ J.hdic_dist = I.hdic_dist
        ∧ (∀ hist, ring_ok I.ringbuf_pos I.ringbuf hist →
            ring_ok J.ringbuf_pos J.ringbuf (hist ++ P.take (room % U32)))) := by
  constructor
  · intro hle
    obtain ⟨J, j1, j2, j3, j4, j5, j6, j7, j8, j9, j10, j11⟩ :=
      stored_loop_spec P.length I P Y hI hbits hP (Nat.le_refl _)
    have hn : umin I.match_len (room % U32) = P.length := by
      rw [umin_eq_min, hm]
      omega
    refine ⟨{ J with match_len := J.match_len - P.length, infl := .inflate_block }, ?_, rfl, ?_,
      by simpa using j2, j3, j6, j5, j7, j8, j9, ?_⟩
    · intro fuel out
      rw [inflate_run_call]
      simp only [hinfl, hn, j1]
      have hz : J.match_len - P.length = 0 := by omega
      simp [hz]
    · show J.match_len - P.length = 0
      omega
    · intro hist hr
      have := j11 hist hr
      simpa using this
  · intro hlt
    obtain ⟨J, j1, j2, j3, j4, j5, j6, j7, j8, j9, j10, j11⟩ :=
      stored_loop_spec (room % U32) I P Y hI hbits hP (by omega)
    have hn : umin I.match_len (room % U32) = room % U32 := by
      rw [umin_eq_min, hm]
      omega
    refine ⟨{ J with match_len := J.match_len - room % U32 }, ?_, j10.trans hinfl, ?_, j2, j3,
      j6, j5, j7, j8, j9, j11⟩
    · intro fuel out
      rw [inflate_run_call]
      simp only [hinfl, hn, j1]
      have hz : ¬ (J.match_len - room % U32 = 0) := by omega
      simp [hz]
    · show J.match_len - room % U32 = P.length - room % U32
      omega

theorem bits_val_bfinal (bf : Nat) (h : bf ≤ 1) : bits_val [decide (bf = 1)] = bf := by
  have : bf = 0 ∨ bf = 1 := by omega
  rcases this with h0 | h1
  · subst h0; rfl
  · subst h1; rfl

/-- The call of `inflate_block` at the header of a stored block. -/
theorem inflate_block_stored (I : ginflate_t) (bf : Nat) (pad : List Bool) (len nlen : Nat)
    (X : List Nat)
    (hI : bits_ok I) (hinfl : I.infl = .inflate_block) (hbf0 : I.bfinal = 0) (hbf : bf ≤ 1)
    (hpad : pad.length < 8) (hsum : len + nlen = 65535)
    (hbits : bitstream I = [decide (bf = 1), false, false] ++ pad
      ++ bits_of_bytes (le16 len ++ le16 nlen ++ X)) :
    ∃ S, (∀ fuel out room, inflate_run (fuel + 1) .call I out room
            = inflate_run fuel .call S out room)
      ∧ bits_ok S ∧ S.infl = .inflate_stored ∧ S.match_len = len ∧ S.bfinal = bf
      ∧ bitstream S = bits_of_bytes X
      ∧ S.ringbuf_pos = I.ringbuf_pos ∧ S.ringbuf = I.ringbuf ∧ S.match_dist = I.match_dist
      ∧ S.err = I.err ∧ S.hdic_lit = I.hdic_lit ∧ S.hdic_dist = I.hdic_dist := by
  have hb : bitstream I = decide (bf = 1) :: false :: false
      :: (pad ++ (nat_bits len 16 ++ (nat_bits nlen 16 ++ bits_of_bytes X))) := by
    rw [hbits, List.append_assoc (le16 len), bits_of_bytes_le16 len (by omega),
      bits_of_bytes_le16 nlen (by omega)]
    rfl
  obtain ⟨I2, i1, i2, i3, i4⟩ := inflate_block_step I _ _ _ _ hI hinfl hbf0 hb
  obtain ⟨f1, f2, f3, f4, f5, f6, f7, f8, f9⟩ := frame_fields I I2 i3
  have hx : len = nlen ^^^ 0xffff := by
    rw [xor_ffff nlen (by omega)]
    omega
  obtain ⟨S, s1, s2, s3, s4, s5, s6, s7, s8, s9, s10, s11, s12⟩ :=
    setup_stored_spec { I2 with bfinal := bits_val [decide (bf = 1)] } pad len nlen
      (bits_of_bytes X) i2 hpad (by omega) (by omega)
      (by rw [bits_of_bytes_length]; omega) i1 hx
  refine ⟨S, ?_, s3, s4, s5, by rw [s9]; exact bits_val_bfinal bf hbf, s2, s6.trans f1,
    s7.trans f6, s8.trans f3, s10.trans f5, s11.trans f7, s12.trans f8⟩
  intro fuel out room
  rw [i4 fuel out room]
  have h0 : bits_val [false, false] = 0 := rfl
  rw [h0]
  show (match setup_stored { I2 with bfinal := bits_val [decide (bf = 1)] } with
    | .err e I3 => Res.err e I3
    | .ok _ I3 => inflate_run fuel .call I3 out room) = _
  rw [s1]

/-- A call of `inflate_block` after a final block returns at once. -/
theorem inflate_block_done (I : ginflate_t) (hinfl : I.infl = .inflate_block)
    (hbf : I.bfinal ≠ 0) (fuel : Nat) (out : List Nat) (room : Nat) :
    inflate_run (fuel + 1) .call I out room = .ok out I := by
  rw [inflate_run_call]
  simp only [hinfl]
  rw [if_pos hbf]

/-! ## Streams of fixed-Huffman blocks -/

theorem lenext_bits (ls : Nat) (h : ls ≤ 28) : (c_lenext.getD ls ⟨0, 0⟩).bits ≤ 16 := by
  interval_cases ls <;> decide

theorem distext_bits (ds : Nat) (h : ds ≤ 29) : (c_distext.getD ds ⟨0, 0⟩).bits ≤ 16 := by
  interval_cases ds <;> decide

theorem dist_of_bounds (ds de : Nat) (h : ds ≤ 29) (h2 : de < 2 ^ (c_distext.getD ds ⟨0, 0⟩).bits) :
    1 ≤ dist_of ds de ∧ dist_of ds de ≤ 32768 := by
  unfold dist_of
  interval_cases ds <;> simp [c_distext] at h2 ⊢ <;> omega

theorem fixed_total_nil (I : ginflate_t) (hist : List Nat) (ts : List ftok)
    (h : I.match_len = 0) : fixed_total I hist ts = ref_toks hist ts := by
  unfold fixed_total
  rw [h]
  rfl

/-- A call of `inflate_block` at the header of a fixed-Huffman block. -/
theorem fixed_step_hdr (I : ginflate_t) (hist : List Nat) (b : Nat) (ts : List ftok)
    (tail : List Bool) (h : fixed_rep I hist false (.hdr b :: ts) tail) :
    ∃ J, (∀ fuel out room, inflate_run (fuel + 1) .call I out room
            = inflate_run fuel .call J out room)
      ∧ fixed_rep J hist true ts tail ∧ J.match_len = 0
      ∧ fixed_total J hist ts = fixed_total I hist (.hdr b :: ts) := by
  obtain ⟨hI, hbits, hring, hinfl, hm, hwf⟩ := h
  simp only [toks_wf, Bool.and_eq_true, decide_eq_true_eq] at hwf
  obtain ⟨⟨hbf0, hb1⟩, hwf2⟩ := hwf
  have hb : bitstream I = decide (b = 1) :: true :: false :: (toks_bits ts ++ tail) := by
    rw [hbits]
    rfl
  obtain ⟨I2, i1, i2, i3, i4⟩ := inflate_block_step I _ _ _ _ hI hinfl hbf0 hb
  obtain ⟨f1, f2, f3, f4, f5, f6, f7, f8, f9⟩ := frame_fields I I2 i3
  refine ⟨{ I2 with bfinal := bits_val [decide (b = 1)],
                    hdic_lit := init_huffdic fixed_lit_clbuf 288 I2.hdic_lit,
                    hdic_dist := init_huffdic fixed_dist_clbuf 32 I2.hdic_dist,
                    infl := .inflate_compressed }, ?_, ?_, f2.trans hm, ?_⟩
  · intro fuel out room
    rw [i4 fuel out room]
    rfl
  · refine ⟨i2, i1, by rw [← f1, ← f6] at hring; exact hring, rfl, ⟨_, _, rfl, rfl⟩, ?_, ?_⟩
    · intro hpos
      have : I2.match_len = 0 := f2.trans hm
      have hp : 0 < I2.match_len := hpos
      omega
    · show toks_wf true (bits_val [decide (b = 1)]) (hist.length + I2.match_len) ts = true
      rw [bits_val_bfinal b hb1, f2, hm]
      exact hwf2
  · show ref_toks (ref_copy I2.match_dist I2.match_len hist) ts
      = ref_toks (ref_copy I.match_dist I.match_len hist) (.hdr b :: ts)
    rw [f2, hm]
    rfl

/-- A pass of the loop of `inflate_compressed` at a literal. -/
theorem fixed_step_lit (I : ginflate_t) (hist : List Nat) (b : Nat) (ts : List ftok)
    (tail : List Bool) (room : Nat) (h : fixed_rep I hist true (.lit b :: ts) tail)
    (hm : I.match_len = 0) (hroom : 0 < room) :
    ∃ J, (∀ fuel out, inflate_run (fuel + 1) .comp_loop I out room
            = inflate_run fuel .comp_loop J (out ++ [b]) (room - 1))
      ∧ fixed_rep J (hist ++ [b]) true ts tail ∧ J.match_len = 0
      ∧ fixed_total J (hist ++ [b]) ts = fixed_total I hist (.lit b :: ts) := by
  obtain ⟨hI, hbits, hring, hinfl, ⟨h1, h2, hl, hd⟩, hpend, hwf⟩ := h
  simp only [toks_wf, Bool.and_eq_true, decide_eq_true_eq] at hwf
  obtain ⟨hb256, hwf2⟩ := hwf
  have hb : bitstream I = code_bits fixed_lit_clbuf b ++ (toks_bits ts ++ tail) := by
    rw [hbits]
    simp [toks_bits, ftok.bits]
  obtain ⟨I1, d1, d2, d3, d4⟩ := decode_huff_fixed_lit I b _ h1 hI (by omega) hb
  obtain ⟨f1, f2, f3, f4, f5, f6, f7, f8, f9⟩ := frame_fields I I1 d4
  have hbm : b % 256 = b := Nat.mod_eq_of_lt hb256
  refine ⟨(ringbuf_put I1 b).2, ?_, ?_, f2.trans hm, ?_⟩
  · intro fuel out
    rw [inflate_run_comp_loop, if_pos hroom, hl, d1]
    dsimp only
    rw [if_pos hb256]
    have hput : (ringbuf_put I1 b).1 = b := hbm
    rw [hput]
  · refine ⟨d3, d2, ?_, f9.trans hinfl, ⟨h1, h2, f7.trans hl, f8.trans hd⟩, ?_, ?_⟩
    · have := ring_ok_put I.ringbuf_pos I.ringbuf hist b hring
      simp only [ringbuf_put, hbm, f1, f6]
      exact this
    · intro hpos
      have hp : 0 < I1.match_len := hpos
      omega
    · show toks_wf true I1.bfinal ((hist ++ [b]).length + I1.match_len) ts = true
      rw [f4, f2, hm, List.length_append, List.length_singleton]
      rw [hm] at hwf2
      exact hwf2
  · show ref_toks (ref_copy I1.match_dist I1.match_len (hist ++ [b])) ts
      = ref_toks (ref_copy I.match_dist I.match_len hist) (.lit b :: ts)
    rw [f2, hm]
    rfl

/-- A pass of the loop of `inflate_compressed` at the end-of-block symbol. -/
theorem fixed_step_eob (I : ginflate_t) (hist : List Nat) (ts : List ftok)
    (tail : List Bool) (room : Nat) (h : fixed_rep I hist true (.eob :: ts) tail)
    (hm : I.match_len = 0) (hroom : 0 < room) :
    ∃ J, (∀ fuel out, inflate_run (fuel + 1) .comp_loop I out room
            = inflate_run fuel .call J out room)
      ∧ fixed_rep J hist false ts tail
      ∧ fixed_total J hist ts = fixed_total I hist (.eob :: ts) := by
  obtain ⟨hI, hbits, hring, hinfl, ⟨h1, h2, hl, hd⟩, hpend, hwf⟩ := h
  simp only [toks_wf] at hwf
  have hb : bitstream I = code_bits fixed_lit_clbuf 256 ++ (toks_bits ts ++ tail) := by
    rw [hbits]
    simp [toks_bits, ftok.bits]
  obtain ⟨I1, d1, d2, d3, d4⟩ := decode_huff_fixed_lit I 256 _ h1 hI (by omega) hb
  obtain ⟨f1, f2, f3, f4, f5, f6, f7, f8, f9⟩ := frame_fields I I1 d4
  refine ⟨{ I1 with infl := .inflate_block }, ?_, ?_, ?_⟩
  · intro fuel out
    rw [inflate_run_comp_loop, if_pos hroom, hl, d1]
    dsimp only
    rw [if_neg (by omega), if_neg (by omega)]
  · refine ⟨d3, d2, by rw [← f1, ← f6] at hring; exact hring, rfl, f2.trans hm, ?_⟩
    show toks_wf false I1.bfinal hist.length ts = true
    rw [f4]
    rw [hm] at hwf
    exact hwf
  · show ref_toks (ref_copy I1.match_dist I1.match_len hist) ts
      = ref_toks (ref_copy I.match_dist I.match_len hist) (.eob :: ts)
    rw [f2, hm]
    rfl

/-- A pass of the loop of `inflate_compressed` at a match: the length and the distance are
decoded and `expand_match` copies as much of the match as the room takes. -/
theorem fixed_step_mtch (I : ginflate_t) (hist : List Nat) (ls le ds de : Nat)
    (ts : List ftok) (tail : List Bool) (room : Nat)
    (h : fixed_rep I hist true (.mtch ls le ds de :: ts) tail)
    (hm : I.match_len = 0) (hroom : 0 < room) (hr32 : room < U32) :
    ∃ J ext, (∀ fuel out, inflate_run (fuel + 1) .comp_loop I out room
            = inflate_run fuel .comp_loop J (out ++ ext) (room - ext.length))
      ∧ fixed_rep J (hist ++ ext) true ts tail ∧ ext.length ≤ room
      ∧ (0 < J.match_len → ext.length = room)
      ∧ fixed_total J (hist ++ ext) ts = fixed_total I hist (.mtch ls le ds de :: ts) := by
  obtain ⟨hI, hbits, hring, hinfl, ⟨h1, h2, hl, hd⟩, hpend, hwf⟩ := h
  simp only [toks_wf, Bool.and_eq_true, decide_eq_true_eq] at hwf
  obtain ⟨⟨⟨⟨⟨hls, hle⟩, hds⟩, hde⟩, hdist⟩, hwf2⟩ := hwf
  rw [hm, Nat.add_zero] at hdist hwf2
  have hb : bitstream I = code_bits fixed_lit_clbuf (257 + ls)
      ++ (nat_bits le (c_lenext.getD ls ⟨0, 0⟩).bits
      ++ (code_bits fixed_dist_lens ds
      ++ (nat_bits de (c_distext.getD ds ⟨0, 0⟩).bits ++ (toks_bits ts ++ tail)))) := by
    rw [hbits]
    simp only [toks_bits, ftok.bits, List.append_assoc]
  obtain ⟨I1, d1, d2, d3, d4⟩ := decode_huff_fixed_lit I (257 + ls) _ h1 hI (by omega) hb
  obtain ⟨I2, e1, e2, e3, e4⟩ := decode_ext_spec I1 c_lenext ls le _
    (show ls < c_lenext.length from Nat.lt_of_le_of_lt hls (by decide)) d3 (lenext_bits ls hls)
    hle d2
  obtain ⟨a1, a2, a3, a4, a5, a6, a7, a8, a9⟩ := frame_fields I I2 (e4.trans d4)
  obtain ⟨I3, d5, d6, d7, d8⟩ := decode_huff_fixed_dist
    { I2 with match_len := (c_lenext.getD ls ⟨0, 0⟩).base + le } ds _ h2 e3 (by omega) e2
  obtain ⟨I4, e5, e6, e7, e8⟩ := decode_ext_spec I3 c_distext ds de _
    (show ds < c_distext.length from Nat.lt_of_le_of_lt hds (by decide)) d7 (distext_bits ds hds)
    hde d6
  obtain ⟨b1, b2, b3, b4, b5, b6, b7, b8, b9⟩ := frame_fields _ I4 (e8.trans d8)
  obtain ⟨hdo1, hdo2⟩ := dist_of_bounds ds de hds hde
  unfold dist_of at hdo1 hdo2 hdist
  obtain ⟨J, ext, x1, x2, x3, x4, x5, x6, x7, x8, x9, x10, x11, x12⟩ :=
    expand_step { I4 with match_dist := (c_distext.getD ds ⟨0, 0⟩).base + de } hist room hr32
      (by
        show ring_ok I4.ringbuf_pos I4.ringbuf hist
        rw [b1, b6]
        show ring_ok I2.ringbuf_pos I2.ringbuf hist
        rw [a1, a6]
        exact hring)
      hdo1 (Nat.le_trans hdo2 (by norm_num)) hdist
  have hE : I4.match_len = (c_lenext.getD ls ⟨0, 0⟩).base + le := b2
  have hxl : ext.length = min ((c_lenext.getD ls ⟨0, 0⟩).base + le) room := by
    rw [x2]
    show min I4.match_len room = _
    rw [hE]
  have hJm : J.match_len = (c_lenext.getD ls ⟨0, 0⟩).base + le - ext.length := by
    rw [x3]
    show I4.match_len - _ = _
    rw [hE]
  have hle1 : ext.length ≤ room := by
    rw [hxl]
    exact Nat.min_le_right _ _
  have hle2 : 0 < J.match_len → ext.length = room := by
    intro hj
    generalize (c_lenext.getD ls ⟨0, 0⟩).base + le = L at hxl hJm
    omega
  have hle3 : ext.length ≤ (c_lenext.getD ls ⟨0, 0⟩).base + le := by
    rw [hxl]
    exact Nat.min_le_left _ _
  refine ⟨J, ext, ?_, ?_, hle1, hle2, ?_⟩
  · intro fuel out
    have hdd : decode_huff { I2 with match_len := (c_lenext.getD ls ⟨0, 0⟩).base + le }
        I2.hdic_dist = .ok ds I3 :=
      (congrArg (decode_huff { I2 with match_len := (c_lenext.getD ls ⟨0, 0⟩).base + le })
        (a8.trans hd)).trans d5
    rw [inflate_run_comp_loop, if_pos hroom, hl, d1]
    dsimp only
    rw [if_neg (by omega), if_pos (by omega), Nat.add_sub_cancel_left, e1]
    dsimp only
    rw [hdd]
    dsimp only
    rw [e5]
    dsimp only
    rw [x1]
  · refine ⟨x5 e7, x4.trans e6, x11, ?_, ⟨h1, h2, ?_, ?_⟩, ?_, ?_⟩
    · rw [x10]
      show I4.infl = _
      rw [b9]
      show I2.infl = _
      rw [a9, hinfl]
    · rw [x8]
      show I4.hdic_lit = _
      rw [b7]
      show I2.hdic_lit = _
      rw [a7, hl]
    · rw [x9]
      show I4.hdic_dist = _
      rw [b8]
      show I2.hdic_dist = _
      rw [a8, hd]
    · intro _
      rw [x6, List.length_append]
      show 1 ≤ (c_distext.getD ds ⟨0, 0⟩).base + de ∧ (c_distext.getD ds ⟨0, 0⟩).base + de ≤ 32768
        ∧ (c_distext.getD ds ⟨0, 0⟩).base + de ≤ hist.length + ext.length
      omega
    · rw [x7, hJm, List.length_append]
      show toks_wf true I4.bfinal _ ts = true
      rw [b4]
      show toks_wf true I2.bfinal _ ts = true
      rw [a4]
      unfold len_of at hwf2
      have hh : hist.length + ext.length + ((c_lenext.getD ls ⟨0, 0⟩).base + le - ext.length)
          = hist.length + ((c_lenext.getD ls ⟨0, 0⟩).base + le) := by
        generalize (c_lenext.getD ls ⟨0, 0⟩).base + le = L at hle3 ⊢
        omega
      rw [hh]
      exact hwf2
  · show ref_toks (ref_copy J.match_dist J.match_len (hist ++ ext)) ts
      = ref_toks (ref_copy I.match_dist I.match_len hist) (.mtch ls le ds de :: ts)
    rw [x6, hm]
    have := x12
    rw [hE] at this
    show ref_toks (ref_copy ((c_distext.getD ds ⟨0, 0⟩).base + de) J.match_len (hist ++ ext)) ts
      = _
    rw [this]
    rfl

/-- A call of `inflate_compressed` with a match pending from the read before. -/
theorem fixed_step_pending (I : ginflate_t) (hist : List Nat) (ts : List ftok)
    (tail : List Bool) (room : Nat) (h : fixed_rep I hist true ts tail)
    (hm : 0 < I.match_len) (hr32 : room < U32) :
    ∃ J ext, (∀ fuel out, inflate_run (fuel + 1) .call I out room
            = inflate_run fuel .comp_loop J (out ++ ext) (room - ext.length))
      ∧ fixed_rep J (hist ++ ext) true ts tail ∧ ext.length ≤ room
      ∧ (0 < J.match_len → ext.length = room)
      ∧ fixed_total J (hist ++ ext) ts = fixed_total I hist ts := by
  obtain ⟨hI, hbits, hring, hinfl, ⟨h1, h2, hl, hd⟩, hpend, hwf⟩ := h
  obtain ⟨p1, p2, p3⟩ := hpend hm
  obtain ⟨J, ext, x1, x2, x3, x4, x5, x6, x7, x8, x9, x10, x11, x12⟩ :=
    expand_step I hist room hr32 hring p1 (by omega) p3
  refine ⟨J, ext, ?_, ?_, by omega, by omega, ?_⟩
  · intro fuel out
    rw [inflate_run_call]
    simp only [hinfl]
    rw [if_pos hm, x1]
  · refine ⟨x5 hI, x4.trans hbits, x11, x10.trans hinfl, ⟨h1, h2, x8.trans hl, x9.trans hd⟩,
      ?_, ?_⟩
    · intro _
      rw [x6, List.length_append]
      omega
    · rw [x7, x3, List.length_append]
      have hh : hist.length + ext.length + (I.match_len - ext.length)
          = hist.length + I.match_len := by omega
      rw [hh]
      exact hwf
  · show ref_toks (ref_copy J.match_dist J.match_len (hist ++ ext)) ts
      = ref_toks (ref_copy I.match_dist I.match_len hist) ts
    rw [x6, x12]

/-- One read from a decoder that stands in a stream of fixed-Huffman blocks: the recursion
returns, with the bytes it produced appended to `out`, in a state that stands in the same
stream after these bytes; it fills the room unless the stream ends. -/
theorem fixed_run_spec (tail : List Bool) :
    ∀ (fuel : Nat) (w : run_at) (I : ginflate_t) (out : List Nat) (room : Nat)
      (hist : List Nat) (inb : Bool) (ts : List ftok),
      fixed_rep I hist inb ts tail → room < U32 →
      (w = .call → 2 * ts.length + 2 ≤ fuel) →
      (w = .comp_loop → inb = true ∧ (0 < I.match_len → room = 0) ∧ 2 * ts.length + 1 ≤ fuel) →
      ∃ J prod inb1 ts1, inflate_run fuel w I out room = .ok (out ++ prod) J
        ∧ fixed_rep J (hist ++ prod) inb1 ts1 tail
        ∧ prod.length ≤ room ∧ (prod.length = room ∨ (ts1 = [] ∧ inb1 = false))
        ∧ fixed_total J (hist ++ prod) ts1 = fixed_total I hist ts := by
  intro fuel
  induction fuel with
  | zero =>
    intro w I out room hist inb ts _ _ hc hl
    cases w with
    | call => have := hc rfl; omega
    | comp_loop => have := (hl rfl).2.2; omega
  | succ fuel ih =>
    intro w I out room hist inb ts hrep hr32 hc hl
    cases w with
    | call =>
      have hf := hc rfl
      cases inb with
      | false =>
        cases ts with
        | nil =>
          obtain ⟨hI, hbits, hring, hinfl, hm, hwf⟩ := hrep
          have hbf : I.bfinal = 1 := by simpa [toks_wf] using hwf
          refine ⟨I, [], false, [], ?_, ?_, Nat.zero_le _, Or.inr ⟨rfl, rfl⟩, ?_⟩
          · rw [inflate_block_done I hinfl (by omega), List.append_nil]
          · rw [List.append_nil]
            exact ⟨hI, hbits, hring, hinfl, hm, hwf⟩
          · rw [List.append_nil]
        | cons t ts =>
          cases t with
          | hdr b =>
            obtain ⟨J, j1, j2, j3, j4⟩ := fixed_step_hdr I hist b ts tail hrep
            obtain ⟨K, prod, inb1, ts1, k1, k2, k3, k4, k5⟩ :=
              ih .call J out room hist true ts j2 hr32
                (fun _ => by rw [List.length_cons] at hf; omega) (fun h => by cases h)
            exact ⟨K, prod, inb1, ts1, by rw [j1, k1], k2, k3, k4, k5.trans j4⟩
          | lit b =>
            have := hrep.2.2.2.2.2
            simp [toks_wf] at this
          | mtch ls le ds de =>
            have := hrep.2.2.2.2.2
            simp [toks_wf] at this
          | eob =>
            have := hrep.2.2.2.2.2
            simp [toks_wf] at this
      | true =>
        by_cases hm : 0 < I.match_len
        · obtain ⟨J, ext, j1, j2, j3, j4, j5⟩ :=
            fixed_step_pending I hist ts tail room hrep hm hr32
          obtain ⟨K, prod, inb1, ts1, k1, k2, k3, k4, k5⟩ :=
            ih .comp_loop J (out ++ ext) (room - ext.length) (hist ++ ext) true ts j2
              (by omega) (fun h => by cases h)
              (fun _ => ⟨rfl, by intro hj; have := j4 hj; omega, by omega⟩)
          refine ⟨K, ext ++ prod, inb1, ts1, ?_, ?_, ?_, ?_, ?_⟩
          · rw [j1, k1, List.append_assoc]
          · rw [← List.append_assoc]
            exact k2
          · rw [List.length_append]
            omega
          · rcases k4 with h | h
            · left
              rw [List.length_append]
              omega
            · right
              exact h
          · rw [← List.append_assoc]
            exact k5.trans j5
        · have hstep : inflate_run (fuel + 1) .call I out room
              = inflate_run fuel .comp_loop I out room := by
            rw [inflate_run_call]
            simp only [hrep.2.2.2.1]
            rw [if_neg hm]
          obtain ⟨K, prod, inb1, ts1, k1, k2, k3, k4, k5⟩ :=
            ih .comp_loop I out room hist true ts hrep hr32 (fun h => by cases h)
              (fun _ => ⟨rfl, by intro hj; omega, by omega⟩)
          exact ⟨K, prod, inb1, ts1, by rw [hstep, k1], k2, k3, k4, k5⟩
    | comp_loop =>
      obtain ⟨hinb, hpr, hf⟩ := hl rfl
      subst hinb
      by_cases hroom : 0 < room
      · have hm0 : I.match_len = 0 := by
          by_contra h
          have := hpr (by omega)
          omega
        cases ts with
        | nil =>
          have := hrep.2.2.2.2.2.2
          simp [toks_wf] at this
        | cons t ts =>
          rw [List.length_cons] at hf
          cases t with
          | hdr b =>
            have := hrep.2.2.2.2.2.2
            simp [toks_wf] at this
          | lit b =>
            obtain ⟨J, j1, j2, j3, j4⟩ := fixed_step_lit I hist b ts tail room hrep hm0 hroom
            obtain ⟨K, prod, inb1, ts1, k1, k2, k3, k4, k5⟩ :=
              ih .comp_loop J (out ++ [b]) (room - 1) (hist ++ [b]) true ts j2
                (by omega) (fun h => by cases h)
                (fun _ => ⟨rfl, by intro hj; omega, by omega⟩)
            refine ⟨K, [b] ++ prod, inb1, ts1, ?_, ?_, ?_, ?_, ?_⟩
            · rw [j1, k1, List.append_assoc]
            · rw [← List.append_assoc]
              exact k2
            · rw [List.length_append, List.length_singleton]
              omega
            · rcases k4 with h | h
              · left
                rw [List.length_append, List.length_singleton]
                omega
              · right
                exact h
            · rw [← List.append_assoc]
              exact k5.trans j4
          | mtch ls le ds de =>
            obtain ⟨J, ext, j1, j2, j3, j4, j5⟩ :=
              fixed_step_mtch I hist ls le ds de ts tail room hrep hm0 hroom hr32
            obtain ⟨K, prod, inb1, ts1, k1, k2, k3, k4, k5⟩ :=
              ih .comp_loop J (out ++ ext) (room - ext.length) (hist ++ ext) true ts j2
                (by omega) (fun h => by cases h)
                (fun _ => ⟨rfl, by intro hj; have := j4 hj; omega, by omega⟩)
            refine ⟨K, ext ++ prod, inb1, ts1, ?_, ?_, ?_, ?_, ?_⟩
            · rw [j1, k1, List.append_assoc]
            · rw [← List.append_assoc]
              exact k2
            · rw [List.length_append]
              omega
            · rcases k4 with h | h
              · left
                rw [List.length_append]
                omega
              · right
                exact h
            · rw [← List.append_assoc]
              exact k5.trans j5
          | eob =>
            obtain ⟨J, j1, j2, j3⟩ := fixed_step_eob I hist ts tail room hrep hm0 hroom
            obtain ⟨K, prod, inb1, ts1, k1, k2, k3, k4, k5⟩ :=
              ih .call J out room hist false ts j2 hr32 (fun _ => by omega)
                (fun h => by cases h)
            exact ⟨K, prod, inb1, ts1, by rw [j1, k1], k2, k3, k4, k5.trans j3⟩
      · have hr0 : room = 0 := by omega
        subst hr0
        refine ⟨I, [], true, ts, ?_, ?_, Nat.le_refl _, Or.inl rfl, ?_⟩
        · rw [inflate_run_comp_loop, if_neg hroom, List.append_nil]
        · rw [List.append_nil]
          exact hrep
        · rw [List.append_nil]

theorem code_bits_length (L : List Nat) (s : Nat) : (code_bits L s).length = L.getD s 0 := by
  unfold code_bits
  rw [List.length_reverse, nat_bits_length]

theorem toks_bits_length (ts : List ftok) :
    ∀ (inb : Bool) (bf h : Nat), toks_wf inb bf h ts = true →
      ts.length ≤ (toks_bits ts).length := by
  induction ts with
  | nil => intro _ _ _ _; exact Nat.le_refl _
  | cons t ts ih =>
    intro inb bf h hwf
    cases t with
    | hdr b =>
      cases inb with
      | true => simp [toks_wf] at hwf
      | false =>
        simp only [toks_wf, Bool.and_eq_true, decide_eq_true_eq] at hwf
        have := ih _ _ _ hwf.2
        simp only [toks_bits, ftok.bits, List.length_append, List.length_cons, List.length_nil]
        omega
    | lit b =>
      cases inb with
      | false => simp [toks_wf] at hwf
      | true =>
        simp only [toks_wf, Bool.and_eq_true, decide_eq_true_eq] at hwf
        have := ih _ _ _ hwf.2
        have hp := fixed_lit_pos b (by omega)
        simp only [toks_bits, ftok.bits, List.length_append, List.length_cons, code_bits_length]
        omega
    | mtch ls le ds de =>
      cases inb with
      | false => simp [toks_wf] at hwf
      | true =>
        simp only [toks_wf, Bool.and_eq_true, decide_eq_true_eq] at hwf
        have := ih _ _ _ hwf.2
        have hp := fixed_lit_pos (257 + ls) (by omega)
        simp only [toks_bits, ftok.bits, List.length_append, List.length_cons, code_bits_length]
        omega
    | eob =>
      cases inb with
      | false => simp [toks_wf] at hwf
      | true =>
        simp only [toks_wf] at hwf
        have := ih _ _ _ hwf
        have hp := fixed_lit_pos 256 (by omega)
        simp only [toks_bits, ftok.bits, List.length_append, List.length_cons, code_bits_length]
        omega

theorem bits_left_eq (I : ginflate_t) : bits_left I = (bitstream I).length := by
  unfold bits_left bitstream
  rw [List.length_append, nat_bits_length, bits_of_bytes_length, List.length_append]

theorem fixed_rep_wf (I : ginflate_t) (hist : List Nat) (inb : Bool) (ts : List ftok)
    (tail : List Bool) (h : fixed_rep I hist inb ts tail) :
    ∃ bf n, toks_wf inb bf n ts = true := by
  cases inb with
  | true => exact ⟨_, _, h.2.2.2.2.2.2⟩
  | false => exact ⟨_, _, h.2.2.2.2.2⟩

/-- One `ginflate` call of fewer than `2 ^ 32` bytes on a decoder that stands in a stream of
fixed-Huffman blocks returns the next bytes of the reference output. -/
theorem fixed_read_spec (I : ginflate_t) (hist : List Nat) (inb : Bool) (ts : List ftok)
    (tail : List Bool) (n : Nat) (hrep : fixed_rep I hist inb ts tail) (hn : n < U32) :
    ∃ J prod inb1 ts1, ginflate I n = .ok prod J
      ∧ fixed_rep J (hist ++ prod) inb1 ts1 tail
      ∧ fixed_total J (hist ++ prod) ts1 = fixed_total I hist ts
      ∧ ((fixed_total I hist ts).drop hist.length).take n = prod
      ∧ ((fixed_total I hist ts).drop hist.length).drop n
          = (fixed_total I hist ts).drop (hist ++ prod).length := by
  obtain ⟨bf, m, hwf⟩ := fixed_rep_wf I hist inb ts tail hrep
  have hlen := toks_bits_length ts inb bf m hwf
  have hbl : ts.length ≤ bits_left I := by
    rw [bits_left_eq, hrep.2.1, List.length_append]
    omega
  obtain ⟨J, prod, inb1, ts1, k1, k2, k3, k4, k5⟩ :=
    fixed_run_spec tail (2 * (bits_left I + n) + 8) .call I [] n hist inb ts hrep hn
      (fun _ => by omega) (fun h => by cases h)
  rw [List.nil_append] at k1
  refine ⟨J, prod, inb1, ts1, k1, k2, k5, ?_, ?_⟩
  · rw [← k5]
    rcases k4 with h | ⟨h1, h2⟩
    · obtain ⟨e1, he1⟩ := ref_toks_prefix ts1 (ref_copy J.match_dist J.match_len (hist ++ prod))
      obtain ⟨e2, he2, _⟩ := ref_copy_prefix J.match_dist J.match_len (hist ++ prod)
      unfold fixed_total
      rw [he1, he2, List.append_assoc, List.append_assoc, List.drop_left,
        List.take_left' h]
    · subst h1 h2
      have hm : J.match_len = 0 := k2.2.2.2.2.1
      unfold fixed_total
      rw [hm]
      show ((hist ++ prod).drop hist.length).take n = prod
      rw [List.drop_left, List.take_of_length_le k3]
  · rw [← k5]
    rcases k4 with h | ⟨h1, h2⟩
    · rw [List.drop_drop, List.length_append, h]
    · subst h1 h2
      have hm : J.match_len = 0 := k2.2.2.2.2.1
      unfold fixed_total
      rw [hm]
      show ((hist ++ prod).drop hist.length).drop n = (hist ++ prod).drop (hist ++ prod).length
      rw [List.drop_left, List.drop_length, List.drop_eq_nil_of_le k3]

/-- Successive reads, each of fewer than `2 ^ 32` bytes, from a decoder that stands in a
stream of fixed-Huffman blocks return the rest of the reference output in order, then 0. -/
theorem fixed_reads_spec (tail : List Bool) :
    ∀ (ns : List Nat) (I : ginflate_t) (hist : List Nat) (inb : Bool) (ts : List ftok),
      fixed_rep I hist inb ts tail → (∀ n ∈ ns, n < U32) →
      (gar_read_seq (some (.inflate I)) ns).1
        = (read_chunks ((fixed_total I hist ts).drop hist.length) ns).map .ok := by
  intro ns
  induction ns with
  | nil => intro I hist inb ts _ _; rfl
  | cons n ns ih =>
    intro I hist inb ts hrep hns
    obtain ⟨J, prod, inb1, ts1, r1, r2, r3, r4, r5⟩ :=
      fixed_read_spec I hist inb ts tail n hrep (hns n (List.mem_cons_self _ _))
    have hr : gar_read (some (.inflate I)) n = (.ok prod, some (.inflate J)) := by
      unfold gar_read
      simp only [r1]
    have hrec := ih J (hist ++ prod) inb1 ts1 r2 (fun k hk => hns k (List.mem_cons_of_mem _ hk))
    rw [gar_read_seq, read_chunks]
    simp only [hr, List.map_cons]
    rw [hrec, r3, r4, r5]

/-! ## Partial streams -/

theorem offmin_eq_min (x y : Nat) : offmin x y = min x y := by
  unfold offmin
  split <;> omega

theorem gar_gfile_read_zero : ∀ gf : gar_gfile_t, (gar_gfile_read gf 0).1 = [] := by
  intro gf
  induction gf with
  | null => rfl
  | file data fpos => simp [gar_gfile_read]
  | part gf pos off len ih =>
    simp only [gar_gfile_read]
    have h : offmin 0 ((len + U64 - pos) % U64) = 0 := by
      rw [offmin_eq_min]
      omega
    rw [h]
    exact ih

/-- A read on a partial stream over a file, positioned inside its window. -/
theorem part_file_read_window (D : List Nat) (pos off len n : Nat)
    (hwin : off + len < U64) (hpos : pos ≤ len) :
    gar_gfile_read (.part (.file D (off + pos)) pos off len) n
      = ((D.drop (off + pos)).take (min n (min (len - pos) (D.length - (off + pos)))),
         .part (.file D (off + pos + min n (min (len - pos) (D.length - (off + pos)))))
           (pos + min n (min (len - pos) (D.length - (off + pos)))) off len) := by
  have hU : (len + U64 - pos) % U64 = len - pos := by
    have h1 : len < 18446744073709551616 := by
      have : off + len < 18446744073709551616 := hwin
      omega
    show (len + 18446744073709551616 - pos) % 18446744073709551616 = len - pos
    omega
  simp only [gar_gfile_read]
  rw [hU, offmin_eq_min]
  have hl : ((D.drop (off + pos)).take (min n (len - pos))).length
      = min n (min (len - pos) (D.length - (off + pos))) := by
    rw [List.length_take, List.length_drop]
    omega
  have ht : (D.drop (off + pos)).take (min n (len - pos))
      = (D.drop (off + pos)).take (min n (min (len - pos) (D.length - (off + pos)))) := by
    apply List.ext_getElem?
    intro i
    rw [List.getElem?_take, List.getElem?_take]
    by_cases h1 : i < min n (min (len - pos) (D.length - (off + pos)))
    · rw [if_pos h1, if_pos (by omega)]
    · rw [if_neg h1]
      by_cases h2 : i < min n (len - pos)
      · rw [if_pos h2]
        apply List.getElem?_eq_none
        rw [List.length_drop]
        omega
      · rw [if_neg h2]
  rw [hl]
  have hm : (pos + min n (min (len - pos) (D.length - (off + pos)))) % U64
      = pos + min n (min (len - pos) (D.length - (off + pos))) := by
    apply Nat.mod_eq_of_lt
    have : off + len < 18446744073709551616 := hwin
    show _ < 18446744073709551616
    omega
  rw [hm, ht]

/-- The states of a partial stream over a file: the source sits at `off + pos`. -/
theorem part_file_run (D : List Nat) (off len : Nat) (hwin : off + len < U64) :
    ∀ (ops : List gfile_op) (pos : Nat), pos ≤ len → off + pos ≤ D.length →
      ∃ pos1, pos1 ≤ len ∧ off + pos1 ≤ D.length
        ∧ gfile_run (.part (.file D (off + pos)) pos off len) ops
            = .part (.file D (off + pos1)) pos1 off len := by
  intro ops
  induction ops with
  | nil => intro pos h1 h2; exact ⟨pos, h1, h2, rfl⟩
  | cons op ops ih =>
    intro pos h1 h2
    cases op with
    | read n =>
      rw [gfile_run, part_file_read_window D pos off len n hwin h1]
      have e : off + pos + min n (min (len - pos) (D.length - (off + pos)))
          = off + (pos + min n (min (len - pos) (D.length - (off + pos)))) := by omega
      simp only
      rw [e]
      exact ih _ (by omega) (by omega)
    | seek o =>
      rw [gfile_run]
      by_cases ho : o ≤ len
      · have hs : (off + o) % U64 = off + o := by
          apply Nat.mod_eq_of_lt
          have : off + len < 18446744073709551616 := hwin
          show _ < 18446744073709551616
          omega
        by_cases hd : off + o ≤ D.length
        · have : gar_gfile_seek (.part (.file D (off + pos)) pos off len) o
              = .ok (.part (.file D (off + o)) o off len) := by
            simp only [gar_gfile_seek, check_off]
            rw [if_neg (by omega), hs]
            simp only [gar_gfile_seek]
            rw [if_neg (by omega)]
          rw [this]
          exact ih o ho hd
        · have : gar_gfile_seek (.part (.file D (off + pos)) pos off len) o
              = .error .out_of_range := by
            simp only [gar_gfile_seek, check_off]
            rw [if_neg (by omega), hs]
            simp only [gar_gfile_seek]
            rw [if_pos (by omega)]
          rw [this]
          exact ih pos h1 h2
      · have : gar_gfile_seek (.part (.file D (off + pos)) pos off len) o
            = .error .out_of_range := by
          simp only [gar_gfile_seek, check_off]
          rw [if_pos (by omega)]
        rw [this]
        exact ih pos h1 h2

/-! ## What the bit operations leave alone, and how they fail -/

theorem fetch_bytes_frame (I : ginflate_t) : frame (fetch_bytes I).2 = frame I := by
  unfold fetch_bytes
  dsimp only
  split <;> rfl

/-- The next input bytes, from the buffer or refilled: none, or at least one byte. -/
theorem input_next (I : ginflate_t) (p : List Nat) :
    (∃ I1, (if p = [] then fetch_bytes I else (some p, I)) = (none, I1) ∧ frame I1 = frame I)
    ∨ (∃ b rest I1, (if p = [] then fetch_bytes I else (some p, I)) = (some (b :: rest), I1)
        ∧ frame I1 = frame I) := by
  by_cases hp : p = []
  · rw [if_pos hp]
    unfold fetch_bytes
    dsimp only
    by_cases hl : (gar_gfile_read I.gf 1024).1.length = 0
    · rw [if_pos hl]
      exact Or.inl ⟨_, rfl, rfl⟩
    · rw [if_neg hl]
      cases hr : (gar_gfile_read I.gf 1024).1 with
      | nil => rw [hr] at hl; simp at hl
      | cons b rest => exact Or.inr ⟨b, rest, _, rfl, rfl⟩
  · rw [if_neg hp]
    cases p with
    | nil => exact absurd rfl hp
    | cons b rest => exact Or.inr ⟨b, rest, I, rfl, rfl⟩

theorem fetch_bits_loop_frame (n : Nat) : ∀ (fuel : Nat) (I : ginflate_t),
    frame (fetch_bits_loop n fuel I) = frame I := by
  intro fuel
  induction fuel with
  | zero => intro I; rfl
  | succ fuel ih =>
    intro I
    rw [fetch_bits_loop]
    by_cases h : I.bits_len < n
    · rw [if_pos h]
      rcases input_next I I.input with ⟨I1, e, f⟩ | ⟨b, rest, I1, e, f⟩
      · rw [e]
        exact f
      · rw [e]
        dsimp only
        rw [ih]
        exact f
    · rw [if_neg h]

theorem fetch_bits_frame (I : ginflate_t) (n : Nat) : frame (fetch_bits I n).2 = frame I :=
  fetch_bits_loop_frame n n I

theorem drop_bits_ok (I : ginflate_t) (n : Nat) (J : ginflate_t)
    (h : drop_bits I n = .ok () J) : frame J = frame I := by
  unfold drop_bits at h
  by_cases hn : n > I.bits_len
  · rw [if_pos hn] at h
    cases h
  · rw [if_neg hn] at h
    cases h
    rfl

theorem drop_bits_err (I : ginflate_t) (n : Nat) (e : gar_error_t) (J : ginflate_t)
    (h : drop_bits I n = .err e J) : e = .c_err_eof ∧ J.infl = .inflate_error := by
  unfold drop_bits at h
  by_cases hn : n > I.bits_len
  · rw [if_pos hn] at h
    cases h
    exact ⟨rfl, rfl⟩
  · rw [if_neg hn] at h
    cases h

theorem get_bits_loop_res (n : Nat) : ∀ (fuel : Nat) (I : ginflate_t) (p : List Nat)
    (bs bl : Nat), bl < n → n ≤ bl + 8 * fuel →
    (∀ v J, get_bits_loop n fuel I p bs bl = .ok v J → frame J = frame I)
    ∧ (∀ e J, get_bits_loop n fuel I p bs bl = .err e J →
        e = .c_err_eof ∧ J.infl = .inflate_error) := by
  intro fuel
  induction fuel with
  | zero => intro I p bs bl h1 h2; omega
  | succ fuel ih =>
    intro I p bs bl h1 h2
    rw [get_bits_loop]
    rcases input_next I p with ⟨I1, e, f⟩ | ⟨b, rest, I1, e, f⟩
    · rw [e]
      constructor
      · intro v J h
        cases h
      · intro e1 J h
        cases h
        exact ⟨rfl, rfl⟩
    · rw [e]
      dsimp only
      by_cases hb : bl + 8 < n
      · rw [if_pos hb]
        obtain ⟨a1, a2⟩ := ih I1 rest ((bs + (b <<< bl) % U32) % U32) (bl + 8) hb (by omega)
        exact ⟨fun v J h => (a1 v J h).trans f, a2⟩
      · rw [if_neg hb]
        constructor
        · intro v J h
          cases h
          exact f
        · intro e1 J h
          cases h

theorem get_bits_ok (I : ginflate_t) (n v : Nat) (J : ginflate_t)
    (h : get_bits I n = .ok v J) : frame J = frame I := by
  unfold get_bits at h
  by_cases hn : n ≤ I.bits_len
  · rw [if_pos hn] at h
    cases h
    rfl
  · rw [if_neg hn] at h
    exact (get_bits_loop_res n n I I.input I.bits_acc I.bits_len (by omega) (by omega)).1 v J h

theorem get_bits_err (I : ginflate_t) (n : Nat) (e : gar_error_t) (J : ginflate_t)
    (h : get_bits I n = .err e J) : e = .c_err_eof ∧ J.infl = .inflate_error := by
  unfold get_bits at h
  by_cases hn : n ≤ I.bits_len
  · rw [if_pos hn] at h
    cases h
  · rw [if_neg hn] at h
    exact (get_bits_loop_res n n I I.input I.bits_acc I.bits_len (by omega) (by omega)).2 e J h

theorem decode_huff_ok (I : ginflate_t) (hdic : ginflate_hdic_t) (l : Nat) (J : ginflate_t)
    (h : decode_huff I hdic = .ok l J) : frame J = frame I := by
  unfold decode_huff at h
  dsimp only at h
  split at h
  · cases h
  · next u I1 hd =>
    cases h
    exact (drop_bits_ok _ _ _ hd).trans (fetch_bits_frame I _)

theorem decode_huff_err (I : ginflate_t) (hdic : ginflate_hdic_t) (e : gar_error_t)
    (J : ginflate_t) (h : decode_huff I hdic = .err e J) :
    e = .c_err_eof ∧ J.infl = .inflate_error := by
  unfold decode_huff at h
  dsimp only at h
  split at h
  · next e1 I1 hd =>
    cases h
    exact drop_bits_err _ _ _ _ hd
  · cases h

theorem decode_ext_ok (I : ginflate_t) (ext : List extra_def_t) (c v : Nat) (J : ginflate_t)
    (h : decode_ext I ext c = .ok v J) : frame J = frame I := by
  unfold decode_ext at h
  by_cases hc : c < ext.length
  · rw [if_pos hc] at h
    split at h
    · cases h
    · next v1 I1 hg =>
      cases h
      exact get_bits_ok _ _ _ _ hg
  · rw [if_neg hc] at h
    cases h

/-- A successful `decode_ext` has read an entry of the table. -/
theorem decode_ext_index (I : ginflate_t) (ext : List extra_def_t) (c v : Nat) (J : ginflate_t)
    (h : decode_ext I ext c = .ok v J) : c < ext.length := by
  unfold decode_ext at h
  by_cases hc : c < ext.length
  · exact hc
  · rw [if_neg hc] at h
    cases h

theorem decode_ext_err (I : ginflate_t) (ext : List extra_def_t) (c : Nat) (e : gar_error_t)
    (J : ginflate_t) (h : decode_ext I ext c = .err e J) :
    (e = .c_err_eof ∧ J.infl = .inflate_error) ∨ e = .c_undefined := by
  unfold decode_ext at h
  by_cases hc : c < ext.length
  · rw [if_pos hc] at h
    split at h
    · next e1 I1 hg =>
      cases h
      exact Or.inl (get_bits_err _ _ _ _ hg)
    · cases h
  · rw [if_neg hc] at h
    cases h
    exact Or.inr rfl

/-! ## The entries of a table built by `init_huffdic`, for any code lengths -/

theorem assign_codes_entries (L : List Nat) (n hdic_size : Nat) (nc T0 : List Nat)
    (hT : hdic_size ≤ T0.length) (h0 : ∀ idx, idx < hdic_size → T0.getD idx 0 = 0) :
    ∀ idx, idx < hdic_size →
      (assign_codes L n hdic_size nc T0).2.getD idx 0 = 0
      ∨ ∃ i, i < n ∧ 0 < L.getD i 0
          ∧ (assign_codes L n hdic_size nc T0).2.getD idx 0
              = pack_symb_and_bl i (L.getD i 0) := by
  have key := foldl_range_inv
    (fun (st : List Nat × List Nat) i =>
      if L.getD i 0 > 0 then
        (st.1.set (L.getD i 0) (st.1.getD (L.getD i 0) 0 + 1),
         fill_lookup (pack_symb_and_bl i (L.getD i 0)) (1 <<< L.getD i 0) hdic_size hdic_size
           (reverse_bits (st.1.getD (L.getD i 0) 0) (L.getD i 0)) st.2)
      else st)
    (fun i st => hdic_size ≤ st.2.length
      ∧ ∀ idx, idx < hdic_size → st.2.getD idx 0 = 0
          ∨ ∃ j, j < i ∧ 0 < L.getD j 0 ∧ st.2.getD idx 0 = pack_symb_and_bl j (L.getD j 0))
    (nc, T0) n
    ⟨hT, fun idx hidx => Or.inl (h0 idx hidx)⟩
    (by
      intro i st hi hP
      obtain ⟨p1, p2⟩ := hP
      dsimp only
      by_cases hbl : L.getD i 0 > 0
      · rw [if_pos hbl]
        have hstep : (0 : Nat) < 1 <<< L.getD i 0 := by
          rw [Nat.shiftLeft_eq, Nat.one_mul]; exact Nat.two_pow_pos _
        obtain ⟨f1, f2⟩ := fill_lookup_spec (pack_symb_and_bl i (L.getD i 0))
          (1 <<< L.getD i 0) hdic_size hstep hdic_size
          (reverse_bits (st.1.getD (L.getD i 0) 0) (L.getD i 0)) st.2 p1 (by omega)
        refine ⟨by rw [f1]; exact p1, ?_⟩
        intro idx hidx
        rw [f2]
        split
        · exact Or.inr ⟨i, Nat.lt_succ_self i, hbl, rfl⟩
        · rcases p2 idx hidx with h | ⟨j, hj, hp, he⟩
          · exact Or.inl h
          · exact Or.inr ⟨j, by omega, hp, he⟩
      · rw [if_neg hbl]
        refine ⟨p1, ?_⟩
        intro idx hidx
        rcases p2 idx hidx with h | ⟨j, hj, hp, he⟩
        · exact Or.inl h
        · exact Or.inr ⟨j, by omega, hp, he⟩)
  exact key.2

theorem init_huffdic_max (L : List Nat) (n : Nat) (h0 : ginflate_hdic_t) :
    (init_huffdic L n h0).max_codelen ≤ 15 :=
  (find_max_codelen_spec _).1

/-- Every entry of a table built by `init_huffdic` that a `decode_huff` can reach is zero
or a symbol below `num_codes` packed with its nonzero code length. -/
theorem init_huffdic_entries (L : List Nat) (n : Nat) (h0 : ginflate_hdic_t) :
    ∀ idx, idx < 2 ^ (init_huffdic L n h0).max_codelen →
      (init_huffdic L n h0).lookup.getD idx 0 = 0
      ∨ ∃ i, i < n ∧ 0 < L.getD i 0
          ∧ (init_huffdic L n h0).lookup.getD idx 0 = pack_symb_and_bl i (L.getD i 0) := by
  intro idx hidx
  unfold init_huffdic at hidx ⊢
  dsimp only at hidx ⊢
  have hsz : ∀ m : Nat, (1 : Nat) <<< m = 2 ^ m := by
    intro m
    rw [Nat.shiftLeft_eq, Nat.one_mul]
  rw [hsz]
  apply assign_codes_entries
  · simp
  · intro j hj
    rw [List.getD_eq_getElem?_getD, List.getElem?_append_left (by simpa using hj)]
    simp [List.getElem?_replicate, hj]
  · exact hidx

theorem fetch_bits_lt (I : ginflate_t) (n : Nat) : (fetch_bits I n).1 < 2 ^ n := by
  unfold fetch_bits
  dsimp only
  rw [and_bitmask]
  exact Nat.mod_lt _ (Nat.two_pow_pos n)

theorem unpack_zero : unpack_symb 0 = 0 ∧ unpack_bl 0 = 0 := by
  constructor <;> simp [unpack_symb, unpack_bl]

/-- The symbol a `decode_huff` returns from a table built by `init_huffdic` is below
`num_codes` (or 0 from an unassigned entry), and a nonzero symbol costs at least one bit. -/
theorem decode_huff_symbol (L : List Nat) (n : Nat) (h0 : ginflate_hdic_t) (I : ginflate_t)
    (l : Nat) (J : ginflate_t) (hn : n ≤ 4096) (hL : ∀ i, i < n → L.getD i 0 ≤ 15)
    (h : decode_huff I (init_huffdic L n h0) = .ok l J) :
    l = 0 ∨ l < n := by
  unfold decode_huff at h
  dsimp only at h
  split at h
  · cases h
  · next u I1 hd =>
    cases h
    rcases init_huffdic_entries L n h0 _ (fetch_bits_lt I _) with h1 | ⟨i, hi, hp, he⟩
    · rw [h1]
      exact Or.inl unpack_zero.1
    · rw [he, (unpack_pack i (L.getD i 0) (by omega) (hL i hi)).1]
      exact Or.inr hi

/-! ## How the block setup fails -/

theorem get_bits_loop_lt (n : Nat) : ∀ (fuel : Nat) (I : ginflate_t) (p : List Nat)
    (bs bl v : Nat) (J : ginflate_t), get_bits_loop n fuel I p bs bl = .ok v J → v < 2 ^ n := by
  intro fuel
  induction fuel with
  | zero => intro I p bs bl v J h; cases h
  | succ fuel ih =>
    intro I p bs bl v J h
    rw [get_bits_loop] at h
    rcases input_next I p with ⟨I1, e, _⟩ | ⟨b, rest, I1, e, _⟩
    · rw [e] at h
      cases h
    · rw [e] at h
      dsimp only at h
      by_cases hb : bl + 8 < n
      · rw [if_pos hb] at h
        exact ih _ _ _ _ _ _ h
      · rw [if_neg hb] at h
        cases h
        rw [and_bitmask]
        exact Nat.mod_lt _ (Nat.two_pow_pos n)

theorem get_bits_lt (I : ginflate_t) (n v : Nat) (J : ginflate_t)
    (h : get_bits I n = .ok v J) : v < 2 ^ n := by
  unfold get_bits at h
  by_cases hn : n ≤ I.bits_len
  · rw [if_pos hn] at h
    cases h
    rw [and_bitmask]
    exact Nat.mod_lt _ (Nat.two_pow_pos n)
  · rw [if_neg hn] at h
    exact get_bits_loop_lt n n I I.input I.bits_acc I.bits_len v J h

theorem decode_ext_ge (I : ginflate_t) (ext : List extra_def_t) (c v : Nat) (J : ginflate_t)
    (h : decode_ext I ext c = .ok v J) : (ext.getD c ⟨0, 0⟩).base ≤ v := by
  unfold decode_ext at h
  by_cases hc : c < ext.length
  · rw [if_pos hc] at h
    split at h
    · cases h
    · cases h
      omega
  · rw [if_neg hc] at h
    cases h

theorem setup_stored_err (I : ginflate_t) (e : gar_error_t) (J : ginflate_t)
    (h : setup_stored I = .err e J) :
    (e = .c_err_eof ∨ e = .c_err_corrupt) ∧ J.infl = .inflate_error := by
  unfold setup_stored at h
  split at h
  · next e1 I1 hg =>
    cases h
    exact ⟨Or.inl (get_bits_err _ _ _ _ hg).1, (get_bits_err _ _ _ _ hg).2⟩
  · split at h
    · next e1 I2 hg =>
      cases h
      exact ⟨Or.inl (get_bits_err _ _ _ _ hg).1, (get_bits_err _ _ _ _ hg).2⟩
    · split at h
      · cases h
        exact ⟨Or.inr rfl, rfl⟩
      · cases h

theorem getD_set_le (l : List Nat) (i v b : Nat) (hv : v ≤ b) (hl : ∀ j, l.getD j 0 ≤ b) :
    ∀ j, (l.set i v).getD j 0 ≤ b := by
  intro j
  rw [getD_set_eq]
  split
  · exact hv
  · exact hl j

theorem read_clen_lens_res : ∀ (k i : Nat) (I : ginflate_t) (clbuf : List Nat),
    (∀ j, clbuf.getD j 0 ≤ 7) →
    (∀ c J, read_clen_lens k i I clbuf = .ok c J →
        frame J = frame I ∧ c.length = clbuf.length ∧ ∀ j, c.getD j 0 ≤ 7)
    ∧ (∀ e J, read_clen_lens k i I clbuf = .err e J →
        e = .c_err_eof ∧ J.infl = .inflate_error) := by
  intro k
  induction k with
  | zero =>
    intro i I clbuf hb
    constructor
    · intro c J h
      cases h
      exact ⟨rfl, rfl, hb⟩
    · intro e J h
      cases h
  | succ k ih =>
    intro i I clbuf hb
    rw [read_clen_lens]
    cases hg : get_bits I 3 with
    | err e1 I1 =>
      constructor
      · intro c J h
        cases h
      · intro e J h
        cases h
        exact get_bits_err _ _ _ _ hg
    | ok v I1 =>
      have hv : v ≤ 7 := by
        have := get_bits_lt _ _ _ _ hg
        omega
      obtain ⟨a1, a2⟩ := ih (i + 1) I1 (clbuf.set (c_clen_order.getD i 0) v)
        (getD_set_le _ _ _ _ hv hb)
      constructor
      · intro c J h
        obtain ⟨b1, b2, b3⟩ := a1 c J h
        exact ⟨b1.trans (get_bits_ok _ _ _ _ hg), by rw [b2, List.length_set], b3⟩
      · exact a2

theorem getD_replicate_zero (n j : Nat) : (List.replicate n 0).getD j 0 = 0 := by
  rw [List.getD_eq_getElem?_getD, List.getElem?_replicate]
  split <;> rfl

theorem decode_clen_loop_zero (hdic : ginflate_hdic_t) (num_codes : Nat) (I : ginflate_t)
    (clbuf : List Nat) (i : Nat) :
    decode_clen_loop hdic num_codes 0 I clbuf i
      = if i < num_codes then .err .model_fuel I else .ok clbuf I := rfl

theorem decode_clen_loop_succ (hdic : ginflate_hdic_t) (num_codes fuel : Nat) (I : ginflate_t)
    (clbuf : List Nat) (i : Nat) :
    decode_clen_loop hdic num_codes (fuel + 1) I clbuf i
      = if i < num_codes then
          match decode_huff I hdic with
          | .err e I1 => .err e I1
          | .ok l I1 =>
            if l < 16 then
              decode_clen_loop hdic num_codes fuel I1 (clbuf.set i (l % 256)) (i + 1)
            else
              match decode_ext I1 c_clenext (l - 16) with
              | .err e I2 => .err e I2
              | .ok n I2 =>
                if i + n > clbuf.length then .err .c_undefined I2
                else decode_clen_loop hdic num_codes fuel I2
                  (store_run clbuf i (if i > 0 ∧ l = 16 then clbuf.getD (i - 1) 0 else 0) n)
                  (i + n)
        else .ok clbuf I := rfl

theorem clenext_base (c : Nat) (h : c ≤ 2) : 3 ≤ (c_clenext.getD c ⟨0, 0⟩).base := by
  interval_cases c <;> decide

theorem decode_clen_loop_res (hdic : ginflate_hdic_t) (num_codes : Nat)
    (hsym : ∀ I l J, decode_huff I hdic = .ok l J → l < 19) :
    ∀ (fuel : Nat) (I : ginflate_t) (clbuf : List Nat) (i : Nat), num_codes ≤ i + fuel →
    (∀ c J, decode_clen_loop hdic num_codes fuel I clbuf i = .ok c J → frame J = frame I)
    ∧ (∀ e J, decode_clen_loop hdic num_codes fuel I clbuf i = .err e J →
        (e = .c_err_eof ∧ J.infl = .inflate_error) ∨ e = .c_undefined) := by
  intro fuel
  induction fuel with
  | zero =>
    intro I clbuf i hf
    rw [decode_clen_loop_zero, if_neg (by omega)]
    constructor
    · intro c J h
      cases h
      rfl
    · intro e J h
      cases h
  | succ fuel ih =>
    intro I clbuf i hf
    rw [decode_clen_loop_succ]
    by_cases hi : i < num_codes
    · rw [if_pos hi]
      cases hd : decode_huff I hdic with
      | err e1 I1 =>
        constructor
        · intro c J h
          cases h
        · intro e J h
          cases h
          exact Or.inl (decode_huff_err _ _ _ _ hd)
      | ok l I1 =>
        have hf1 := decode_huff_ok _ _ _ _ hd
        have hl := hsym _ _ _ hd
        dsimp only
        by_cases h16 : l < 16
        · rw [if_pos h16]
          obtain ⟨a1, a2⟩ := ih I1 (clbuf.set i (l % 256)) (i + 1) (by omega)
          exact ⟨fun c J h => (a1 c J h).trans hf1, a2⟩
        · rw [if_neg h16]
          cases he : decode_ext I1 c_clenext (l - 16) with
          | err e2 I2 =>
            constructor
            · intro c J h
              cases h
            · intro e J h
              cases h
              exact decode_ext_err _ _ _ _ _ he
          | ok n I2 =>
            have hf2 := decode_ext_ok _ _ _ _ _ he
            have hn : 3 ≤ n :=
              Nat.le_trans (clenext_base (l - 16) (by omega)) (decode_ext_ge _ _ _ _ _ he)
            dsimp only
            split
            · constructor
              · intro c J h
                cases h
              · intro e J h
                cases h
                exact Or.inr rfl
            · obtain ⟨a1, a2⟩ := ih I2
                (store_run clbuf i (if i > 0 ∧ l = 16 then clbuf.getD (i - 1) 0 else 0) n)
                (i + n) (by omega)
              exact ⟨fun c J h => ((a1 c J h).trans hf2).trans hf1, a2⟩
    · rw [if_neg hi]
      constructor
      · intro c J h
        cases h
        rfl
      · intro e J h
        cases h

/-- `setup_dynamic_huffman` raises no error but the end-of-input error, which poisons the
decoder; a repeat that runs past the end of `clbuf` leaves defined behaviour. -/
theorem setup_dynamic_huffman_err (I : ginflate_t) (e : gar_error_t) (J : ginflate_t)
    (h : setup_dynamic_huffman I = .err e J) :
    (e = .c_err_eof ∧ J.infl = .inflate_error) ∨ e = .c_undefined := by
  unfold setup_dynamic_huffman at h
  split at h
  · next e1 I1 hg => cases h; exact Or.inl (get_bits_err _ _ _ _ hg)
  · split at h
    · next e1 I1 hg => cases h; exact Or.inl (get_bits_err _ _ _ _ hg)
    · split at h
      · next e1 I1 hg => cases h; exact Or.inl (get_bits_err _ _ _ _ hg)
      · next hclen I3 hg3 =>
        split at h
        · next e1 I1 hr =>
          cases h
          exact Or.inl ((read_clen_lens_res _ _ _ _ (by intro j; rw [getD_replicate_zero]; exact Nat.zero_le _)).2 _ _ hr)
        · next clbuf1 I4 hr =>
          obtain ⟨r1, r2, r3⟩ := (read_clen_lens_res _ _ _ _ (by intro j; rw [getD_replicate_zero]; exact Nat.zero_le _)).1 _ _ hr
          have hsym : ∀ I l J, decode_huff I (init_huffdic clbuf1 19 I4.hdic_dist) = .ok l J →
              l < 19 := by
            intro I0 l J0 hd
            rcases decode_huff_symbol clbuf1 19 _ I0 l J0 (by norm_num)
              (fun i _ => Nat.le_trans (r3 i) (by norm_num)) hd with h0 | h1
            · omega
            · exact h1
          dsimp only at h
          split at h
          · next e1 I6 hc =>
            cases h
            exact (decode_clen_loop_res _ _ hsym _ _ _ _ (by omega)).2 _ _ hc
          · next clbuf2 I6 hc =>
            split at h
            · next e1 I8 hc2 =>
              cases h
              exact (decode_clen_loop_res _ _ hsym _ _ _ _ (by omega)).2 _ _ hc2
            · cases h

theorem c_setup_fn_err (btype : Nat) (I : ginflate_t) (e : gar_error_t) (J : ginflate_t)
    (h : c_setup_fn btype I = .err e J) :
    ((e = .c_err_eof ∨ e = .c_err_corrupt) ∧ J.infl = .inflate_error) ∨ e = .c_undefined := by
  unfold c_setup_fn at h
  split at h
  · exact Or.inl (setup_stored_err _ _ _ h)
  · cases h
  · rcases setup_dynamic_huffman_err _ _ _ h with ⟨h1, h2⟩ | h3
    · exact Or.inl ⟨Or.inl h1, h2⟩
    · exact Or.inr h3
  · cases h
    exact Or.inl ⟨Or.inr rfl, rfl⟩

/-! ## Reads in pieces: the loops of `inflate_stored` and `expand_match` -/

theorem expand_loop_out (d : Nat) : ∀ (k pos : Nat) (rb out : List Nat),
    expand_loop d k pos rb out
      = ((expand_loop d k pos rb []).1, (expand_loop d k pos rb []).2.1,
         out ++ (expand_loop d k pos rb []).2.2) := by
  intro k
  induction k with
  | zero => intro pos rb out; simp [expand_loop]
  | succ k ih =>
    intro pos rb out
    rw [expand_loop, expand_loop, ih, ih _ _ ([] ++ _)]
    simp

theorem expand_loop_length (d : Nat) : ∀ (k pos : Nat) (rb : List Nat),
    (expand_loop d k pos rb []).2.2.length = k := by
  intro k
  induction k with
  | zero => intro pos rb; rfl
  | succ k ih =>
    intro pos rb
    rw [expand_loop, expand_loop_out]
    simp [ih]

theorem expand_loop_add (d : Nat) : ∀ (k1 k2 pos : Nat) (rb : List Nat),
    expand_loop d (k1 + k2) pos rb []
      = ((expand_loop d k2 (expand_loop d k1 pos rb []).1 (expand_loop d k1 pos rb []).2.1 []).1,
         (expand_loop d k2 (expand_loop d k1 pos rb []).1 (expand_loop d k1 pos rb []).2.1 []).2.1,
         (expand_loop d k1 pos rb []).2.2
           ++ (expand_loop d k2 (expand_loop d k1 pos rb []).1
                (expand_loop d k1 pos rb []).2.1 []).2.2) := by
  intro k1
  induction k1 with
  | zero => intro k2 pos rb; simp [expand_loop]
  | succ k1 ih =>
    intro k2 pos rb
    rw [show k1 + 1 + k2 = (k1 + k2) + 1 from by omega, expand_loop, expand_loop,
      expand_loop_out, ih, expand_loop_out d k1 _ _ ([] ++ _)]
    simp

theorem fetch_bytes_match_len (I : ginflate_t) (x : Nat) :
    fetch_bytes { I with match_len := x }
      = ((fetch_bytes I).1, { (fetch_bytes I).2 with match_len := x }) := by
  unfold fetch_bytes
  dsimp only
  split <;> rfl

theorem get_bits_loop_match_len (n x : Nat) : ∀ (fuel : Nat) (I : ginflate_t) (p : List Nat)
    (bs bl : Nat),
    get_bits_loop n fuel { I with match_len := x } p bs bl
      = match get_bits_loop n fuel I p bs bl with
        | .ok v J => .ok v { J with match_len := x }
        | .err e J => .err e { J with match_len := x } := by
  intro fuel
  induction fuel with
  | zero => intro I p bs bl; rfl
  | succ fuel ih =>
    intro I p bs bl
    rw [get_bits_loop, get_bits_loop]
    by_cases hp : p = []
    · rw [if_pos hp, if_pos hp, fetch_bytes_match_len]
      rcases hf : fetch_bytes I with ⟨o, I1⟩
      cases o with
      | none => rfl
      | some q =>
        cases q with
        | nil => rfl
        | cons b rest =>
          dsimp only
          split
          · exact ih _ _ _ _
          · rfl
    · rw [if_neg hp, if_neg hp]
      cases p with
      | nil => exact absurd rfl hp
      | cons b rest =>
        dsimp only
        split
        · exact ih _ _ _ _
        · rfl

theorem get_bits_match_len (I : ginflate_t) (n x : Nat) :
    get_bits { I with match_len := x } n
      = match get_bits I n with
        | .ok v J => .ok v { J with match_len := x }
        | .err e J => .err e { J with match_len := x } := by
  unfold get_bits
  by_cases hn : n ≤ I.bits_len
  · rw [if_pos hn, if_pos (show n ≤ ({ I with match_len := x } : ginflate_t).bits_len from hn)]
  · rw [if_neg hn, if_neg (show ¬ n ≤ ({ I with match_len := x } : ginflate_t).bits_len from hn)]
    exact get_bits_loop_match_len n x n I I.input I.bits_acc I.bits_len

theorem stored_loop_zero (I : ginflate_t) (out : List Nat) : stored_loop 0 I out = .ok out I :=
  rfl

theorem stored_loop_succ (k : Nat) (I : ginflate_t) (out : List Nat) :
    stored_loop (k + 1) I out
      = match get_bits I 8 with
        | .err e I1 => .err e I1
        | .ok v I1 => stored_loop k (ringbuf_put I1 v).2 (out ++ [(ringbuf_put I1 v).1]) := rfl

theorem stored_loop_out : ∀ (k : Nat) (I : ginflate_t) (out : List Nat),
    stored_loop k I out
      = match stored_loop k I [] with
        | .ok bs J => .ok (out ++ bs) J
        | .err e J => .err e J := by
  intro k
  induction k with
  | zero => intro I out; simp [stored_loop_zero]
  | succ k ih =>
    intro I out
    rw [stored_loop_succ, stored_loop_succ]
    cases hg : get_bits I 8 with
    | err e I1 => rfl
    | ok v I1 =>
      dsimp only
      rw [ih, ih _ ([] ++ _)]
      cases stored_loop k (ringbuf_put I1 v).2 [] with
      | err e J => rfl
      | ok bs J => simp

theorem stored_loop_res : ∀ (k : Nat) (I : ginflate_t),
    (∀ bs J, stored_loop k I [] = .ok bs J →
      bs.length = k ∧ J.infl = I.infl ∧ J.match_len = I.match_len ∧ J.bfinal = I.bfinal
      ∧ J.match_dist = I.match_dist ∧ J.hdic_lit = I.hdic_lit ∧ J.hdic_dist = I.hdic_dist)
    ∧ (∀ e J, stored_loop k I [] = .err e J → e = .c_err_eof ∧ J.infl = .inflate_error) := by
  intro k
  induction k with
  | zero =>
    intro I
    constructor
    · intro bs J h
      cases h
      exact ⟨rfl, rfl, rfl, rfl, rfl, rfl, rfl⟩
    · intro e J h
      cases h
  | succ k ih =>
    intro I
    rw [stored_loop_succ]
    cases hg : get_bits I 8 with
    | err e I1 =>
      constructor
      · intro bs J h
        cases h
      · intro e1 J h
        cases h
        exact get_bits_err _ _ _ _ hg
    | ok v I1 =>
      dsimp only
      rw [stored_loop_out]
      obtain ⟨f1, f2, f3, f4, f5, f6, f7, f8, f9⟩ := frame_fields I I1 (get_bits_ok _ _ _ _ hg)
      obtain ⟨a1, a2⟩ := ih (ringbuf_put I1 v).2
      cases hs : stored_loop k (ringbuf_put I1 v).2 [] with
      | err e J =>
        constructor
        · intro bs J1 h
          cases h
        · intro e1 J1 h
          cases h
          exact a2 _ _ hs
      | ok bs0 J0 =>
        obtain ⟨b1, b2, b3, b4, b5, b6, b7⟩ := a1 _ _ hs
        constructor
        · intro bs J h
          cases h
          refine ⟨by simp [b1], b2.trans f9, b3.trans f2, b4.trans f4, b5.trans f3,
            b6.trans f7, b7.trans f8⟩
        · intro e1 J1 h
          cases h

theorem stored_loop_add : ∀ (k1 k2 : Nat) (I : ginflate_t),
    stored_loop (k1 + k2) I []
      = match stored_loop k1 I [] with
        | .ok bs J =>
          match stored_loop k2 J [] with
          | .ok bs2 K => .ok (bs ++ bs2) K
          | .err e K => .err e K
        | .err e J => .err e J := by
  intro k1
  induction k1 with
  | zero =>
    intro k2 I
    rw [Nat.zero_add, stored_loop_zero]
    dsimp only
    cases stored_loop k2 I [] with
    | err e J => rfl
    | ok bs J => simp
  | succ k1 ih =>
    intro k2 I
    rw [show k1 + 1 + k2 = (k1 + k2) + 1 from by omega, stored_loop_succ, stored_loop_succ]
    cases hg : get_bits I 8 with
    | err e I1 => rfl
    | ok v I1 =>
      dsimp only
      have e1 := stored_loop_out (k1 + k2) (ringbuf_put I1 v).2 ([] ++ [(ringbuf_put I1 v).1])
      have e2 := stored_loop_out k1 (ringbuf_put I1 v).2 ([] ++ [(ringbuf_put I1 v).1])
      rw [e1, e2, ih]
      cases stored_loop k1 (ringbuf_put I1 v).2 [] with
      | err e J => rfl
      | ok bs J =>
        dsimp only
        cases stored_loop k2 J [] with
        | err e K => rfl
        | ok bs2 K => simp

theorem stored_loop_match_len (x : Nat) : ∀ (k : Nat) (I : ginflate_t),
    stored_loop k { I with match_len := x } []
      = match stored_loop k I [] with
        | .ok bs J => .ok bs { J with match_len := x }
        | .err e J => .err e { J with match_len := x } := by
  intro k
  induction k with
  | zero => intro I; rfl
  | succ k ih =>
    intro I
    rw [stored_loop_succ, stored_loop_succ, get_bits_match_len]
    cases hg : get_bits I 8 with
    | err e I1 => rfl
    | ok v I1 =>
      dsimp only
      rw [stored_loop_out, stored_loop_out k (ringbuf_put I1 v).2]
      have h := ih (ringbuf_put I1 v).2
      have e : (ringbuf_put { I1 with match_len := x } v).2
          = { (ringbuf_put I1 v).2 with match_len := x } := rfl
      rw [e, h]
      cases stored_loop k (ringbuf_put I1 v).2 [] with
      | err e J => rfl
      | ok bs J => rfl

theorem inflate_run_zero (w : run_at) (I : ginflate_t) (out : List Nat) (room : Nat) :
    inflate_run 0 w I out room = .err .model_fuel I := by
  cases w <;> rfl

theorem expand_match_struct (I : ginflate_t) (out : List Nat) (room : Nat) :
    ∃ ext, (expand_match I out room).2.1 = out ++ ext
      ∧ ext.length = umin I.match_len (room % U32)
      ∧ (expand_match I out room).2.2 = room - umin I.match_len (room % U32)
      ∧ (expand_match I out room).1.match_len = I.match_len - umin I.match_len (room % U32)
      ∧ (expand_match I out room).1.infl = I.infl
      ∧ (expand_match I out room).1.bfinal = I.bfinal
      ∧ (expand_match I out room).1.match_dist = I.match_dist := by
  refine ⟨(expand_loop I.match_dist (umin I.match_len (room % U32)) I.ringbuf_pos
    I.ringbuf []).2.2, ?_, expand_loop_length _ _ _ _, rfl, rfl, rfl, rfl, rfl⟩
  unfold expand_match
  dsimp only
  rw [expand_loop_out]

/-- A failed pass of the decoder leaves it in the error phase, unless the failure is an
exhausted iteration bound or a point without defined behaviour. -/
theorem inflate_run_err : ∀ (fuel : Nat) (w : run_at) (I : ginflate_t) (out : List Nat)
    (room : Nat) (e : gar_error_t) (J : ginflate_t),
    inflate_run fuel w I out room = .err e J →
    e = .model_fuel ∨ e = .c_undefined
    ∨ ((e = .c_err_eof ∨ e = .c_err_corrupt ∨ e = .c_err_unknown)
        ∧ J.infl = .inflate_error) := by
  intro fuel
  induction fuel with
  | zero =>
    intro w I out room e J h
    rw [inflate_run_zero] at h
    cases h
    exact Or.inl rfl
  | succ fuel ih =>
    intro w I out room e J h
    cases w with
    | call =>
      rw [inflate_run_call] at h
      cases hinfl : I.infl with
      | inflate_error =>
        simp only [hinfl] at h
        cases h
        exact Or.inr (Or.inr ⟨Or.inr (Or.inr rfl), rfl⟩)
      | inflate_block =>
        simp only [hinfl] at h
        by_cases hbf : I.bfinal ≠ 0
        · rw [if_pos hbf] at h
          cases h
        · rw [if_neg hbf] at h
          cases hg1 : get_bits I 1 with
          | err e1 I1 =>
            rw [hg1] at h
            cases h
            obtain ⟨a1, a2⟩ := get_bits_err _ _ _ _ hg1
            exact Or.inr (Or.inr ⟨Or.inl a1, a2⟩)
          | ok bf I1 =>
            rw [hg1] at h
            dsimp only at h
            cases hg2 : get_bits I1 2 with
            | err e1 I2 =>
              rw [hg2] at h
              cases h
              obtain ⟨a1, a2⟩ := get_bits_err _ _ _ _ hg2
              exact Or.inr (Or.inr ⟨Or.inl a1, a2⟩)
            | ok bt I2 =>
              rw [hg2] at h
              dsimp only at h
              cases hs : c_setup_fn bt { I2 with bfinal := bf } with
              | err e1 I3 =>
                rw [hs] at h
                cases h
                rcases c_setup_fn_err _ _ _ _ hs with ⟨a1, a2⟩ | a3
                · rcases a1 with a1 | a1
                  · exact Or.inr (Or.inr ⟨Or.inl a1, a2⟩)
                  · exact Or.inr (Or.inr ⟨Or.inr (Or.inl a1), a2⟩)
                · exact Or.inr (Or.inl a3)
              | ok u I3 =>
                rw [hs] at h
                exact ih _ _ _ _ _ _ h
      | inflate_stored =>
        simp only [hinfl] at h
        rw [stored_loop_out] at h
        cases hs : stored_loop (umin I.match_len (room % U32)) I [] with
        | err e1 I1 =>
          rw [hs] at h
          cases h
          obtain ⟨a1, a2⟩ := (stored_loop_res _ _).2 _ _ hs
          exact Or.inr (Or.inr ⟨Or.inl a1, a2⟩)
        | ok bs I1 =>
          rw [hs] at h
          dsimp only at h
          split at h
          · exact ih _ _ _ _ _ _ h
          · cases h
      | inflate_compressed =>
        simp only [hinfl] at h
        split at h
        · exact ih _ _ _ _ _ _ h
        · exact ih _ _ _ _ _ _ h
    | comp_loop =>
      rw [inflate_run_comp_loop] at h
      split at h
      · cases hd : decode_huff I I.hdic_lit with
        | err e1 I1 =>
          rw [hd] at h
          cases h
          obtain ⟨a1, a2⟩ := decode_huff_err _ _ _ _ hd
          exact Or.inr (Or.inr ⟨Or.inl a1, a2⟩)
        | ok l I1 =>
          rw [hd] at h
          dsimp only at h
          split at h
          · exact ih _ _ _ _ _ _ h
          · split at h
            · cases he : decode_ext I1 c_lenext (l - 257) with
              | err e1 I2 =>
                rw [he] at h
                cases h
                rcases decode_ext_err _ _ _ _ _ he with ⟨a1, a2⟩ | a3
                · exact Or.inr (Or.inr ⟨Or.inl a1, a2⟩)
                · exact Or.inr (Or.inl a3)
              | ok len I2 =>
                rw [he] at h
                dsimp only at h
                cases hd2 : decode_huff { I2 with match_len := len } I2.hdic_dist with
                | err e1 I3 =>
                  rw [hd2] at h
                  cases h
                  obtain ⟨a1, a2⟩ := decode_huff_err _ _ _ _ hd2
                  exact Or.inr (Or.inr ⟨Or.inl a1, a2⟩)
                | ok d I3 =>
                  rw [hd2] at h
                  dsimp only at h
                  cases he2 : decode_ext I3 c_distext d with
                  | err e1 I4 =>
                    rw [he2] at h
                    cases h
                    rcases decode_ext_err _ _ _ _ _ he2 with ⟨a1, a2⟩ | a3
                    · exact Or.inr (Or.inr ⟨Or.inl a1, a2⟩)
                    · exact Or.inr (Or.inl a3)
                  | ok dist I4 =>
                    rw [he2] at h
                    exact ih _ _ _ _ _ _ h
            · exact ih _ _ _ _ _ _ h
      · cases h

/-- A pass of the decoder with room for fewer than `2 ^ 32` bytes appends at most `room`
bytes to the output, and fewer only when it ends after a final block. -/
theorem inflate_run_len : ∀ (fuel : Nat) (w : run_at) (I : ginflate_t) (out : List Nat)
    (room : Nat) (out1 : List Nat) (J : ginflate_t), room < U32 →
    inflate_run fuel w I out room = .ok out1 J →
    ∃ bs, out1 = out ++ bs ∧ bs.length ≤ room
      ∧ (bs.length < room → J.infl = .inflate_block ∧ J.bfinal ≠ 0) := by
  intro fuel
  induction fuel with
  | zero =>
    intro w I out room out1 J _ h
    rw [inflate_run_zero] at h
    cases h
  | succ fuel ih =>
    intro w I out room out1 J hr h
    have hR : room % U32 = room := Nat.mod_eq_of_lt hr
    cases w with
    | call =>
      rw [inflate_run_call] at h
      cases hinfl : I.infl with
      | inflate_error =>
        simp only [hinfl] at h
        cases h
      | inflate_block =>
        simp only [hinfl] at h
        by_cases hbf : I.bfinal ≠ 0
        · rw [if_pos hbf] at h
          cases h
          exact ⟨[], by simp, Nat.zero_le _, fun _ => ⟨hinfl, hbf⟩⟩
        · rw [if_neg hbf] at h
          cases hg1 : get_bits I 1 with
          | err e1 I1 =>
            rw [hg1] at h
            cases h
          | ok bf I1 =>
            rw [hg1] at h
            dsimp only at h
            cases hg2 : get_bits I1 2 with
            | err e1 I2 =>
              rw [hg2] at h
              cases h
            | ok bt I2 =>
              rw [hg2] at h
              dsimp only at h
              cases hs : c_setup_fn bt { I2 with bfinal := bf } with
              | err e1 I3 =>
                rw [hs] at h
                cases h
              | ok u I3 =>
                rw [hs] at h
                exact ih _ _ _ _ _ _ hr h
      | inflate_stored =>
        simp only [hinfl] at h
        rw [stored_loop_out, hR, umin_eq_min] at h
        cases hs : stored_loop (min I.match_len room) I [] with
        | err e1 I1 =>
          rw [hs] at h
          cases h
        | ok bs I1 =>
          rw [hs] at h
          dsimp only at h
          obtain ⟨b1, b2, b3, _⟩ := (stored_loop_res _ _).1 _ _ hs
          split at h
          · obtain ⟨bs2, e1, e2, e3⟩ := ih _ _ _ _ _ _
              (show room - min I.match_len room < U32 from Nat.lt_of_le_of_lt (Nat.sub_le _ _) hr) h
            refine ⟨bs ++ bs2, by rw [e1, List.append_assoc], ?_, ?_⟩
            · rw [List.length_append, b1]
              omega
            · intro hlt
              apply e3
              rw [List.length_append, b1] at hlt
              omega
          · next hne =>
            cases h
            refine ⟨bs, rfl, by rw [b1]; omega, ?_⟩
            intro hlt
            exfalso
            apply hne
            show I1.match_len - min I.match_len room = 0
            rw [b1] at hlt
            rw [b3]
            omega
      | inflate_compressed =>
        simp only [hinfl] at h
        split at h
        · obtain ⟨ext, x1, x2, x3, _⟩ := expand_match_struct I out room
          rw [hR, umin_eq_min] at x2 x3
          rw [x1, x3] at h
          obtain ⟨bs2, e1, e2, e3⟩ := ih _ _ _ _ _ _
            (show room - min I.match_len room < U32 from Nat.lt_of_le_of_lt (Nat.sub_le _ _) hr) h
          refine ⟨ext ++ bs2, by rw [e1, List.append_assoc], ?_, ?_⟩
          · rw [List.length_append, x2]
            omega
          · intro hlt
            apply e3
            rw [List.length_append, x2] at hlt
            omega
        · exact ih _ _ _ _ _ _ hr h
    | comp_loop =>
      rw [inflate_run_comp_loop] at h
      by_cases hroom : 0 < room
      · rw [if_pos hroom] at h
        cases hd : decode_huff I I.hdic_lit with
        | err e1 I1 =>
          rw [hd] at h
          cases h
        | ok l I1 =>
          rw [hd] at h
          dsimp only at h
          split at h
          · obtain ⟨bs2, e1, e2, e3⟩ := ih _ _ _ _ _ _
              (show room - 1 < U32 from Nat.lt_of_le_of_lt (Nat.sub_le _ _) hr) h
            refine ⟨[(ringbuf_put I1 l).1] ++ bs2, by rw [e1, List.append_assoc], ?_, ?_⟩
            · rw [List.length_append, List.length_singleton]
              omega
            · intro hlt
              apply e3
              rw [List.length_append, List.length_singleton] at hlt
              omega
          · split at h
            · cases he : decode_ext I1 c_lenext (l - 257) with
              | err e1 I2 =>
                rw [he] at h
                cases h
              | ok len I2 =>
                rw [he] at h
                dsimp only at h
                cases hd2 : decode_huff { I2 with match_len := len } I2.hdic_dist with
                | err e1 I3 =>
                  rw [hd2] at h
                  cases h
                | ok d I3 =>
                  rw [hd2] at h
                  dsimp only at h
                  cases he2 : decode_ext I3 c_distext d with
                  | err e1 I4 =>
                    rw [he2] at h
                    cases h
                  | ok dist I4 =>
                    rw [he2] at h
                    dsimp only at h
                    obtain ⟨ext, x1, x2, x3, _⟩ :=
                      expand_match_struct { I4 with match_dist := dist } out room
                    rw [hR, umin_eq_min] at x2 x3
                    rw [x1, x3] at h
                    obtain ⟨bs2, e1, e2, e3⟩ := ih _ _ _ _ _ _
                      (show room - min ({ I4 with match_dist := dist } : ginflate_t).match_len room < U32
                        from Nat.lt_of_le_of_lt (Nat.sub_le _ _) hr) h
                    refine ⟨ext ++ bs2, by rw [e1, List.append_assoc], ?_, ?_⟩
                    · rw [List.length_append, x2]
                      omega
                    · intro hlt
                      apply e3
                      rw [List.length_append, x2] at hlt
                      omega
            · exact ih _ _ _ _ _ _ hr h
      · rw [if_neg hroom] at h
        cases h
        exact ⟨[], by simp, Nat.zero_le _, fun hlt => by simp at hlt; omega⟩


/-- A successful pass of the decoder does not depend on the bound on the passes. -/
theorem inflate_run_mono_step : ∀ (fuel : Nat) (w : run_at) (I : ginflate_t) (out : List Nat)
    (room : Nat) (o : List Nat) (J : ginflate_t),
    inflate_run fuel w I out room = .ok o J → inflate_run (fuel + 1) w I out room = .ok o J := by
  intro fuel
  induction fuel with
  | zero =>
    intro w I out room o J h
    rw [inflate_run_zero] at h
    cases h
  | succ fuel ih =>
    intro w I out room o J h
    cases w with
    | call =>
      rw [inflate_run_call] at h ⊢
      cases hinfl : I.infl with
      | inflate_error =>
        simp only [hinfl] at h
        cases h
      | inflate_block =>
        simp only [hinfl] at h ⊢
        by_cases hbf : I.bfinal ≠ 0
        · rw [if_pos hbf] at h ⊢
          exact h
        · rw [if_neg hbf] at h ⊢
          cases hg1 : get_bits I 1 with
          | err e1 I1 =>
            rw [hg1] at h
            cases h
          | ok bf I1 =>
            rw [hg1] at h
            dsimp only at h ⊢
            cases hg2 : get_bits I1 2 with
            | err e1 I2 =>
              rw [hg2] at h
              cases h
            | ok bt I2 =>
              rw [hg2] at h
              dsimp only at h ⊢
              cases hs : c_setup_fn bt { I2 with bfinal := bf } with
              | err e1 I3 =>
                rw [hs] at h
                cases h
              | ok u I3 =>
                rw [hs] at h
                exact ih _ _ _ _ _ _ h
      | inflate_stored =>
        simp only [hinfl] at h ⊢
        cases hs : stored_loop (umin I.match_len (room % U32)) I out with
        | err e1 I1 =>
          rw [hs] at h
          cases h
        | ok bs I1 =>
          rw [hs] at h
          dsimp only at h ⊢
          by_cases hc : I1.match_len - umin I.match_len (room % U32) = 0
          · rw [if_pos hc] at h ⊢
            exact ih _ _ _ _ _ _ h
          · rw [if_neg hc] at h ⊢
            exact h
      | inflate_compressed =>
        simp only [hinfl] at h ⊢
        by_cases hc : I.match_len > 0
        · rw [if_pos hc] at h ⊢
          exact ih _ _ _ _ _ _ h
        · rw [if_neg hc] at h ⊢
          exact ih _ _ _ _ _ _ h
    | comp_loop =>
      rw [inflate_run_comp_loop] at h ⊢
      by_cases hroom : 0 < room
      · rw [if_pos hroom] at h ⊢
        cases hd : decode_huff I I.hdic_lit with
        | err e1 I1 =>
          rw [hd] at h
          cases h
        | ok l I1 =>
          rw [hd] at h
          dsimp only at h ⊢
          by_cases hl : l < 256
          · rw [if_pos hl] at h ⊢
            exact ih _ _ _ _ _ _ h
          · rw [if_neg hl] at h ⊢
            by_cases hl2 : l ≥ 257
            · rw [if_pos hl2] at h ⊢
              cases he : decode_ext I1 c_lenext (l - 257) with
              | err e1 I2 =>
                rw [he] at h
                cases h
              | ok len I2 =>
                rw [he] at h
                dsimp only at h ⊢
                cases hd2 : decode_huff { I2 with match_len := len } I2.hdic_dist with
                | err e1 I3 =>
                  rw [hd2] at h
                  cases h
                | ok d I3 =>
                  rw [hd2] at h
                  dsimp only at h ⊢
                  cases he2 : decode_ext I3 c_distext d with
                  | err e1 I4 =>
                    rw [he2] at h
                    cases h
                  | ok dist I4 =>
                    rw [he2] at h
                    exact ih _ _ _ _ _ _ h
            · rw [if_neg hl2] at h ⊢
              exact ih _ _ _ _ _ _ h
      · rw [if_neg hroom] at h ⊢
        exact h

theorem inflate_run_mono (f g : Nat) (hfg : f ≤ g) (w : run_at) (I : ginflate_t)
    (out : List Nat) (room : Nat) (o : List Nat) (J : ginflate_t)
    (h : inflate_run f w I out room = .ok o J) : inflate_run g w I out room = .ok o J := by
  induction g with
  | zero =>
    have : f = 0 := by omega
    subst this
    exact h
  | succ g ih =>
    by_cases hg : f ≤ g
    · exact inflate_run_mono_step _ _ _ _ _ _ _ (ih hg)
    · have : f = g + 1 := by omega
      subst this
      exact h

theorem expand_match_out (I : ginflate_t) (out : List Nat) (room : Nat) :
    expand_match I out room
      = ((expand_match I [] room).1, out ++ (expand_match I [] room).2.1,
         (expand_match I [] room).2.2) := by
  unfold expand_match
  dsimp only
  rw [expand_loop_out]

theorem res_shift_assoc (a b : List Nat) (R : Res (List Nat)) :
    (match R with
      | .ok o J => Res.ok (a ++ b ++ o) J
      | .err e J => Res.err e J)
    = match (match R with
        | .ok o J => Res.ok (b ++ o) J
        | .err e J => Res.err e J) with
      | .ok o J => Res.ok (a ++ o) J
      | .err e J => Res.err e J := by
  cases R <;> simp

/-- The bytes already in the caller's buffer do not influence a pass of the decoder. -/
theorem inflate_run_out : ∀ (fuel : Nat) (w : run_at) (I : ginflate_t) (out : List Nat)
    (room : Nat),
    inflate_run fuel w I out room
      = match inflate_run fuel w I [] room with
        | .ok o J => .ok (out ++ o) J
        | .err e J => .err e J := by
  intro fuel
  induction fuel with
  | zero =>
    intro w I out room
    rw [inflate_run_zero, inflate_run_zero]
  | succ fuel ih =>
    intro w I out room
    cases w with
    | call =>
      rw [inflate_run_call, inflate_run_call]
      cases hinfl : I.infl with
      | inflate_error => rfl
      | inflate_block =>
        dsimp only
        by_cases hbf : I.bfinal ≠ 0
        · rw [if_pos hbf, if_pos hbf]
          simp
        · rw [if_neg hbf, if_neg hbf]
          cases hg1 : get_bits I 1 with
          | err e1 I1 => rfl
          | ok bf I1 =>
            dsimp only
            cases hg2 : get_bits I1 2 with
            | err e1 I2 => rfl
            | ok bt I2 =>
              dsimp only
              cases hs : c_setup_fn bt { I2 with bfinal := bf } with
              | err e1 I3 => rfl
              | ok u I3 =>
                dsimp only
                exact ih _ _ _ _
      | inflate_stored =>
        dsimp only
        rw [stored_loop_out]
        cases hs : stored_loop (umin I.match_len (room % U32)) I [] with
        | err e1 I1 => rfl
        | ok bs I1 =>
          dsimp only
          by_cases hc : I1.match_len - umin I.match_len (room % U32) = 0
          · rw [if_pos hc, if_pos hc, ih _ _ (out ++ bs), ih _ _ bs]
            exact res_shift_assoc _ _ _
          · rw [if_neg hc, if_neg hc]
      | inflate_compressed =>
        dsimp only
        by_cases hc : I.match_len > 0
        · rw [if_pos hc, if_pos hc, expand_match_out I out room]
          dsimp only
          rw [ih _ _ (out ++ (expand_match I [] room).2.1), ih _ _ (expand_match I [] room).2.1]
          exact res_shift_assoc _ _ _
        · rw [if_neg hc, if_neg hc]
          exact ih _ _ _ _
    | comp_loop =>
      rw [inflate_run_comp_loop, inflate_run_comp_loop]
      by_cases hroom : 0 < room
      · rw [if_pos hroom, if_pos hroom]
        cases hd : decode_huff I I.hdic_lit with
        | err e1 I1 => rfl
        | ok l I1 =>
          dsimp only
          by_cases hl : l < 256
          · rw [if_pos hl, if_pos hl, ih _ _ (out ++ [(ringbuf_put I1 l).1]),
              ih _ _ ([] ++ [(ringbuf_put I1 l).1])]
            exact res_shift_assoc _ _ _
          · rw [if_neg hl, if_neg hl]
            by_cases hl2 : l ≥ 257
            · rw [if_pos hl2, if_pos hl2]
              cases he : decode_ext I1 c_lenext (l - 257) with
              | err e1 I2 => rfl
              | ok len I2 =>
                dsimp only
                cases hd2 : decode_huff { I2 with match_len := len } I2.hdic_dist with
                | err e1 I3 => rfl
                | ok d I3 =>
                  dsimp only
                  cases he2 : decode_ext I3 c_distext d with
                  | err e1 I4 => rfl
                  | ok dist I4 =>
                    dsimp only
                    rw [expand_match_out { I4 with match_dist := dist } out room]
                    dsimp only
                    rw [ih _ _ (out ++ (expand_match { I4 with match_dist := dist } [] room).2.1),
                      ih _ _ (expand_match { I4 with match_dist := dist } [] room).2.1]
                    exact res_shift_assoc _ _ _
            · rw [if_neg hl2, if_neg hl2]
              exact ih _ _ _ _
      · rw [if_neg hroom, if_neg hroom]
        simp

theorem expand_loop_split (d : Nat) : ∀ (k1 k2 pos : Nat) (rb out : List Nat),
    expand_loop d (k1 + k2) pos rb out
      = expand_loop d k2 (expand_loop d k1 pos rb out).1 (expand_loop d k1 pos rb out).2.1
          (expand_loop d k1 pos rb out).2.2 := by
  intro k1
  induction k1 with
  | zero => intro k2 pos rb out; simp [expand_loop]
  | succ k1 ih =>
    intro k2 pos rb out
    rw [show k1 + 1 + k2 = (k1 + k2) + 1 from by omega, expand_loop, expand_loop, ih]

theorem stored_loop_split : ∀ (k1 k2 : Nat) (I : ginflate_t) (out : List Nat),
    stored_loop (k1 + k2) I out
      = match stored_loop k1 I out with
        | .ok o1 J => stored_loop k2 J o1
        | .err e J => .err e J := by
  intro k1
  induction k1 with
  | zero =>
    intro k2 I out
    rw [Nat.zero_add, stored_loop_zero]
  | succ k1 ih =>
    intro k2 I out
    rw [show k1 + 1 + k2 = (k1 + k2) + 1 from by omega, stored_loop_succ, stored_loop_succ]
    cases hg : get_bits I 8 with
    | err e I1 => rfl
    | ok v I1 =>
      dsimp only
      exact ih _ _ _

/-- A match that fits the room of the shorter read is expanded alike with more room. -/
theorem expand_match_small (X : ginflate_t) (out : List Nat) (a b : Nat) (hab : a + b < U32)
    (hm : X.match_len ≤ a) :
    expand_match X out (a + b)
      = ((expand_match X out a).1, (expand_match X out a).2.1, (expand_match X out a).2.2 + b)
    ∧ (expand_match X out a).1.match_len = 0
    ∧ (expand_match X out a).2.2 ≤ a := by
  have ha : a % U32 = a := Nat.mod_eq_of_lt (by omega)
  have hab1 : (a + b) % U32 = a + b := Nat.mod_eq_of_lt hab
  have n1 : umin X.match_len (a % U32) = X.match_len := by
    rw [ha, umin_eq_min]
    omega
  have n3 : umin X.match_len ((a + b) % U32) = X.match_len := by
    rw [hab1, umin_eq_min]
    omega
  unfold expand_match
  dsimp only
  rw [n1, n3]
  refine ⟨?_, Nat.sub_self _, Nat.sub_le _ _⟩
  rw [show a + b - X.match_len = a - X.match_len + b from by omega]

/-- A match cut by a full buffer and resumed with room `b` gives what one call with the
room of both gives. -/
theorem expand_match_add (X : ginflate_t) (out : List Nat) (a b : Nat) (hab : a + b < U32)
    (hm : a < X.match_len) :
    (expand_match X out a).2.2 = 0
    ∧ 0 < (expand_match X out a).1.match_len
    ∧ expand_match (expand_match X out a).1 (expand_match X out a).2.1 b
        = expand_match X out (a + b) := by
  have ha : a % U32 = a := Nat.mod_eq_of_lt (by omega)
  have hb : b % U32 = b := Nat.mod_eq_of_lt (by omega)
  have hab1 : (a + b) % U32 = a + b := Nat.mod_eq_of_lt hab
  have n1 : umin X.match_len (a % U32) = a := by
    rw [ha, umin_eq_min]
    omega
  have n2 : umin (X.match_len - a) (b % U32) = min (X.match_len - a) b := by
    rw [hb, umin_eq_min]
  have n3 : umin X.match_len ((a + b) % U32) = a + min (X.match_len - a) b := by
    rw [hab1, umin_eq_min]
    omega
  unfold expand_match
  dsimp only
  rw [n1, n2, n3, expand_loop_split]
  refine ⟨Nat.sub_self _, by omega, ?_⟩
  rw [show X.match_len - a - min (X.match_len - a) b
        = X.match_len - (a + min (X.match_len - a) b) from by omega,
    show b - min (X.match_len - a) b = a + b - (a + min (X.match_len - a) b) from by omega]

theorem inflate_run_call_stored (fuel : Nat) (I : ginflate_t) (out : List Nat) (room : Nat)
    (h : I.infl = .inflate_stored) :
    inflate_run (fuel + 1) .call I out room
      = match stored_loop (umin I.match_len (room % U32)) I out with
        | .err e I1 => .err e I1
        | .ok out1 I1 =>
          if I1.match_len - umin I.match_len (room % U32) = 0 then
            inflate_run fuel .call
              { I1 with match_len := I1.match_len - umin I.match_len (room % U32),
                        infl := .inflate_block } out1 (room - umin I.match_len (room % U32))
          else .ok out1 { I1 with match_len := I1.match_len - umin I.match_len (room % U32) } := by
  rw [inflate_run_call]
  simp only [h]
  try rfl

theorem inflate_run_call_compressed (fuel : Nat) (I : ginflate_t) (out : List Nat)
    (room : Nat) (h : I.infl = .inflate_compressed) :
    inflate_run (fuel + 1) .call I out room
      = if I.match_len > 0 then
          inflate_run fuel .comp_loop (expand_match I out room).1 (expand_match I out room).2.1
            (expand_match I out room).2.2
        else inflate_run fuel .comp_loop I out room := by
  rw [inflate_run_call]
  simp only [h]

/-- A stored block cut by a full buffer: the resumed call does what the call with the room
of both does. -/
theorem inflate_stored_split (I : ginflate_t) (out : List Nat) (a b f : Nat)
    (bs : List Nat) (I1 : ginflate_t) (hab : a + b < U32)
    (hinfl : I.infl = .inflate_stored) (hm : a < I.match_len)
    (hs : stored_loop a I [] = .ok bs I1) (o : List Nat) (K : ginflate_t)
    (h : inflate_run (f + 1) .call { I1 with match_len := I.match_len - a } (out ++ bs) b
          = .ok o K) :
    inflate_run (f + 1) .call I out (a + b) = .ok o K := by
  have hb : b % U32 = b := Nat.mod_eq_of_lt (by omega)
  have hab1 : (a + b) % U32 = a + b := Nat.mod_eq_of_lt hab
  obtain ⟨b1, b2, b3, _⟩ := (stored_loop_res _ _).1 _ _ hs
  have hI1 : I1.infl = .inflate_stored := b2.trans hinfl
  have n2 : umin (I.match_len - a) (b % U32) = min (I.match_len - a) b := by
    rw [hb, umin_eq_min]
  have n3 : umin I.match_len ((a + b) % U32) = a + min (I.match_len - a) b := by
    rw [hab1, umin_eq_min]
    omega
  rw [inflate_run_call_stored _ { I1 with match_len := I.match_len - a } _ _ hI1] at h
  rw [inflate_run_call_stored _ _ _ _ hinfl]
  dsimp only at h
  rw [n2, stored_loop_out, stored_loop_match_len] at h
  rw [n3, stored_loop_split, stored_loop_out, hs]
  dsimp only
  rw [stored_loop_out]
  cases hs2 : stored_loop (min (I.match_len - a) b) I1 [] with
  | err e1 I2 =>
    rw [hs2] at h
    cases h
  | ok bs2 I2 =>
    rw [hs2] at h
    dsimp only at h ⊢
    obtain ⟨c1, c2, c3, _⟩ := (stored_loop_res _ _).1 _ _ hs2
    rw [c3, b3]
    rw [show I.match_len - (a + min (I.match_len - a) b)
          = I.match_len - a - min (I.match_len - a) b from by omega,
      show a + b - (a + min (I.match_len - a) b) = b - min (I.match_len - a) b from by omega]
    exact h

theorem inflate_run_prepend (p : List Nat) (fuel : Nat) (w : run_at) (I : ginflate_t)
    (out : List Nat) (room : Nat) (o : List Nat) (J : ginflate_t)
    (h : inflate_run fuel w I out room = .ok o J) :
    inflate_run fuel w I (p ++ out) room = .ok (p ++ o) J := by
  rw [inflate_run_out] at h ⊢
  cases hR : inflate_run fuel w I [] room with
  | err e1 I1 =>
    rw [hR] at h
    cases h
  | ok o0 I1 =>
    rw [hR] at h
    cases h
    simp

/-- A match cut by a full buffer: the pass returns there, and the resumed read matches the
pass that had the room of both. -/
theorem expand_resume (X : ginflate_t) (out : List Nat) (a b : Nat) (hab : a + b < U32)
    (hXi : X.infl = .inflate_compressed) (hm : a < X.match_len)
    (fuel : Nat) (o1 : List Nat) (J : ginflate_t)
    (h : inflate_run fuel .comp_loop (expand_match X out a).1 (expand_match X out a).2.1
          (expand_match X out a).2.2 = .ok o1 J)
    (g : Nat) (o2 : List Nat) (K : ginflate_t)
    (hres : inflate_run g .call J [] b = .ok o2 K) :
    ∃ k, inflate_run k .comp_loop (expand_match X out (a + b)).1
          (expand_match X out (a + b)).2.1 (expand_match X out (a + b)).2.2
        = .ok (o1 ++ o2) K := by
  obtain ⟨q1, q2, q3⟩ := expand_match_add X out a b hab hm
  rw [q1] at h
  cases fuel with
  | zero =>
    rw [inflate_run_zero] at h
    cases h
  | succ fuel =>
    rw [inflate_run_comp_loop, if_neg (Nat.lt_irrefl 0)] at h
    cases h
    cases g with
    | zero =>
      rw [inflate_run_zero] at hres
      cases hres
    | succ g =>
      rw [inflate_run_call_compressed _ _ _ _ (show (expand_match X out a).1.infl = _ from hXi),
        if_pos q2] at hres
      refine ⟨g, ?_⟩
      rw [← q3, expand_match_out (expand_match X out a).1 (expand_match X out a).2.1 b]
      dsimp only
      exact inflate_run_prepend _ _ _ _ _ _ _ _ hres

/-- Resuming a read: when a pass with room `a` succeeds and a further read of `b` bytes
succeeds on the decoder it leaves, the pass with room `a + b` succeeds with the bytes of
both and the same decoder. -/
theorem inflate_run_resume (b : Nat) : ∀ (fuel : Nat) (w : run_at) (I : ginflate_t)
    (out : List Nat) (a : Nat) (o1 : List Nat) (J : ginflate_t), a + b < U32 →
    (w = .comp_loop → I.infl = .inflate_compressed ∧ I.match_len = 0) →
    inflate_run fuel w I out a = .ok o1 J →
    ∀ (g : Nat) (o2 : List Nat) (K : ginflate_t), inflate_run g .call J [] b = .ok o2 K →
    ∃ k, inflate_run k w I out (a + b) = .ok (o1 ++ o2) K := by
  intro fuel
  induction fuel with
  | zero =>
    intro w I out a o1 J _ _ h
    rw [inflate_run_zero] at h
    cases h
  | succ fuel ih =>
    intro w I out a o1 J hab hinv h g o2 K hres
    have ha : a % U32 = a := Nat.mod_eq_of_lt (by omega)
    have hab1 : (a + b) % U32 = a + b := Nat.mod_eq_of_lt hab
    cases w with
    | call =>
      cases hinfl : I.infl with
      | inflate_error =>
        rw [inflate_run_call] at h
        simp only [hinfl] at h
        cases h
      | inflate_block =>
        rw [inflate_run_call] at h
        simp only [hinfl] at h
        by_cases hbf : I.bfinal ≠ 0
        · rw [if_pos hbf] at h
          cases h
          cases g with
          | zero =>
            rw [inflate_run_zero] at hres
            cases hres
          | succ g =>
            rw [inflate_block_done _ hinfl hbf] at hres
            cases hres
            exact ⟨1, by rw [inflate_block_done _ hinfl hbf, List.append_nil]⟩
        · rw [if_neg hbf] at h
          cases hg1 : get_bits I 1 with
          | err e1 I1 =>
            rw [hg1] at h
            cases h
          | ok bf I1 =>
            rw [hg1] at h
            dsimp only at h
            cases hg2 : get_bits I1 2 with
            | err e1 I2 =>
              rw [hg2] at h
              cases h
            | ok bt I2 =>
              rw [hg2] at h
              dsimp only at h
              cases hs : c_setup_fn bt { I2 with bfinal := bf } with
              | err e1 I3 =>
                rw [hs] at h
                cases h
              | ok u I3 =>
                rw [hs] at h
                dsimp only at h
                obtain ⟨k, e⟩ := ih .call _ _ _ _ _ hab (fun hw => by cases hw) h g o2 K hres
                refine ⟨k + 1, ?_⟩
                rw [inflate_run_call]
                simp only [hinfl]
                rw [if_neg hbf, hg1]
                dsimp only
                rw [hg2]
                dsimp only
                rw [hs]
                exact e
      | inflate_stored =>
        rw [inflate_run_call_stored _ _ _ _ hinfl, ha, umin_eq_min, stored_loop_out] at h
        cases hs : stored_loop (min I.match_len a) I [] with
        | err e1 I1 =>
          rw [hs] at h
          cases h
        | ok bs I1 =>
          rw [hs] at h
          dsimp only at h
          obtain ⟨b1, b2, b3, _⟩ := (stored_loop_res _ _).1 _ _ hs
          rw [b3] at h
          by_cases hc : I.match_len - min I.match_len a = 0
          · rw [if_pos hc] at h
            obtain ⟨k, e⟩ := ih .call _ _ _ _ _
              (show a - min I.match_len a + b < U32 from by omega)
              (fun hw => by cases hw) h g o2 K hres
            refine ⟨k + 1, ?_⟩
            rw [inflate_run_call_stored _ _ _ _ hinfl, hab1, umin_eq_min,
              show min I.match_len (a + b) = min I.match_len a from by omega,
              stored_loop_out, hs]
            dsimp only
            rw [b3, if_pos hc,
              show a + b - min I.match_len a = a - min I.match_len a + b from by omega]
            exact e
          · rw [if_neg hc] at h
            cases h
            have hma : min I.match_len a = a := by omega
            rw [hma] at hs
            cases g with
            | zero =>
              rw [inflate_run_zero] at hres
              cases hres
            | succ g =>
              refine ⟨g + 1, ?_⟩
              apply inflate_stored_split I out a b g bs I1 hab hinfl (by omega) hs
              rw [hma] at hres
              have hp := inflate_run_prepend (out ++ bs) _ _ _ _ _ _ _ hres
              rw [List.append_nil] at hp
              exact hp
      | inflate_compressed =>
        rw [inflate_run_call_compressed _ _ _ _ hinfl] at h
        by_cases hc : I.match_len > 0
        · rw [if_pos hc] at h
          by_cases hm : I.match_len ≤ a
          · obtain ⟨q1, q2, q3⟩ := expand_match_small I out a b hab hm
            obtain ⟨k, e⟩ := ih .comp_loop (expand_match I out a).1 _ _ _ _
              (show (expand_match I out a).2.2 + b < U32 from by omega)
              (fun _ => ⟨hinfl, q2⟩) h g o2 K hres
            refine ⟨k + 1, ?_⟩
            rw [inflate_run_call_compressed _ _ _ _ hinfl, if_pos hc, q1]
            exact e
          · obtain ⟨k, e⟩ := expand_resume I out a b hab hinfl (by omega) fuel o1 J h g o2 K hres
            refine ⟨k + 1, ?_⟩
            rw [inflate_run_call_compressed _ _ _ _ hinfl, if_pos hc]
            exact e
        · rw [if_neg hc] at h
          obtain ⟨k, e⟩ := ih .comp_loop _ _ _ _ _ hab
            (fun _ => ⟨hinfl, by omega⟩) h g o2 K hres
          refine ⟨k + 1, ?_⟩
          rw [inflate_run_call_compressed _ _ _ _ hinfl, if_neg hc]
          exact e
    | comp_loop =>
      obtain ⟨hci, hcm⟩ := hinv rfl
      rw [inflate_run_comp_loop] at h
      by_cases hroom : 0 < a
      · rw [if_pos hroom] at h
        cases hd : decode_huff I I.hdic_lit with
        | err e1 I1 =>
          rw [hd] at h
          cases h
        | ok l I1 =>
          rw [hd] at h
          dsimp only at h
          obtain ⟨_, f2, _, _, _, _, _, _, f9⟩ := frame_fields _ _ (decode_huff_ok _ _ _ _ hd)
          by_cases hl : l < 256
          · rw [if_pos hl] at h
            obtain ⟨k, e⟩ := ih .comp_loop (ringbuf_put I1 l).2 _ _ _ _
              (show a - 1 + b < U32 from by omega)
              (fun _ => ⟨f9.trans hci, f2.trans hcm⟩) h g o2 K hres
            refine ⟨k + 1, ?_⟩
            rw [inflate_run_comp_loop, if_pos (show 0 < a + b from by omega), hd]
            dsimp only
            rw [if_pos hl, show a + b - 1 = a - 1 + b from by omega]
            exact e
          · rw [if_neg hl] at h
            by_cases hl2 : l ≥ 257
            · rw [if_pos hl2] at h
              cases he : decode_ext I1 c_lenext (l - 257) with
              | err e1 I2 =>
                rw [he] at h
                cases h
              | ok len I2 =>
                rw [he] at h
                dsimp only at h
                cases hd2 : decode_huff { I2 with match_len := len } I2.hdic_dist with
                | err e1 I3 =>
                  rw [hd2] at h
                  cases h
                | ok d I3 =>
                  rw [hd2] at h
                  dsimp only at h
                  cases he2 : decode_ext I3 c_distext d with
                  | err e1 I4 =>
                    rw [he2] at h
                    cases h
                  | ok dist I4 =>
                    rw [he2] at h
                    dsimp only at h
                    obtain ⟨_, _, _, _, _, _, _, _, x9⟩ :=
                      frame_fields _ _ (decode_ext_ok _ _ _ _ _ he)
                    obtain ⟨_, _, _, _, _, _, _, _, y9⟩ :=
                      frame_fields _ _ (decode_huff_ok _ _ _ _ hd2)
                    obtain ⟨_, _, _, _, _, _, _, _, z9⟩ :=
                      frame_fields _ _ (decode_ext_ok _ _ _ _ _ he2)
                    have hXi : ({ I4 with match_dist := dist } : ginflate_t).infl
                        = .inflate_compressed :=
                      z9.trans (y9.trans (x9.trans (f9.trans hci)))
                    have hgoal : ∃ k, inflate_run k .comp_loop
                        (expand_match { I4 with match_dist := dist } out (a + b)).1
                        (expand_match { I4 with match_dist := dist } out (a + b)).2.1
                        (expand_match { I4 with match_dist := dist } out (a + b)).2.2
                          = .ok (o1 ++ o2) K := by
                      by_cases hm : ({ I4 with match_dist := dist } : ginflate_t).match_len ≤ a
                      · obtain ⟨q1, q2, q3⟩ :=
                          expand_match_small { I4 with match_dist := dist } out a b hab hm
                        obtain ⟨k, e⟩ := ih .comp_loop
                          (expand_match { I4 with match_dist := dist } out a).1 _ _ _ _
                          (show (expand_match { I4 with match_dist := dist } out a).2.2 + b < U32
                            from by omega)
                          (fun _ => ⟨hXi, q2⟩) h g o2 K hres
                        refine ⟨k, ?_⟩
                        rw [q1]
                        exact e
                      · exact expand_resume _ out a b hab hXi (by omega) fuel o1 J h g o2 K hres
                    obtain ⟨k, e⟩ := hgoal
                    refine ⟨k + 1, ?_⟩
                    rw [inflate_run_comp_loop, if_pos (show 0 < a + b from by omega), hd]
                    dsimp only
                    rw [if_neg hl, if_pos hl2, he]
                    dsimp only
                    rw [hd2]
                    dsimp only
                    rw [he2]
                    exact e
            · rw [if_neg hl2] at h
              obtain ⟨k, e⟩ := ih .call _ _ _ _ _ hab (fun hw => by cases hw) h g o2 K hres
              refine ⟨k + 1, ?_⟩
              rw [inflate_run_comp_loop, if_pos (show 0 < a + b from by omega), hd]
              dsimp only
              rw [if_neg hl, if_neg hl2]
              exact e
      · rw [if_neg hroom] at h
        cases h
        have ha0 : a = 0 := by omega
        subst ha0
        cases g with
        | zero =>
          rw [inflate_run_zero] at hres
          cases hres
        | succ g =>
          rw [inflate_run_call_compressed _ _ _ _ hci, if_neg (by omega)] at hres
          refine ⟨g, ?_⟩
          have hp := inflate_run_prepend out _ _ _ _ _ _ _ hres
          rw [List.append_nil] at hp
          rw [Nat.zero_add]
          exact hp

/-- C2. In a file-backed archive in which the lookup walk for the name `N` reaches an entry
`z` named `N` (no earlier entry stops the lookup) with compression method 0 whose payload
bytes `[d, d+c)` (`d = z.data_off`, `c = z.data_len`) are present, `gar_open` returns a
handle, and successive `gar_read` calls of any sizes return exactly those archive bytes in
order, each read as many as asked while bytes remain, and then 0 bytes. -/
theorem gar_open_stored_reads (A N : List Nat) (p : Nat) (mem : ginflate_t)
    (pre : List gar_zstat_t) (z : gar_zstat_t) (post : List gar_zstat_t)
    (hlen : A.length < U64)
    (hwalk : gar_entries A = pre ++ z :: post)
    (hpre : ∀ y ∈ pre, name_matches N y = false)
    (hname : z.fstat.fname = some N)
    (hmeth : z.comp_method = 0)
    (hdata : z.data_off + z.data_len ≤ A.length) :
    ∃ fd, (gar_open ⟨.file A p⟩ N mem).1 = .ok (some fd) ∧
      ∀ ns, (gar_read_seq (some fd) ns).1
        = (read_chunks ((A.drop z.data_off).take z.data_len) ns).map .ok := by
  refine ⟨_, gar_open_stored_aux A N p mem pre z post hwalk hpre
    (name_matches_self N z hname) hmeth hdata, ?_⟩
  intro ns
  have h := gar_read_seq_part_file A z.data_off z.data_len hdata hlen ns 0 (Nat.zero_le _)
  simpa using h

/-- Witness for C2: the archive with the one stored entry `a.txt` holding `hello` and a line
feed reads as 68 65 6C 6C 6F 0A and then 0. -/
theorem gar_open_stored_reads_witness :
    gar_entries ex_archive_hello = [] ++ ex_hello_zstat :: [] ∧
    ∃ fd, (gar_open ⟨.file ex_archive_hello 0⟩ [0x61, 0x2E, 0x74, 0x78, 0x74]
        ginflate_zero_mem).1 = .ok (some fd) ∧
      ∀ ns, (gar_read_seq (some fd) ns).1
        = (read_chunks [0x68, 0x65, 0x6C, 0x6C, 0x6F, 0x0A] ns).map .ok :=
  ⟨by decide!,
   gar_open_stored_reads ex_archive_hello [0x61, 0x2E, 0x74, 0x78, 0x74] 0 ginflate_zero_mem
     [] ex_hello_zstat [] (by decide!) (by decide!) (by simp) rfl rfl (by decide!)⟩

/-- C3. For an archive file that is the concatenation of `k` well-formed chunks followed by a
tail that is shorter than 30 bytes or does not begin with the signature, `gar_enum` with a
callback that always returns 0 returns 0 without an error and calls the callback exactly
once per chunk, in file order, with that chunk's name and uncompressed size: the user data
after the call is the fold of the callback over the `k` chunk statuses, and the recording
callback records exactly these. On the zero-byte archive no callback is ever called. -/
theorem gar_enum_visits_chunks {σ : Type} (cs : List pk_chunk) (tail : List Nat)
    (fn : gar_enum_t σ) (ud : σ) (p : Nat)
    (hwf : ∀ c ∈ cs, c.wf)
    (htail : tail.length < 30 ∨ tail.take 4 ≠ pk0304_sig)
    (hlen : ((cs.map pk_chunk.bytes).flatten ++ tail).length < U64)
    (hfn : ∀ z u, (fn z u).1 = .ok 0) :
    (gar_enum ⟨.file ((cs.map pk_chunk.bytes).flatten ++ tail) p⟩ fn ud).1 = .ok 0
    ∧ (gar_enum ⟨.file ((cs.map pk_chunk.bytes).flatten ++ tail) p⟩ fn ud).2.2
        = (chunk_zstats cs 0).foldl (fun u z => (fn z u).2) ud
    ∧ gar_entries ((cs.map pk_chunk.bytes).flatten ++ tail) = chunk_zstats cs 0
    ∧ (chunk_zstats cs 0).length = cs.length
    ∧ (∀ (i : Nat) (c : pk_chunk), cs[i]? = some c →
        ∃ z, (chunk_zstats cs 0)[i]? = some z ∧ z.fstat = ⟨some c.fname, c.uncomp_size⟩)
    ∧ (∀ (g : gar_enum_t σ) (q : Nat),
        (gar_enum ⟨.file [] q⟩ g ud).1 = .ok 0 ∧ (gar_enum ⟨.file [] q⟩ g ud).2.2 = ud) := by
  have hw := walk_chunks tail htail cs [] (((cs.map pk_chunk.bytes).flatten ++ tail).length + 2)
    hwf (by simpa using hlen) (by
      have := flatten_chunks_length_ge cs
      simp only [List.length_append]
      omega)
  simp only [List.nil_append, List.length_nil] at hw
  have he := gar_entries_eq_walk ((cs.map pk_chunk.bytes).flatten ++ tail)
  rw [hw] at he
  have h := (gar_enum_file fn ((cs.map pk_chunk.bytes).flatten ++ tail) p ud).1
  rw [he.1, he.2, gar_visit_all_zero fn _ _ _ (fun y _ u => hfn y u)] at h
  simp only [Prod.mk.injEq] at h
  exact ⟨h.1, h.2, he.1, chunk_zstats_length cs 0, chunk_zstats_get cs 0,
    fun g q => ⟨rfl, rfl⟩⟩

/-- Witness for C3: the archive made of the chunk `a.txt` and a tail that begins a central
directory record (`PK\1\2`). -/
theorem gar_enum_visits_chunks_witness :
    (gar_enum ⟨.file (([ex_chunk_hello].map pk_chunk.bytes).flatten ++ [0x50, 0x4B, 1, 2]) 0⟩
        record_all []).1 = .ok 0
    ∧ (gar_enum ⟨.file (([ex_chunk_hello].map pk_chunk.bytes).flatten ++ [0x50, 0x4B, 1, 2]) 0⟩
        record_all []).2.2 = [ex_hello_zstat] :=
  have h := gar_enum_visits_chunks [ex_chunk_hello] [0x50, 0x4B, 1, 2] record_all [] 0
    (by decide) (by decide) (by decide!) (fun _ _ => rfl)
  ⟨h.1, h.2.1⟩

/-- The callback is called on `pre` in order, each call with the user data the calls before
it left, and returns 0 every time; on `z` it returns `r`, not 0: the visit stops there. -/
theorem gar_visit_stop_at {σ : Type} (fn : gar_enum_t σ) (e : Except gar_error_t Int)
    (z : gar_zstat_t) (post : List gar_zstat_t) (r : Int) (hr : r ≠ 0) :
    ∀ (pre : List gar_zstat_t) (ud : σ),
      (∀ a y b, pre = a ++ y :: b → (fn y (a.foldl (fun u x => (fn x u).2) ud)).1 = .ok 0) →
      (fn z (pre.foldl (fun u x => (fn x u).2) ud)).1 = .ok r →
      gar_visit fn (pre ++ z :: post) e ud
        = (.ok r, (fn z (pre.foldl (fun u x => (fn x u).2) ud)).2) := by
  intro pre
  induction pre with
  | nil =>
    intro ud _ hz
    rw [List.foldl_nil] at hz
    simp only [List.nil_append, gar_visit, hz, if_pos hr, List.foldl_nil]
  | cons y pre ih =>
    intro ud h hz
    have h0 : (fn y ud).1 = .ok 0 := h [] y pre rfl
    simp only [List.cons_append, gar_visit, h0, ne_eq, not_true_eq_false, if_false,
      List.foldl_cons]
    exact ih _ (fun a y2 b hab => h (y :: a) y2 b (by rw [hab]; rfl)) hz

theorem gar_visit_zero_at {σ : Type} (fn : gar_enum_t σ) (e : Except gar_error_t Int) :
    ∀ (zs : List gar_zstat_t) (ud : σ),
      (∀ a y b, zs = a ++ y :: b → (fn y (a.foldl (fun u x => (fn x u).2) ud)).1 = .ok 0) →
      gar_visit fn zs e ud = (e, zs.foldl (fun u x => (fn x u).2) ud) := by
  intro zs
  induction zs with
  | nil => intro ud _; rfl
  | cons y zs ih =>
    intro ud h
    have h0 : (fn y ud).1 = .ok 0 := h [] y zs rfl
    simp only [gar_visit, h0, ne_eq, not_true_eq_false, if_false, List.foldl_cons]
    exact ih _ (fun a y2 b hab => h (y :: a) y2 b (by rw [hab]; rfl))

/-- The logging callback leaves the user data of the callback next to the statuses of its
calls. -/
theorem visit_log_foldl {σ : Type} (fn : gar_enum_t σ) :
    ∀ (a : List gar_zstat_t) (ud : σ) (log : List gar_zstat_t),
      a.foldl (fun u x => (visit_log fn x u).2) (ud, log)
        = (a.foldl (fun u x => (fn x u).2) ud, log ++ a) := by
  intro a
  induction a with
  | nil => intro ud log; simp
  | cons y a ih =>
    intro ud log
    rw [List.foldl_cons, List.foldl_cons]
    show a.foldl (fun u x => (visit_log fn x u).2) ((fn y ud).2, log ++ [y]) = _
    rw [ih]
    simp

/-- C4, amended. In a file-backed archive, with any callback and user data: the callback is
called on the entries in file order, each call with the user data the calls before it left.
`gar_enum` stops at the first entry for which that call returns a nonzero value `r`: it
returns `r`, the user data is what the call on that entry left, and the callback has been
called on the entries up to that one and on no later entry (the log of the calls is
`pre ++ [z]`). If every call returns 0, the callback has been called on every entry and
`gar_enum` ends as the walk itself ends: it returns 0, or it raises the out-of-range error
when the sizes declared by the last header put the next header offset past the end of the
file. -/
theorem gar_enum_stop_rule {σ : Type} (A : List Nat) (p : Nat) (fn : gar_enum_t σ) (ud : σ)
    (hb : bytes_ok A) (hl : A.length < 2 ^ 63) :
    (∀ (pre : List gar_zstat_t) (z : gar_zstat_t) (post : List gar_zstat_t) (r : Int),
        gar_entries A = pre ++ z :: post →
        (∀ a y b, pre = a ++ y :: b →
          (fn y (a.foldl (fun u x => (fn x u).2) ud)).1 = .ok 0) →
        (fn z (pre.foldl (fun u x => (fn x u).2) ud)).1 = .ok r → r ≠ 0 →
        (gar_enum ⟨.file A p⟩ fn ud).1 = .ok r
        ∧ (gar_enum ⟨.file A p⟩ fn ud).2.2 = (fn z (pre.foldl (fun u x => (fn x u).2) ud)).2
        ∧ (gar_enum ⟨.file A p⟩ (visit_log fn) (ud, [])).1 = .ok r
        ∧ (gar_enum ⟨.file A p⟩ (visit_log fn) (ud, [])).2.2
            = ((fn z (pre.foldl (fun u x => (fn x u).2) ud)).2, pre ++ [z]))
    ∧ ((∀ a y b, gar_entries A = a ++ y :: b →
          (fn y (a.foldl (fun u x => (fn x u).2) ud)).1 = .ok 0) →
        (gar_enum ⟨.file A p⟩ fn ud).1 = gar_walk_end A
        ∧ (gar_enum ⟨.file A p⟩ fn ud).2.2
            = (gar_entries A).foldl (fun u x => (fn x u).2) ud
        ∧ (gar_walk_end A = .ok 0 ∨ gar_walk_end A = .error .out_of_range)
        ∧ (gar_enum ⟨.file A p⟩ (visit_log fn) (ud, [])).2.2
            = ((gar_entries A).foldl (fun u x => (fn x u).2) ud, gar_entries A)) := by
  have h := (gar_enum_file fn A p ud).1
  have hlog := (gar_enum_file (visit_log fn) A p (ud, [])).1
  constructor
  · intro pre z post r hw hpre hz hr
    rw [hw, gar_visit_stop_at fn _ z post r hr pre ud hpre hz] at h
    have hpre2 : ∀ a y b, pre = a ++ y :: b →
        (visit_log fn y (a.foldl (fun u x => (visit_log fn x u).2) (ud, []))).1 = .ok 0 := by
      intro a y b hab
      rw [visit_log_foldl]
      exact hpre a y b hab
    have hz2 : (visit_log fn z (pre.foldl (fun u x => (visit_log fn x u).2) (ud, []))).1
        = .ok r := by
      rw [visit_log_foldl]
      exact hz
    rw [hw, gar_visit_stop_at (visit_log fn) _ z post r hr pre (ud, []) hpre2 hz2,
      visit_log_foldl] at hlog
    simp only [Prod.mk.injEq] at h hlog
    refine ⟨h.1, h.2, hlog.1, ?_⟩
    rw [hlog.2]
    simp [visit_log]
  · intro h0
    rw [gar_visit_zero_at fn _ _ _ h0] at h
    have h02 : ∀ a y b, gar_entries A = a ++ y :: b →
        (visit_log fn y (a.foldl (fun u x => (visit_log fn x u).2) (ud, []))).1 = .ok 0 := by
      intro a y b hab
      rw [visit_log_foldl]
      exact h0 a y b hab
    rw [gar_visit_zero_at (visit_log fn) _ _ _ h02, visit_log_foldl] at hlog
    simp only [Prod.mk.injEq] at h hlog
    refine ⟨h.1, h.2, gar_walk_end_cases A hb hl, ?_⟩
    rw [hlog.2]
    simp

/-- Witness for C4 (amended): on the archive of three entries the counting callback, which
returns 0 from its first call and 5 from its second, makes `gar_enum` return 5 after two
calls; it is not called on the third entry. -/
theorem gar_enum_stop_rule_witness :
    (gar_enum ⟨.file ex_archive_three 0⟩ count_stop 0).1 = .ok 5
    ∧ (gar_enum ⟨.file ex_archive_three 0⟩ count_stop 0).2.2 = 2
    ∧ (gar_enum ⟨.file ex_archive_three 0⟩ (visit_log count_stop) (0, [])).2.2
        = (2, [⟨⟨some [97, 46, 116, 120, 116], 6⟩, 0, 35, 6⟩, ⟨⟨some [97, 0, 98], 0⟩, 0, 74, 0⟩]) := by
  obtain ⟨h1, h2, _, h4⟩ := (gar_enum_stop_rule ex_archive_three 0 count_stop 0 (by decide!)
    (by decide!)).1 [⟨⟨some [97, 46, 116, 120, 116], 6⟩, 0, 35, 6⟩]
    ⟨⟨some [97, 0, 98], 0⟩, 0, 74, 0⟩ [⟨⟨some [97], 3⟩, 0, 105, 2⟩] 5 (by decide!)
    (by
      intro a y b hab
      have hlen := congrArg List.length hab
      simp only [List.length_cons, List.length_nil, List.length_append] at hlen
      have ha : a = [] := List.length_eq_zero.mp (by omega)
      subst ha
      rfl)
    rfl (by decide)
  exact ⟨h1, h2, h4⟩

/-- Counterexample to C4 as stated: on the truncated archive the recording callback returns
0 for the one entry, and `gar_enum` does not return 0: it raises the out-of-range error. -/
theorem gar_enum_zero_callback_raises :
    (∀ z u, (record_all z u).1 = .ok 0)
    ∧ (gar_entries ex_archive_truncated).length = 1
    ∧ (gar_enum (gar_archive_open_file ex_archive_truncated) record_all []).1
        = .error .out_of_range :=
  ⟨fun _ _ => rfl, by decide!, by decide!⟩

/-- C5, amended. In a file-backed archive the lookup (`gar_zstat` with `on_find`) reports
found exactly when the walk contains an entry whose name, read as a C string (the stored
bytes before the first zero byte), equals the queried name read the same way; an entry whose
raw name bytes equal the queried name is such an entry. When found, `gar_stat` returns 1 with
`fsize` the uncompressed size of the first such entry in file order. When the lookup reports
not found, `gar_stat` returns 0 with `fname = NULL` and `fsize = 0`, and `gar_open` returns
`NULL`, with no error; the lookup reports not found when no entry matches and the walk ends
without an error. -/
theorem gar_lookup_rule (A N : List Nat) (p : Nat) :
    ((gar_zstat ⟨.file A p⟩ N).1 = .ok 1 ↔ ∃ z ∈ gar_entries A, name_matches N z = true)
    ∧ (∀ z ∈ gar_entries A, z.fstat.fname = some N → name_matches N z = true)
    ∧ (∀ (pre : List gar_zstat_t) (z : gar_zstat_t) (post : List gar_zstat_t),
        gar_entries A = pre ++ z :: post → (∀ y ∈ pre, name_matches N y = false) →
        name_matches N z = true →
        (gar_stat ⟨.file A p⟩ N).1 = .ok (1, ⟨some N, z.fstat.fsize⟩))
    ∧ ((gar_zstat ⟨.file A p⟩ N).1 = .ok 0 →
        (gar_stat ⟨.file A p⟩ N).1 = .ok (0, ⟨none, 0⟩)
        ∧ ∀ mem, gar_open_is_null ⟨.file A p⟩ N mem = .ok true)
    ∧ ((∀ z ∈ gar_entries A, name_matches N z = false) → gar_walk_end A = .ok 0 →
        (gar_zstat ⟨.file A p⟩ N).1 = .ok 0) := by
  refine ⟨⟨?_, ?_⟩, ?_, ?_, ?_, ?_⟩
  · intro hfound
    by_contra hno
    have hall : ∀ y ∈ gar_entries A, name_matches N y = false := by
      intro y hy
      by_contra hne
      exact hno ⟨y, hy, by simpa using hne⟩
    rw [gar_zstat_file_none A p N hall] at hfound
    have := gar_walk_end_ok_zero A 1 hfound
    omega
  · intro hex
    obtain ⟨pre, z, post, hw, hpre, hz⟩ := exists_first_match (name_matches N) _ hex
    exact (gar_zstat_file_some A p N pre z post hw hpre hz).1
  · intro z _ hz
    exact name_matches_self N z hz
  · intro pre z post hw hpre hz
    obtain ⟨h1, h2⟩ := gar_zstat_file_some A p N pre z post hw hpre hz
    unfold gar_stat
    rcases hzs : gar_zstat ⟨.file A p⟩ N with ⟨r, G1, zs⟩
    rw [hzs] at h1 h2
    simp only at h1 h2
    subst h1 h2
    simp
  · intro h0
    constructor
    · unfold gar_stat
      rcases hzs : gar_zstat ⟨.file A p⟩ N with ⟨r, G1, zs⟩
      rw [hzs] at h0
      simp only at h0
      subst h0
      simp
    · intro mem
      unfold gar_open_is_null gar_open
      rcases hzs : gar_zstat ⟨.file A p⟩ N with ⟨r, G1, zs⟩
      rw [hzs] at h0
      simp only at h0
      subst h0
      simp
  · intro hall hend
    rw [gar_zstat_file_none A p N hall, hend]

/-- Counterexample to C5 as stated: the archive holds one entry whose raw name bytes are
`a`, zero, `b`; the lookup of the name `a` reports found (`gar_stat` returns 1) although no
entry has the raw name `a`. -/
theorem gar_lookup_nul_name :
    (gar_stat (gar_archive_open_file ex_archive_nul) [0x61]).1 = .ok (1, ⟨some [0x61], 0⟩)
    ∧ (gar_entries ex_archive_nul).map (fun z => z.fstat.fname) = [some [0x61, 0, 0x62]] :=
  ⟨by decide!, by decide!⟩

/-- C6, amended. For a stored entry (compression method 0) opened by `gar_open` whose payload
bytes are all present in the archive file, when a read of `n > 0` bytes returns 0 the reads
before it have returned, in total, the compressed size declared in the entry's local header
(`data_len`); that total is the declared uncompressed size (the `fsize` of `gar_stat` and
`gar_enum`) exactly when the header declares the two sizes equal. -/
theorem gar_read_total_stored (A N : List Nat) (p : Nat) (mem : ginflate_t)
    (pre : List gar_zstat_t) (z : gar_zstat_t) (post : List gar_zstat_t)
    (ns : List Nat) (n : Nat) (rs : List (Except gar_error_t (List Nat)))
    (hlen : A.length < U64)
    (hwalk : gar_entries A = pre ++ z :: post)
    (hpre : ∀ y ∈ pre, name_matches N y = false)
    (hname : z.fstat.fname = some N)
    (hmeth : z.comp_method = 0)
    (hdata : z.data_off + z.data_len ≤ A.length)
    (hn : 0 < n)
    (hend : gar_open_read ⟨.file A p⟩ N mem (ns ++ [n]) = .ok (rs ++ [.ok []])) :
    bytes_returned rs = z.data_len
    ∧ (bytes_returned rs = z.fstat.fsize ↔ z.data_len = z.fstat.fsize) := by
  have hopen := gar_open_stored_aux A N p mem pre z post hwalk hpre
    (name_matches_self N z hname) hmeth hdata
  have hseq := gar_read_seq_part_file A z.data_off z.data_len hdata hlen (ns ++ [n]) 0
    (Nat.zero_le _)
  simp only [Nat.add_zero, List.drop_zero] at hseq
  unfold gar_open_read at hend
  rw [hopen] at hend
  simp only [Except.ok.injEq] at hend
  rw [hseq, read_chunks_append, List.map_append, List.map_cons, List.map_nil] at hend
  have hsplit := List.append_inj' hend rfl
  obtain ⟨hrs, hlast⟩ := hsplit
  simp only [List.cons.injEq, Except.ok.injEq, and_true] at hlast
  have hD : ((A.drop z.data_off).take z.data_len).length = z.data_len := by
    simp only [List.length_take, List.length_drop]
    omega
  have hshort : ((A.drop z.data_off).take z.data_len).length ≤ ns.sum := by
    have h1 := congrArg List.length hlast
    simp only [List.length_take, List.length_drop, List.length_nil] at h1
    simp only [List.length_take, List.length_drop]
    omega
  have htotal : bytes_returned rs = z.data_len := by
    rw [← hrs, bytes_returned_map_ok, read_chunks_total, hD]
    rw [hD] at hshort
    omega
  exact ⟨htotal, by rw [htotal]⟩

/-- Witness for C6 (amended): reading `a.txt` in pieces of 4 returns 4 and 2 bytes and then
0; the total 6 is the declared compressed size. -/
theorem gar_read_total_stored_witness :
    bytes_returned [.ok [0x68, 0x65, 0x6C, 0x6C], .ok [0x6F, 0x0A]] = ex_hello_zstat.data_len
    ∧ (bytes_returned [.ok [0x68, 0x65, 0x6C, 0x6C], .ok [0x6F, 0x0A]]
        = ex_hello_zstat.fstat.fsize ↔ ex_hello_zstat.data_len = ex_hello_zstat.fstat.fsize) :=
  gar_read_total_stored ex_archive_hello [0x61, 0x2E, 0x74, 0x78, 0x74] 0 ginflate_zero_mem
    [] ex_hello_zstat [] [4, 4] 4 [.ok [0x68, 0x65, 0x6C, 0x6C], .ok [0x6F, 0x0A]]
    (by decide!) (by decide!) (by simp) rfl rfl (by decide!) (by decide) (by decide!)

/-- Counterexample to C6 as stated: the stored entry `a` declares a compressed size of 2 and
an uncompressed size of 3; `gar_stat` reports `fsize = 3`, and reading the opened entry to
the end returns 2 bytes. -/
theorem gar_read_total_not_fsize :
    (gar_stat (gar_archive_open_file ex_archive_sizes) [0x61]).1 = .ok (1, ⟨some [0x61], 3⟩)
    ∧ gar_open_read (gar_archive_open_file ex_archive_sizes) [0x61] ginflate_zero_mem [4, 4]
        = .ok [.ok [1, 2], .ok []] :=
  ⟨by decide!, by decide!⟩

/-- C7, amended. In a file-backed archive whose walk ends without a seek error, for a name
that no entry matches `gar_open` returns `NULL` without raising an error, and the archive
handle stays usable: it is again a stream on the same file, and any later `gar_enum`,
`gar_stat` or `gar_open` on it gives the result it gives on a freshly opened handle of the
same archive (the walk seeks before it reads, so the position left behind does not matter). -/
theorem gar_open_missing (A N : List Nat) (p : Nat) (mem : ginflate_t)
    (hno : ∀ z ∈ gar_entries A, name_matches N z = false)
    (hend : gar_walk_end A = .ok 0) :
    gar_open_is_null ⟨.file A p⟩ N mem = .ok true
    ∧ ∃ q, (gar_open ⟨.file A p⟩ N mem).2 = ⟨.file A q⟩
      ∧ (∀ (fn : gar_enum_t (List gar_zstat_t)) (ud : List gar_zstat_t),
          (gar_enum ⟨.file A q⟩ fn ud).1 = (gar_enum (gar_archive_open_file A) fn ud).1
          ∧ (gar_enum ⟨.file A q⟩ fn ud).2.2 = (gar_enum (gar_archive_open_file A) fn ud).2.2)
      ∧ (∀ M, (gar_stat ⟨.file A q⟩ M).1 = (gar_stat (gar_archive_open_file A) M).1)
      ∧ (∀ M mem2, (gar_open ⟨.file A q⟩ M mem2).1
          = (gar_open (gar_archive_open_file A) M mem2).1) := by
  have h0 : (gar_zstat ⟨.file A p⟩ N).1 = .ok 0 := by
    rw [gar_zstat_file_none A p N hno, hend]
  obtain ⟨q, hq⟩ := (gar_zstat_file A p N).2.2
  have hopen : gar_open ⟨.file A p⟩ N mem = (.ok none, ⟨.file A q⟩) := by
    unfold gar_open
    rcases hzs : gar_zstat ⟨.file A p⟩ N with ⟨r, G1, zs⟩
    rw [hzs] at h0 hq
    simp only at h0 hq
    subst h0 hq
    simp
  refine ⟨?_, q, ?_, ?_, ?_, ?_⟩
  · unfold gar_open_is_null
    rw [hopen]
    rfl
  · rw [hopen]
  · intro fn ud
    exact gar_enum_file_indep fn A q ud
  · intro M
    exact gar_stat_file_indep A q M
  · intro M mem2
    exact gar_open_file_indep A q M mem2

/-- Witness for C7 (amended): the name `x` is missing from the archive `a.txt`. -/
theorem gar_open_missing_witness :
    gar_open_is_null ⟨.file ex_archive_hello 0⟩ [0x78] ginflate_zero_mem = .ok true :=
  (gar_open_missing ex_archive_hello [0x78] 0 ginflate_zero_mem (by decide!) (by decide!)).1

/-- Counterexample to C7 as stated: the truncated archive has the one entry `a`; opening the
missing name `b` does not return `NULL`, it raises the out-of-range error. -/
theorem gar_open_missing_raises :
    (gar_entries ex_archive_truncated).map (fun z => z.fstat.fname) = [some [0x61]]
    ∧ gar_open_is_null (gar_archive_open_file ex_archive_truncated) [0x62] ginflate_zero_mem
        = .error .out_of_range :=
  ⟨by decide!, by decide!⟩

/-! ## Claims on the decoder -/

/-- C8. Huffman round trip: for code lengths `L` of at most 288 symbols, each length at most
15 and the Kraft sum not over-subscribed, and a symbol `s` with `L[s] > 0`, a `decode_huff`
with the table `init_huffdic` builds from `L`, on a decoder whose unread input bits begin
with the canonical code of `s` (most significant code bit first), returns `s` and leaves
exactly the bits `rest` that followed the code, whatever they are; no other field of the
decoder changes. -/
theorem init_huffdic_decode_huff_round_trip (L : List Nat) (s : Nat) (I : ginflate_t)
    (hdic0 : ginflate_hdic_t) (rest : List Bool)
    (hlen : L.length ≤ 288) (hmax : ∀ l ∈ L, l ≤ 15) (hkraft : kraft_sum L ≤ 2 ^ 15)
    (hs : s < L.length) (hpos : 0 < L.getD s 0)
    (hI : bits_ok I) (hbits : bitstream I = code_bits L s ++ rest) :
    ∃ J, decode_huff I (init_huffdic L L.length hdic0) = .ok s J
      ∧ bitstream J = rest ∧ bits_ok J ∧ frame J = frame I :=
  decode_huff_canonical L ⟨hmax, hkraft⟩ (by omega) s hs hpos I hI hdic0 rest hbits

/-- The round trip on the code lengths 2, 1, 3, 3 and the symbol 2, whose code is 110,
read from the byte 0x0B. -/
theorem init_huffdic_decode_huff_round_trip_witness :
    ∃ J, decode_huff { ginflate_zero_mem with input := [11] }
        (init_huffdic [2, 1, 3, 3] [2, 1, 3, 3].length hdic_zero) = .ok 2 J
      ∧ bitstream J = [true, false, false, false, false] ∧ bits_ok J
      ∧ frame J = frame { ginflate_zero_mem with input := [11] } :=
  init_huffdic_decode_huff_round_trip [2, 1, 3, 3] 2 { ginflate_zero_mem with input := [11] }
    hdic_zero [true, false, false, false, false]
    (by decide) (by decide) (by decide) (by decide) (by decide) (by decide) (by decide)

/-- C10. Stored blocks. A decoder at a block header (`inflate_block`, no final block seen)
whose unread bits are the header of a stored block (`BFINAL`, `BTYPE = 0`), fewer than 8
padding bits up to the byte boundary, the fields `len` and `nlen` with `len + nlen = 0xFFFF`
(that is `len = ~nlen & 0xFFFF`), the `len` payload bytes and then `rest`, enters the stored
phase `S` with `match_len = len`: the padding bits are discarded and the unread input of `S`
is the payload followed by `rest`. From any stored-phase state `T` that has `k` payload
bytes behind it, a call with room for `room` bytes, which `umin` takes modulo `2 ^ 32`,
emits the next payload bytes unchanged and in order: when the room covers what is left it
emits all of it and goes on as a call of `inflate_block` on a state `J` in the block-header
phase whose unread input is `rest` (at once and with nothing emitted when nothing is left,
so when `len = 0`); otherwise it returns the bytes the room takes and stays in the stored
phase with the count of the bytes left. The ring buffer receives the emitted bytes. -/
theorem inflate_stored_block (I : ginflate_t) (bf : Nat) (pad : List Bool) (len nlen : Nat)
    (payload rest : List Nat)
    (hI : bits_ok I) (hinfl : I.infl = .inflate_block) (hbf0 : I.bfinal = 0) (hbf : bf ≤ 1)
    (hpad : pad.length < 8) (hlen : payload.length = len) (hpay : bytes_ok payload)
    (hsum : len + nlen = 65535)
    (hbits : bitstream I = [decide (bf = 1), false, false] ++ pad
      ++ bits_of_bytes (le16 len ++ le16 nlen ++ (payload ++ rest))) :
    ∃ S, (∀ fuel out room, inflate_run (fuel + 1) .call I out room
            = inflate_run fuel .call S out room)
      ∧ bits_ok S ∧ S.infl = .inflate_stored ∧ S.match_len = len ∧ S.bfinal = bf
      ∧ bitstream S = bits_of_bytes (payload ++ rest)
      ∧ S.ringbuf_pos = I.ringbuf_pos ∧ S.ringbuf = I.ringbuf
      ∧ ∀ (k : Nat) (T : ginflate_t) (room : Nat), k ≤ len → bits_ok T →
          T.infl = .inflate_stored → T.match_len = len - k →
          bitstream T = bits_of_bytes (payload.drop k ++ rest) →
          (len - k ≤ room % U32 →
            ∃ J, (∀ fuel out, inflate_run (fuel + 1) .call T out room
                    = inflate_run fuel .call J (out ++ payload.drop k) (room - (len - k)))
              ∧ bits_ok J ∧ J.infl = .inflate_block ∧ J.bfinal = T.bfinal
              ∧ bitstream J = bits_of_bytes rest
              ∧ (∀ hist, ring_ok T.ringbuf_pos T.ringbuf hist →
                  ring_ok J.ringbuf_pos J.ringbuf (hist ++ payload.drop k)))
          ∧ (room % U32 < len - k →
            ∃ J, (∀ fuel out, inflate_run (fuel + 1) .call T out room
                    = .ok (out ++ (payload.drop k).take (room % U32)) J)
              ∧ bits_ok J ∧ J.infl = .inflate_stored ∧ J.match_len = len - (k + room % U32)
              ∧ J.bfinal = T.bfinal
              ∧ bitstream J = bits_of_bytes (payload.drop (k + room % U32) ++ rest)
              ∧ (∀ hist, ring_ok T.ringbuf_pos T.ringbuf hist →
                  ring_ok J.ringbuf_pos J.ringbuf
                    (hist ++ (payload.drop k).take (room % U32)))) := by
  obtain ⟨S, s1, s2, s3, s4, s5, s6, s7, s8, _⟩ :=
    inflate_block_stored I bf pad len nlen (payload ++ rest) hI hinfl hbf0 hbf hpad hsum hbits
  refine ⟨S, s1, s2, s3, s4, s5, s6, s7, s8, ?_⟩
  intro k T room hk hT hTi hTm hTb
  have hPl : (payload.drop k).length = len - k := by rw [List.length_drop, hlen]
  have hPb : bytes_ok (payload.drop k) := fun b hb => hpay b (List.mem_of_mem_drop hb)
  rw [bits_of_bytes_append] at hTb
  obtain ⟨c1, c2⟩ := inflate_stored_step T (payload.drop k) (bits_of_bytes rest) room hT hTi
    (by rw [hPl]; exact hTm) hTb hPb
  rw [hPl] at c1 c2
  constructor
  · intro hle
    obtain ⟨J, j1, j2, _, j4, j5, j6, _, _, _, _, j11⟩ := c1 hle
    exact ⟨J, j1, j5, j2, j6, j4, j11⟩
  · intro hlt
    obtain ⟨J, j1, j2, j3, j4, j5, j6, _, _, _, _, j11⟩ := c2 hlt
    refine ⟨J, j1, j5, j2, by rw [j3]; omega, j6, ?_, j11⟩
    rw [j4, bits_of_bytes_append, List.drop_drop]

/-- Witness for C10: the stream 01 03 00 FC FF 61 62 63, a final stored block with the
payload `abc`, read with room for 10 bytes returns 61 62 63. -/
theorem inflate_stored_block_witness :
    ∃ J, ginflate (ginflate_on_open (.file [0x01, 0x03, 0x00, 0xFC, 0xFF, 0x61, 0x62, 0x63] 0)
        ginflate_zero_mem) 10 = .ok [0x61, 0x62, 0x63] J := by
  obtain ⟨S, s1, s2, s3, s4, s5, s6, _, _, s9⟩ := inflate_stored_block
    (ginflate_on_open (.file [0x01, 0x03, 0x00, 0xFC, 0xFF, 0x61, 0x62, 0x63] 0)
      ginflate_zero_mem) 1 [false, false, false, false, false] 3 0xFFFC [0x61, 0x62, 0x63] []
    (by decide) rfl rfl (by decide) (by decide) rfl (by decide) (by decide) (by decide)
  obtain ⟨J, j1, _, j3, j4, _⟩ := (s9 0 S 10 (by decide) s2 s3 s4 s6).1 (by decide)
  refine ⟨J, ?_⟩
  have hf : ginflate (ginflate_on_open (.file [0x01, 0x03, 0x00, 0xFC, 0xFF, 0x61, 0x62, 0x63] 0)
      ginflate_zero_mem) 10
      = inflate_run (154 + 1 + 1) .call (ginflate_on_open
          (.file [0x01, 0x03, 0x00, 0xFC, 0xFF, 0x61, 0x62, 0x63] 0) ginflate_zero_mem) [] 10 := rfl
  rw [hf, s1, j1, inflate_block_done J j3 (by rw [j4, s5]; decide)]
  rfl

/-- C1. Fixed-Huffman streams. Let the source of the decoder deliver bytes whose bits are a
well-formed sequence of fixed-Huffman blocks (headers with `BTYPE = 1`, literals, matches
with length symbols 257 to 285 and distance symbols 0 to 29, their extra bits in range and
no distance reaching back past the start of the output, each block closed by symbol 256, the
last block and only the last with `BFINAL = 1`), followed by any bits `tail`. Then successive
reads from the decoder opened on that source (`ginflate` from `ginflate_init`), each of fewer
than `2 ^ 32` bytes, return the reference decoding `ref_toks` in order, as many bytes as
asked while bytes remain, and after the last byte every read returns 0 bytes. -/
theorem ginflate_fixed_stream (gf : gar_gfile_t) (mem : ginflate_t) (ts : List ftok)
    (tail : List Bool) (ns : List Nat)
    (hgf : gfile_ok gf = true) (hbytes : bytes_ok (gfile_rest gf))
    (hmem : mem.ringbuf.length = 65536)
    (hwf : toks_wf false 0 0 ts = true)
    (hbits : bits_of_bytes (gfile_rest gf) = toks_bits ts ++ tail)
    (hns : ∀ n ∈ ns, n < U32) :
    (gar_read_seq (some (.inflate (ginflate_on_open gf mem))) ns).1
      = (read_chunks (ref_toks [] ts) ns).map .ok := by
  have hrep : fixed_rep (ginflate_on_open gf mem) [] false ts tail := by
    refine ⟨⟨?_, ?_, ?_, hbytes, hgf⟩, hbits, ⟨hmem, rfl, ?_⟩, rfl, rfl, hwf⟩
    · show (0 : Nat) < 2 ^ 0
      norm_num
    · show (0 : Nat) ≤ 22
      norm_num
    · intro b hb
      cases hb
    · intro j hj
      cases hj
  exact fixed_reads_spec tail ns (ginflate_on_open gf mem) [] false ts hrep hns

/-- Witness for C1: the stream 4B 4C 04 02 00 (a final fixed-Huffman block with two literals
`a`, a match of length 3 at distance 1 and the end-of-block symbol) read in two reads of 10
bytes returns 61 61 61 61 61 and then 0 bytes. -/
theorem ginflate_fixed_stream_witness :
    (gar_read_seq (some (.inflate (ginflate_on_open (.file ex_fixed_aaaaa 0)
        ginflate_zero_mem))) [10, 10]).1 = [.ok [0x61, 0x61, 0x61, 0x61, 0x61], .ok []] :=
  ginflate_fixed_stream (.file ex_fixed_aaaaa 0) ginflate_zero_mem
    [.hdr 1, .lit 0x61, .lit 0x61, .mtch 0 0 0 0, .eob] [false, false] [10, 10]
    rfl (by decide) (List.length_replicate _ _) (by decide) (by decide!) (by decide)

/-- Counterexample for C1: the stream 4B 4C 04 02 00 read with room for `2 ^ 32 + 2` bytes.
After the two literals the room left is `2 ^ 32`, which `umin` receives as 0: the match is
not copied, the end-of-block symbol is decoded next, and the read returns the 2 bytes 61 61;
the next read returns 0 bytes. The 3 bytes of the match are lost. -/
theorem ginflate_fixed_stream_huge_read :
    (gar_read_seq (some (.inflate (ginflate_on_open (.file ex_fixed_aaaaa 0)
        ginflate_zero_mem))) [4294967298, 10]).1 = [.ok [0x61, 0x61], .ok []]
    ∧ (read_chunks (ref_toks [] [.hdr 1, .lit 0x61, .lit 0x61, .mtch 0 0 0 0, .eob])
        [4294967298, 10]) = [[0x61, 0x61, 0x61, 0x61, 0x61], []] :=
  ⟨by decide!, by decide⟩

/-- C9, the divergence. The example stream is a well-formed final dynamic-Huffman block: its
bits are the RFC 1951 layout of a block that encodes `aaaa` (literal `a`, a match of length 3
at distance 1, end of block), in which a symbol-16 repeat of the code length 2 runs on from
the last literal/length code length into the first three distance code lengths. The decoder
reads the code lengths of the two alphabets with two separate `decode_clen` calls, so the
repeat does not carry over: the first read raises the end-of-input error instead of
returning 61 61 61 61. -/
theorem setup_dynamic_huffman_crossing_repeat :
    bits_of_bytes ex_dynamic_crossing = ex_dynamic_crossing_bits
    ∧ ex_lit_lens.length = 258 ∧ lengths_ok ex_lit_lens ∧ lengths_ok ex_dist_lens
    ∧ lengths_ok ex_clen_lens
    ∧ ref_toks [] [.lit 0x61, .mtch 0 0 0 0, .eob] = [0x61, 0x61, 0x61, 0x61]
    ∧ (gar_read_seq (some (.inflate (ginflate_on_open (.file ex_dynamic_crossing 0)
        ginflate_zero_mem))) [10]).1 = [.error .c_err_eof] :=
  ⟨by decide!, by decide!, by decide!, by decide, by decide, by decide, by decide!⟩

/-! ## Claims on the generalized files -/

theorem part_read_at_end (gf : gar_gfile_t) (pos off len n : Nat) (h : pos = len) :
    (gar_gfile_read (.part gf pos off len) n).1 = [] := by
  subst h
  simp only [gar_gfile_read]
  have h : offmin n ((pos + U64 - pos) % U64) = 0 := by
    rw [offmin_eq_min, Nat.add_sub_cancel_left, Nat.mod_self, Nat.min_zero]
  rw [h]
  exact gar_gfile_read_zero gf

/-- C15, amended. Let `gar_gfile_open_part` succeed on a file stream holding the bytes `D`,
for a window with `off + len < 2 ^ 64`. After any sequence of reads and seeks on the slice
(a seek that raises leaves it as it was) the slice has a position `pos ≤ len` and its source
sits at `off + pos`; a read of `n` bytes returns exactly the bytes `D[off+pos, off+pos+k)`
with `k = min(n, len - pos, |D| - (off + pos))` and advances `pos` by `k`, so `pos + k ≤ len`
and every byte returned lies in `[off, off + len)`. -/
theorem gfile_part_read_in_window (D : List Nat) (p off len : Nat) (S : gar_gfile_t)
    (ops : List gfile_op) (n : Nat)
    (hwin : off + len < U64)
    (hopen : gar_gfile_open_part (.file D p) off len = .ok S) :
    ∃ pos, pos ≤ len ∧ off + pos ≤ D.length
      ∧ gfile_run S ops = .part (.file D (off + pos)) pos off len
      ∧ (gar_gfile_read (gfile_run S ops) n).1
          = (D.drop (off + pos)).take (min n (min (len - pos) (D.length - (off + pos))))
      ∧ (gar_gfile_read (gfile_run S ops) n).2
          = .part (.file D (off + pos + min n (min (len - pos) (D.length - (off + pos)))))
              (pos + min n (min (len - pos) (D.length - (off + pos)))) off len
      ∧ pos + min n (min (len - pos) (D.length - (off + pos))) ≤ len := by
  have hS : off ≤ D.length ∧ S = .part (.file D off) 0 off len := by
    unfold gar_gfile_open_part at hopen
    simp only [gar_gfile_seek] at hopen
    by_cases h : off > D.length
    · rw [if_pos h] at hopen
      cases hopen
    · rw [if_neg h] at hopen
      simp only [Except.ok.injEq] at hopen
      exact ⟨by omega, hopen.symm⟩
  obtain ⟨hoff, rfl⟩ := hS
  obtain ⟨pos, h1, h2, h3⟩ := part_file_run D off len hwin ops 0 (Nat.zero_le _) (by omega)
  rw [Nat.add_zero] at h3
  refine ⟨pos, h1, h2, h3, ?_, ?_, by omega⟩
  · rw [h3, part_file_read_window D pos off len n hwin h1]
  · rw [h3, part_file_read_window D pos off len n hwin h1]

/-- Witness for C15 (amended): the window `[2, 5)` of the six bytes 10 to 15; after a read
of 1, a seek to 0 and a read of 2 the slice stands at 2, and a read of 5 returns the one byte
14 that is left. -/
theorem gfile_part_read_in_window_witness :
    ∃ pos, pos ≤ 3 ∧ 2 + pos ≤ [10, 11, 12, 13, 14, 15].length
      ∧ gfile_run (.part (.file [10, 11, 12, 13, 14, 15] 2) 0 2 3) [.read 1, .seek 0, .read 2]
          = .part (.file [10, 11, 12, 13, 14, 15] (2 + pos)) pos 2 3
      ∧ (gar_gfile_read (gfile_run (.part (.file [10, 11, 12, 13, 14, 15] 2) 0 2 3)
            [.read 1, .seek 0, .read 2]) 5).1
          = ([10, 11, 12, 13, 14, 15].drop (2 + pos)).take
              (min 5 (min (3 - pos) ([10, 11, 12, 13, 14, 15].length - (2 + pos))))
      ∧ (gar_gfile_read (gfile_run (.part (.file [10, 11, 12, 13, 14, 15] 2) 0 2 3)
            [.read 1, .seek 0, .read 2]) 5).1 = [14] := by
  obtain ⟨pos, h1, h2, h3, h4, _, _⟩ := gfile_part_read_in_window [10, 11, 12, 13, 14, 15] 0 2 3
    (.part (.file [10, 11, 12, 13, 14, 15] 2) 0 2 3) [.read 1, .seek 0, .read 2] 5
    (by decide) (by decide)
  exact ⟨pos, h1, h2, h3, h4, by decide⟩

/-- Counterexample to C15 as stated: a slice with the window `off = 2`, `len = 2^64 - 1` over
a file holding 7, 9, 11. The seek to `2^64 - 2` passes `check_off`, the sum `off + 2^64 - 2`
wraps to 0 in `gar_off_t`, and the next read of 1 byte returns 7, the byte at offset 0 of the
file, which lies before the window. -/
theorem gfile_part_window_wraps :
    gar_gfile_open_part (.file [7, 9, 11] 0) 2 18446744073709551615
      = .ok (.part (.file [7, 9, 11] 2) 0 2 18446744073709551615)
    ∧ gfile_run (.part (.file [7, 9, 11] 2) 0 2 18446744073709551615)
        [.seek 18446744073709551614]
      = .part (.file [7, 9, 11] 0) 18446744073709551614 2 18446744073709551615
    ∧ (gar_gfile_read (gfile_run (.part (.file [7, 9, 11] 2) 0 2 18446744073709551615)
        [.seek 18446744073709551614]) 1).1 = [7] := by
  decide

/-- C16. A seek on a slice to `new_pos > len` raises the out-of-range error and the slice
stays as it was. A seek to `new_pos ≤ len` seeks the source to `off + new_pos` (the sum
taken in `gar_off_t`): when that seek raises, its error is raised; otherwise the slice has
the sought source and `pos = new_pos`. On a slice with `len = 0` every read returns 0 bytes
and a seek that succeeds is a seek to 0. -/
theorem gfile_part_seek_rule (gf : gar_gfile_t) (pos off len new_pos : Nat) :
    (len < new_pos →
      gar_gfile_seek (.part gf pos off len) new_pos = .error .out_of_range
      ∧ gfile_run (.part gf pos off len) [.seek new_pos] = .part gf pos off len)
    ∧ (new_pos ≤ len →
      gar_gfile_seek (.part gf pos off len) new_pos
        = match gar_gfile_seek gf ((off + new_pos) % U64) with
          | .error e => .error e
          | .ok g => .ok (.part g new_pos off len))
    ∧ (off + new_pos < U64 → (off + new_pos) % U64 = off + new_pos)
    ∧ (∀ n, (gar_gfile_read (.part gf 0 off 0) n).1 = [])
    ∧ (∀ g, gar_gfile_seek (.part gf pos off 0) new_pos = .ok g → new_pos = 0) := by
  refine ⟨?_, ?_, ?_, ?_, ?_⟩
  · intro h
    have hs : gar_gfile_seek (.part gf pos off len) new_pos = .error .out_of_range := by
      simp only [gar_gfile_seek, check_off]
      rw [if_pos h]
    refine ⟨hs, ?_⟩
    rw [gfile_run, hs]
    rfl
  · intro h
    simp only [gar_gfile_seek, check_off]
    rw [if_neg (by omega)]
    try rfl
  · intro h
    exact Nat.mod_eq_of_lt h
  · intro n
    exact part_read_at_end gf 0 off 0 n rfl
  · intro g h
    by_contra hne
    simp only [gar_gfile_seek, check_off] at h
    rw [if_pos (by omega)] at h
    cases h

/-- C18. When the seek of the source to `off` succeeds, `gar_gfile_open_part` returns the
slice that owns the sought source, with `pos = 0`. When that seek raises, the handler in
`gfile_part_on_open` calls `gfile_part_on_close` with the null pointer, which reads a field
through it: the call has no defined outcome, it does not raise the error of the seek. -/
theorem gar_gfile_open_part_rule (gf : gar_gfile_t) (off len : Nat) :
    (∀ g, gar_gfile_seek gf off = .ok g →
      gar_gfile_open_part gf off len = .ok (.part g 0 off len))
    ∧ (∀ e, gar_gfile_seek gf off = .error e →
      gar_gfile_open_part gf off len = .error .c_undefined) := by
  constructor
  · intro g h
    unfold gar_gfile_open_part
    rw [h]
  · intro e h
    unfold gar_gfile_open_part
    rw [h]

/-- The failing input of C18: a slice at offset 4 of a file of 3 bytes. The seek raises the
out-of-range error and `gar_gfile_open_part` reaches the null pointer. -/
theorem gar_gfile_open_part_seek_fails :
    gar_gfile_seek (.file [1, 2, 3] 0) 4 = .error .out_of_range
    ∧ gar_gfile_open_part (.file [1, 2, 3] 0) 4 0 = .error .c_undefined := by
  decide

/-- C19. `gar_gfile_close` leaves the null stream, whatever the stream was: a null stream, a
file stream or a slice, and, on an entry handle, a slice or the decoder stream. On the null
stream a read returns 0 bytes for every request, a seek to 0 succeeds, a seek to any other
offset raises the out-of-range error, a duplicate is a null stream, and closing again
leaves the null stream. -/
theorem gar_gfile_close_null (gf : gar_gfile_t) (fd : gar_fdata_t) (n off : Nat) :
    gar_gfile_close gf = .null
    ∧ fdata_close fd = .plain .null
    ∧ gar_gfile_read (gar_gfile_close gf) n = ([], .null)
    ∧ fdata_read (fdata_close fd) n = (.ok [], .plain .null)
    ∧ gar_gfile_seek (gar_gfile_close gf) 0 = .ok .null
    ∧ fdata_seek (fdata_close fd) 0 = .ok (.plain .null)
    ∧ (off ≠ 0 → gar_gfile_seek (gar_gfile_close gf) off = .error .out_of_range
        ∧ fdata_seek (fdata_close fd) off = .error .out_of_range)
    ∧ gar_gfile_dup (gar_gfile_close gf) = .ok .null
    ∧ fdata_dup (fdata_close fd) = .ok (.plain .null)
    ∧ gar_gfile_close (gar_gfile_close gf) = gar_gfile_close gf
    ∧ fdata_close (fdata_close fd) = fdata_close fd := by
  refine ⟨rfl, rfl, rfl, rfl, rfl, rfl, ?_, rfl, rfl, rfl, rfl⟩
  intro h
  have hs : gar_gfile_seek .null off = .error .out_of_range := by
    simp only [gar_gfile_seek, check_off]
    rw [if_pos (by omega)]
  refine ⟨hs, ?_⟩
  show fdata_seek (.plain .null) off = _
  simp only [fdata_seek, hs]

/-! ## Failing headers, the error phase and reads in pieces -/

theorem setup_stored_corrupt (I : ginflate_t) (pad : List Bool) (len nlen : Nat) (Y : List Bool)
    (hI : bits_ok I) (hpad : pad.length < 8) (hlen : len < 65536) (hnlen : nlen < 65536)
    (hY : Y.length % 8 = 0)
    (hbits : bitstream I = pad ++ (nat_bits len 16 ++ (nat_bits nlen 16 ++ Y)))
    (hx : len ≠ nlen ^^^ 0xffff) :
    ∃ J, setup_stored I = .err .c_err_corrupt J ∧ J.infl = .inflate_error := by
  obtain ⟨d1, d2, d3⟩ := drop_to_byte_spec I hI
  have hmod : (bitstream I).length % 8 = pad.length := by
    rw [hbits]
    simp only [List.length_append, nat_bits_length]
    omega
  rw [hmod, hbits, drop_append_length _ _ _ rfl] at d1
  obtain ⟨I1, g1, g2, g3, g4⟩ :=
    get_bits_value _ 16 len _ d2 (by norm_num) (by norm_num; exact hlen) d1
  obtain ⟨I2, k1, k2, k3, k4⟩ :=
    get_bits_value _ 16 nlen _ g3 (by norm_num) (by norm_num; exact hnlen) g2
  refine ⟨{ I2 with infl := .inflate_error }, ?_, rfl⟩
  unfold setup_stored
  rw [g1]
  dsimp only
  rw [k1]
  dsimp only
  rw [if_pos hx]
  rfl

theorem ginflate_fuel (I : ginflate_t) (n : Nat) :
    ginflate I n = inflate_run (2 * (bits_left I + n) + 7 + 1) .call I [] n := rfl

theorem gar_read_inflate (I : ginflate_t) (n : Nat) :
    gar_read (some (.inflate I)) n
      = match ginflate I n with
        | .ok bs I1 => (.ok bs, some (.inflate I1))
        | .err e I1 => (.error e, some (.inflate I1)) := rfl

theorem gar_read_seq_cons (fd : Option gar_fdata_t) (n : Nat) (ns : List Nat) :
    (gar_read_seq fd (n :: ns)).1
      = (gar_read fd n).1 :: (gar_read_seq (gar_read fd n).2 ns).1 := rfl

/-- In the error phase every read raises the "corrupted inflating buffer" error and leaves
the decoder in the error phase. -/
theorem ginflate_error_phase (J : ginflate_t) (hJ : J.infl = .inflate_error) (m : Nat) :
    ginflate J m = .err .c_err_unknown { J with infl := .inflate_error } := by
  rw [ginflate_fuel, inflate_run_call]
  simp only [hJ]
  rfl

theorem gar_read_seq_error_phase : ∀ (ms : List Nat) (J : ginflate_t),
    J.infl = .inflate_error →
    (gar_read_seq (some (.inflate J)) ms).1 = ms.map (fun _ => .error .c_err_unknown) := by
  intro ms
  induction ms with
  | nil => intro J _; rfl
  | cons m ms ih =>
    intro J hJ
    rw [gar_read_seq_cons, gar_read_inflate, ginflate_error_phase J hJ m]
    dsimp only
    rw [ih _ rfl]
    rfl

/-- After the final block every read returns 0 bytes and leaves the decoder as it is. -/
theorem ginflate_after_final (J : ginflate_t) (hJ : J.infl = .inflate_block)
    (hbf : J.bfinal ≠ 0) (m : Nat) : ginflate J m = .ok [] J := by
  rw [ginflate_fuel, inflate_block_done J hJ hbf]

theorem gar_read_seq_after_final (J : ginflate_t) (hJ : J.infl = .inflate_block)
    (hbf : J.bfinal ≠ 0) : ∀ (ms : List Nat),
    (gar_read_seq (some (.inflate J)) ms).1 = ms.map (fun _ => .ok []) := by
  intro ms
  induction ms with
  | nil => rfl
  | cons m ms ih =>
    rw [gar_read_seq_cons, gar_read_inflate, ginflate_after_final J hJ hbf m]
    dsimp only
    rw [ih]
    rfl

theorem gar_read_seq_plain_end : ∀ (ms : List Nat) (gf : gar_gfile_t),
    gfile_ok gf = true → gfile_rest gf = [] →
    (gar_read_seq (some (.plain gf)) ms).1 = ms.map (fun _ => .ok []) := by
  intro ms
  induction ms with
  | nil => intro gf _ _; rfl
  | cons m ms ih =>
    intro gf hok hrest
    obtain ⟨r1, r2, r3⟩ := gfile_read_spec gf m hok
    rw [hrest] at r1 r2
    rw [gar_read_seq_cons]
    have hr : gar_read (some (.plain gf)) m
        = (.ok (gar_gfile_read gf m).1, some (.plain (gar_gfile_read gf m).2)) := rfl
    rw [hr]
    dsimp only
    rw [ih _ r3 (by rw [r2, List.drop_nil]), r1, List.take_nil]
    rfl

theorem gar_read_seq_none : ∀ (ms : List Nat),
    (gar_read_seq none ms).1 = ms.map (fun _ => .ok []) := by
  intro ms
  induction ms with
  | nil => rfl
  | cons m ms ih =>
    rw [gar_read_seq_cons]
    have hr : gar_read none m = (.ok [], none) := rfl
    rw [hr]
    dsimp only
    rw [ih]
    rfl

/-- Successive successful reads of the sizes `n :: ns` return together what one pass with
room for their total returns. -/
theorem reads_as_one : ∀ (ns : List Nat) (n : Nat) (I : ginflate_t) (os : List (List Nat)),
    n + ns.sum < U32 →
    (gar_read_seq (some (.inflate I)) (n :: ns)).1 = os.map .ok →
    ∃ k J, inflate_run k .call I [] (n + ns.sum) = .ok os.flatten J := by
  intro ns
  induction ns with
  | nil =>
    intro n I os _ h
    rw [gar_read_seq_cons, gar_read_inflate] at h
    cases hg : ginflate I n with
    | err e J =>
      rw [hg] at h
      cases os with
      | nil => cases h
      | cons o os => cases h
    | ok bs J =>
      rw [hg] at h
      cases os with
      | nil => cases h
      | cons o os =>
        cases os with
        | nil =>
          rw [List.map_cons, List.cons.injEq] at h
          have ho : bs = o := by
            have := h.1
            cases this
            rfl
          subst ho
          refine ⟨2 * (bits_left I + n) + 8, J, ?_⟩
          show ginflate I n = Res.ok [bs].flatten J
          rw [hg]
          simp
        | cons o2 os =>
          rw [List.map_cons, List.cons.injEq] at h
          have := h.2
          cases this
  | cons m ns ih =>
    intro n I os hlt h
    rw [gar_read_seq_cons, gar_read_inflate] at h
    cases hg : ginflate I n with
    | err e J =>
      rw [hg] at h
      cases os with
      | nil => cases h
      | cons o os => cases h
    | ok bs J =>
      rw [hg] at h
      cases os with
      | nil => cases h
      | cons o os =>
        rw [List.map_cons, List.cons.injEq] at h
        have ho : bs = o := by
          have := h.1
          cases this
          rfl
        subst ho
        rw [List.sum_cons] at hlt ⊢
        obtain ⟨k, K, hk⟩ := ih m J os (by omega) h.2
        rw [ginflate_fuel] at hg
        obtain ⟨k2, hk2⟩ := inflate_run_resume (m + ns.sum) _ .call I [] n bs J hlt
          (fun hw => by cases hw) hg k os.flatten K hk
        exact ⟨k2, K, by rw [hk2, List.flatten_cons]⟩

theorem reads_total (ns : List Nat) (I : ginflate_t) (os : List (List Nat))
    (hlt : ns.sum < U32)
    (h : (gar_read_seq (some (.inflate I)) ns).1 = os.map .ok) :
    os.flatten.length ≤ ns.sum
    ∧ (os.flatten = [] ∨ ∃ k J, inflate_run k .call I [] ns.sum = .ok os.flatten J) := by
  cases ns with
  | nil =>
    cases os with
    | nil => exact ⟨Nat.zero_le _, Or.inl rfl⟩
    | cons o os => cases h
  | cons n ns =>
    rw [List.sum_cons] at hlt ⊢
    obtain ⟨k, J, hk⟩ := reads_as_one ns n I os hlt h
    obtain ⟨bs, e1, e2, _⟩ := inflate_run_len _ _ _ _ _ _ _ hlt hk
    rw [List.nil_append] at e1
    rw [e1]
    exact ⟨e2, Or.inr ⟨k, J, by rw [← e1]; exact hk⟩⟩

/-- C11. Bad block headers. Let a decoder stand at a block header (`inflate_block` phase, the
previous block not final) with a well-formed bit accumulator, and let its unread bits start
with `BFINAL` and then either `BTYPE = 3` (the bits 1, 1), or `BTYPE = 0` (the bits 0, 0),
fewer than 8 padding bits up to the byte boundary and the 16-bit fields `len` and `nlen` with
`len` different from `~nlen & 0xFFFF`, which is `65535 - nlen`. Then a read of any size
through the entry handle raises the "corrupted input data" error, no byte is returned, and
the decoder is left in the error phase. -/
theorem inflate_block_corrupt_header (I : ginflate_t) (n : Nat) (b0 : Bool)
    (hI : bits_ok I) (hinfl : I.infl = .inflate_block) (hbf : I.bfinal = 0)
    (hhdr : (∃ Y, bitstream I = b0 :: true :: true :: Y)
      ∨ (∃ pad len nlen X, pad.length < 8 ∧ len < 65536 ∧ nlen < 65536 ∧ len ≠ 65535 - nlen
          ∧ bitstream I
              = [b0, false, false] ++ pad ++ bits_of_bytes (le16 len ++ le16 nlen ++ X))) :
    ∃ J, gar_read (some (.inflate I)) n = (.error .c_err_corrupt, some (.inflate J))
      ∧ ginflate I n = .err .c_err_corrupt J ∧ J.infl = .inflate_error := by
  have key : ∃ J, ginflate I n = .err .c_err_corrupt J ∧ J.infl = .inflate_error := by
    rcases hhdr with ⟨Y, hb⟩ | ⟨pad, len, nlen, X, hpad, hlen, hnlen, hne, hbits⟩
    · obtain ⟨I2, _, _, _, i4⟩ := inflate_block_step I b0 true true Y hI hinfl hbf hb
      refine ⟨{ I2 with bfinal := bits_val [b0], infl := .inflate_error }, ?_, rfl⟩
      rw [ginflate_fuel, i4]
      rfl
    · have hb : bitstream I = b0 :: false :: false
          :: (pad ++ (nat_bits len 16 ++ (nat_bits nlen 16 ++ bits_of_bytes X))) := by
        rw [hbits, List.append_assoc (le16 len), bits_of_bytes_le16 len hlen,
          bits_of_bytes_le16 nlen hnlen]
        rfl
      obtain ⟨I2, i1, i2, _, i4⟩ := inflate_block_step I b0 false false _ hI hinfl hbf hb
      have hx : len ≠ nlen ^^^ 0xffff := by
        rw [xor_ffff nlen hnlen]
        exact hne
      obtain ⟨J, j1, j2⟩ := setup_stored_corrupt { I2 with bfinal := bits_val [b0] } pad len nlen
        (bits_of_bytes X) i2 hpad hlen hnlen (by rw [bits_of_bytes_length]; omega) i1 hx
      refine ⟨J, ?_, j2⟩
      rw [ginflate_fuel, i4]
      have h0 : bits_val [false, false] = 0 := rfl
      rw [h0]
      show (match setup_stored { I2 with bfinal := bits_val [b0] } with
        | .err e I3 => Res.err e I3
        | .ok _ I3 => inflate_run _ .call I3 [] n) = _
      rw [j1]
  obtain ⟨J, j1, j2⟩ := key
  refine ⟨J, ?_, j1, j2⟩
  rw [gar_read_inflate, j1]

/-- Witness for C11: the one-byte stream 07 (`BFINAL = 1`, `BTYPE = 3`) read with room for 5
bytes. -/
theorem inflate_block_corrupt_header_witness :
    ∃ J, gar_read (some (.inflate (ginflate_on_open (.file [0x07] 0) ginflate_zero_mem))) 5
        = (.error .c_err_corrupt, some (.inflate J))
      ∧ ginflate (ginflate_on_open (.file [0x07] 0) ginflate_zero_mem) 5
        = .err .c_err_corrupt J
      ∧ J.infl = .inflate_error :=
  inflate_block_corrupt_header (ginflate_on_open (.file [0x07] 0) ginflate_zero_mem) 5 true
    (by decide) rfl rfl (Or.inl ⟨[false, false, false, false, false], by decide⟩)

/-- C12. Poisoning. When a read through an entry handle on a decoder fails with the
"unexpected EOF" or the "corrupted input data" error, every later read on the handle, of any
size and whatever input remains, raises the "corrupted inflating buffer" error and returns
no byte. -/
theorem ginflate_poisoned (I : ginflate_t) (n : Nat) (e : gar_error_t)
    (fd1 : Option gar_fdata_t)
    (h : gar_read (some (.inflate I)) n = (.error e, fd1))
    (he : e = .c_err_eof ∨ e = .c_err_corrupt) (ms : List Nat) :
    (gar_read_seq fd1 ms).1 = ms.map (fun _ => .error .c_err_unknown) := by
  rw [gar_read_inflate] at h
  cases hg : ginflate I n with
  | ok bs J =>
    rw [hg] at h
    cases h
  | err e1 J =>
    rw [hg] at h
    cases h
    rw [ginflate] at hg
    have hJ : J.infl = .inflate_error := by
      rcases inflate_run_err _ _ _ _ _ _ _ hg with h1 | h1 | ⟨_, h1⟩
      · subst h1
        rcases he with he | he <;> cases he
      · subst h1
        rcases he with he | he <;> cases he
      · exact h1
    exact gar_read_seq_error_phase ms J hJ

/-- Witness for C12: after the read of the stream 07 (`BTYPE = 3`) has failed, reads of 1, 0
and 7 bytes all raise the "corrupted inflating buffer" error. -/
theorem ginflate_poisoned_witness :
    (gar_read_seq (gar_read (some (.inflate (ginflate_on_open (.file [0x07] 0)
        ginflate_zero_mem))) 5).2 [1, 0, 7]).1
      = [1, 0, 7].map (fun _ => .error .c_err_unknown) :=
  ginflate_poisoned (ginflate_on_open (.file [0x07] 0) ginflate_zero_mem) 5 .c_err_corrupt
    (gar_read (some (.inflate (ginflate_on_open (.file [0x07] 0) ginflate_zero_mem))) 5).2
    (Prod.ext (by decide!) rfl) (Or.inr rfl) [1, 0, 7]

/-- C13. Short reads. A successful `gar_read` of `n` bytes on an entry handle (no handle, a
stored entry whose stream is inside its windows, or a deflated entry read with `n` below
`2 ^ 32`) returns at most `n` bytes, and it returns fewer than `n` only when there is no more
byte to read: every further read returns 0 bytes, and for a deflated entry the decoder
stands after a block with `BFINAL = 1`. On a stored entry the read returns the next `n` bytes
of the data, or all of them when fewer are left, so it is short exactly when fewer than `n`
bytes were left. A deflated entry whose final block has ended returns 0 bytes, and so does
the null handle. -/
theorem gar_read_short_read (fd : Option gar_fdata_t) (n : Nat) (bs : List Nat)
    (fd1 : Option gar_fdata_t)
    (hplain : ∀ gf, fd = some (.plain gf) → gfile_ok gf = true)
    (hdefl : ∀ I, fd = some (.inflate I) → n < U32)
    (h : gar_read fd n = (.ok bs, fd1)) :
    bs.length ≤ n
    ∧ (bs.length < n →
        (∀ ms, (gar_read_seq fd1 ms).1 = ms.map (fun _ => .ok []))
        ∧ (∀ J, fd1 = some (.inflate J) → J.infl = .inflate_block ∧ J.bfinal ≠ 0))
    ∧ (∀ gf, fd = some (.plain gf) →
        bs = (gfile_rest gf).take n ∧ (bs.length < n ↔ (gfile_rest gf).length < n))
    ∧ (∀ I, fd = some (.inflate I) → I.infl = .inflate_block → I.bfinal ≠ 0 → bs = [])
    ∧ (fd = none → bs = []) := by
  cases fd with
  | none =>
    cases h
    exact ⟨Nat.zero_le _, fun _ => ⟨gar_read_seq_none, fun J hJ => by cases hJ⟩,
      (fun gf hgf => by cases hgf), (fun I hI => by cases hI), fun _ => rfl⟩
  | some x =>
    cases x with
    | plain gf =>
      obtain ⟨r1, r2, r3⟩ := gfile_read_spec gf n (hplain gf rfl)
      have hr : gar_read (some (.plain gf)) n
          = (.ok (gar_gfile_read gf n).1, some (.plain (gar_gfile_read gf n).2)) := rfl
      rw [hr] at h
      cases h
      refine ⟨by rw [r1, List.length_take]; omega, ?_, ?_, (fun I hI => by cases hI),
        (fun hn => by cases hn)⟩
      · intro hlt
        rw [r1, List.length_take] at hlt
        refine ⟨fun ms => gar_read_seq_plain_end ms _ r3
          (by rw [r2]; exact List.drop_eq_nil_of_le (by omega)), fun J hJ => by cases hJ⟩
      · intro gf2 hgf2
        cases hgf2
        refine ⟨r1, ?_⟩
        rw [r1, List.length_take]
        omega
    | inflate I =>
      rw [gar_read_inflate] at h
      cases hg : ginflate I n with
      | err e1 J =>
        rw [hg] at h
        cases h
      | ok o J =>
        rw [hg] at h
        cases h
        have hg0 := hg
        rw [ginflate] at hg
        obtain ⟨o2, e1, e2, e3⟩ := inflate_run_len _ _ _ _ _ _ _ (hdefl I rfl) hg
        rw [List.nil_append] at e1
        subst e1
        refine ⟨e2, ?_, (fun gf hgf => by cases hgf), ?_, (fun hn => by cases hn)⟩
        · intro hlt
          obtain ⟨f1, f2⟩ := e3 hlt
          refine ⟨gar_read_seq_after_final J f1 f2, ?_⟩
          intro J2 hJ2
          cases hJ2
          exact ⟨f1, f2⟩
        · intro I2 hI2 hinfl hbf
          cases hI2
          rw [ginflate_after_final I hinfl hbf n] at hg0
          exact (Res.ok.inj hg0).1.symm

/-- Witness for C13: the deflated entry whose data is one final stored block with the
payload `abc`, read with room for 10 bytes: 3 bytes come back, and the reads after it return
0 bytes. -/
theorem gar_read_short_read_witness :
    [0x61, 0x62, 0x63].length ≤ 10
    ∧ ([0x61, 0x62, 0x63].length < 10 →
        (∀ ms, (gar_read_seq (gar_read (some (.inflate (ginflate_on_open
            (.file ex_stored_abc 0) ginflate_zero_mem))) 10).2 ms).1
              = ms.map (fun _ => .ok []))
        ∧ (∀ J, (gar_read (some (.inflate (ginflate_on_open
            (.file ex_stored_abc 0) ginflate_zero_mem))) 10).2 = some (.inflate J) →
              J.infl = .inflate_block ∧ J.bfinal ≠ 0)) := by
  obtain ⟨h1, h2, _⟩ := gar_read_short_read
    (some (.inflate (ginflate_on_open (.file ex_stored_abc 0) ginflate_zero_mem))) 10
    [0x61, 0x62, 0x63]
    (gar_read (some (.inflate (ginflate_on_open (.file ex_stored_abc 0) ginflate_zero_mem)))
      10).2
    (fun gf hgf => by cases hgf) (fun _ _ => by decide) (Prod.ext (by decide!) rfl)
  exact ⟨h1, h2⟩

/-- The divergence for C13: the deflated entry whose data is the final stored block with
the payload `abc`, read with room for `2 ^ 32` bytes, returns 0 bytes, fewer than asked,
because `umin` receives the room as 0; there are bytes to read: the next read, of 3 bytes,
returns 61 62 63. -/
theorem gar_read_short_read_huge :
    (gar_read_seq (some (.inflate (ginflate_on_open (.file ex_stored_abc 0)
        ginflate_zero_mem))) [4294967296, 3]).1 = [.ok [], .ok [0x61, 0x62, 0x63]] := by
  decide!

/-- C14. Reading in pieces. Take a decoder in any state and two sequences of read sizes with
the same total, below `2 ^ 32`. When all the reads of the first sequence succeed and all the
reads of the second succeed, started on the same decoder, the bytes they return, laid end to
end, are the same. -/
theorem ginflate_read_chunking (I : ginflate_t) (ns ms : List Nat) (os ps : List (List Nat))
    (hsum : ns.sum = ms.sum) (hlt : ns.sum < U32)
    (hn : (gar_read_seq (some (.inflate I)) ns).1 = os.map .ok)
    (hm : (gar_read_seq (some (.inflate I)) ms).1 = ps.map .ok) :
    os.flatten = ps.flatten := by
  obtain ⟨a1, a2⟩ := reads_total ns I os hlt hn
  obtain ⟨b1, b2⟩ := reads_total ms I ps (by rw [← hsum]; exact hlt) hm
  rcases a2 with a2 | ⟨k1, J1, a2⟩
  · rcases b2 with b2 | ⟨k2, J2, b2⟩
    · rw [a2, b2]
    · cases ns with
      | nil =>
        rw [← hsum, List.sum_nil] at b1
        rw [a2]
        exact (List.length_eq_zero.mp (by omega)).symm
      | cons n ns =>
        rw [List.sum_cons] at hlt hsum
        obtain ⟨k1, J1, c⟩ := reads_as_one ns n I os hlt hn
        rw [hsum] at c
        have c1 := inflate_run_mono k1 (max k1 k2) (Nat.le_max_left _ _) _ _ _ _ _ _ c
        have c2 := inflate_run_mono k2 (max k1 k2) (Nat.le_max_right _ _) _ _ _ _ _ _ b2
        rw [c1] at c2
        exact (Res.ok.inj c2).1
  · rcases b2 with b2 | ⟨k2, J2, b2⟩
    · cases ms with
      | nil =>
        rw [hsum, List.sum_nil] at a1
        rw [b2]
        exact List.length_eq_zero.mp (by omega)
      | cons m ms =>
        rw [List.sum_cons] at hsum
        rw [hsum] at hlt
        obtain ⟨k2, J2, c⟩ := reads_as_one ms m I ps hlt hm
        rw [hsum] at a2
        have c1 := inflate_run_mono k1 (max k1 k2) (Nat.le_max_left _ _) _ _ _ _ _ _ a2
        have c2 := inflate_run_mono k2 (max k1 k2) (Nat.le_max_right _ _) _ _ _ _ _ _ c
        rw [c1] at c2
        exact (Res.ok.inj c2).1
    · rw [hsum] at a2
      have c1 := inflate_run_mono k1 (max k1 k2) (Nat.le_max_left _ _) _ _ _ _ _ _ a2
      have c2 := inflate_run_mono k2 (max k1 k2) (Nat.le_max_right _ _) _ _ _ _ _ _ b2
      rw [c1] at c2
      exact (Res.ok.inj c2).1

/-- Witness for C14: the final fixed-Huffman block 4B 4C 04 02 00 (two literals `a` and a
match of length 3 at distance 1) read as 1 + 2 + 4 bytes, which cuts the match, and as one
read of 7 bytes. -/
theorem ginflate_read_chunking_witness :
    [[0x61], [0x61, 0x61], [0x61, 0x61]].flatten = [[0x61, 0x61, 0x61, 0x61, 0x61]].flatten :=
  ginflate_read_chunking (ginflate_on_open (.file ex_fixed_aaaaa 0) ginflate_zero_mem)
    [1, 2, 4] [7] [[0x61], [0x61, 0x61], [0x61, 0x61]] [[0x61, 0x61, 0x61, 0x61, 0x61]]
    (by decide) (by decide) (by decide!) (by decide!)

/-- Counterexample for C14: the final stored block with the payload `abc`, read with the
total `2 ^ 32 + 1` in two ways. One read of `2 ^ 32 + 1` bytes returns the byte `a` alone,
because `umin` receives the room as 1; the reads of 3 and `2 ^ 32 - 2` bytes return `abc`
and then 0 bytes. -/
theorem ginflate_read_chunking_huge :
    [4294967297].sum = [3, 4294967294].sum
    ∧ (gar_read_seq (some (.inflate (ginflate_on_open (.file ex_stored_abc 0)
        ginflate_zero_mem))) [4294967297]).1 = [.ok [0x61]]
    ∧ (gar_read_seq (some (.inflate (ginflate_on_open (.file ex_stored_abc 0)
        ginflate_zero_mem))) [3, 4294967294]).1 = [.ok [0x61, 0x62, 0x63], .ok []] :=
  ⟨by decide, by decide!, by decide!⟩

/-- The setup of a dynamic-Huffman block has no path to the "corrupted input data" error:
whatever the header holds, a failure of the setup is not that error. -/
theorem setup_dynamic_huffman_not_corrupt (I : ginflate_t) (e : gar_error_t)
    (J : ginflate_t) (h : setup_dynamic_huffman I = .err e J) : e ≠ .c_err_corrupt := by
  rcases setup_dynamic_huffman_err I e J h with ⟨h1, _⟩ | h1
  · rw [h1]
    intro hc
    cases hc
  · rw [h1]
    intro hc
    cases hc

/-- C20, the divergence. A dynamic-Huffman header with a malformed table does not raise the
"corrupted input data" error. The stream `ex_dynamic_oversubscribed` is a final
dynamic-Huffman block whose 257 literal/length code lengths give a 1-bit code to each of
`a`, `b` and the end-of-block symbol, an over-subscribed set (Kraft sum above 1).
`init_huffdic` fills the two entries of the lookup table in symbol order, so the bit 1
decodes to `b` and the bit 0 to the end-of-block symbol: a read returns 62 62, the next read
returns 0 bytes, and no error is raised. The stream `ex_dynamic_overrun` holds a repeat that
runs from entry 238 to entry 376, past the 257 literal/length entries: the read does not
raise the error either, it reaches a write past `clbuf[287]`. -/
theorem setup_dynamic_huffman_accepts_malformed :
    bits_of_bytes ex_dynamic_oversubscribed = ex_dynamic_oversubscribed_bits
    ∧ ex_over_lit_lens.length = 257 ∧ 2 ^ 15 < kraft_sum ex_over_lit_lens
    ∧ (gar_read_seq (some (.inflate (ginflate_on_open (.file ex_dynamic_oversubscribed 0)
        ginflate_zero_mem))) [10, 1]).1 = [.ok [0x62, 0x62], .ok []]
    ∧ bits_of_bytes ex_dynamic_overrun = ex_dynamic_overrun_bits
    ∧ (gar_read (some (.inflate (ginflate_on_open (.file ex_dynamic_overrun 0)
        ginflate_zero_mem))) 10).1 = .error .c_undefined :=
  ⟨by decide!, by decide!, by decide!, by decide!, by decide!, by decide!⟩

/-! ## The archive walk on any stream -/

theorem offmin_le_left (x y : Nat) : offmin x y ≤ x := by
  rw [offmin_eq_min]
  exact Nat.min_le_left _ _

theorem offmin_le_right (x y : Nat) : offmin x y ≤ y := by
  rw [offmin_eq_min]
  exact Nat.min_le_right _ _

theorem gar_gfile_read_le : ∀ (gf : gar_gfile_t) (n : Nat), (gar_gfile_read gf n).1.length ≤ n := by
  intro gf
  induction gf with
  | null => intro n; exact Nat.zero_le _
  | file data fpos =>
    intro n
    rw [gar_gfile_read_file]
    simp only [List.length_take]
    exact Nat.min_le_left _ _
  | part gf pos off len ih =>
    intro n
    simp only [gar_gfile_read]
    exact Nat.le_trans (ih _) (offmin_le_left _ _)

theorem gar_gfile_read_keeps : ∀ (gf : gar_gfile_t) (n : Nat),
    gfile_limit (gar_gfile_read gf n).2 = gfile_limit gf
    ∧ gfile_bytes_ok (gar_gfile_read gf n).2 = gfile_bytes_ok gf
    ∧ (gfile_bytes_ok gf = true → bytes_ok (gar_gfile_read gf n).1) := by
  intro gf
  induction gf with
  | null =>
    intro n
    refine ⟨rfl, rfl, ?_⟩
    intro _ b hb
    cases hb
  | file data fpos =>
    intro n
    rw [gar_gfile_read_file]
    refine ⟨rfl, rfl, ?_⟩
    intro h b hb
    have hd : bytes_ok data := of_decide_eq_true h
    exact hd b (List.mem_of_mem_drop (List.mem_of_mem_take hb))
  | part gf pos off len ih =>
    intro n
    simp only [gar_gfile_read]
    exact ⟨rfl, (ih _).2.1, (ih _).2.2⟩

theorem gar_gfile_seek_keeps : ∀ (gf : gar_gfile_t) (off : Nat) (g : gar_gfile_t),
    gar_gfile_seek gf off = .ok g →
    off ≤ gfile_limit gf ∧ gfile_limit g = gfile_limit gf
    ∧ gfile_bytes_ok g = gfile_bytes_ok gf := by
  intro gf
  induction gf with
  | null =>
    intro off g h
    simp only [gar_gfile_seek, check_off] at h
    by_cases ho : off > 0
    · rw [if_pos ho] at h
      cases h
    · rw [if_neg ho] at h
      cases h
      exact ⟨by show off ≤ 0; omega, rfl, rfl⟩
  | file data fpos =>
    intro off g h
    rw [gar_gfile_seek_file] at h
    by_cases ho : off > data.length
    · rw [if_pos ho] at h
      cases h
    · rw [if_neg ho] at h
      cases h
      exact ⟨by show off ≤ data.length; omega, rfl, rfl⟩
  | part gf pos off0 len ih =>
    intro off g h
    simp only [gar_gfile_seek, check_off] at h
    by_cases ho : off > len
    · rw [if_pos ho] at h
      cases h
    · rw [if_neg ho] at h
      cases hs : gar_gfile_seek gf ((off0 + off) % U64) with
      | error e =>
        rw [hs] at h
        cases h
      | ok g1 =>
        rw [hs] at h
        cases h
        exact ⟨by show off ≤ len; omega, rfl, (ih _ _ hs).2.2⟩

/-- After a seek to `off`, a read returns bytes of the stream from `off` on: at most
`limit - off` of them. -/
theorem gar_gfile_seek_read_le (gf : gar_gfile_t) (off : Nat) (g : gar_gfile_t) (n : Nat)
    (hl : gfile_limit gf < U64) (h : gar_gfile_seek gf off = .ok g) :
    (gar_gfile_read g n).1.length ≤ gfile_limit gf - off := by
  cases gf with
  | null =>
    simp only [gar_gfile_seek, check_off] at h
    by_cases ho : off > 0
    · rw [if_pos ho] at h
      cases h
    · rw [if_neg ho] at h
      cases h
      exact Nat.zero_le _
  | file data fpos =>
    rw [gar_gfile_seek_file] at h
    by_cases ho : off > data.length
    · rw [if_pos ho] at h
      cases h
    · rw [if_neg ho] at h
      cases h
      rw [gar_gfile_read_file]
      simp only [List.length_take, List.length_drop]
      exact Nat.min_le_right _ _
  | part gf pos off0 len =>
    simp only [gar_gfile_seek, check_off] at h
    by_cases ho : off > len
    · rw [if_pos ho] at h
      cases h
    · rw [if_neg ho] at h
      cases hs : gar_gfile_seek gf ((off0 + off) % U64) with
      | error e =>
        rw [hs] at h
        cases h
      | ok g1 =>
        rw [hs] at h
        cases h
        simp only [gar_gfile_read]
        have hl2 : len < U64 := hl
        have hm : (len + U64 - off) % U64 = len - off := by
          have e1 : len + U64 - off = (len - off) + U64 := by omega
          rw [e1, Nat.add_mod_right]
          exact Nat.mod_eq_of_lt (by omega)
        rw [hm]
        exact Nat.le_trans (gar_gfile_read_le _ _) (offmin_le_right _ _)

theorem gar_gfile_seek_past_limit (gf : gar_gfile_t) (off : Nat) (h : gfile_limit gf < off) :
    gar_gfile_seek gf off = .error .out_of_range := by
  cases gf with
  | null =>
    simp only [gar_gfile_seek, check_off]
    rw [if_pos (show off > 0 from Nat.lt_of_le_of_lt (Nat.zero_le _) h)]
  | file data fpos =>
    rw [gar_gfile_seek_file, if_pos (show off > data.length from h)]
  | part gf pos off0 len =>
    simp only [gar_gfile_seek, check_off]
    rw [if_pos (show off > len from h)]

theorem gar_gfile_seek_error : ∀ (gf : gar_gfile_t) (off : Nat) (e : gar_error_t),
    gar_gfile_seek gf off = .error e → e = .out_of_range := by
  intro gf
  induction gf with
  | null =>
    intro off e h
    simp only [gar_gfile_seek, check_off] at h
    by_cases ho : off > 0
    · rw [if_pos ho] at h
      cases h
      rfl
    · rw [if_neg ho] at h
      cases h
  | file data fpos =>
    intro off e h
    rw [gar_gfile_seek_file] at h
    by_cases ho : off > data.length
    · rw [if_pos ho] at h
      cases h
      rfl
    · rw [if_neg ho] at h
      cases h
  | part gf pos off0 len ih =>
    intro off e h
    simp only [gar_gfile_seek, check_off] at h
    by_cases ho : off > len
    · rw [if_pos ho] at h
      cases h
      rfl
    · rw [if_neg ho] at h
      cases hs : gar_gfile_seek gf ((off0 + off) % U64) with
      | error e1 =>
        rw [hs] at h
        cases h
        exact ih _ _ hs
      | ok g1 =>
        rw [hs] at h
        cases h

theorem gar_enum_loop_zero {σ : Type} (fn : gar_enum_t σ) (gf : gar_gfile_t) (ud : σ)
    (off : Nat) (result : Int) :
    gar_enum_loop fn 0 gf ud off result = (.error .model_fuel, gf, ud) := rfl

theorem gar_enum_loop_succ {σ : Type} (fn : gar_enum_t σ) (fuel : Nat) (gf : gar_gfile_t)
    (ud : σ) (off : Nat) (result : Int) :
    gar_enum_loop fn (fuel + 1) gf ud off result
      = match gar_gfile_seek gf off with
        | .error e => (.error e, gf, ud)
        | .ok gf1 =>
          match read_pk0304_header gf1 with
          | (none, gf2) => (.ok result, gf2, ud)
          | (some hdr, gf2) =>
            if (gar_gfile_read gf2 hdr.fname_len).1.length < hdr.fname_len then
              (.ok result, (gar_gfile_read gf2 hdr.fname_len).2, ud)
            else
              match (fn { fstat := { fname := some (gar_gfile_read gf2 hdr.fname_len).1,
                                     fsize := hdr.uncomp_size },
                          comp_method := hdr.comp_method,
                          data_off := (off + 30 + hdr.fname_len + hdr.extra_len) % U64,
                          data_len := hdr.comp_size } ud).1 with
              | .error e =>
                (.error e, (gar_gfile_read gf2 hdr.fname_len).2,
                  (fn { fstat := { fname := some (gar_gfile_read gf2 hdr.fname_len).1,
                                   fsize := hdr.uncomp_size },
                        comp_method := hdr.comp_method,
                        data_off := (off + 30 + hdr.fname_len + hdr.extra_len) % U64,
                        data_len := hdr.comp_size } ud).2)
              | .ok result1 =>
                if result1 ≠ 0 then
                  (.ok result1, (gar_gfile_read gf2 hdr.fname_len).2,
                    (fn { fstat := { fname := some (gar_gfile_read gf2 hdr.fname_len).1,
                                     fsize := hdr.uncomp_size },
                          comp_method := hdr.comp_method,
                          data_off := (off + 30 + hdr.fname_len + hdr.extra_len) % U64,
                          data_len := hdr.comp_size } ud).2)
                else
                  gar_enum_loop fn fuel (gar_gfile_read gf2 hdr.fname_len).2
                    (fn { fstat := { fname := some (gar_gfile_read gf2 hdr.fname_len).1,
                                     fsize := hdr.uncomp_size },
                          comp_method := hdr.comp_method,
                          data_off := (off + 30 + hdr.fname_len + hdr.extra_len) % U64,
                          data_len := hdr.comp_size } ud).2
                    ((off + (30 + hdr.fname_len + hdr.extra_len + hdr.comp_size)) % U64)
                    result1 := rfl

/-- What `read_pk0304_header` gives when it finds a header: the 30 bytes were there, the
stream keeps its limit and its contents, and the sizes fit their fields. -/
theorem read_pk0304_header_some (gf : gar_gfile_t) (hdr : pk0304_header_t) (gf2 : gar_gfile_t)
    (h : read_pk0304_header gf = (some hdr, gf2)) :
    (gar_gfile_read gf 30).1.length = 30 ∧ gf2 = (gar_gfile_read gf 30).2
    ∧ hdr.fname_len < 65536 ∧ hdr.extra_len < 65536
    ∧ (gfile_bytes_ok gf = true → hdr.comp_size < 4294967296) := by
  unfold read_pk0304_header at h
  dsimp only at h
  by_cases hs : (gar_gfile_read gf 30).1.length < 30
      ∨ (gar_gfile_read gf 30).1.take 4 ≠ pk0304_sig
  · rw [if_pos hs] at h
    cases h
  · rw [if_neg hs] at h
    have hlen : (gar_gfile_read gf 30).1.length = 30 := by
      have := gar_gfile_read_le gf 30
      have h2 : ¬ (gar_gfile_read gf 30).1.length < 30 := fun hc => hs (Or.inl hc)
      omega
    cases h
    exact ⟨hlen, rfl, decode_u16_le_lt _ 26, decode_u16_le_lt _ 28,
      fun hb => decode_u32_le_lt _ 18 ((gar_gfile_read_keeps gf 30).2.2 hb)⟩

/-- The loop of `gar_enum` ends within its bound: a pass that continues has read a header
of 30 bytes at `off` and moves `off` forward by at least 30. -/
theorem gar_enum_loop_terminates {σ : Type} (fn : gar_enum_t σ)
    (hfn : ∀ z u, (fn z u).1 ≠ .error .model_fuel) (L : Nat) (hL : L < 2 ^ 63) :
    ∀ (fuel : Nat) (gf : gar_gfile_t) (ud : σ) (off : Nat) (result : Int),
      gfile_limit gf = L → gfile_bytes_ok gf = true → L < off + 30 * fuel → 1 ≤ fuel →
      (gar_enum_loop fn fuel gf ud off result).1 ≠ .error .model_fuel := by
  intro fuel
  induction fuel with
  | zero => intro gf ud off result _ _ _ h; omega
  | succ k ih =>
    intro gf ud off result hlim hb hf _
    rw [gar_enum_loop_succ]
    cases hs : gar_gfile_seek gf off with
    | error e =>
      dsimp only
      intro hc
      have he : e = .model_fuel := by
        cases hc
        rfl
      have he2 := gar_gfile_seek_error gf off e hs
      rw [he] at he2
      cases he2
    | ok gf1 =>
      dsimp only
      obtain ⟨s1, s2, s3⟩ := gar_gfile_seek_keeps gf off gf1 hs
      cases hh : read_pk0304_header gf1 with
      | mk oh gf2 =>
        cases oh with
        | none =>
          dsimp only
          intro hc
          cases hc
        | some hdr =>
          dsimp only
          obtain ⟨r1, r2, r3, r4, r5⟩ := read_pk0304_header_some gf1 hdr gf2 hh
          have hrd := gar_gfile_seek_read_le gf off gf1 30
            (by rw [hlim]; exact Nat.lt_trans hL (by norm_num)) hs
          rw [r1, hlim] at hrd
          have hcs := r5 (s3.trans hb)
          by_cases hshort : (gar_gfile_read gf2 hdr.fname_len).1.length < hdr.fname_len
          · rw [if_pos hshort]
            intro hc
            cases hc
          · rw [if_neg hshort]
            split
            · next e he =>
              intro hc
              apply hfn _ _
              rw [he]
              exact hc
            · next result1 he =>
              by_cases hr : result1 ≠ 0
              · rw [if_pos hr]
                intro hc
                cases hc
              · rw [if_neg hr]
                have hk1 := (gar_gfile_read_keeps gf2 hdr.fname_len)
                have hk0 := (gar_gfile_read_keeps gf1 30)
                rw [← r2] at hk0
                have hnw : (off + (30 + hdr.fname_len + hdr.extra_len + hdr.comp_size)) % U64
                    = off + (30 + hdr.fname_len + hdr.extra_len + hdr.comp_size) := by
                  apply Nat.mod_eq_of_lt
                  have hL2 : L < 9223372036854775808 := by
                    have e : (2 : Nat) ^ 63 = 9223372036854775808 := by norm_num
                    omega
                  show _ < 18446744073709551616
                  omega
                rw [hnw]
                apply ih
                · rw [hk1.1, hk0.1, s2, hlim]
                · rw [hk1.2.1, hk0.2.1, s3, hb]
                · omega
                · omega

/-! ## `get_bits` against `fetch_bits` and `drop_bits` -/

theorem fetch_bits_loop_done (n : Nat) : ∀ (fuel : Nat) (I : ginflate_t), n ≤ I.bits_len →
    fetch_bits_loop n fuel I = I := by
  intro fuel
  cases fuel with
  | zero => intro I _; rfl
  | succ k =>
    intro I h
    rw [fetch_bits_loop, if_neg (by omega)]

/-- The loop of `get_bits` over its locals does what the loop of `fetch_bits` does on the
decoder that holds the locals: it ends with the same bits, or both run out of input. -/
theorem get_bits_loop_sim (n : Nat) : ∀ (fuel : Nat) (I : ginflate_t) (p : List Nat)
    (bs bl : Nat), bl < n → n ≤ bl + 8 * fuel →
    (∀ v J, get_bits_loop n fuel I p bs bl = .ok v J →
      n ≤ (fetch_bits_loop n fuel { I with bits_acc := bs, bits_len := bl, input := p }).bits_len
      ∧ v = (fetch_bits_loop n fuel
              { I with bits_acc := bs, bits_len := bl, input := p }).bits_acc &&& bitmask n
      ∧ J = { fetch_bits_loop n fuel { I with bits_acc := bs, bits_len := bl, input := p } with
              bits_acc := (fetch_bits_loop n fuel
                { I with bits_acc := bs, bits_len := bl, input := p }).bits_acc >>> n,
              bits_len := (fetch_bits_loop n fuel
                { I with bits_acc := bs, bits_len := bl, input := p }).bits_len - n })
    ∧ (∀ e J, get_bits_loop n fuel I p bs bl = .err e J →
      e = .c_err_eof
      ∧ (fetch_bits_loop n fuel
          { I with bits_acc := bs, bits_len := bl, input := p }).bits_len < n) := by
  intro fuel
  induction fuel with
  | zero => intro I p bs bl h1 h2; omega
  | succ k ih =>
    intro I p bs bl h1 h2
    have step : ∀ (I1 : ginflate_t) (b : Nat) (rest : List Nat),
        (∀ v J, (if bl + 8 < n then
              get_bits_loop n k I1 rest ((bs + (b <<< bl) % U32) % U32) (bl + 8)
            else Res.ok (((bs + (b <<< bl) % U32) % U32) &&& bitmask n)
              { I1 with input := rest, bits_acc := ((bs + (b <<< bl) % U32) % U32) >>> n,
                        bits_len := bl + 8 - n }) = .ok v J →
          n ≤ (fetch_bits_loop n k { I1 with bits_acc := (bs + (b <<< bl) % U32) % U32, bits_len := bl + 8, input := rest }).bits_len
          ∧ v = (fetch_bits_loop n k { I1 with bits_acc := (bs + (b <<< bl) % U32) % U32, bits_len := bl + 8, input := rest }).bits_acc &&& bitmask n
          ∧ J = { fetch_bits_loop n k { I1 with bits_acc := (bs + (b <<< bl) % U32) % U32, bits_len := bl + 8, input := rest } with
                  bits_acc := (fetch_bits_loop n k
                    { I1 with bits_acc := (bs + (b <<< bl) % U32) % U32, bits_len := bl + 8, input := rest }).bits_acc >>> n,
                  bits_len := (fetch_bits_loop n k
                    { I1 with bits_acc := (bs + (b <<< bl) % U32) % U32, bits_len := bl + 8, input := rest }).bits_len - n })
        ∧ (∀ e J, (if bl + 8 < n then
              get_bits_loop n k I1 rest ((bs + (b <<< bl) % U32) % U32) (bl + 8)
            else Res.ok (((bs + (b <<< bl) % U32) % U32) &&& bitmask n)
              { I1 with input := rest, bits_acc := ((bs + (b <<< bl) % U32) % U32) >>> n,
                        bits_len := bl + 8 - n }) = .err e J →
          e = .c_err_eof
          ∧ (fetch_bits_loop n k { I1 with bits_acc := (bs + (b <<< bl) % U32) % U32, bits_len := bl + 8, input := rest }).bits_len < n) := by
      intro I1 b rest
      by_cases hlt : bl + 8 < n
      · rw [if_pos hlt]
        exact ih I1 rest _ _ hlt (by omega)
      · rw [if_neg hlt]
        rw [fetch_bits_loop_done n k _ (show n ≤ bl + 8 from by omega)]
        constructor
        · intro v J h
          cases h
          exact ⟨by show n ≤ bl + 8; omega, rfl, rfl⟩
        · intro e J h
          cases h
    rw [get_bits_loop, fetch_bits_loop,
      if_pos (show ({ I with bits_acc := bs, bits_len := bl, input := p } : ginflate_t).bits_len < n
        from h1)]
    by_cases hp : p = []
    · subst hp
      rw [if_pos rfl, if_pos (show ({ I with bits_acc := bs, bits_len := bl, input := [] }
        : ginflate_t).input = [] from rfl)]
      unfold fetch_bytes
      dsimp only
      by_cases hl : (gar_gfile_read I.gf 1024).1.length = 0
      · rw [if_pos hl, if_pos hl]
        dsimp only
        constructor
        · intro v J h
          cases h
        · intro e J h
          cases h
          exact ⟨rfl, h1⟩
      · rw [if_neg hl, if_neg hl]
        cases hr : (gar_gfile_read I.gf 1024).1 with
        | nil =>
          rw [hr] at hl
          exact absurd rfl hl
        | cons b rest =>
          dsimp only
          exact step { I with gf := (gar_gfile_read I.gf 1024).2, input := b :: rest } b rest
    · rw [if_neg hp, if_neg (show ¬ ({ I with bits_acc := bs, bits_len := bl, input := p }
        : ginflate_t).input = [] from hp)]
      cases p with
      | nil => exact absurd rfl hp
      | cons b rest =>
        dsimp only
        exact step I b rest

/-- `get_bits(n)` succeeds exactly when `fetch_bits(n)` followed by `drop_bits(n)` does, with
the same value and the same decoder after; otherwise both raise "unexpected EOF". -/
theorem get_bits_fetch_drop (I : ginflate_t) (n : Nat) :
    (∀ v J, get_bits I n = .ok v J ↔ fetch_drop I n = .ok v J)
    ∧ (∀ e J, get_bits I n = .err e J →
        e = .c_err_eof ∧ ∃ J2, fetch_drop I n = .err .c_err_eof J2)
    ∧ (∀ e J, fetch_drop I n = .err e J →
        e = .c_err_eof ∧ ∃ J2, get_bits I n = .err .c_err_eof J2) := by
  have hfd : fetch_drop I n
      = match drop_bits (fetch_bits_loop n n I) n with
        | .err e J => .err e J
        | .ok _ J => .ok ((fetch_bits_loop n n I).bits_acc &&& bitmask n) J := rfl
  by_cases hn : n ≤ I.bits_len
  · have hg : get_bits I n = .ok (I.bits_acc &&& bitmask n)
        { I with bits_acc := I.bits_acc >>> n, bits_len := I.bits_len - n } := by
      unfold get_bits
      rw [if_pos hn]
    have hf : fetch_drop I n = .ok (I.bits_acc &&& bitmask n)
        { I with bits_acc := I.bits_acc >>> n, bits_len := I.bits_len - n } := by
      rw [hfd, fetch_bits_loop_done n n I hn]
      unfold drop_bits
      rw [if_neg (by omega)]
    rw [hg, hf]
    refine ⟨fun v J => Iff.rfl, ?_, ?_⟩
    · intro e J h
      cases h
    · intro e J h
      cases h
  · have hg : get_bits I n = get_bits_loop n n I I.input I.bits_acc I.bits_len := by
      unfold get_bits
      rw [if_neg hn]
    obtain ⟨s1, s2⟩ := get_bits_loop_sim n n I I.input I.bits_acc I.bits_len (by omega) (by omega)
    have hS : ({ I with bits_acc := I.bits_acc, bits_len := I.bits_len, input := I.input }
        : ginflate_t) = I := rfl
    rw [hS] at s1 s2
    rw [hg, hfd]
    cases hl : get_bits_loop n n I I.input I.bits_acc I.bits_len with
    | ok v J =>
      obtain ⟨a1, a2, a3⟩ := s1 v J hl
      have hd : drop_bits (fetch_bits_loop n n I) n = .ok () J := by
        unfold drop_bits
        rw [if_neg (by omega), a3]
      rw [hd]
      dsimp only
      rw [← a2]
      refine ⟨fun v2 J2 => Iff.rfl, ?_, ?_⟩
      · intro e J2 h
        cases h
      · intro e J2 h
        cases h
    | err e J =>
      obtain ⟨a1, a2⟩ := s2 e J hl
      have hd : drop_bits (fetch_bits_loop n n I) n
          = .err .c_err_eof { fetch_bits_loop n n I with infl := .inflate_error } := by
        unfold drop_bits
        rw [if_pos (by omega)]
        rfl
      rw [hd]
      dsimp only
      subst a1
      refine ⟨?_, ?_, ?_⟩
      · intro v2 J2
        constructor
        · intro h
          cases h
        · intro h
          cases h
      · intro e2 J2 h
        cases h
        exact ⟨rfl, _, rfl⟩
      · intro e2 J2 h
        cases h
        exact ⟨rfl, _, rfl⟩

/-- A decoder whose pending bits are below their count and whose bytes are bytes; unlike
`bits_ok` it sets no bound on the count of pending bits. -/
theorem fetch_bits_loop_wide (n : Nat) (hn : n ≤ 16) :
    ∀ (fuel : Nat) (I : ginflate_t), I.bits_acc < 2 ^ I.bits_len → bytes_ok I.input →
      bytes_ok (gfile_rest I.gf) → gfile_ok I.gf = true → n ≤ I.bits_len + 8 * fuel →
      ((fetch_bits_loop n fuel I).bits_acc < 2 ^ (fetch_bits_loop n fuel I).bits_len
        ∧ bytes_ok (fetch_bits_loop n fuel I).input
        ∧ bytes_ok (gfile_rest (fetch_bits_loop n fuel I).gf)
        ∧ gfile_ok (fetch_bits_loop n fuel I).gf = true)
      ∧ bitstream (fetch_bits_loop n fuel I) = bitstream I
      ∧ frame (fetch_bits_loop n fuel I) = frame I
      ∧ (n ≤ (fetch_bits_loop n fuel I).bits_len
          ∨ (bitstream I).length = (fetch_bits_loop n fuel I).bits_len)
      ∧ (fetch_bits_loop n fuel I).bits_len ≤ max I.bits_len (n + 7) := by
  intro fuel
  induction fuel with
  | zero =>
    intro I hacc hin hrest hgf hf
    exact ⟨⟨hacc, hin, hrest, hgf⟩, rfl, rfl, Or.inl (by simpa using hf), Nat.le_max_left _ _⟩
  | succ k ih =>
    intro I hacc hin hrest hgf hf
    unfold fetch_bits_loop
    by_cases hlt : I.bits_len < n
    · rw [if_pos hlt]
      cases hinp : I.input with
      | nil =>
        simp only [if_true]
        by_cases hr : gfile_rest I.gf = []
        · obtain ⟨g, hfb, hg1, hg2⟩ := (fetch_bytes_spec I hgf).1 hr
          rw [hfb]
          dsimp only
          refine ⟨⟨hacc, hin, ?_, hg2⟩, ?_, rfl, Or.inr ?_, Nat.le_max_left _ _⟩
          · rw [hg1]; intro b hb; cases hb
          · simp only [bitstream, hg1, hr]
          · simp only [bitstream, hinp, hr, List.append_nil, bits_of_bytes, nat_bits_length]
        · obtain ⟨g, b, rest, hfb, hg1, hg2⟩ := (fetch_bytes_spec I hgf).2 hr
          rw [hfb]
          dsimp only
          have hall : bytes_ok ((b :: rest) ++ gfile_rest g) := by rw [hg1]; exact hrest
          obtain ⟨hbr, hgr⟩ := (bytes_ok_append _ _).mp hall
          obtain ⟨hb, hrs⟩ := (bytes_ok_cons _ _).mp hbr
          obtain ⟨e1, e2⟩ := acc_add_shift I.bits_acc b I.bits_len hacc hb (by omega)
          obtain ⟨j1, j2, j3, j4, j5⟩ := ih
            { I with gf := g, input := rest,
                     bits_acc := (I.bits_acc + (b <<< I.bits_len) % U32) % U32,
                     bits_len := I.bits_len + 8 }
            (by show (I.bits_acc + (b <<< I.bits_len) % U32) % U32 < 2 ^ (I.bits_len + 8)
                rw [e1]; exact e2)
            hrs hgr hg2 (by show n ≤ I.bits_len + 8 + 8 * k; omega)
          have hbs : bitstream { I with gf := g, input := rest, bits_acc := (I.bits_acc + (b <<< I.bits_len) % U32) % U32, bits_len := I.bits_len + 8 } = bitstream I := by
            simp only [bitstream, hinp, List.nil_append, e1]
            rw [nat_bits_add_mul _ _ _ _ hacc, ← hg1]
            simp only [List.cons_append, bits_of_bytes, List.append_assoc, List.append_eq]
          refine ⟨j1, j2.trans hbs, j3, ?_, ?_⟩
          · rcases j4 with j4 | j4
            · exact Or.inl j4
            · exact Or.inr (by rw [← hbs]; exact j4)
          · have j6 : _ ≤ max (I.bits_len + 8) (n + 7) := j5
            omega
      | cons b rest =>
        rw [if_neg (List.cons_ne_nil b rest)]
        dsimp only
        obtain ⟨hb, hrs⟩ := (bytes_ok_cons _ _).mp (hinp ▸ hin)
        obtain ⟨e1, e2⟩ := acc_add_shift I.bits_acc b I.bits_len hacc hb (by omega)
        obtain ⟨j1, j2, j3, j4, j5⟩ := ih
          { I with input := rest,
                   bits_acc := (I.bits_acc + (b <<< I.bits_len) % U32) % U32,
                   bits_len := I.bits_len + 8 }
          (by show (I.bits_acc + (b <<< I.bits_len) % U32) % U32 < 2 ^ (I.bits_len + 8)
              rw [e1]; exact e2)
          hrs hrest hgf (by show n ≤ I.bits_len + 8 + 8 * k; omega)
        have hbs : bitstream { I with input := rest, bits_acc := (I.bits_acc + (b <<< I.bits_len) % U32) % U32, bits_len := I.bits_len + 8 } = bitstream I := by
          simp only [bitstream, hinp, e1]
          rw [nat_bits_add_mul _ _ _ _ hacc]
          simp only [List.cons_append, bits_of_bytes, List.append_assoc, List.append_eq]
        refine ⟨j1, j2.trans hbs, j3, ?_, ?_⟩
        · rcases j4 with j4 | j4
          · exact Or.inl j4
          · exact Or.inr (by rw [← hbs]; exact j4)
        · have j6 : _ ≤ max (I.bits_len + 8) (n + 7) := j5
          omega
    · rw [if_neg hlt]
      exact ⟨⟨hacc, hin, hrest, hgf⟩, rfl, rfl, Or.inl (by omega), Nat.le_max_left _ _⟩

theorem bitstream_length_ge (I : ginflate_t) : I.bits_len ≤ (bitstream I).length := by
  simp only [bitstream, List.length_append, nat_bits_length]
  omega

/-- On a well-formed decoder `get_bits(n)` fails exactly when fewer than `n` bits remain. -/
theorem get_bits_fails_iff (I : ginflate_t) (n : Nat) (hn : n ≤ 16) (hI : bits_ok I) :
    (∃ e J, get_bits I n = .err e J) ↔ (bitstream I).length < n := by
  obtain ⟨hacc, _, hin, hrest, hgf⟩ := hI
  obtain ⟨w1, w2, _, w4, _⟩ := fetch_bits_loop_wide n hn n I hacc hin hrest hgf (by omega)
  obtain ⟨s1, s2, s3⟩ := get_bits_fetch_drop I n
  have hfd : fetch_drop I n
      = match drop_bits (fetch_bits_loop n n I) n with
        | .err e J => .err e J
        | .ok _ J => .ok ((fetch_bits_loop n n I).bits_acc &&& bitmask n) J := rfl
  constructor
  · rintro ⟨e, J, h⟩
    obtain ⟨_, J2, h2⟩ := s2 e J h
    rw [hfd] at h2
    have hlt : (fetch_bits_loop n n I).bits_len < n := by
      by_contra hc
      have hd : drop_bits (fetch_bits_loop n n I) n
          = .ok () { fetch_bits_loop n n I with
              bits_acc := (fetch_bits_loop n n I).bits_acc >>> n,
              bits_len := (fetch_bits_loop n n I).bits_len - n } := by
        unfold drop_bits
        rw [if_neg (by omega)]
      rw [hd] at h2
      cases h2
    rcases w4 with w4 | w4
    · omega
    · omega
  · intro hlt
    cases hg : get_bits I n with
    | err e J => exact ⟨e, J, rfl⟩
    | ok v J =>
      exfalso
      have h2 := (s1 v J).mp hg
      rw [hfd] at h2
      have hge : n ≤ (fetch_bits_loop n n I).bits_len := by
        by_contra hc
        have hd : drop_bits (fetch_bits_loop n n I) n
            = .err .c_err_eof { fetch_bits_loop n n I with infl := .inflate_error } := by
          unfold drop_bits
          rw [if_pos (by omega)]
          rfl
        rw [hd] at h2
        cases h2
      have := bitstream_length_ge (fetch_bits_loop n n I)
      rw [w2] at this
      omega

/-- A successful `get_bits(n)` returns the next `n` bits of the stream and leaves a
well-formed decoder at the bit after them. -/
theorem get_bits_ok_spec (I : ginflate_t) (n : Nat) (hn : n ≤ 16) (hI : bits_ok I)
    (v : Nat) (J : ginflate_t) (h : get_bits I n = .ok v J) :
    n ≤ (bitstream I).length ∧ v = bits_val ((bitstream I).take n)
    ∧ bitstream J = (bitstream I).drop n ∧ bits_ok J ∧ frame J = frame I := by
  have hlen : n ≤ (bitstream I).length := by
    by_contra hc
    obtain ⟨e, J2, h2⟩ := (get_bits_fails_iff I n hn hI).mpr (by omega)
    rw [h] at h2
    cases h2
  obtain ⟨J2, g1, g2, g3, g4⟩ := get_bits_spec I n hI hn hlen
  rw [h] at g1
  cases g1
  exact ⟨hlen, rfl, g2, g3, g4⟩

theorem acc_add_shift_wide (acc b len : Nat) (hacc : acc < 2 ^ len) (hb : b < 256)
    (hl : len ≤ 22) :
    (acc + (b <<< len) % U32) % U32 = acc + b * 2 ^ len
    ∧ acc + b * 2 ^ len < 2 ^ (len + 8)
    ∧ acc + b * 2 ^ len < U32
    ∧ (acc + b * 2 ^ len) % 2 ^ len = acc
    ∧ (acc + b * 2 ^ len) / 2 ^ len = b := by
  have hp : 2 ^ len ≤ 2 ^ 22 := Nat.pow_le_pow_right (by norm_num) hl
  have hbl : b * 2 ^ len ≤ 255 * 2 ^ len := Nat.mul_le_mul_right _ (by omega)
  have e22 : (2 : Nat) ^ 22 = 4194304 := by norm_num
  have hpos : 0 < 2 ^ len := Nat.two_pow_pos len
  rw [e22] at hp
  rw [Nat.shiftLeft_eq]
  have hlt : acc + b * 2 ^ len < U32 := by show _ < 4294967296; omega
  refine ⟨?_, ?_, hlt, ?_, ?_⟩
  · rw [Nat.mod_eq_of_lt (show b * 2 ^ len < U32 by show _ < 4294967296; omega)]
    exact Nat.mod_eq_of_lt hlt
  · rw [pow_add]
    norm_num
    omega
  · rw [Nat.add_mul_mod_self_right]
    exact Nat.mod_eq_of_lt hacc
  · rw [Nat.add_mul_div_right _ _ hpos, Nat.div_eq_of_lt hacc, Nat.zero_add]

/-- `fetch_bits(n)` for `n ≤ 16`: the value of the next `n` bits (of the bits that are there,
short of input), the decoder keeps its bit stream. -/
theorem fetch_bits_wide (I : ginflate_t) (n : Nat) (hI : bits_ok I) (hn : n ≤ 16) :
    (fetch_bits I n).1 = bits_val ((bitstream I).take n)
    ∧ bitstream (fetch_bits I n).2 = bitstream I
    ∧ frame (fetch_bits I n).2 = frame I
    ∧ (n ≤ (fetch_bits I n).2.bits_len
        ∨ (bitstream I).length = (fetch_bits I n).2.bits_len)
    ∧ (fetch_bits I n).2.bits_len ≤ 23 := by
  obtain ⟨hacc, hlen, hin, hrest, hgf⟩ := hI
  obtain ⟨j1, j2, j3, j4, j5⟩ := fetch_bits_loop_wide n hn n I hacc hin hrest hgf (by omega)
  unfold fetch_bits
  refine ⟨?_, j2, j3, j4, by dsimp only; omega⟩
  dsimp only
  rw [and_bitmask, ← j2, bits_val_take]
  unfold bitstream
  rw [bits_val_append, nat_bits_length, bits_val_nat_bits]
  have hacc := j1.1
  rw [Nat.mod_eq_of_lt hacc]
  rcases j4 with j4 | j4
  · have hd : 2 ^ n ∣ 2 ^ (fetch_bits_loop n n I).bits_len := pow_dvd_pow 2 j4
    obtain ⟨c, hc⟩ := hd
    rw [hc, Nat.mul_assoc, Nat.add_mul_mod_self_left]
  · rw [← j2] at j4
    unfold bitstream at j4
    rw [List.length_append, nat_bits_length] at j4
    have hz : (bits_of_bytes ((fetch_bits_loop n n I).input
        ++ gfile_rest (fetch_bits_loop n n I).gf)).length = 0 := by omega
    have hnil := List.length_eq_zero.mp hz
    rw [hnil]
    simp [bits_val]

/-! ## Bit order -/

theorem bits_val_testBit : ∀ (l : List Bool) (j : Nat),
    (bits_val l).testBit j = l.getD j false := by
  intro l
  induction l with
  | nil => intro j; simp [bits_val]
  | cons b bs ih =>
    intro j
    cases j with
    | zero =>
      rw [Nat.testBit_zero]
      cases b <;> simp [bits_val, Nat.add_mul_mod_self_left]
    | succ j =>
      rw [Nat.testBit_succ]
      have : ((if b = true then 1 else 0) + 2 * bits_val bs) / 2 = bits_val bs := by
        cases b <;> simp <;> omega
      simp only [bits_val, this, List.getD_cons_succ]
      exact ih j

theorem nat_bits_getD : ∀ (n v j : Nat), j < n → (nat_bits v n).getD j false = v.testBit j := by
  intro n
  induction n with
  | zero => intro v j h; omega
  | succ n ih =>
    intro v j h
    cases j with
    | zero => simp [nat_bits, Nat.testBit_zero]
    | succ j =>
      rw [Nat.testBit_succ]
      simp only [nat_bits, List.getD_cons_succ]
      exact ih (v / 2) j (by omega)

/-- Bit `8 * i + j` of the bits of a byte string is bit `j` of byte `i`. -/
theorem bits_of_bytes_getD : ∀ (bs : List Nat) (i j : Nat), i < bs.length → j < 8 →
    (bits_of_bytes bs).getD (8 * i + j) false = (bs.getD i 0).testBit j := by
  intro bs
  induction bs with
  | nil => intro i j h; simp at h
  | cons b bs ih =>
    intro i j hi hj
    cases i with
    | zero =>
      simp only [bits_of_bytes, Nat.mul_zero, Nat.zero_add, List.getD_cons_zero]
      rw [List.getD_append _ _ _ _ (by rw [nat_bits_length]; exact hj)]
      exact nat_bits_getD 8 b j hj
    | succ i =>
      simp only [bits_of_bytes, List.getD_cons_succ]
      rw [List.getD_append_right _ _ _ _ (by rw [nat_bits_length]; omega), nat_bits_length]
      have : 8 * (i + 1) + j - 8 = 8 * i + j := by omega
      rw [this]
      exact ih i j (by simpa using hi) hj

/-! ## Sequences of `get_bits` calls -/

theorem bit_fields_length : ∀ (ns : List Nat) (bs : List Bool),
    (bit_fields bs ns).length = ns.length := by
  intro ns
  induction ns with
  | nil => intro bs; rfl
  | cons n ns ih => intro bs; simp [bit_fields, ih]

theorem get_bits_seq_spec : ∀ (ns : List Nat) (I : ginflate_t), bits_ok I →
    (∀ n ∈ ns, n ≤ 16) → ns.sum ≤ (bitstream I).length →
    ∃ J, get_bits_seq I ns = .ok (bit_fields (bitstream I) ns) J
      ∧ bitstream J = (bitstream I).drop ns.sum ∧ bits_ok J ∧ frame J = frame I := by
  intro ns
  induction ns with
  | nil =>
    intro I hI _ _
    exact ⟨I, rfl, by simp, hI, rfl⟩
  | cons n ns ih =>
    intro I hI hn hs
    rw [List.sum_cons] at hs
    obtain ⟨J, g1, g2, g3, g4⟩ := get_bits_spec I n hI (hn n (List.mem_cons_self _ _)) (by omega)
    obtain ⟨K, k1, k2, k3, k4⟩ := ih J g3 (fun m hm => hn m (List.mem_cons_of_mem _ hm))
      (by rw [g2, List.length_drop]; omega)
    refine ⟨K, ?_, ?_, k3, k4.trans g4⟩
    · simp only [get_bits_seq, g1, k1, bit_fields, g2]
    · rw [k2, g2, List.drop_drop, List.sum_cons]

theorem get_bits_seq_ok : ∀ (ns : List Nat) (I : ginflate_t), bits_ok I →
    (∀ n ∈ ns, n ≤ 16) → ∀ vs J, get_bits_seq I ns = .ok vs J →
    ns.sum ≤ (bitstream I).length := by
  intro ns
  induction ns with
  | nil => intro I _ _ vs J _; simp
  | cons n ns ih =>
    intro I hI hn vs J h
    simp only [get_bits_seq] at h
    cases hg : get_bits I n with
    | err e K => rw [hg] at h; cases h
    | ok v K =>
      rw [hg] at h
      dsimp only at h
      obtain ⟨a1, _, a3, a4, _⟩ := get_bits_ok_spec I n (hn n (List.mem_cons_self _ _)) hI v K hg
      cases hs : get_bits_seq K ns with
      | err e K2 => rw [hs] at h; cases h
      | ok vs2 K2 =>
        have := ih K a4 (fun m hm => hn m (List.mem_cons_of_mem _ hm)) vs2 K2 hs
        rw [a3, List.length_drop] at this
        rw [List.sum_cons]
        omega

/-! ## The ring buffer along a pass of the decoder -/

theorem frame_ring (I J : ginflate_t) (h : frame J = frame I) : ring_of J = ring_of I := by
  simp only [frame, Prod.mk.injEq] at h
  simp only [ring_of, Prod.mk.injEq]
  exact ⟨h.1, h.2.2.2.2.2.1⟩

theorem ring_ok_of (I J : ginflate_t) (hist : List Nat) (h : ring_of J = ring_of I)
    (hr : ring_ok I.ringbuf_pos I.ringbuf hist) : ring_ok J.ringbuf_pos J.ringbuf hist := by
  simp only [ring_of, Prod.mk.injEq] at h
  rw [h.1, h.2]
  exact hr

theorem ring_of_hdic_dist (I : ginflate_t) (x : ginflate_hdic_t) :
    ring_of { I with hdic_dist := x } = ring_of I := by
  simp only [ring_of]

theorem ring_of_hdic_lit (I : ginflate_t) (x : ginflate_hdic_t) :
    ring_of { I with hdic_lit := x } = ring_of I := by
  simp only [ring_of]

theorem get_bits_loop_ring (n : Nat) : ∀ (fuel : Nat) (I : ginflate_t) (p : List Nat)
    (bs bl : Nat), ring_of (res_state (get_bits_loop n fuel I p bs bl)) = ring_of I := by
  intro fuel
  induction fuel with
  | zero => intro I p bs bl; rfl
  | succ fuel ih =>
    intro I p bs bl
    rw [get_bits_loop]
    rcases input_next I p with ⟨I1, e, f⟩ | ⟨b, rest, I1, e, f⟩
    · rw [e]
      exact frame_ring I I1 f
    · rw [e]
      dsimp only
      by_cases hb : bl + 8 < n
      · rw [if_pos hb]
        exact (ih I1 rest _ _).trans (frame_ring I I1 f)
      · rw [if_neg hb]
        exact frame_ring I I1 f

theorem get_bits_ring (I : ginflate_t) (n : Nat) :
    ring_of (res_state (get_bits I n)) = ring_of I := by
  unfold get_bits
  by_cases hn : n ≤ I.bits_len
  · rw [if_pos hn]
    rfl
  · rw [if_neg hn]
    exact get_bits_loop_ring n n I I.input I.bits_acc I.bits_len

theorem drop_bits_ring (I : ginflate_t) (n : Nat) :
    ring_of (res_state (drop_bits I n)) = ring_of I := by
  unfold drop_bits
  split <;> rfl

theorem decode_huff_ring (I : ginflate_t) (hdic : ginflate_hdic_t) :
    ring_of (res_state (decode_huff I hdic)) = ring_of I := by
  unfold decode_huff
  dsimp only
  split
  · next e I1 hd =>
    have h := drop_bits_ring (fetch_bits I hdic.max_codelen).2
      (unpack_bl (hdic.lookup.getD (fetch_bits I hdic.max_codelen).1 0))
    rw [hd] at h
    exact h.trans (frame_ring _ _ (fetch_bits_frame I _))
  · next u I1 hd =>
    have h := drop_bits_ring (fetch_bits I hdic.max_codelen).2
      (unpack_bl (hdic.lookup.getD (fetch_bits I hdic.max_codelen).1 0))
    rw [hd] at h
    exact h.trans (frame_ring _ _ (fetch_bits_frame I _))

theorem decode_ext_ring (I : ginflate_t) (ext : List extra_def_t) (c : Nat) :
    ring_of (res_state (decode_ext I ext c)) = ring_of I := by
  unfold decode_ext
  by_cases hc : c < ext.length
  · rw [if_pos hc]
    split
    · next e I1 hg =>
      have h := get_bits_ring I (ext.getD c ⟨0, 0⟩).bits
      rw [hg] at h
      exact h
    · next v I1 hg =>
      have h := get_bits_ring I (ext.getD c ⟨0, 0⟩).bits
      rw [hg] at h
      exact h
  · rw [if_neg hc]
    rfl

theorem read_clen_lens_ring : ∀ (k i : Nat) (I : ginflate_t) (clbuf : List Nat),
    ring_of (res_state (read_clen_lens k i I clbuf)) = ring_of I := by
  intro k
  induction k with
  | zero => intro i I clbuf; rfl
  | succ k ih =>
    intro i I clbuf
    rw [read_clen_lens]
    have h := get_bits_ring I 3
    cases hg : get_bits I 3 with
    | err e I1 =>
      rw [hg] at h
      exact h
    | ok v I1 =>
      rw [hg] at h
      exact (ih _ _ _).trans h

theorem decode_clen_loop_ring (hdic : ginflate_hdic_t) (num_codes : Nat) :
    ∀ (fuel : Nat) (I : ginflate_t) (clbuf : List Nat) (i : Nat),
    ring_of (res_state (decode_clen_loop hdic num_codes fuel I clbuf i)) = ring_of I := by
  intro fuel
  induction fuel with
  | zero =>
    intro I clbuf i
    rw [decode_clen_loop_zero]
    split <;> rfl
  | succ fuel ih =>
    intro I clbuf i
    rw [decode_clen_loop_succ]
    by_cases hi : i < num_codes
    · rw [if_pos hi]
      have h := decode_huff_ring I hdic
      cases hd : decode_huff I hdic with
      | err e1 I1 =>
        rw [hd] at h
        exact h
      | ok l I1 =>
        rw [hd] at h
        dsimp only
        by_cases h16 : l < 16
        · rw [if_pos h16]
          exact (ih _ _ _).trans h
        · rw [if_neg h16]
          have h2 := decode_ext_ring I1 c_clenext (l - 16)
          cases he : decode_ext I1 c_clenext (l - 16) with
          | err e2 I2 =>
            rw [he] at h2
            exact h2.trans h
          | ok n I2 =>
            rw [he] at h2
            dsimp only
            split
            · exact h2.trans h
            · exact ((ih _ _ _).trans h2).trans h
    · rw [if_neg hi]
      rfl

theorem setup_stored_ring (I : ginflate_t) :
    ring_of (res_state (setup_stored I)) = ring_of I := by
  unfold setup_stored
  have h1 := get_bits_ring (drop_to_byte I) 16
  split
  · next e I1 hg =>
    rw [hg] at h1
    exact h1
  · next len I1 hg =>
    rw [hg] at h1
    have h2 := get_bits_ring I1 16
    split
    · next e I2 hg2 =>
      rw [hg2] at h2
      exact h2.trans h1
    · next nlen I2 hg2 =>
      rw [hg2] at h2
      split
      · exact h2.trans h1
      · exact h2.trans h1

theorem setup_dynamic_huffman_ring (I : ginflate_t) :
    ring_of (res_state (setup_dynamic_huffman I)) = ring_of I := by
  unfold setup_dynamic_huffman
  have h1 := get_bits_ring I 5
  split
  · next e I1 hg => rw [hg] at h1; exact h1
  · next hlit I1 hg =>
    rw [hg] at h1
    have h2 := get_bits_ring I1 5
    split
    · next e I2 hg2 => rw [hg2] at h2; exact h2.trans h1
    · next hdist I2 hg2 =>
      rw [hg2] at h2
      have h3 := get_bits_ring I2 4
      split
      · next e I3 hg3 => rw [hg3] at h3; exact (h3.trans h2).trans h1
      · next hclen I3 hg3 =>
        rw [hg3] at h3
        have h4 := read_clen_lens_ring (hclen + 4) 0 I3 (List.replicate 288 0)
        split
        · next e I4 hr => rw [hr] at h4; exact ((h4.trans h3).trans h2).trans h1
        · next clbuf1 I4 hr =>
          rw [hr] at h4
          have h04 : ring_of I4 = ring_of I := ((h4.trans h3).trans h2).trans h1
          dsimp only
          have h5 := decode_clen_loop_ring (init_huffdic clbuf1 19 I4.hdic_dist) (hlit + 257)
            (hlit + 257) { I4 with hdic_dist := init_huffdic clbuf1 19 I4.hdic_dist } clbuf1 0
          split
          · next e I6 hc =>
            unfold decode_clen at hc
            rw [hc] at h5
            exact (h5.trans (ring_of_hdic_dist I4 _)).trans h04
          · next clbuf2 I6 hc =>
            unfold decode_clen at hc
            rw [hc] at h5
            have h06 : ring_of I6 = ring_of I := (h5.trans (ring_of_hdic_dist I4 _)).trans h04
            have h6 := decode_clen_loop_ring (init_huffdic clbuf1 19 I4.hdic_dist) (hdist + 1)
              (hdist + 1) { I6 with hdic_lit := init_huffdic clbuf2 (hlit + 257) I6.hdic_lit }
              clbuf2 0
            split
            · next e I8 hc2 =>
              unfold decode_clen at hc2
              rw [hc2] at h6
              exact (h6.trans (ring_of_hdic_lit I6 _)).trans h06
            · next clbuf3 I8 hc2 =>
              unfold decode_clen at hc2
              rw [hc2] at h6
              have h08 : ring_of I8 = ring_of I := (h6.trans (ring_of_hdic_lit I6 _)).trans h06
              simp only [res_state, ring_of] at h08 ⊢
              exact h08

theorem setup_fixed_huffman_ring (I : ginflate_t) :
    ring_of (res_state (setup_fixed_huffman I)) = ring_of I := by
  unfold setup_fixed_huffman
  simp only [res_state, ring_of]

theorem c_setup_fn_ring (btype : Nat) (I : ginflate_t) :
    ring_of (res_state (c_setup_fn btype I)) = ring_of I := by
  unfold c_setup_fn
  split
  · exact setup_stored_ring I
  · exact setup_fixed_huffman_ring I
  · exact setup_dynamic_huffman_ring I
  · rfl

/-- The copy loop of a match keeps the ring buffer in step with the output, whatever the
distance. -/
theorem expand_loop_ring (d : Nat) : ∀ (k pos : Nat) (rb out hist : List Nat),
    ring_ok pos rb hist →
    ∃ ext, (expand_loop d k pos rb out).2.2 = out ++ ext ∧ ext.length = k
      ∧ ring_ok (expand_loop d k pos rb out).1 (expand_loop d k pos rb out).2.1
          (hist ++ ext) := by
  intro k
  induction k with
  | zero =>
    intro pos rb out hist hr
    exact ⟨[], by simp [expand_loop], rfl, by simpa [expand_loop] using hr⟩
  | succ k ih =>
    intro pos rb out hist hr
    obtain ⟨ext, e1, e2, e3⟩ := ih ((pos + 1) % 65536)
      (rb.set pos (rb.getD (((pos + U32 - d) % U32) % 65536) 0))
      (out ++ [rb.getD (((pos + U32 - d) % U32) % 65536) 0])
      (hist ++ [rb.getD (((pos + U32 - d) % U32) % 65536) 0])
      (ring_ok_put pos rb hist _ hr)
    refine ⟨rb.getD (((pos + U32 - d) % U32) % 65536) 0 :: ext, ?_, by simp [e2], ?_⟩
    · rw [expand_loop, e1]
      simp
    · rw [expand_loop]
      have : hist ++ rb.getD (((pos + U32 - d) % U32) % 65536) 0 :: ext
          = hist ++ [rb.getD (((pos + U32 - d) % U32) % 65536) 0] ++ ext := by simp
      rw [this]
      exact e3

theorem expand_match_ring (I : ginflate_t) (out : List Nat) (room : Nat) (hist : List Nat)
    (hr : ring_ok I.ringbuf_pos I.ringbuf hist) :
    ∃ ext, (expand_match I out room).2.1 = out ++ ext
      ∧ ext.length = umin I.match_len (room % U32)
      ∧ ring_ok (expand_match I out room).1.ringbuf_pos (expand_match I out room).1.ringbuf
          (hist ++ ext) := by
  obtain ⟨ext, e1, e2, e3⟩ := expand_loop_ring I.match_dist (umin I.match_len (room % U32))
    I.ringbuf_pos I.ringbuf out hist hr
  exact ⟨ext, e1, e2, e3⟩

/-- The copy loop of a stored block keeps the ring buffer in step with the output, also when
the input ends inside the block. -/
theorem stored_loop_ring : ∀ (k : Nat) (I : ginflate_t) (out hist : List Nat),
    ring_ok I.ringbuf_pos I.ringbuf hist →
    ∃ bs, ring_ok (res_state (stored_loop k I out)).ringbuf_pos
        (res_state (stored_loop k I out)).ringbuf (hist ++ bs)
      ∧ ∀ out1 J, stored_loop k I out = .ok out1 J → out1 = out ++ bs := by
  intro k
  induction k with
  | zero =>
    intro I out hist hr
    refine ⟨[], by simpa [stored_loop_zero, res_state] using hr, ?_⟩
    intro out1 J h
    rw [stored_loop_zero] at h
    cases h
    simp
  | succ k ih =>
    intro I out hist hr
    rw [stored_loop_succ]
    have hg := get_bits_ring I 8
    cases hgb : get_bits I 8 with
    | err e I1 =>
      rw [hgb] at hg
      refine ⟨[], ?_, ?_⟩
      · rw [List.append_nil]
        exact ring_ok_of I I1 hist hg hr
      · intro out1 J h
        cases h
    | ok v I1 =>
      rw [hgb] at hg
      dsimp only
      have hr1 : ring_ok I1.ringbuf_pos I1.ringbuf hist := ring_ok_of I I1 hist hg hr
      obtain ⟨bs, b1, b2⟩ := ih (ringbuf_put I1 v).2 (out ++ [(ringbuf_put I1 v).1])
        (hist ++ [(ringbuf_put I1 v).1]) (ring_ok_put _ _ _ _ hr1)
      refine ⟨(ringbuf_put I1 v).1 :: bs, ?_, ?_⟩
      · have : hist ++ (ringbuf_put I1 v).1 :: bs = hist ++ [(ringbuf_put I1 v).1] ++ bs := by
          simp
        rw [this]
        exact b1
      · intro out1 J h
        rw [b2 out1 J h]
        simp

/-- Along a pass of the decoder the ring buffer holds the last 65536 bytes of the output and
the write position is the number of bytes written so far modulo 65536, in the state the pass
leaves when it succeeds and in the state it leaves when it fails. -/
theorem inflate_run_ring : ∀ (fuel : Nat) (w : run_at) (I : ginflate_t) (out : List Nat)
    (room : Nat) (hist : List Nat) (R : Res (List Nat)),
    ring_ok I.ringbuf_pos I.ringbuf hist → inflate_run fuel w I out room = R →
    ∃ bs, ring_ok (res_state R).ringbuf_pos (res_state R).ringbuf (hist ++ bs)
      ∧ ∀ out1 J, R = .ok out1 J → out1 = out ++ bs := by
  intro fuel
  induction fuel with
  | zero =>
    intro w I out room hist R hr h
    rw [inflate_run_zero] at h
    subst h
    exact ⟨[], by rw [List.append_nil]; exact hr, fun _ _ h => by cases h⟩
  | succ fuel ih =>
    intro w I out room hist R hr h
    have leaf_err : ∀ (e : gar_error_t) (K : ginflate_t), ring_of K = ring_of I →
        ∃ bs, ring_ok (res_state (Res.err e K : Res (List Nat))).ringbuf_pos
            (res_state (Res.err e K : Res (List Nat))).ringbuf (hist ++ bs)
          ∧ ∀ out1 J, (Res.err e K : Res (List Nat)) = .ok out1 J → out1 = out ++ bs := by
      intro e K hK
      refine ⟨[], ?_, fun _ _ h => by cases h⟩
      rw [List.append_nil]
      exact ring_ok_of I K hist hK hr
    cases w with
    | call =>
      rw [inflate_run_call] at h
      cases hinfl : I.infl with
      | inflate_error =>
        simp only [hinfl] at h
        subst h
        exact leaf_err _ _ rfl
      | inflate_block =>
        simp only [hinfl] at h
        by_cases hbf : I.bfinal ≠ 0
        · rw [if_pos hbf] at h
          subst h
          refine ⟨[], by rw [List.append_nil]; exact hr, ?_⟩
          intro out1 J h
          cases h
          simp
        · rw [if_neg hbf] at h
          have r1 := get_bits_ring I 1
          cases hg1 : get_bits I 1 with
          | err e1 I1 =>
            rw [hg1] at h r1
            subst h
            exact leaf_err _ _ r1
          | ok bf I1 =>
            rw [hg1] at h r1
            dsimp only at h
            have r2 := get_bits_ring I1 2
            cases hg2 : get_bits I1 2 with
            | err e1 I2 =>
              rw [hg2] at h r2
              subst h
              exact leaf_err _ _ (r2.trans r1)
            | ok bt I2 =>
              rw [hg2] at h r2
              dsimp only at h
              have r3 := c_setup_fn_ring bt { I2 with bfinal := bf }
              have r02 : ring_of ({ I2 with bfinal := bf } : ginflate_t) = ring_of I :=
                (show ring_of ({ I2 with bfinal := bf } : ginflate_t) = ring_of I2 from rfl).trans
                  (r2.trans r1)
              cases hs : c_setup_fn bt { I2 with bfinal := bf } with
              | err e1 I3 =>
                rw [hs] at h r3
                subst h
                exact leaf_err _ _ (r3.trans r02)
              | ok u I3 =>
                rw [hs] at h r3
                exact ih _ _ _ _ _ _ (ring_ok_of I I3 hist (r3.trans r02) hr) h
      | inflate_stored =>
        simp only [hinfl] at h
        obtain ⟨bs, b1, b2⟩ := stored_loop_ring (umin I.match_len (room % U32)) I out hist hr
        cases hs : stored_loop (umin I.match_len (room % U32)) I out with
        | err e1 I1 =>
          rw [hs] at h b1
          subst h
          exact ⟨bs, b1, fun _ _ h => by cases h⟩
        | ok o1 I1 =>
          rw [hs] at h b1
          dsimp only at h
          have ho := b2 o1 I1 hs
          have hr1 : ring_ok I1.ringbuf_pos I1.ringbuf (hist ++ bs) := b1
          split at h
          · obtain ⟨bs2, c1, c2⟩ := ih .call
              { I1 with match_len := I1.match_len - umin I.match_len (room % U32),
                        infl := .inflate_block } _ _ (hist ++ bs) _ hr1 h
            refine ⟨bs ++ bs2, by rw [← List.append_assoc]; exact c1, ?_⟩
            intro out1 J hR
            rw [c2 out1 J hR, ho, List.append_assoc]
          · subst h
            exact ⟨bs, hr1, fun out1 J hR => by cases hR; exact ho⟩
      | inflate_compressed =>
        simp only [hinfl] at h
        split at h
        · obtain ⟨ext, x1, _, x3⟩ := expand_match_ring I out room hist hr
          rw [x1] at h
          obtain ⟨bs2, c1, c2⟩ := ih _ _ _ _ (hist ++ ext) _ x3 h
          refine ⟨ext ++ bs2, by rw [← List.append_assoc]; exact c1, ?_⟩
          intro out1 J hR
          rw [c2 out1 J hR, List.append_assoc]
        · exact ih _ _ _ _ _ _ hr h
    | comp_loop =>
      rw [inflate_run_comp_loop] at h
      by_cases hroom : 0 < room
      · rw [if_pos hroom] at h
        have r1 := decode_huff_ring I I.hdic_lit
        cases hd : decode_huff I I.hdic_lit with
        | err e1 I1 =>
          rw [hd] at h r1
          subst h
          exact leaf_err _ _ r1
        | ok l I1 =>
          rw [hd] at h r1
          dsimp only at h
          have hr1 : ring_ok I1.ringbuf_pos I1.ringbuf hist := ring_ok_of I I1 hist r1 hr
          split at h
          · obtain ⟨bs2, c1, c2⟩ := ih _ _ _ _ (hist ++ [(ringbuf_put I1 l).1]) _
              (ring_ok_put _ _ _ _ hr1) h
            refine ⟨(ringbuf_put I1 l).1 :: bs2, ?_, ?_⟩
            · have : hist ++ (ringbuf_put I1 l).1 :: bs2
                  = hist ++ [(ringbuf_put I1 l).1] ++ bs2 := by simp
              rw [this]
              exact c1
            · intro out1 J hR
              rw [c2 out1 J hR]
              simp
          · split at h
            · have r2 := decode_ext_ring I1 c_lenext (l - 257)
              cases he : decode_ext I1 c_lenext (l - 257) with
              | err e1 I2 =>
                rw [he] at h r2
                subst h
                exact leaf_err _ _ (r2.trans r1)
              | ok len I2 =>
                rw [he] at h r2
                dsimp only at h
                have r3 := decode_huff_ring { I2 with match_len := len } I2.hdic_dist
                have r02 : ring_of ({ I2 with match_len := len } : ginflate_t) = ring_of I :=
                  (show ring_of ({ I2 with match_len := len } : ginflate_t) = ring_of I2
                    from rfl).trans (r2.trans r1)
                cases hd2 : decode_huff { I2 with match_len := len } I2.hdic_dist with
                | err e1 I3 =>
                  rw [hd2] at h r3
                  subst h
                  exact leaf_err _ _ (r3.trans r02)
                | ok d I3 =>
                  rw [hd2] at h r3
                  dsimp only at h
                  have r4 := decode_ext_ring I3 c_distext d
                  cases he2 : decode_ext I3 c_distext d with
                  | err e1 I4 =>
                    rw [he2] at h r4
                    subst h
                    exact leaf_err _ _ (r4.trans (r3.trans r02))
                  | ok dist I4 =>
                    rw [he2] at h r4
                    dsimp only at h
                    have r04 : ring_of ({ I4 with match_dist := dist } : ginflate_t)
                        = ring_of I :=
                      (show ring_of ({ I4 with match_dist := dist } : ginflate_t) = ring_of I4
                        from rfl).trans (r4.trans (r3.trans r02))
                    obtain ⟨ext, x1, _, x3⟩ :=
                      expand_match_ring { I4 with match_dist := dist } out room hist
                        (ring_ok_of I _ hist r04 hr)
                    rw [x1] at h
                    obtain ⟨bs2, c1, c2⟩ := ih _ _ _ _ (hist ++ ext) _ x3 h
                    refine ⟨ext ++ bs2, by rw [← List.append_assoc]; exact c1, ?_⟩
                    intro out1 J hR
                    rw [c2 out1 J hR, List.append_assoc]
            · exact ih _ _ _ _ _ _
                (ring_ok_of I { I1 with infl := .inflate_block } hist
                  ((show ring_of ({ I1 with infl := .inflate_block } : ginflate_t) = ring_of I1
                    from rfl).trans r1) hr) h
      · rw [if_neg hroom] at h
        subst h
        refine ⟨[], by rw [List.append_nil]; exact hr, ?_⟩
        intro out1 J h
        cases h
        simp

/-! ## Bit fields, the bit accumulator, the end of a block, the end of the walk -/

/-- A pass bound the loop of `gar_enum` does not reach can be raised without changing the
result. -/
theorem gar_enum_loop_mono_step {σ : Type} (fn : gar_enum_t σ) :
    ∀ (fuel : Nat) (gf : gar_gfile_t) (ud : σ) (off : Nat) (result : Int),
      (gar_enum_loop fn fuel gf ud off result).1 ≠ .error .model_fuel →
      gar_enum_loop fn (fuel + 1) gf ud off result = gar_enum_loop fn fuel gf ud off result := by
  intro fuel
  induction fuel with
  | zero =>
    intro gf ud off result h
    rw [gar_enum_loop_zero] at h
    exact absurd rfl h
  | succ k ih =>
    intro gf ud off result h
    rw [gar_enum_loop_succ] at h
    rw [gar_enum_loop_succ fn (k + 1), gar_enum_loop_succ fn k]
    cases hs : gar_gfile_seek gf off with
    | error e => rfl
    | ok gf1 =>
      rw [hs] at h
      dsimp only at h ⊢
      cases hh : read_pk0304_header gf1 with
      | mk o gf2 =>
        rw [hh] at h
        cases o with
        | none => rfl
        | some hdr =>
          dsimp only at h ⊢
          split
          · rfl
          · next hlen =>
            rw [if_neg hlen] at h
            split
            · rfl
            · next r1 hc =>
              rw [hc] at h
              dsimp only at h
              split
              · rfl
              · next hne =>
                rw [if_neg hne] at h
                exact ih _ _ _ _ h

theorem gar_enum_loop_mono {σ : Type} (fn : gar_enum_t σ) (f : Nat) (gf : gar_gfile_t)
    (ud : σ) (off : Nat) (result : Int)
    (h : (gar_enum_loop fn f gf ud off result).1 ≠ .error .model_fuel) :
    ∀ k, gar_enum_loop fn (f + k) gf ud off result = gar_enum_loop fn f gf ud off result := by
  intro k
  induction k with
  | zero => rfl
  | succ k ih =>
    rw [← Nat.add_assoc, gar_enum_loop_mono_step fn (f + k) gf ud off result (by rw [ih]; exact h),
      ih]

/-- C28. Termination of `gar_enum`. On an archive stream (regular file, slice or null stream)
whose seek limit `gfile_limit` is below `2 ^ 63` and whose file holds bytes, with a visitor
that returns (it never yields the out-of-passes marker of the embedding), the loop of
`gar_enum` ends: it does not run out of passes, it gives the same result within
`length / 30 + 1` passes, and a seek to an offset beyond the length raises the out-of-range
error. A pass that continues has read a 30-byte header at `off` and adds at least 30 to
`off`. -/
theorem gar_enum_terminates {σ : Type} (G : gar_t) (fn : gar_enum_t σ) (ud : σ)
    (hfn : ∀ z u, (fn z u).1 ≠ .error .model_fuel)
    (hb : gfile_bytes_ok G.gf = true) (hL : gfile_limit G.gf < 2 ^ 63) :
    (gar_enum G fn ud).1 ≠ .error .model_fuel
    ∧ (gar_enum_loop fn (gfile_limit G.gf / 30 + 1) G.gf ud 0 0).1 ≠ .error .model_fuel
    ∧ (∀ k, gar_enum_loop fn (gfile_limit G.gf / 30 + 1 + k) G.gf ud 0 0
          = gar_enum_loop fn (gfile_limit G.gf / 30 + 1) G.gf ud 0 0)
    ∧ (∀ off, gfile_limit G.gf < off → gar_gfile_seek G.gf off = .error .out_of_range) := by
  have h1 : (gar_enum_loop fn (gfile_limit G.gf / 30 + 1) G.gf ud 0 0).1 ≠ .error .model_fuel :=
    gar_enum_loop_terminates fn hfn (gfile_limit G.gf) hL _ G.gf ud 0 0 rfl hb (by omega)
      (by omega)
  refine ⟨?_, h1, gar_enum_loop_mono fn _ G.gf ud 0 0 h1, ?_⟩
  · exact gar_enum_loop_terminates fn hfn (gfile_limit G.gf) hL _ G.gf ud 0 0 rfl hb (by omega)
      (by omega)
  · intro off hoff
    exact gar_gfile_seek_past_limit G.gf off hoff

/-- Witness for C28: the walk over the example archive of one entry with a visitor that
always returns 0 ends with the result 0. -/
theorem gar_enum_terminates_witness :
    (gar_enum (gar_archive_open_file ex_archive_hello)
      (fun _ (u : Unit) => (.ok 0, u)) ()).1 ≠ .error .model_fuel :=
  (gar_enum_terminates (gar_archive_open_file ex_archive_hello)
    (fun _ (u : Unit) => (.ok 0, u)) ()
    (fun _ _ h => by cases h) (by decide) (by decide)).1

/-- C22. Bit fields. On a well-formed decoder (`bits_ok`), whose unread bits `bitstream` are
the pending bits of the accumulator followed by the bytes of the input buffer and the bytes
the source still delivers, bytes in order and each byte least significant bit first, a
sequence of `get_bits` calls with widths of at most 16 that the unread bits cover succeeds
and returns the successive fields of the bit stream, and it leaves the decoder at the bit
after the last field; a sequence that succeeds is covered by the unread bits. The bit `j` of
a field has the weight `2 ^ j` in the value, and the bit `8 * i + j` of a byte string is bit
`j` of its byte `i`. How the unread bytes are split between the input buffer and the source,
and so where the refills fall, does not enter the result. -/
theorem get_bits_seq_fields (I : ginflate_t) (ns : List Nat) (hI : bits_ok I)
    (hn : ∀ n ∈ ns, n ≤ 16) :
    (ns.sum ≤ (bitstream I).length →
      ∃ J, get_bits_seq I ns = .ok (bit_fields (bitstream I) ns) J
        ∧ bitstream J = (bitstream I).drop ns.sum ∧ bits_ok J)
    ∧ (∀ vs J, get_bits_seq I ns = .ok vs J →
        ns.sum ≤ (bitstream I).length ∧ vs = bit_fields (bitstream I) ns)
    ∧ (∀ (l : List Bool) (j : Nat), (bits_val l).testBit j = l.getD j false)
    ∧ (∀ (bs : List Nat) (i j : Nat), i < bs.length → j < 8 →
        (bits_of_bytes bs).getD (8 * i + j) false = (bs.getD i 0).testBit j) := by
  refine ⟨?_, ?_, bits_val_testBit, bits_of_bytes_getD⟩
  · intro hs
    obtain ⟨J, j1, j2, j3, _⟩ := get_bits_seq_spec ns I hI hn hs
    exact ⟨J, j1, j2, j3⟩
  · intro vs J h
    have hs := get_bits_seq_ok ns I hI hn vs J h
    obtain ⟨J2, j1, _⟩ := get_bits_seq_spec ns I hI hn hs
    rw [h] at j1
    exact ⟨hs, (Res.ok.inj j1).1⟩

/-- Witness for C22: on the stream 01 03 00 FC FF 61 62 63 the fields of 3, 5 and 16 bits are
1, 0 and 3. -/
theorem get_bits_seq_fields_witness :
    ∃ J, get_bits_seq (ginflate_on_open (.file ex_stored_abc 0) ginflate_zero_mem) [3, 5, 16]
      = .ok [1, 0, 3] J := by
  obtain ⟨J, h, _⟩ := (get_bits_seq_fields
    (ginflate_on_open (.file ex_stored_abc 0) ginflate_zero_mem) [3, 5, 16]
    (by decide) (by decide)).1 (by decide)
  exact ⟨J, h⟩

/-- C23. `get_bits` against `fetch_bits` and `drop_bits`. For every decoder state and width,
`get_bits(n)` succeeds exactly when `fetch_bits(n)` followed by `drop_bits(n)` does, with the
same value and the same decoder after (accumulator, bit count, input position and all other
fields); a failure of either is the "unexpected EOF" error and comes with a failure of the
other. On a well-formed decoder and for `n ≤ 16` both fail exactly when fewer than `n` bits
remain in the accumulator and the unread input; `fetch_bits`, which is total, leaves the
unread bits as they are and returns the value of the next `n` bits. -/
theorem get_bits_refines_fetch_drop (I : ginflate_t) (n : Nat) :
    (∀ v J, get_bits I n = .ok v J ↔ fetch_drop I n = .ok v J)
    ∧ (∀ e J, get_bits I n = .err e J →
        e = .c_err_eof ∧ ∃ J2, fetch_drop I n = .err .c_err_eof J2)
    ∧ (∀ e J, fetch_drop I n = .err e J →
        e = .c_err_eof ∧ ∃ J2, get_bits I n = .err .c_err_eof J2)
    ∧ (bits_ok I → n ≤ 16 →
        ((∃ e J, get_bits I n = .err e J) ↔ bits_left I < n)
        ∧ ((∃ e J, fetch_drop I n = .err e J) ↔ bits_left I < n)
        ∧ bitstream (fetch_bits I n).2 = bitstream I
        ∧ bits_left (fetch_bits I n).2 = bits_left I
        ∧ (fetch_bits I n).1 = bits_val ((bitstream I).take n)) := by
  obtain ⟨s1, s2, s3⟩ := get_bits_fetch_drop I n
  refine ⟨s1, s2, s3, ?_⟩
  intro hI hn
  have hg := get_bits_fails_iff I n hn hI
  obtain ⟨f1, f2, _, _, _⟩ := fetch_bits_wide I n hI hn
  refine ⟨by rw [bits_left_eq]; exact hg, ?_, f2, by rw [bits_left_eq, bits_left_eq, f2], f1⟩
  rw [bits_left_eq, ← hg]
  constructor
  · rintro ⟨e, J, h⟩
    obtain ⟨_, J2, h2⟩ := s3 e J h
    exact ⟨_, J2, h2⟩
  · rintro ⟨e, J, h⟩
    obtain ⟨_, J2, h2⟩ := s2 e J h
    exact ⟨_, J2, h2⟩

/-- Witness for C23: on the one-byte stream 01, `get_bits(16)` fails, as 8 bits remain. -/
theorem get_bits_refines_fetch_drop_witness :
    (∃ e J, get_bits (ginflate_on_open (.file [0x01] 0) ginflate_zero_mem) 16 = .err e J)
      ↔ bits_left (ginflate_on_open (.file [0x01] 0) ginflate_zero_mem) < 16 :=
  ((get_bits_refines_fetch_drop (ginflate_on_open (.file [0x01] 0) ginflate_zero_mem)
    16).2.2.2 (by decide) (by decide)).1

/-- C30. The bit accumulator. A decoder fresh from `ginflate_init` has no pending bits, and
opened on a well-formed source it is well-formed (`bits_ok`: `bits_acc < 2 ^ bits_len`,
`bits_len ≤ 22`, bytes in the buffers). From a well-formed decoder, `fetch_bits(n)` with
`n ≤ 15`, `drop_bits` (successful or not), `drop_to_byte` and a successful `get_bits(n)` with
`n ≤ 16` leave a well-formed decoder. In a well-formed decoder the sum of the accumulator and
a byte shifted left by `bits_len`, taken modulo `2 ^ 32` as the code does, is the exact sum:
it is below `2 ^ 32`, its low `bits_len` bits are the old accumulator and the bits above are
the byte. -/
theorem bits_ok_invariant (I : ginflate_t) (hI : bits_ok I) :
    (∀ mem, (ginflate_init mem).bits_acc = 0 ∧ (ginflate_init mem).bits_len = 0)
    ∧ (∀ gf mem, gfile_ok gf = true → bytes_ok (gfile_rest gf) →
        bits_ok (ginflate_on_open gf mem))
    ∧ (∀ n, n ≤ 15 → bits_ok (fetch_bits I n).2)
    ∧ (∀ n, bits_ok (res_state (drop_bits I n)))
    ∧ bits_ok (drop_to_byte I)
    ∧ (∀ n v J, n ≤ 16 → get_bits I n = .ok v J → bits_ok J)
    ∧ (∀ b, b < 256 →
        (I.bits_acc + (b <<< I.bits_len) % U32) % U32 = I.bits_acc + b * 2 ^ I.bits_len
        ∧ I.bits_acc + b * 2 ^ I.bits_len < U32
        ∧ (I.bits_acc + b * 2 ^ I.bits_len) % 2 ^ I.bits_len = I.bits_acc
        ∧ (I.bits_acc + b * 2 ^ I.bits_len) / 2 ^ I.bits_len = b) := by
  refine ⟨fun mem => ⟨rfl, rfl⟩, ?_, ?_, ?_, (drop_to_byte_spec I hI).2.1, ?_, ?_⟩
  · intro gf mem hgf hbytes
    refine ⟨?_, ?_, ?_, hbytes, hgf⟩
    · show (0 : Nat) < 2 ^ 0
      norm_num
    · show (0 : Nat) ≤ 22
      norm_num
    · intro b hb
      cases hb
  · intro n hn
    exact (fetch_bits_spec I n hI hn).2.1
  · intro n
    unfold drop_bits
    by_cases h : n > I.bits_len
    · rw [if_pos h]
      exact hI
    · rw [if_neg h]
      obtain ⟨J, j1, _, j3, _⟩ := drop_bits_spec I n hI (by omega)
      unfold drop_bits at j1
      rw [if_neg h] at j1
      cases j1
      exact j3
  · intro n v J hn h
    exact (get_bits_ok_spec I n hn hI v J h).2.2.2.1
  · intro b hb
    obtain ⟨a1, _, a3, a4, a5⟩ := acc_add_shift_wide I.bits_acc b I.bits_len hI.1 hb hI.2.1
    exact ⟨a1, a3, a4, a5⟩

/-- Witness for C30: the decoder opened on the stream 01 03 00 FC FF 61 62 63 is well-formed
after `fetch_bits(15)`. -/
theorem bits_ok_invariant_witness :
    bits_ok (fetch_bits (ginflate_on_open (.file ex_stored_abc 0) ginflate_zero_mem) 15).2 :=
  (bits_ok_invariant (ginflate_on_open (.file ex_stored_abc 0) ginflate_zero_mem)
    (by decide)).2.2.1 15 (by decide)

/-- C27. End of block. In the loop of `inflate_compressed`, with room in the output and the
literal/length symbol `l` decoded: for `l = 256` the pass goes on as a call of
`inflate_block` on the decoder after the symbol with `infl` set to `inflate_block`, the
output as it was, the ring buffer and the match fields as they were; that call returns the
output at once when `BFINAL` was set, and otherwise reads the two header fields and runs
the setup function of the next block. For `l < 256` the pass puts the literal and stays in
the loop; for `l ≥ 257` it decodes the length and the distance of a match, copies the match
and stays in the loop, or fails with the error of the decoding step that failed. -/
theorem inflate_compressed_end_of_block (fuel : Nat) (I : ginflate_t) (out : List Nat)
    (room l : Nat) (I1 : ginflate_t) (hroom : 0 < room)
    (hd : decode_huff I I.hdic_lit = .ok l I1) :
    (l = 256 →
      inflate_run (fuel + 1) .comp_loop I out room
          = inflate_run fuel .call { I1 with infl := .inflate_block } out room
      ∧ ring_of I1 = ring_of I ∧ I1.match_len = I.match_len ∧ I1.match_dist = I.match_dist
      ∧ I1.bfinal = I.bfinal
      ∧ (I.bfinal ≠ 0 →
          inflate_run (fuel + 2) .comp_loop I out room
            = .ok out { I1 with infl := .inflate_block })
      ∧ (I.bfinal = 0 → ∀ bf I2 bt I3 u I4,
          get_bits { I1 with infl := .inflate_block } 1 = .ok bf I2 →
          get_bits I2 2 = .ok bt I3 →
          c_setup_fn bt { I3 with bfinal := bf } = .ok u I4 →
          inflate_run (fuel + 2) .comp_loop I out room = inflate_run fuel .call I4 out room))
    ∧ (l < 256 →
        inflate_run (fuel + 1) .comp_loop I out room
          = inflate_run fuel .comp_loop (ringbuf_put I1 l).2 (out ++ [(ringbuf_put I1 l).1])
              (room - 1))
    ∧ (257 ≤ l →
        (∀ e I2, decode_ext I1 c_lenext (l - 257) = .err e I2 →
          inflate_run (fuel + 1) .comp_loop I out room = .err e I2)
        ∧ (∀ len I2, decode_ext I1 c_lenext (l - 257) = .ok len I2 →
          (∀ e I3, decode_huff { I2 with match_len := len } I2.hdic_dist = .err e I3 →
            inflate_run (fuel + 1) .comp_loop I out room = .err e I3)
          ∧ (∀ d I3, decode_huff { I2 with match_len := len } I2.hdic_dist = .ok d I3 →
            (∀ e I4, decode_ext I3 c_distext d = .err e I4 →
              inflate_run (fuel + 1) .comp_loop I out room = .err e I4)
            ∧ (∀ dist I4, decode_ext I3 c_distext d = .ok dist I4 →
              inflate_run (fuel + 1) .comp_loop I out room
                = inflate_run fuel .comp_loop
                    (expand_match { I4 with match_dist := dist } out room).1
                    (expand_match { I4 with match_dist := dist } out room).2.1
                    (expand_match { I4 with match_dist := dist } out room).2.2)))) := by
  have hf := decode_huff_ok I I.hdic_lit l I1 hd
  obtain ⟨f1, f2, f3, f4, f5, f6, f7, f8, f9⟩ := frame_fields I I1 hf
  refine ⟨?_, ?_, ?_⟩
  · intro hl
    have e1 : ∀ k, inflate_run (k + 1) .comp_loop I out room
        = inflate_run k .call { I1 with infl := .inflate_block } out room := by
      intro k
      rw [inflate_run_comp_loop, if_pos hroom, hd]
      dsimp only
      rw [if_neg (by omega), if_neg (by omega)]
    refine ⟨e1 fuel, frame_ring I I1 hf, f2, f3, f4, ?_, ?_⟩
    · intro hbf
      rw [e1 (fuel + 1)]
      exact inflate_block_done _ rfl (by show I1.bfinal ≠ 0; rw [f4]; exact hbf) fuel out room
    · intro hbf bf I2 bt I3 u I4 hg1 hg2 hs
      have hb1 : ¬ I1.bfinal ≠ 0 := by
        rw [f4, hbf]
        exact fun h => h rfl
      rw [e1 (fuel + 1), inflate_run_call]
      dsimp only
      rw [if_neg hb1, hg1]
      dsimp only
      rw [hg2]
      dsimp only
      rw [hs]
  · intro hl
    rw [inflate_run_comp_loop, if_pos hroom, hd]
    dsimp only
    rw [if_pos hl]
  · intro hl
    refine ⟨?_, ?_⟩
    · intro e I2 he
      rw [inflate_run_comp_loop, if_pos hroom, hd]
      dsimp only
      rw [if_neg (by omega), if_pos hl, he]
    · intro len I2 he
      refine ⟨?_, ?_⟩
      · intro e I3 hd2
        rw [inflate_run_comp_loop, if_pos hroom, hd]
        dsimp only
        rw [if_neg (by omega), if_pos hl, he]
        dsimp only
        rw [hd2]
      · intro d I3 hd2
        refine ⟨?_, ?_⟩
        · intro e I4 he2
          rw [inflate_run_comp_loop, if_pos hroom, hd]
          dsimp only
          rw [if_neg (by omega), if_pos hl, he]
          dsimp only
          rw [hd2]
          dsimp only
          rw [he2]
        · intro dist I4 he2
          rw [inflate_run_comp_loop, if_pos hroom, hd]
          dsimp only
          rw [if_neg (by omega), if_pos hl, he]
          dsimp only
          rw [hd2]
          dsimp only
          rw [he2]

/-- Witness for C27: a decoder in the compressed phase after a `BFINAL` = 1 header, whose
next bit is the code of symbol 256, with room for 5 bytes, ends the stream with no byte
emitted. -/
theorem inflate_compressed_end_of_block_witness :
    inflate_run 2 .comp_loop ex_eob_state [] 5
      = .ok [] { ex_eob_state_after with infl := .inflate_block } :=
  ((inflate_compressed_end_of_block 0 ex_eob_state [] 5 256 ex_eob_state_after (by decide)
    rfl).1 rfl).2.2.2.2.2.1 (by decide)

/-! ## The code-length loop on a stream of code-length symbols -/

theorem set_append_cons (X T : List Nat) (r c : Nat) :
    (X ++ r :: T).set X.length c = X ++ c :: T := by
  induction X with
  | nil => rfl
  | cons x X ih => simp [ih]

theorem store_run_append (A R : List Nat) (c : Nat) : ∀ n, n ≤ R.length →
    store_run (A ++ R) A.length c n = A ++ List.replicate n c ++ R.drop n := by
  intro n
  induction n with
  | zero => intro _; simp [store_run]
  | succ n ih =>
    intro h
    rw [store_run, ih (by omega)]
    have hd : R.drop n = R.getD n 0 :: R.drop (n + 1) := by
      rw [List.getD_eq_getElem _ _ (by omega)]
      exact List.drop_eq_getElem_cons (by omega)
    have hl : A.length + n = (A ++ List.replicate n c).length := by simp
    rw [hd, hl, set_append_cons, List.replicate_succ']
    simp

theorem clen_run_length_pos (acc : List Nat) (l e : Nat) : 1 ≤ (clen_run acc l e).length := by
  unfold clen_run
  split
  · simp
  · split
    · rw [List.length_replicate]; omega
    · split
      · rw [List.length_replicate]; omega
      · rw [List.length_replicate]; omega

theorem clen_expand_length : ∀ (toks : List (Nat × Nat)) (acc : List Nat),
    acc.length ≤ (clen_expand acc toks).length := by
  intro toks
  induction toks with
  | nil => intro acc; exact Nat.le_refl _
  | cons t ts ih =>
    intro acc
    rw [clen_expand]
    have := ih (acc ++ clen_run acc t.1 t.2)
    rw [List.length_append] at this
    omega

theorem clen_fits_count (nc lim : Nat) : ∀ (toks : List (Nat × Nat)) (acc : List Nat),
    clen_fits nc lim acc toks = true → acc.length + toks.length ≤ max nc acc.length := by
  intro toks
  induction toks with
  | nil => intro acc _; simp
  | cons t ts ih =>
    intro acc h
    simp only [clen_fits, Bool.and_eq_true, decide_eq_true_eq] at h
    obtain ⟨⟨h1, h2⟩, h3⟩ := h
    have := ih _ h3
    have hp := clen_run_length_pos acc t.1 t.2
    rw [List.length_append] at this
    rw [List.length_cons]
    omega

theorem clen_fits_mono (nc lim lim2 : Nat) (hl : lim ≤ lim2) :
    ∀ (toks : List (Nat × Nat)) (acc : List Nat),
    clen_fits nc lim acc toks = true → clen_fits nc lim2 acc toks = true := by
  intro toks
  induction toks with
  | nil => intro acc h; exact h
  | cons t ts ih =>
    intro acc h
    simp only [clen_fits, Bool.and_eq_true, decide_eq_true_eq] at h ⊢
    obtain ⟨⟨h1, h2⟩, h3⟩ := h
    exact ⟨⟨h1, by omega⟩, ih _ h3⟩

/-- Symbols whose runs end at or before `num_codes` fill exactly `num_codes` lengths. -/
theorem clen_fits_exact (nc : Nat) : ∀ (toks : List (Nat × Nat)) (acc : List Nat),
    acc.length ≤ nc → clen_fits nc nc acc toks = true → (clen_expand acc toks).length = nc := by
  intro toks
  induction toks with
  | nil =>
    intro acc ha h
    simp only [clen_fits, decide_eq_true_eq] at h
    rw [clen_expand]
    omega
  | cons t ts ih =>
    intro acc ha h
    simp only [clen_fits, Bool.and_eq_true, decide_eq_true_eq] at h
    obtain ⟨⟨h1, h2⟩, h3⟩ := h
    rw [clen_expand]
    exact ih _ (by rw [List.length_append]; exact h2) h3

theorem clenext_entry (l : Nat) (h16 : 16 ≤ l) (h18 : l ≤ 18) :
    (c_clenext.getD (l - 16) ⟨0, 0⟩).bits = clen_extra_bits l
    ∧ (c_clenext.getD (l - 16) ⟨0, 0⟩).bits ≤ 16
    ∧ ∀ (acc : List Nat) (e : Nat),
        clen_run acc l e
          = List.replicate ((c_clenext.getD (l - 16) ⟨0, 0⟩).base + e)
              (if acc.length > 0 ∧ l = 16 then acc.getD (acc.length - 1) 0 else 0) := by
  have h : l = 16 ∨ l = 17 ∨ l = 18 := by omega
  rcases h with h | h | h
  · subst h
    refine ⟨rfl, by decide, ?_⟩
    intro acc e
    unfold clen_run
    rw [if_neg (by omega), if_pos rfl]
    by_cases ha : acc.length > 0
    · rw [if_pos ha, if_pos ⟨ha, rfl⟩]
      rfl
    · rw [if_neg ha, if_neg (fun h => ha h.1)]
      rfl
  · subst h
    refine ⟨rfl, by decide, ?_⟩
    intro acc e
    unfold clen_run
    rw [if_neg (by omega), if_neg (by omega), if_pos rfl, if_neg (fun h => by omega)]
    rfl
  · subst h
    refine ⟨rfl, by decide, ?_⟩
    intro acc e
    unfold clen_run
    rw [if_neg (by omega), if_neg (by omega), if_neg (by omega), if_neg (fun h => by omega)]
    rfl

/-- The loop of `decode_clen` on the bits of a sequence of code-length symbols: with the
lengths `A` stored so far and the rest `R` of the buffer, it stores the run-length expansion
of the symbols after `A` and leaves the entries the runs do not reach as they were. -/
theorem decode_clen_loop_toks (L : List Nat) (hL : lengths_ok L) (hlen : L.length = 19)
    (h0 : ginflate_hdic_t) (nc : Nat) (Y : List Bool) :
    ∀ (toks : List (Nat × Nat)) (fuel : Nat) (I : ginflate_t) (A R : List Nat),
      bits_ok I → bitstream I = clen_toks_bits L toks ++ Y → clen_toks_wf L toks = true →
      clen_fits nc (A.length + R.length) A toks = true → toks.length ≤ fuel →
      ∃ J, decode_clen_loop (init_huffdic L 19 h0) nc fuel I (A ++ R) A.length
          = .ok (clen_expand A toks ++ R.drop ((clen_expand A toks).length - A.length)) J
        ∧ bitstream J = Y ∧ bits_ok J ∧ frame J = frame I := by
  have hdic : init_huffdic L 19 h0 = init_huffdic L L.length h0 := by rw [hlen]
  intro toks
  induction toks with
  | nil =>
    intro fuel I A R hI hbits _ hfit _
    simp only [clen_fits, decide_eq_true_eq] at hfit
    refine ⟨I, ?_, by simpa [clen_toks_bits] using hbits, hI, rfl⟩
    have hres : clen_expand A [] ++ R.drop ((clen_expand A []).length - A.length) = A ++ R := by
      simp [clen_expand]
    rw [hres]
    cases fuel with
    | zero => rw [decode_clen_loop_zero, if_neg (by omega)]
    | succ f => rw [decode_clen_loop_succ, if_neg (by omega)]
  | cons t ts ih =>
    intro fuel I A R hI hbits hwf hfit hfuel
    obtain ⟨l, e⟩ := t
    simp only [clen_toks_wf, Bool.and_eq_true, decide_eq_true_eq] at hwf
    obtain ⟨⟨⟨w1, w2⟩, w3⟩, w4⟩ := hwf
    simp only [clen_fits, Bool.and_eq_true, decide_eq_true_eq] at hfit
    obtain ⟨⟨f1, f2⟩, f3⟩ := hfit
    cases fuel with
    | zero => simp at hfuel
    | succ f =>
      rw [List.length_cons] at hfuel
      rw [clen_toks_bits] at hbits
      have hl19 : l < L.length := by omega
      have h4096 : L.length ≤ 4096 := by omega
      obtain ⟨I1, d1, d2, d3, d4⟩ := decode_huff_canonical L hL h4096 l hl19 w2 I hI
        h0 (nat_bits e (clen_extra_bits l) ++ (clen_toks_bits L ts ++ Y))
        (by rw [hbits]; simp only [List.append_assoc])
      rw [← hdic] at d1
      rw [decode_clen_loop_succ, if_pos f1, d1]
      dsimp only
      rw [clen_expand]
      by_cases h16 : l < 16
      · rw [if_pos h16]
        have hrun : clen_run A l e = [l] := by
          unfold clen_run
          rw [if_pos h16]
        rw [hrun] at f2 f3 ⊢
        have hex : clen_extra_bits l = 0 := by
          unfold clen_extra_bits
          rw [if_neg (by omega), if_neg (by omega), if_neg (by omega)]
        rw [hex] at d2
        have hR : 1 ≤ R.length := by
          rw [List.length_singleton] at f2
          omega
        have hset : (A ++ R).set A.length (l % 256) = (A ++ [l]) ++ R.drop 1 := by
          have := store_run_append A R l 1 hR
          rw [Nat.mod_eq_of_lt (by omega)]
          simpa [store_run] using this
        have hlen1 : A.length + 1 = (A ++ [l]).length := by simp
        rw [hset, hlen1]
        obtain ⟨J, j1, j2, j3, j4⟩ := ih f I1 (A ++ [l]) (R.drop 1) d3
          (by simpa [nat_bits] using d2) w4
          (by
            have : (A ++ [l]).length + (R.drop 1).length = A.length + R.length := by
              simp only [List.length_append, List.length_singleton, List.length_drop]
              omega
            rw [this]
            exact f3)
          (by omega)
        refine ⟨J, ?_, j2, j3, j4.trans d4⟩
        rw [j1, List.drop_drop]
        have hge := clen_expand_length ts (A ++ [l])
        rw [List.length_append, List.length_singleton] at hge
        have : 1 + ((clen_expand (A ++ [l]) ts).length - (A ++ [l]).length)
            = (clen_expand (A ++ [l]) ts).length - A.length := by
          rw [List.length_append, List.length_singleton]
          omega
        rw [this]
      · rw [if_neg h16]
        obtain ⟨x1, x2, x3⟩ := clenext_entry l (by omega) w1
        rw [← x1] at d2 w3
        obtain ⟨I2, e1, e2, e3, e4⟩ := decode_ext_spec I1 c_clenext (l - 16) e _
          (show l - 16 < c_clenext.length from by
            have : c_clenext.length = 3 := rfl
            omega) d3 x2 w3 d2
        rw [e1]
        dsimp only
        have hrun := x3 A e
        have hc : (if A.length > 0 ∧ l = 16 then (A ++ R).getD (A.length - 1) 0 else 0)
            = (if A.length > 0 ∧ l = 16 then A.getD (A.length - 1) 0 else 0) := by
          by_cases hc : A.length > 0 ∧ l = 16
          · rw [if_pos hc, if_pos hc, List.getD_append _ _ _ _ (by omega)]
          · rw [if_neg hc, if_neg hc]
        rw [hc]
        rw [hrun] at f2 f3 ⊢
        rw [List.length_replicate] at f2
        rw [List.length_append, if_neg (by omega),
          store_run_append A R _ _ (by omega)]
        have hlen1 : A.length + ((c_clenext.getD (l - 16) ⟨0, 0⟩).base + e)
            = (A ++ List.replicate ((c_clenext.getD (l - 16) ⟨0, 0⟩).base + e)
                (if A.length > 0 ∧ l = 16 then A.getD (A.length - 1) 0 else 0)).length := by
          simp
        rw [hlen1]
        obtain ⟨J, j1, j2, j3, j4⟩ := ih f I2 _ (R.drop ((c_clenext.getD (l - 16) ⟨0, 0⟩).base + e))
          e3 e2 w4
          (by
            have : (A ++ List.replicate ((c_clenext.getD (l - 16) ⟨0, 0⟩).base + e)
                (if A.length > 0 ∧ l = 16 then A.getD (A.length - 1) 0 else 0)).length
                + (R.drop ((c_clenext.getD (l - 16) ⟨0, 0⟩).base + e)).length
                = A.length + R.length := by
              simp only [List.length_append, List.length_replicate, List.length_drop]
              omega
            rw [this]
            exact f3)
          (by omega)
        refine ⟨J, ?_, j2, j3, (j4.trans e4).trans d4⟩
        rw [j1, List.drop_drop]
        have hge := clen_expand_length ts
          (A ++ List.replicate ((c_clenext.getD (l - 16) ⟨0, 0⟩).base + e)
            (if A.length > 0 ∧ l = 16 then A.getD (A.length - 1) 0 else 0))
        rw [List.length_append, List.length_replicate] at hge
        have : (c_clenext.getD (l - 16) ⟨0, 0⟩).base + e
            + ((clen_expand (A ++ List.replicate ((c_clenext.getD (l - 16) ⟨0, 0⟩).base + e)
                (if A.length > 0 ∧ l = 16 then A.getD (A.length - 1) 0 else 0)) ts).length
              - (A ++ List.replicate ((c_clenext.getD (l - 16) ⟨0, 0⟩).base + e)
                (if A.length > 0 ∧ l = 16 then A.getD (A.length - 1) 0 else 0)).length)
            = (clen_expand (A ++ List.replicate ((c_clenext.getD (l - 16) ⟨0, 0⟩).base + e)
                (if A.length > 0 ∧ l = 16 then A.getD (A.length - 1) 0 else 0)) ts).length
              - A.length := by
          rw [List.length_append, List.length_replicate]
          omega
        rw [this]

/-! ## Back-references and the ring buffer -/

/-- Every byte a back-reference copy appends equals the byte `d` places before it. -/
theorem ref_copy_getD (d : Nat) (hd : 1 ≤ d) : ∀ (n : Nat) (hist : List Nat),
    d ≤ hist.length → ∀ k, hist.length ≤ k → k < hist.length + n →
    (ref_copy d n hist).getD k 0 = (ref_copy d n hist).getD (k - d) 0 := by
  intro n
  induction n with
  | zero => intro hist _ k h1 h2; omega
  | succ n ih =>
    intro hist hdl k h1 h2
    rw [ref_copy]
    by_cases hk : k = hist.length
    · subst hk
      obtain ⟨ext, e1, _⟩ := ref_copy_prefix d n (hist ++ [hist.getD (hist.length - d) 0])
      have a1 : (hist ++ [hist.getD (hist.length - d) 0] ++ ext).getD hist.length 0
          = hist.getD (hist.length - d) 0 := by
        rw [getD_append_left _ ext _ (by simp), getD_append_length]
      have a2 : (hist ++ [hist.getD (hist.length - d) 0] ++ ext).getD (hist.length - d) 0
          = hist.getD (hist.length - d) 0 := by
        rw [List.append_assoc, getD_append_left hist _ _ (by omega)]
      rw [e1, a1, a2]
    · exact ih _ (by rw [List.length_append]; omega) k
        (by rw [List.length_append, List.length_singleton]; omega)
        (by rw [List.length_append, List.length_singleton]; omega)

theorem getD_of_prefix (a b : List Nat) (j : Nat) (h : j < a.length) :
    (a ++ b).getD j 0 = a.getD j 0 :=
  getD_append_left a b j h

theorem bytes_ok_le16 (x : Nat) : bytes_ok (le16 x) := by
  intro b hb
  simp only [le16, List.mem_cons, List.mem_singleton, List.not_mem_nil, or_false] at hb
  rcases hb with hb | hb
  · rw [hb]; exact Nat.mod_lt _ (by norm_num)
  · rw [hb]; exact Nat.mod_lt _ (by norm_num)

/-- A read of a whole final stored block: the stream 01, `LEN`, `NLEN` and the payload `P`,
read with room for `P.length` bytes on a fresh decoder, returns `P` and leaves the ring
buffer holding `P`. -/
theorem ginflate_stored_final_read (mem : ginflate_t) (hmem : mem.ringbuf.length = 65536)
    (P : List Nat) (hP : bytes_ok P) (hlen : P.length ≤ 65535) :
    ∃ J, ginflate (ginflate_on_open
          (.file (0x01 :: (le16 P.length ++ le16 (65535 - P.length) ++ P)) 0) mem) P.length
        = .ok P J
      ∧ ring_ok J.ringbuf_pos J.ringbuf P := by
  have hdata : bytes_ok (0x01 :: (le16 P.length ++ le16 (65535 - P.length) ++ P)) := by
    rw [bytes_ok_cons, bytes_ok_append, bytes_ok_append]
    exact ⟨by norm_num, ⟨bytes_ok_le16 _, bytes_ok_le16 _⟩, hP⟩
  have hI : bits_ok (ginflate_on_open
      (.file (0x01 :: (le16 P.length ++ le16 (65535 - P.length) ++ P)) 0) mem) := by
    refine ⟨?_, ?_, ?_, ?_, rfl⟩
    · show (0 : Nat) < 2 ^ 0
      norm_num
    · show (0 : Nat) ≤ 22
      norm_num
    · intro b hb
      cases hb
    · exact hdata
  have hbits : bitstream (ginflate_on_open
      (.file (0x01 :: (le16 P.length ++ le16 (65535 - P.length) ++ P)) 0) mem)
      = [decide (1 = 1), false, false] ++ [false, false, false, false, false]
        ++ bits_of_bytes (le16 P.length ++ le16 (65535 - P.length) ++ P) := rfl
  obtain ⟨S, s1, s2, s3, s4, s5, s6, s7, s8, _⟩ := inflate_block_stored _ 1
    [false, false, false, false, false] P.length (65535 - P.length) P hI rfl rfl (by decide)
    (by decide) (by omega) hbits
  have hroom : P.length % U32 = P.length :=
    Nat.mod_eq_of_lt (show P.length < 4294967296 by omega)
  obtain ⟨J, j1, j2, _, _, _, j6, _, _, _, _, j11⟩ :=
    (inflate_stored_step S P [] P.length s2 s3 s4 (by rw [s6, List.append_nil]) hP).1
      (by rw [hroom])
  refine ⟨J, ?_, ?_⟩
  · have hf : ginflate (ginflate_on_open
        (.file (0x01 :: (le16 P.length ++ le16 (65535 - P.length) ++ P)) 0) mem) P.length
        = inflate_run (2 * (bits_left (ginflate_on_open
            (.file (0x01 :: (le16 P.length ++ le16 (65535 - P.length) ++ P)) 0) mem)
            + P.length) + 5 + 1 + 1 + 1) .call (ginflate_on_open
            (.file (0x01 :: (le16 P.length ++ le16 (65535 - P.length) ++ P)) 0) mem) []
            P.length := rfl
    rw [hf, s1, j1, inflate_block_done J j2 (by rw [j6, s5]; decide), List.nil_append]
  · have := j11 [] (by
      rw [s7, s8]
      exact ⟨hmem, rfl, fun j hj => by cases hj⟩)
    rw [List.nil_append] at this
    exact this

/-! ## Back-references, the ring buffer, the end of the input, code-length runs -/

/-- C21. Back-references. Take a decoder whose ring buffer holds the end of the output
`hist` produced so far, with a match of length `match_len` at a distance `d` with
`1 ≤ d ≤ min(hist.length, 32768)` pending, and a call of `expand_match` with room for fewer
than `2 ^ 32` bytes. The call appends `min(match_len, room)` bytes `ext`, every appended byte
equals the byte `d` places before it in the output (for `d = 1` it is the last byte of
`hist`), the ring buffer holds the end of the new output, and the rest of the match stays
pending with the same distance: copying it later gives the same output as copying the whole
match at once, `ref_copy d match_len hist`, whose appended bytes all equal the byte `d`
places before them. No case is made of `match_len > d` or of the place of the bytes in the
ring buffer. -/
theorem expand_match_back_reference (I : ginflate_t) (hist out : List Nat) (room : Nat)
    (hroom : room < U32) (hr : ring_ok I.ringbuf_pos I.ringbuf hist)
    (hd1 : 1 ≤ I.match_dist) (hd2 : I.match_dist ≤ min hist.length 32768) :
    ∃ J ext, expand_match I out room = (J, out ++ ext, room - ext.length)
      ∧ ext.length = min I.match_len room
      ∧ (∀ k, hist.length ≤ k → k < hist.length + ext.length →
          (hist ++ ext).getD k 0 = (hist ++ ext).getD (k - I.match_dist) 0)
      ∧ (I.match_dist = 1 → ∀ k, hist.length ≤ k → k < hist.length + ext.length →
          (hist ++ ext).getD k 0 = hist.getD (hist.length - 1) 0)
      ∧ ring_ok J.ringbuf_pos J.ringbuf (hist ++ ext)
      ∧ J.match_len = I.match_len - ext.length ∧ J.match_dist = I.match_dist
      ∧ ref_copy I.match_dist J.match_len (hist ++ ext)
          = ref_copy I.match_dist I.match_len hist
      ∧ (ref_copy I.match_dist I.match_len hist).length = hist.length + I.match_len
      ∧ (∀ k, hist.length ≤ k → k < hist.length + I.match_len →
          (ref_copy I.match_dist I.match_len hist).getD k 0
            = (ref_copy I.match_dist I.match_len hist).getD (k - I.match_dist) 0) := by
  have hdl : I.match_dist ≤ hist.length := Nat.le_trans hd2 (Nat.min_le_left _ _)
  have hd3 : I.match_dist ≤ 65536 :=
    Nat.le_trans (Nat.le_trans hd2 (Nat.min_le_right _ _)) (by norm_num)
  obtain ⟨J, ext, x1, x2, x3, _, _, x6, _, _, _, _, x11, x12⟩ :=
    expand_step I hist room hroom hr hd1 hd3 hdl
  have hfull := ref_copy_getD I.match_dist hd1 I.match_len hist hdl
  obtain ⟨ext2, y1, _⟩ := ref_copy_prefix I.match_dist J.match_len (hist ++ ext)
  rw [x12] at y1
  have hext : ext.length ≤ I.match_len := by rw [x2]; exact Nat.min_le_left _ _
  have hback : ∀ k, hist.length ≤ k → k < hist.length + ext.length →
      (hist ++ ext).getD k 0 = (hist ++ ext).getD (k - I.match_dist) 0 := by
    intro k h1 h2
    have a1 := getD_append_left (hist ++ ext) ext2 k (by rw [List.length_append]; exact h2)
    have a2 := getD_append_left (hist ++ ext) ext2 (k - I.match_dist)
      (by rw [List.length_append]; omega)
    rw [← a1, ← a2, ← y1]
    exact hfull k h1 (by omega)
  refine ⟨J, ext, x1 out, x2, hback, ?_, x11, x3, x6, x12, ref_copy_length _ _ _, hfull⟩
  intro hone k h1 h2
  rw [hone] at hback
  obtain ⟨j, hj⟩ : ∃ j, k = hist.length + j := ⟨k - hist.length, by omega⟩
  subst hj
  clear h1
  induction j with
  | zero =>
    rw [hback _ (by omega) h2]
    exact getD_append_left hist ext _ (by omega)
  | succ j ih =>
    rw [hback _ (by omega) h2]
    exact ih (by omega)

/-- Witness for C21: after the byte `a`, a pending match of length 3 at distance 1 read with
room for 10 bytes appends 3 bytes. -/
theorem expand_match_back_reference_witness :
    ∃ J ext, expand_match ex_match_state [0x61] 10 = (J, [0x61] ++ ext, 10 - ext.length)
      ∧ ext.length = 3 := by
  obtain ⟨J, ext, h1, h2, _⟩ := expand_match_back_reference ex_match_state [0x61] [0x61] 10
    (by decide)
    (ring_ok_put 0 (List.replicate 65536 0) [] 0x61
      ⟨List.length_replicate _ _, rfl, fun j hj => by cases hj⟩)
    (by decide) (by decide)
  exact ⟨J, ext, h1, h2⟩

/-- The divergence for C21: the stream 4B 4C 04 02 00 (two literals `a`, a match of length 3
at distance 1, end of block) read with room for 2 bytes, then for `2 ^ 32 + 1` bytes. In the
second read `umin` receives the room as 1: one byte of the match is copied, the loop of
`inflate_compressed` goes on with room left and decodes the end-of-block symbol, and the
other 2 bytes of the match are never written. -/
theorem expand_match_huge_room :
    (gar_read_seq (some (.inflate (ginflate_on_open (.file ex_fixed_aaaaa 0)
        ginflate_zero_mem))) [2, 4294967297, 10]).1
      = [.ok [0x61, 0x61], .ok [0x61], .ok []]
    ∧ ref_toks [] [.hdr 1, .lit 0x61, .lit 0x61, .mtch 0 0 0 0, .eob]
      = [0x61, 0x61, 0x61, 0x61, 0x61] :=
  ⟨by decide!, by decide⟩

/-- C24. The ring buffer. The ring buffer has 65536 entries. When the ring buffer of a
decoder holds the end of the output `hist` produced so far, with the write position at
`hist.length` modulo 65536, a read (`ginflate`) leaves a decoder, whether it succeeds or
fails, whose ring buffer holds the end of `hist` followed by the bytes `bs` the read wrote,
literals, copied bytes and stored bytes alike, with the write position at the new length
modulo 65536, below 65536; a successful read returns `bs`. `ringbuf_put` writes the byte at
the write position and moves the position forward by one modulo 65536. The decoder opened
on a memory block with a ring buffer of 65536 entries starts with the position 0. -/
theorem ginflate_ring_invariant (I : ginflate_t) (hist : List Nat) (n : Nat)
    (hr : ring_ok I.ringbuf_pos I.ringbuf hist) :
    (∃ bs, ring_ok (res_state (ginflate I n)).ringbuf_pos (res_state (ginflate I n)).ringbuf
          (hist ++ bs)
        ∧ (res_state (ginflate I n)).ringbuf_pos = (hist.length + bs.length) % 65536
        ∧ (res_state (ginflate I n)).ringbuf_pos < 65536
        ∧ (res_state (ginflate I n)).ringbuf.length = 65536
        ∧ ∀ out J, ginflate I n = .ok out J → out = bs)
    ∧ (∀ c, (ringbuf_put I c).2.ringbuf = I.ringbuf.set I.ringbuf_pos (c % 256)
        ∧ (ringbuf_put I c).2.ringbuf_pos = (I.ringbuf_pos + 1) % 65536
        ∧ ring_ok (ringbuf_put I c).2.ringbuf_pos (ringbuf_put I c).2.ringbuf
            (hist ++ [c % 256]))
    ∧ (∀ gf mem, mem.ringbuf.length = 65536 →
        ring_ok (ginflate_on_open gf mem).ringbuf_pos (ginflate_on_open gf mem).ringbuf []) := by
  refine ⟨?_, ?_, ?_⟩
  · obtain ⟨bs, b1, b2⟩ := inflate_run_ring _ .call I [] n hist (ginflate I n) hr rfl
    refine ⟨bs, b1, ?_, ?_, b1.1, ?_⟩
    · rw [b1.2.1, List.length_append]
    · rw [b1.2.1]
      exact Nat.mod_lt _ (by norm_num)
    · intro out J h
      rw [b2 out J h, List.nil_append]
  · intro c
    exact ⟨rfl, rfl, ring_ok_put _ _ _ _ hr⟩
  · intro gf mem hmem
    exact ⟨hmem, rfl, fun j hj => by cases hj⟩

/-- Witness for C24: a read of 10 bytes from the decoder opened on the stream
01 03 00 FC FF 61 62 63 leaves the write position below 65536. -/
theorem ginflate_ring_invariant_witness :
    ∃ bs, ring_ok
      (res_state (ginflate (ginflate_on_open (.file ex_stored_abc 0) ginflate_zero_mem)
        10)).ringbuf_pos
      (res_state (ginflate (ginflate_on_open (.file ex_stored_abc 0) ginflate_zero_mem)
        10)).ringbuf ([] ++ bs) := by
  obtain ⟨bs, h, _⟩ := (ginflate_ring_invariant
    (ginflate_on_open (.file ex_stored_abc 0) ginflate_zero_mem) [] 10
    ⟨List.length_replicate _ _, rfl, fun j hj => by cases hj⟩).1
  exact ⟨bs, h⟩

/-- Counterexample for C24: a read of the final stored block with a payload of 32768 zero
bytes returns the payload and leaves the write position of the ring buffer at 32768, which
is not below 32768; the ring buffer has 65536 entries. -/
theorem ringbuf_pos_reaches_32768 :
    ∃ J, ginflate (ginflate_on_open (.file ex_stored_32k 0) ginflate_zero_mem) 32768
        = .ok (List.replicate 32768 0) J
      ∧ J.ringbuf_pos = 32768 ∧ ¬ J.ringbuf_pos < 32768 ∧ J.ringbuf.length = 65536 := by
  have hP : bytes_ok (List.replicate 32768 0) := by
    intro b hb
    rw [List.eq_of_mem_replicate hb]
    norm_num
  have h := ginflate_stored_final_read ginflate_zero_mem (List.length_replicate _ _)
    (List.replicate 32768 0) hP (by rw [List.length_replicate]; norm_num)
  rw [List.length_replicate] at h
  obtain ⟨J, j1, j2⟩ := h
  have hex : ex_stored_32k
      = 0x01 :: (le16 32768 ++ le16 (65535 - 32768) ++ List.replicate 32768 0) := rfl
  have hpos : J.ringbuf_pos = 32768 := by
    rw [j2.2.1, List.length_replicate]
  refine ⟨J, ?_, hpos, by rw [hpos]; norm_num, j2.1⟩
  rw [hex]
  exact j1

/-- C25. The end of the input. A canonical Huffman code of length `bl` decodes whenever its
`bl` bits are the next unread bits, whatever follows them: `rest` may be empty or shorter
than the longest code of the table (`fetch_bits` then delivers the bits that are there and
`drop_bits` consumes `bl` of them). A decoder opened on a well-formed stream of
fixed-Huffman blocks that is followed by the padding of the last byte alone returns the
decoded bytes in order and then 0 bytes, for reads of fewer than `2 ^ 32` bytes each. -/
theorem decode_huff_at_end_of_input (L : List Nat) (hL : lengths_ok L) (hlen : L.length ≤ 4096)
    (s : Nat) (hs : s < L.length) (hpos : 0 < L.getD s 0) (I : ginflate_t) (hI : bits_ok I)
    (h0 : ginflate_hdic_t) (rest : List Bool) (hbits : bitstream I = code_bits L s ++ rest) :
    (∃ J, decode_huff I (init_huffdic L L.length h0) = .ok s J ∧ bitstream J = rest
        ∧ bits_ok J)
    ∧ (∀ (gf : gar_gfile_t) (mem : ginflate_t) (ts : List ftok) (tail : List Bool)
        (ns : List Nat), gfile_ok gf = true → bytes_ok (gfile_rest gf) →
        mem.ringbuf.length = 65536 → toks_wf false 0 0 ts = true →
        bits_of_bytes (gfile_rest gf) = toks_bits ts ++ tail → tail.length < 8 →
        (∀ n ∈ ns, n < U32) →
        (gar_read_seq (some (.inflate (ginflate_on_open gf mem))) ns).1
          = (read_chunks (ref_toks [] ts) ns).map .ok) := by
  constructor
  · obtain ⟨J, j1, j2, j3, _⟩ := decode_huff_canonical L hL hlen s hs hpos I hI h0 rest hbits
    exact ⟨J, j1, j2, j3⟩
  · intro gf mem ts tail ns hgf hbytes hmem hwf hb _ hns
    have hrep : fixed_rep (ginflate_on_open gf mem) [] false ts tail := by
      refine ⟨⟨?_, ?_, ?_, hbytes, hgf⟩, hb, ⟨hmem, rfl, ?_⟩, rfl, rfl, hwf⟩
      · show (0 : Nat) < 2 ^ 0
        norm_num
      · show (0 : Nat) ≤ 22
        norm_num
      · intro b hb
        cases hb
      · intro j hj
        cases hj
    exact fixed_reads_spec tail ns (ginflate_on_open gf mem) [] false ts hrep hns

/-- Witness for C25: with 7 zero bits left and nothing after them, the fixed table, whose
longest code has 9 bits, decodes the end-of-block symbol. -/
theorem decode_huff_at_end_of_input_witness :
    ∃ J, decode_huff ex_eob_tail_state (init_huffdic fixed_lit_clbuf fixed_lit_clbuf.length
        hdic_zero) = .ok 256 J ∧ bitstream J = [] ∧ bits_ok J :=
  (decode_huff_at_end_of_input fixed_lit_clbuf fixed_lit_lengths_ok (by decide!) 256
    (by decide!) (by decide!) ex_eob_tail_state (by decide) hdic_zero [] (by decide!)).1

/-- The divergence for C25: the stream `ex_dynamic_crossing` is a well-formed final
dynamic-Huffman block that encodes `aaaa` and is followed by no more input. A read of 4
bytes returns 61 61 61 61; the next read raises the end-of-input error instead of returning
0 bytes, because the tables were set up from a shifted position in the input (the repeat
that runs on from the literal/length lengths into the distance lengths is cut). -/
theorem ginflate_final_dynamic_block_eof :
    (gar_read_seq (some (.inflate (ginflate_on_open (.file ex_dynamic_crossing 0)
        ginflate_zero_mem))) [4, 10]).1 = [.ok [0x61, 0x61, 0x61, 0x61], .error .c_err_eof]
    ∧ ref_toks [] [.lit 0x61, .mtch 0 0 0 0, .eob] = [0x61, 0x61, 0x61, 0x61] :=
  ⟨by decide!, by decide⟩

/-- C26. Code-length runs. Let `L` be the 19 code lengths of a code-length code (at most 15,
not over-subscribed) and let the unread bits be the codes and extra bits of the code-length
symbols `toks`, each of which has a code, followed by `Y`. When the runs of the symbols end
at or before `num_codes` and fill `num_codes` lengths, `decode_clen(num_codes)` succeeds,
the first `num_codes` entries of the buffer are the run-length expansion `clen_expand` of
the symbols, the entries from `num_codes` on are as they were, and the unread bits are `Y`.
In the expansion a symbol below 16 is the length itself, 16 is `3 + e` copies of the
previous length and of 0 when there is none, 17 is `3 + e` zeros and 18 is `11 + e` zeros,
with `e` the value of the 2, 3 and 7 extra bits. -/
theorem decode_clen_expansion (L : List Nat) (hL : lengths_ok L) (hlen : L.length = 19)
    (h0 : ginflate_hdic_t) (I : ginflate_t) (clbuf : List Nat) (num_codes : Nat)
    (toks : List (Nat × Nat)) (Y : List Bool) (hI : bits_ok I)
    (hwf : clen_toks_wf L toks = true) (hfit : clen_fits num_codes num_codes [] toks = true)
    (hnc : num_codes ≤ clbuf.length)
    (hbits : bitstream I = clen_toks_bits L toks ++ Y) :
    (∃ J, decode_clen I (init_huffdic L 19 h0) clbuf num_codes
          = .ok (clen_expand [] toks ++ clbuf.drop num_codes) J
        ∧ bitstream J = Y ∧ bits_ok J)
    ∧ (clen_expand [] toks).length = num_codes
    ∧ (∀ acc l e, l < 16 → clen_run acc l e = [l])
    ∧ (∀ acc e, acc ≠ [] →
        clen_run acc 16 e = List.replicate (3 + e) (acc.getD (acc.length - 1) 0))
    ∧ (∀ e, clen_run [] 16 e = List.replicate (3 + e) 0)
    ∧ (∀ acc e, clen_run acc 17 e = List.replicate (3 + e) 0)
    ∧ (∀ acc e, clen_run acc 18 e = List.replicate (11 + e) 0)
    ∧ clen_extra_bits 16 = 2 ∧ clen_extra_bits 17 = 3 ∧ clen_extra_bits 18 = 7 := by
  have hexact := clen_fits_exact num_codes toks [] (Nat.zero_le _) hfit
  refine ⟨?_, hexact, ?_, ?_, ?_, ?_, ?_, rfl, rfl, rfl⟩
  · have hfit2 : clen_fits num_codes (([] : List Nat).length + clbuf.length) [] toks = true :=
      clen_fits_mono num_codes num_codes _ (by simp only [List.length_nil]; omega) toks [] hfit
    have hcount := clen_fits_count num_codes num_codes toks [] hfit
    obtain ⟨J, j1, j2, j3, _⟩ := decode_clen_loop_toks L hL hlen h0 num_codes Y toks num_codes I
      [] clbuf hI hbits hwf hfit2 (by simp only [List.length_nil] at hcount; omega)
    refine ⟨J, ?_, j2, j3⟩
    unfold decode_clen
    rw [List.nil_append, List.length_nil, Nat.sub_zero, hexact] at j1
    exact j1
  · intro acc l e h
    unfold clen_run
    rw [if_pos h]
  · intro acc e h
    have hp : acc.length > 0 := List.length_pos.mpr h
    unfold clen_run
    rw [if_neg (by omega), if_pos rfl, if_pos hp]
  · intro e
    rfl
  · intro acc e
    rfl
  · intro acc e
    rfl

/-- Witness for C26: with the example code-length code, the symbols 16 (at the first
position), 2, 16 (one extra) and 18 give the 19 lengths 0 0 0 2 2 2 2 2 and 11 zeros. -/
theorem decode_clen_expansion_witness :
    ∃ J, decode_clen (ginflate_on_open (.file [0x61, 0x0D, 0x00] 0) ginflate_zero_mem)
        (init_huffdic ex_clen_lens 19 hdic_zero) (List.replicate 288 0) 19
      = .ok (clen_expand [] ex_clen_toks ++ (List.replicate 288 0).drop 19) J := by
  obtain ⟨J, h, _⟩ := (decode_clen_expansion ex_clen_lens (by decide) (by decide) hdic_zero
    (ginflate_on_open (.file [0x61, 0x0D, 0x00] 0) ginflate_zero_mem) (List.replicate 288 0) 19
    ex_clen_toks [false, false, false, false, false] (by decide) (by decide) (by decide)
    (by rw [List.length_replicate]; norm_num) (by decide)).1
  exact ⟨J, h⟩

/-- C29, the divergence. `decode_clen` does not compare a run with `num_codes`. Called with
`num_codes` = 4 on the bits of the symbol 2 and the symbol 16 with the extra bits 3 (a
repeat of 6), it succeeds and has stored the length 2 in the entries 0 to 6 of the buffer:
the entries 4, 5 and 6 are at or beyond `num_codes`. In the stream `ex_dynamic_overrun` a
repeat runs from entry 238 to entry 376, past the 288 entries of `clbuf`: the read reaches a
write outside the array. -/
theorem decode_clen_writes_past_num_codes :
    (∃ J, decode_clen (ginflate_on_open (.file [0x36] 0) ginflate_zero_mem)
        (init_huffdic ex_clen_lens 19 hdic_zero) (List.replicate 288 0) 4
      = .ok ([2, 2, 2, 2, 2, 2, 2] ++ List.replicate 281 0) J)
    ∧ clen_expand [] ex_clen_toks_past = [2, 2, 2, 2, 2, 2, 2]
    ∧ (gar_read_seq (some (.inflate (ginflate_on_open (.file ex_dynamic_overrun 0)
        ginflate_zero_mem))) [1]).1 = [.error .c_undefined] := by
  refine ⟨?_, by decide, by decide!⟩
  obtain ⟨J, j1, _⟩ := decode_clen_loop_toks ex_clen_lens (by decide) (by decide) hdic_zero 4
    [false, false] ex_clen_toks_past 4
    (ginflate_on_open (.file [0x36] 0) ginflate_zero_mem) [] (List.replicate 288 0)
    (by decide) (by decide) (by decide)
    (by rw [List.length_replicate]; decide) (by decide)
  refine ⟨J, ?_⟩
  unfold decode_clen
  have he : clen_expand [] ex_clen_toks_past = [2, 2, 2, 2, 2, 2, 2] := by decide
  rw [he, List.nil_append] at j1
  have hd : (List.replicate 288 0).drop (([2, 2, 2, 2, 2, 2, 2] : List Nat).length
      - ([] : List Nat).length) = List.replicate 281 0 := by
    rw [List.drop_replicate]
    simp
  rw [hd] at j1
  exact j1

/-! ## Streams in memory: reads, seeks and duplicates against the stream values -/

theorem getD_set_ne {α : Type} (M : List α) (a b : Nat) (x d : α) (h : a ≠ b) :
    (M.set a x).getD b d = M.getD b d := by
  simp [List.getD_eq_getElem?_getD, List.getElem?_set_ne h]

theorem getD_set_self {α : Type} (M : List α) (a : Nat) (x d : α) (h : a < M.length) :
    (M.set a x).getD a d = x := by
  simp [List.getD_eq_getElem?_getD, h]

theorem getD_append_lt {α : Type} (M X : List α) (b : Nat) (d : α) (h : b < M.length) :
    (M ++ X).getD b d = M.getD b d := by
  simp [List.getD_eq_getElem?_getD, List.getElem?_append_left h]

theorem getD_append_len {α : Type} (M : List α) (x d : α) :
    (M ++ [x]).getD M.length d = x := by
  simp [List.getD_eq_getElem?_getD]

theorem mem_block_lt (M : gar_mem) (a : Nat) (h : M.getD a .free ≠ .free) : a < M.length := by
  by_contra hc
  apply h
  rw [List.getD_eq_getElem?_getD, List.getElem?_eq_none (by omega)]
  rfl

theorem mem_abs_null (k : Nat) (M : gar_mem) : mem_abs k M .null = some .null := by
  cases k <;> rfl

theorem mem_abs_file_eq (k : Nat) (M : gar_mem) (a : Nat) (data : List Nat) (fpos : Nat)
    (hb : M.getD a .free = .file_ud data fpos) :
    mem_abs k M (.file a) = some (.file data fpos) := by
  cases k <;> simp only [mem_abs, hb]

theorem mem_abs_file_inv (k : Nat) (M : gar_mem) (a : Nat) (v : gar_gfile_t)
    (h : mem_abs k M (.file a) = some v) :
    ∃ data fpos, M.getD a .free = .file_ud data fpos ∧ v = .file data fpos := by
  cases hb : M.getD a .free with
  | free => cases k <;> simp only [mem_abs, hb, reduceCtorEq] at h
  | part_ud gf pos off len => cases k <;> simp only [mem_abs, hb, reduceCtorEq] at h
  | file_ud data fpos =>
    rw [mem_abs_file_eq k M a data fpos hb] at h
    cases h
    exact ⟨data, fpos, rfl, rfl⟩

theorem mem_abs_part_eq (k : Nat) (M : gar_mem) (a : Nat) (gf : gfile_ref) (pos off len : Nat)
    (w : gar_gfile_t) (hb : M.getD a .free = .part_ud gf pos off len)
    (hr : ref_below gf a = true) (hw : mem_abs k M gf = some w) :
    mem_abs (k + 1) M (.part a) = some (.part w pos off len) := by
  simp only [mem_abs, hb, hr, hw, if_true]

theorem mem_abs_part_inv (k : Nat) (M : gar_mem) (a : Nat) (v : gar_gfile_t)
    (h : mem_abs k M (.part a) = some v) :
    ∃ k1 gf pos off len w, k = k1 + 1 ∧ M.getD a .free = .part_ud gf pos off len
      ∧ ref_below gf a = true ∧ mem_abs k1 M gf = some w ∧ v = .part w pos off len := by
  cases k with
  | zero => simp only [mem_abs, reduceCtorEq] at h
  | succ k1 =>
    cases hb : M.getD a .free with
    | free => simp only [mem_abs, hb, reduceCtorEq] at h
    | file_ud data fpos => simp only [mem_abs, hb, reduceCtorEq] at h
    | part_ud gf pos off len =>
      simp only [mem_abs, hb] at h
      cases hr : ref_below gf a with
      | false => simp only [hr, Bool.false_eq_true, if_false, reduceCtorEq] at h
      | true =>
        cases hw : mem_abs k1 M gf with
        | none => simp only [hr, hw, if_true, reduceCtorEq] at h
        | some w =>
          simp only [hr, hw, if_true, Option.some.injEq] at h
          exact ⟨k1, gf, pos, off, len, w, rfl, rfl, hr, hw, h.symm⟩

theorem mem_blocks_null (k : Nat) (M : gar_mem) : mem_blocks k M .null = [] := by
  cases k <;> rfl

theorem mem_blocks_file (k : Nat) (M : gar_mem) (a : Nat) : mem_blocks k M (.file a) = [a] := by
  cases k <;> rfl

theorem mem_blocks_part (k : Nat) (M : gar_mem) (a : Nat) (gf : gfile_ref) (pos off len : Nat)
    (hb : M.getD a .free = .part_ud gf pos off len) :
    mem_blocks (k + 1) M (.part a) = a :: mem_blocks k M gf := by
  simp only [mem_blocks, hb]

theorem ref_below_null (N : Nat) : ref_below .null N = true := rfl

theorem ref_below_mono (g : gfile_ref) (a N : Nat) (h : ref_below g a = true) (ha : a ≤ N) :
    ref_below g N = true := by
  cases g with
  | null => rfl
  | file b =>
    simp only [ref_below, decide_eq_true_eq] at h ⊢
    omega
  | part b =>
    simp only [ref_below, decide_eq_true_eq] at h ⊢
    omega

/-- The blocks of a stream lie below every address its `ud` pointer lies below. -/
theorem mem_blocks_below (k : Nat) : ∀ (M : gar_mem) (g : gfile_ref) (v : gar_gfile_t) (N : Nat),
    mem_abs k M g = some v → ref_below g N = true → ∀ b ∈ mem_blocks k M g, b < N := by
  induction k with
  | zero =>
    intro M g v N h hr b hb
    cases g with
    | null => simp [mem_blocks] at hb
    | file a =>
      simp only [mem_blocks, List.mem_singleton] at hb
      simp only [ref_below, decide_eq_true_eq] at hr
      omega
    | part a => simp only [mem_abs, reduceCtorEq] at h
  | succ k ih =>
    intro M g v N h hr b hb
    cases g with
    | null => simp [mem_blocks] at hb
    | file a =>
      simp only [mem_blocks, List.mem_singleton] at hb
      simp only [ref_below, decide_eq_true_eq] at hr
      omega
    | part a =>
      obtain ⟨k1, gf, pos, off, len, w, hk, hblk, hrb, hw, _⟩ := mem_abs_part_inv _ M a v h
      cases hk
      rw [mem_blocks_part k M a gf pos off len hblk] at hb
      simp only [ref_below, decide_eq_true_eq] at hr
      rcases List.mem_cons.1 hb with h1 | h1
      · omega
      · have := ih M gf w a hw hrb b h1
        omega

/-- The blocks of a stream are allocated. -/
theorem mem_blocks_lt (k : Nat) : ∀ (M : gar_mem) (g : gfile_ref) (v : gar_gfile_t),
    mem_abs k M g = some v → ∀ b ∈ mem_blocks k M g, b < M.length := by
  induction k with
  | zero =>
    intro M g v h b hb
    cases g with
    | null => simp [mem_blocks] at hb
    | file a =>
      obtain ⟨data, fpos, hblk, _⟩ := mem_abs_file_inv _ M a v h
      simp only [mem_blocks, List.mem_singleton] at hb
      rw [hb]
      exact mem_block_lt M a (by rw [hblk]; exact fun hc => by cases hc)
    | part a => simp only [mem_abs, reduceCtorEq] at h
  | succ k ih =>
    intro M g v h b hb
    cases g with
    | null => simp [mem_blocks] at hb
    | file a =>
      obtain ⟨data, fpos, hblk, _⟩ := mem_abs_file_inv _ M a v h
      simp only [mem_blocks, List.mem_singleton] at hb
      rw [hb]
      exact mem_block_lt M a (by rw [hblk]; exact fun hc => by cases hc)
    | part a =>
      obtain ⟨k1, gf, pos, off, len, w, hk, hblk, hrb, hw, _⟩ := mem_abs_part_inv _ M a v h
      cases hk
      rw [mem_blocks_part k M a gf pos off len hblk] at hb
      rcases List.mem_cons.1 hb with h1 | h1
      · rw [h1]
        exact mem_block_lt M a (by rw [hblk]; exact fun hc => by cases hc)
      · exact ih M gf w hw b h1

/-- The stream value depends on the blocks of the stream only. -/
theorem mem_abs_local (k : Nat) : ∀ (M M2 : gar_mem) (g : gfile_ref) (v : gar_gfile_t),
    mem_abs k M g = some v → (∀ b ∈ mem_blocks k M g, M2.getD b .free = M.getD b .free) →
    mem_abs k M2 g = some v ∧ mem_blocks k M2 g = mem_blocks k M g := by
  induction k with
  | zero =>
    intro M M2 g v h hf
    cases g with
    | null => exact ⟨by rw [mem_abs_null] at h ⊢; exact h, rfl⟩
    | file a =>
      obtain ⟨data, fpos, hblk, hv⟩ := mem_abs_file_inv _ M a v h
      have h2 := hf a (by rw [mem_blocks_file]; exact List.mem_singleton.2 rfl)
      refine ⟨?_, rfl⟩
      rw [hv]
      exact mem_abs_file_eq _ M2 a data fpos (by rw [h2, hblk])
    | part a => simp only [mem_abs, reduceCtorEq] at h
  | succ k ih =>
    intro M M2 g v h hf
    cases g with
    | null => exact ⟨by rw [mem_abs_null] at h ⊢; exact h, rfl⟩
    | file a =>
      obtain ⟨data, fpos, hblk, hv⟩ := mem_abs_file_inv _ M a v h
      have h2 := hf a (by rw [mem_blocks_file]; exact List.mem_singleton.2 rfl)
      refine ⟨?_, rfl⟩
      rw [hv]
      exact mem_abs_file_eq _ M2 a data fpos (by rw [h2, hblk])
    | part a =>
      obtain ⟨k1, gf, pos, off, len, w, hk, hblk, hrb, hw, hv⟩ := mem_abs_part_inv _ M a v h
      cases hk
      rw [mem_blocks_part k M a gf pos off len hblk] at hf
      have h2 : M2.getD a .free = .part_ud gf pos off len := by
        rw [hf a (List.mem_cons_self _ _), hblk]
      obtain ⟨i1, i2⟩ := ih M M2 gf w hw (fun b hb => hf b (List.mem_cons_of_mem _ hb))
      refine ⟨?_, ?_⟩
      · rw [hv]
        exact mem_abs_part_eq k M2 a gf pos off len w h2 hrb i1
      · rw [mem_blocks_part k M2 a gf pos off len h2, mem_blocks_part k M a gf pos off len hblk,
          i2]

theorem mem_read_null (k : Nat) (M : gar_mem) (n : Nat) : mem_read k M .null n = .ok ([], M) := by
  cases k <;> rfl

theorem mem_read_file (k : Nat) (M : gar_mem) (a n : Nat) (data : List Nat) (fpos : Nat)
    (hb : M.getD a .free = .file_ud data fpos) :
    mem_read k M (.file a) n
      = .ok ((data.drop fpos).take n,
             M.set a (.file_ud data (fpos + ((data.drop fpos).take n).length))) := by
  cases k <;> simp only [mem_read, hb]

theorem mem_read_part (k : Nat) (M : gar_mem) (a n : Nat) (gf : gfile_ref) (pos off len : Nat)
    (bs : List Nat) (M1 : gar_mem) (gf1 : gfile_ref) (pos1 off1 len1 : Nat)
    (hb : M.getD a .free = .part_ud gf pos off len)
    (hr : mem_read k M gf (offmin n ((len + U64 - pos) % U64)) = .ok (bs, M1))
    (hb1 : M1.getD a .free = .part_ud gf1 pos1 off1 len1) :
    mem_read (k + 1) M (.part a) n
      = .ok (bs, M1.set a (.part_ud gf1 ((pos1 + bs.length) % U64) off1 len1)) := by
  simp only [mem_read, hb, hr, hb1]

/-- A read through the `ud` pointers returns the bytes of the read on the stream value,
leaves the stream standing for the value after that read, and changes no block outside the
stream. -/
theorem mem_read_sim (k : Nat) : ∀ (M : gar_mem) (g : gfile_ref) (v : gar_gfile_t) (n : Nat),
    mem_abs k M g = some v →
    ∃ M1, mem_read k M g n = .ok ((gar_gfile_read v n).1, M1)
      ∧ mem_abs k M1 g = some (gar_gfile_read v n).2
      ∧ M1.length = M.length
      ∧ (∀ b, b ∉ mem_blocks k M g → M1.getD b .free = M.getD b .free)
      ∧ mem_blocks k M1 g = mem_blocks k M g := by
  have hnull : ∀ (k : Nat) (M : gar_mem) (v : gar_gfile_t) (n : Nat),
      mem_abs k M .null = some v →
      ∃ M1, mem_read k M .null n = .ok ((gar_gfile_read v n).1, M1)
        ∧ mem_abs k M1 .null = some (gar_gfile_read v n).2
        ∧ M1.length = M.length
        ∧ (∀ b, b ∉ mem_blocks k M .null → M1.getD b .free = M.getD b .free)
        ∧ mem_blocks k M1 .null = mem_blocks k M .null := by
    intro k M v n h
    rw [mem_abs_null] at h
    cases h
    exact ⟨M, mem_read_null k M n, mem_abs_null k M, rfl, fun _ _ => rfl, rfl⟩
  have hfile : ∀ (k : Nat) (M : gar_mem) (a : Nat) (v : gar_gfile_t) (n : Nat),
      mem_abs k M (.file a) = some v →
      ∃ M1, mem_read k M (.file a) n = .ok ((gar_gfile_read v n).1, M1)
        ∧ mem_abs k M1 (.file a) = some (gar_gfile_read v n).2
        ∧ M1.length = M.length
        ∧ (∀ b, b ∉ mem_blocks k M (.file a) → M1.getD b .free = M.getD b .free)
        ∧ mem_blocks k M1 (.file a) = mem_blocks k M (.file a) := by
    intro k M a v n h
    obtain ⟨data, fpos, hblk, hv⟩ := mem_abs_file_inv k M a v h
    have ha : a < M.length := mem_block_lt M a (by rw [hblk]; exact fun hc => by cases hc)
    subst hv
    refine ⟨M.set a (.file_ud data (fpos + ((data.drop fpos).take n).length)), ?_, ?_, ?_, ?_, ?_⟩
    · exact mem_read_file k M a n data fpos hblk
    · exact mem_abs_file_eq k _ a data _ (getD_set_self M a _ _ ha)
    · exact List.length_set _ _ _
    · intro b hb
      rw [mem_blocks_file] at hb
      exact getD_set_ne M a b _ _ (fun hc => hb (List.mem_singleton.2 hc.symm))
    · rw [mem_blocks_file, mem_blocks_file]
  induction k with
  | zero =>
    intro M g v n h
    cases g with
    | null => exact hnull 0 M v n h
    | file a => exact hfile 0 M a v n h
    | part a => simp only [mem_abs, reduceCtorEq] at h
  | succ k ih =>
    intro M g v n h
    cases g with
    | null => exact hnull _ M v n h
    | file a => exact hfile _ M a v n h
    | part a =>
      obtain ⟨k1, gf, pos, off, len, w, hk, hblk, hrb, hw, hv⟩ := mem_abs_part_inv _ M a v h
      cases hk
      have ha : a < M.length := mem_block_lt M a (by rw [hblk]; exact fun hc => by cases hc)
      have hlow := mem_blocks_below k M gf w a hw hrb
      have hnot : a ∉ mem_blocks k M gf := fun hc => Nat.lt_irrefl a (hlow a hc)
      obtain ⟨M1, r1, r2, r3, r4, r5⟩ := ih M gf w (offmin n ((len + U64 - pos) % U64)) hw
      have hb1 : M1.getD a .free = .part_ud gf pos off len := by rw [r4 a hnot, hblk]
      have hloc := mem_abs_local k M1
        (M1.set a (.part_ud gf
          ((pos + (gar_gfile_read w (offmin n ((len + U64 - pos) % U64))).1.length) % U64)
          off len)) gf _ r2
        (fun b hb => getD_set_ne M1 a b _ _ (fun hc => by
          rw [r5] at hb
          exact hnot (hc ▸ hb)))
      subst hv
      refine ⟨M1.set a (.part_ud gf
          ((pos + (gar_gfile_read w (offmin n ((len + U64 - pos) % U64))).1.length) % U64)
          off len), ?_, ?_, ?_, ?_, ?_⟩
      · exact mem_read_part k M a n gf pos off len _ M1 gf pos off len hblk r1 hb1
      · exact mem_abs_part_eq k _ a gf _ off len _
          (getD_set_self M1 a _ _ (by rw [r3]; exact ha)) hrb hloc.1
      · rw [List.length_set, r3]
      · intro b hb
        rw [mem_blocks_part k M a gf pos off len hblk] at hb
        rw [getD_set_ne M1 a b _ _ (fun hc => hb (hc ▸ List.mem_cons_self _ _))]
        exact r4 b (fun hc => hb (List.mem_cons_of_mem _ hc))
      · rw [mem_blocks_part k _ a gf _ off len
            (getD_set_self M1 a _ _ (by rw [r3]; exact ha)),
          mem_blocks_part k M a gf pos off len hblk, hloc.2, r5]

theorem mem_seek_null (k : Nat) (M : gar_mem) (off : Nat) :
    mem_seek k M .null off = (if off > 0 then .error .out_of_range else .ok M) := by
  cases k <;> by_cases h : off > 0 <;> simp only [mem_seek, check_off, h, if_true, if_false]

theorem mem_seek_file (k : Nat) (M : gar_mem) (a off : Nat) (data : List Nat) (fpos : Nat)
    (hb : M.getD a .free = .file_ud data fpos) :
    mem_seek k M (.file a) off
      = (if off > data.length then .error .out_of_range else .ok (M.set a (.file_ud data off))) := by
  cases k <;> simp only [mem_seek, hb]

theorem mem_seek_part_ok (k : Nat) (M : gar_mem) (a off : Nat) (gf : gfile_ref)
    (pos off0 len : Nat) (M1 : gar_mem) (gf1 : gfile_ref) (pos1 off1 len1 : Nat)
    (hb : M.getD a .free = .part_ud gf pos off0 len) (hc : ¬ off > len)
    (hs : mem_seek k M gf ((off0 + off) % U64) = .ok M1)
    (hb1 : M1.getD a .free = .part_ud gf1 pos1 off1 len1) :
    mem_seek (k + 1) M (.part a) off = .ok (M1.set a (.part_ud gf1 off off1 len1)) := by
  simp only [mem_seek, hb, check_off, hc, if_false, hs, hb1]

theorem mem_seek_part_range (k : Nat) (M : gar_mem) (a off : Nat) (gf : gfile_ref)
    (pos off0 len : Nat)
    (hb : M.getD a .free = .part_ud gf pos off0 len) (hc : off > len) :
    mem_seek (k + 1) M (.part a) off = .error .out_of_range := by
  simp only [mem_seek, hb, check_off, hc, if_true]

theorem mem_seek_part_err (k : Nat) (M : gar_mem) (a off : Nat) (gf : gfile_ref)
    (pos off0 len : Nat) (e : gar_error_t)
    (hb : M.getD a .free = .part_ud gf pos off0 len) (hc : ¬ off > len)
    (hs : mem_seek k M gf ((off0 + off) % U64) = .error e) :
    mem_seek (k + 1) M (.part a) off = .error e := by
  simp only [mem_seek, hb, check_off, hc, if_false, hs]

/-- A seek through the `ud` pointers succeeds or raises as the seek on the stream value does;
when it succeeds the stream stands for the value after that seek and no block outside the
stream has changed. -/
theorem mem_seek_sim (k : Nat) : ∀ (M : gar_mem) (g : gfile_ref) (v : gar_gfile_t) (off : Nat),
    mem_abs k M g = some v →
    (∀ v1, gar_gfile_seek v off = .ok v1 →
      ∃ M1, mem_seek k M g off = .ok M1
        ∧ mem_abs k M1 g = some v1
        ∧ M1.length = M.length
        ∧ (∀ b, b ∉ mem_blocks k M g → M1.getD b .free = M.getD b .free)
        ∧ mem_blocks k M1 g = mem_blocks k M g)
    ∧ (∀ e, gar_gfile_seek v off = .error e → mem_seek k M g off = .error e) := by
  have hnull : ∀ (k : Nat) (M : gar_mem) (v : gar_gfile_t) (off : Nat),
      mem_abs k M .null = some v →
      (∀ v1, gar_gfile_seek v off = .ok v1 →
        ∃ M1, mem_seek k M .null off = .ok M1
          ∧ mem_abs k M1 .null = some v1
          ∧ M1.length = M.length
          ∧ (∀ b, b ∉ mem_blocks k M .null → M1.getD b .free = M.getD b .free)
          ∧ mem_blocks k M1 .null = mem_blocks k M .null)
      ∧ (∀ e, gar_gfile_seek v off = .error e → mem_seek k M .null off = .error e) := by
    intro k M v off h
    rw [mem_abs_null] at h
    cases h
    by_cases hc : off > 0
    · constructor
      · intro v1 hs
        simp only [gar_gfile_seek, check_off, hc, if_true, reduceCtorEq] at hs
      · intro e hs
        simp only [gar_gfile_seek, check_off, hc, if_true, Except.error.injEq] at hs
        rw [mem_seek_null, if_pos hc, hs]
    · constructor
      · intro v1 hs
        simp only [gar_gfile_seek, check_off, hc, if_false, Except.ok.injEq] at hs
        refine ⟨M, ?_, ?_, rfl, fun _ _ => rfl, rfl⟩
        · rw [mem_seek_null, if_neg hc]
        · rw [← hs]
          exact mem_abs_null k M
      · intro e hs
        simp only [gar_gfile_seek, check_off, hc, if_false, reduceCtorEq] at hs
  have hfile : ∀ (k : Nat) (M : gar_mem) (a : Nat) (v : gar_gfile_t) (off : Nat),
      mem_abs k M (.file a) = some v →
      (∀ v1, gar_gfile_seek v off = .ok v1 →
        ∃ M1, mem_seek k M (.file a) off = .ok M1
          ∧ mem_abs k M1 (.file a) = some v1
          ∧ M1.length = M.length
          ∧ (∀ b, b ∉ mem_blocks k M (.file a) → M1.getD b .free = M.getD b .free)
          ∧ mem_blocks k M1 (.file a) = mem_blocks k M (.file a))
      ∧ (∀ e, gar_gfile_seek v off = .error e → mem_seek k M (.file a) off = .error e) := by
    intro k M a v off h
    obtain ⟨data, fpos, hblk, hv⟩ := mem_abs_file_inv k M a v h
    have ha : a < M.length := mem_block_lt M a (by rw [hblk]; exact fun hc => by cases hc)
    subst hv
    by_cases hc : off > data.length
    · constructor
      · intro v1 hs
        simp only [gar_gfile_seek, hc, if_true, reduceCtorEq] at hs
      · intro e hs
        simp only [gar_gfile_seek, hc, if_true, Except.error.injEq] at hs
        rw [mem_seek_file k M a off data fpos hblk, if_pos hc, hs]
    · constructor
      · intro v1 hs
        simp only [gar_gfile_seek, hc, if_false, Except.ok.injEq] at hs
        refine ⟨M.set a (.file_ud data off), ?_, ?_, ?_, ?_, ?_⟩
        · rw [mem_seek_file k M a off data fpos hblk, if_neg hc]
        · rw [← hs]
          exact mem_abs_file_eq k _ a data _ (getD_set_self M a _ _ ha)
        · exact List.length_set _ _ _
        · intro b hb
          rw [mem_blocks_file] at hb
          exact getD_set_ne M a b _ _ (fun hc => hb (List.mem_singleton.2 hc.symm))
        · rw [mem_blocks_file, mem_blocks_file]
      · intro e hs
        simp only [gar_gfile_seek, hc, if_false, reduceCtorEq] at hs
  induction k with
  | zero =>
    intro M g v off h
    cases g with
    | null => exact hnull 0 M v off h
    | file a => exact hfile 0 M a v off h
    | part a => simp only [mem_abs, reduceCtorEq] at h
  | succ k ih =>
    intro M g v off h
    cases g with
    | null => exact hnull _ M v off h
    | file a => exact hfile _ M a v off h
    | part a =>
      obtain ⟨k1, gf, pos, off0, len, w, hk, hblk, hrb, hw, hv⟩ := mem_abs_part_inv _ M a v h
      cases hk
      have ha : a < M.length := mem_block_lt M a (by rw [hblk]; exact fun hc => by cases hc)
      have hlow := mem_blocks_below k M gf w a hw hrb
      have hnot : a ∉ mem_blocks k M gf := fun hc => Nat.lt_irrefl a (hlow a hc)
      obtain ⟨i1, i2⟩ := ih M gf w ((off0 + off) % U64) hw
      subst hv
      by_cases hc : off > len
      · constructor
        · intro v1 hs
          simp only [gar_gfile_seek, check_off, hc, if_true, reduceCtorEq] at hs
        · intro e hs
          simp only [gar_gfile_seek, check_off, hc, if_true, Except.error.injEq] at hs
          rw [mem_seek_part_range k M a off gf pos off0 len hblk hc, hs]
      · cases hp : gar_gfile_seek w ((off0 + off) % U64) with
        | error e1 =>
          constructor
          · intro v1 hs
            simp only [gar_gfile_seek, check_off, hc, if_false, hp, reduceCtorEq] at hs
          · intro e hs
            simp only [gar_gfile_seek, check_off, hc, if_false, hp, Except.error.injEq] at hs
            rw [mem_seek_part_err k M a off gf pos off0 len e1 hblk hc (i2 e1 hp), hs]
        | ok w1 =>
          constructor
          · intro v1 hs
            simp only [gar_gfile_seek, check_off, hc, if_false, hp, Except.ok.injEq] at hs
            obtain ⟨M1, r1, r2, r3, r4, r5⟩ := i1 w1 hp
            have hb1 : M1.getD a .free = .part_ud gf pos off0 len := by rw [r4 a hnot, hblk]
            have hloc := mem_abs_local k M1 (M1.set a (.part_ud gf off off0 len)) gf _ r2
              (fun b hb => getD_set_ne M1 a b _ _ (fun hc => by
                rw [r5] at hb
                exact hnot (hc ▸ hb)))
            refine ⟨M1.set a (.part_ud gf off off0 len), ?_, ?_, ?_, ?_, ?_⟩
            · exact mem_seek_part_ok k M a off gf pos off0 len M1 gf pos off0 len hblk hc r1 hb1
            · rw [← hs]
              exact mem_abs_part_eq k _ a gf _ off0 len _
                (getD_set_self M1 a _ _ (by rw [r3]; exact ha)) hrb hloc.1
            · rw [List.length_set, r3]
            · intro b hb
              rw [mem_blocks_part k M a gf pos off0 len hblk] at hb
              rw [getD_set_ne M1 a b _ _ (fun hc => hb (hc ▸ List.mem_cons_self _ _))]
              exact r4 b (fun hc => hb (List.mem_cons_of_mem _ hc))
            · rw [mem_blocks_part k _ a gf _ off0 len
                  (getD_set_self M1 a _ _ (by rw [r3]; exact ha)),
                mem_blocks_part k M a gf pos off0 len hblk, hloc.2, r5]
          · intro e hs
            simp only [gar_gfile_seek, check_off, hc, if_false, hp, reduceCtorEq] at hs

theorem gfile_run_cons (v : gar_gfile_t) (op : gfile_op) (ops : List gfile_op) :
    gfile_run v (op :: ops) = gfile_run (gfile_run v [op]) ops := by
  cases op with
  | read n => rfl
  | seek off =>
    cases hs : gar_gfile_seek v off with
    | error e => simp only [gfile_run, hs]
    | ok v1 => simp only [gfile_run, hs]

theorem ops_of_cons_same (b : Bool) (op : gfile_op) (ops : List (Bool × gfile_op)) :
    ops_of b ((b, op) :: ops) = op :: ops_of b ops := by
  simp [ops_of, List.filter_cons]

theorem ops_of_cons_other (b : Bool) (op : gfile_op) (ops : List (Bool × gfile_op)) :
    ops_of b ((!b, op) :: ops) = ops_of b ops := by
  cases b <;> simp [ops_of, List.filter_cons]

/-- One read or seek through the `ud` pointers follows the stream value and changes no
block outside the stream. -/
theorem mem_op_sim (k : Nat) (M : gar_mem) (g : gfile_ref) (v : gar_gfile_t) (op : gfile_op)
    (h : mem_abs k M g = some v) :
    mem_abs k (mem_op k M g op) g = some (gfile_run v [op])
    ∧ (mem_op k M g op).length = M.length
    ∧ (∀ b, b ∉ mem_blocks k M g → (mem_op k M g op).getD b .free = M.getD b .free)
    ∧ mem_blocks k (mem_op k M g op) g = mem_blocks k M g := by
  cases op with
  | read n =>
    obtain ⟨M1, r1, r2, r3, r4, r5⟩ := mem_read_sim k M g v n h
    have e1 : mem_op k M g (.read n) = M1 := by simp only [mem_op, r1]
    rw [e1]
    exact ⟨r2, r3, r4, r5⟩
  | seek off =>
    obtain ⟨i1, i2⟩ := mem_seek_sim k M g v off h
    cases hs : gar_gfile_seek v off with
    | error e =>
      have e1 : mem_op k M g (.seek off) = M := by simp only [mem_op, i2 e hs]
      have e2 : gfile_run v [.seek off] = v := by simp only [gfile_run, hs]
      rw [e1, e2]
      exact ⟨h, rfl, fun _ _ => rfl, rfl⟩
    | ok v1 =>
      obtain ⟨M1, r1, r2, r3, r4, r5⟩ := i1 v1 hs
      have e1 : mem_op k M g (.seek off) = M1 := by simp only [mem_op, r1]
      have e2 : gfile_run v [.seek off] = v1 := by simp only [gfile_run, hs]
      rw [e1, e2]
      exact ⟨r2, r3, r4, r5⟩

/-- Two streams whose blocks lie on the two sides of an address: after any interleaving of
reads and seeks, each stands for its value after its own operations. -/
theorem mem_run2_sim (k : Nat) (g1 g2 : gfile_ref) (N : Nat) :
    ∀ (ops : List (Bool × gfile_op)) (M : gar_mem) (v1 v2 : gar_gfile_t),
    mem_abs k M g1 = some v1 → mem_abs k M g2 = some v2 →
    (∀ b ∈ mem_blocks k M g1, b < N) → (∀ b ∈ mem_blocks k M g2, N ≤ b) →
    mem_abs k (mem_run2 k g1 g2 M ops) g1 = some (gfile_run v1 (ops_of false ops))
    ∧ mem_abs k (mem_run2 k g1 g2 M ops) g2 = some (gfile_run v2 (ops_of true ops)) := by
  intro ops
  induction ops with
  | nil =>
    intro M v1 v2 h1 h2 _ _
    exact ⟨h1, h2⟩
  | cons x ops ih =>
    intro M v1 v2 h1 h2 b1 b2
    obtain ⟨b, op⟩ := x
    cases b with
    | false =>
      obtain ⟨s1, _, s3, s4⟩ := mem_op_sim k M g1 v1 op h1
      have hloc := mem_abs_local k M (mem_op k M g1 op) g2 v2 h2
        (fun c hc => s3 c (fun hc1 => Nat.lt_irrefl c (Nat.lt_of_lt_of_le (b1 c hc1) (b2 c hc))))
      have e1 : mem_run2 k g1 g2 M ((false, op) :: ops)
          = mem_run2 k g1 g2 (mem_op k M g1 op) ops := rfl
      have e2 : ops_of true ((false, op) :: ops) = ops_of true ops :=
        ops_of_cons_other true op ops
      rw [e1, ops_of_cons_same false op ops, e2, gfile_run_cons]
      exact ih (mem_op k M g1 op) _ v2 s1 hloc.1 (by rw [s4]; exact b1) (by rw [hloc.2]; exact b2)
    | true =>
      obtain ⟨s1, _, s3, s4⟩ := mem_op_sim k M g2 v2 op h2
      have hloc := mem_abs_local k M (mem_op k M g2 op) g1 v1 h1
        (fun c hc => s3 c (fun hc1 => Nat.lt_irrefl c (Nat.lt_of_lt_of_le (b1 c hc) (b2 c hc1))))
      have e1 : mem_run2 k g1 g2 M ((true, op) :: ops)
          = mem_run2 k g1 g2 (mem_op k M g2 op) ops := rfl
      have e2 : ops_of false ((true, op) :: ops) = ops_of false ops :=
        ops_of_cons_other false op ops
      rw [e1, ops_of_cons_same true op ops, e2, gfile_run_cons v2]
      exact ih (mem_op k M g2 op) v1 _ hloc.1 s1 (by rw [hloc.2]; exact b1) (by rw [s4]; exact b2)

theorem mem_read_bytes_sim (k : Nat) (M : gar_mem) (g : gfile_ref) (v : gar_gfile_t) (n : Nat)
    (h : mem_abs k M g = some v) :
    mem_read_bytes k M g n = some (gar_gfile_read v n).1 := by
  obtain ⟨M1, r1, _⟩ := mem_read_sim k M g v n h
  simp only [mem_read_bytes, r1]

theorem mem_dup_null (k : Nat) (M : gar_mem) : mem_dup k M .null = .ok (.null, M) := by
  cases k <;> rfl

theorem mem_dup_file (k : Nat) (M : gar_mem) (a : Nat) (data : List Nat) (fpos : Nat)
    (hb : M.getD a .free = .file_ud data fpos) :
    mem_dup k M (.file a) = .ok (.file M.length, M ++ [.file_ud data 0]) := by
  cases k <;> simp only [mem_dup, hb]

theorem mem_dup_part_ok (k : Nat) (M : gar_mem) (a : Nat) (gf : gfile_ref) (pos off len : Nat)
    (g1 : gfile_ref) (M1 : gar_mem) (gfx : gfile_ref) (posx off1 len1 : Nat)
    (hb : M.getD a .free = .part_ud gf pos off len)
    (hd : mem_dup k M gf = .ok (g1, M1))
    (hb1 : M1.getD a .free = .part_ud gfx posx off1 len1) :
    mem_dup (k + 1) M (.part a) = mem_open_part k M1 g1 off1 len1 := by
  simp only [mem_dup, hb, hd, hb1]

theorem mem_dup_part_err (k : Nat) (M : gar_mem) (a : Nat) (gf : gfile_ref) (pos off len : Nat)
    (e : gar_error_t)
    (hb : M.getD a .free = .part_ud gf pos off len)
    (hd : mem_dup k M gf = .error e) :
    mem_dup (k + 1) M (.part a) = .error e := by
  simp only [mem_dup, hb, hd]

theorem mem_open_part_ok (k : Nat) (M : gar_mem) (gf : gfile_ref) (off len : Nat) (M1 : gar_mem)
    (hs : mem_seek k M gf off = .ok M1) :
    mem_open_part k M gf off len = .ok (.part M1.length, M1 ++ [.part_ud gf 0 off len]) := by
  simp only [mem_open_part, hs]

theorem mem_open_part_err (k : Nat) (M : gar_mem) (gf : gfile_ref) (off len : Nat)
    (e : gar_error_t) (hs : mem_seek k M gf off = .error e) :
    mem_open_part k M gf off len = .error .c_undefined := by
  simp only [mem_open_part, hs]

/-- The step of `gfile_part_on_dup`, given what the duplicate of the source does: the new
slice lies in a new block over the duplicate of the source sought to `off`, and the blocks
that were allocated before are as they were. -/
theorem mem_dup_step (k : Nat) (M : gar_mem) (a : Nat) (gf : gfile_ref) (pos off len : Nat)
    (w : gar_gfile_t)
    (hblk : M.getD a .free = .part_ud gf pos off len)
    (ih : (∀ vd, gar_gfile_dup w = .ok vd →
            ∃ d M1, mem_dup k M gf = .ok (d, M1)
              ∧ mem_abs k M1 d = some vd
              ∧ M.length ≤ M1.length
              ∧ (∀ b, b < M.length → M1.getD b .free = M.getD b .free)
              ∧ (∀ b ∈ mem_blocks k M1 d, M.length ≤ b)
              ∧ ref_below d M1.length = true)
          ∧ (∀ e, gar_gfile_dup w = .error e → mem_dup k M gf = .error e)) :
    (∀ w1 w2, gar_gfile_dup w = .ok w1 → gar_gfile_seek w1 off = .ok w2 →
      ∃ g1 M2, mem_dup (k + 1) M (.part a)
            = .ok (.part M2.length, M2 ++ [.part_ud g1 0 off len])
        ∧ mem_abs k (M2 ++ [.part_ud g1 0 off len]) g1 = some w2
        ∧ M.length ≤ M2.length
        ∧ (∀ b, b < M.length → (M2 ++ [.part_ud g1 0 off len]).getD b .free = M.getD b .free)
        ∧ (∀ b ∈ mem_blocks k (M2 ++ [.part_ud g1 0 off len]) g1, M.length ≤ b)
        ∧ ref_below g1 M2.length = true)
    ∧ (∀ e, gar_gfile_dup w = .error e → mem_dup (k + 1) M (.part a) = .error e)
    ∧ (∀ w1 e, gar_gfile_dup w = .ok w1 → gar_gfile_seek w1 off = .error e →
        mem_dup (k + 1) M (.part a) = .error .c_undefined) := by
  have ha : a < M.length := mem_block_lt M a (by rw [hblk]; exact fun hc => by cases hc)
  refine ⟨?_, ?_, ?_⟩
  · intro w1 w2 hdw hs
    obtain ⟨d, M1, d1, d2, d3, d4, d5, d6⟩ := ih.1 w1 hdw
    have hb1 : M1.getD a .free = .part_ud gf pos off len := by rw [d4 a ha, hblk]
    obtain ⟨M2, s1, s2, s3, s4, s5⟩ := (mem_seek_sim k M1 d w1 off d2).1 w2 hs
    have hloc := mem_abs_local k M2 (M2 ++ [.part_ud d 0 off len]) d w2 s2
      (fun b hb => getD_append_lt M2 _ b _ (mem_blocks_lt k M2 d w2 s2 b hb))
    refine ⟨d, M2, ?_, hloc.1, ?_, ?_, ?_, ?_⟩
    · rw [mem_dup_part_ok k M a gf pos off len d M1 gf pos off len hblk d1 hb1]
      exact mem_open_part_ok k M1 d off len M2 s1
    · rw [s3]
      exact d3
    · intro b hb
      rw [getD_append_lt M2 _ b _ (by rw [s3]; omega),
        s4 b (fun hc => Nat.lt_irrefl b (Nat.lt_of_lt_of_le hb (d5 b hc)))]
      exact d4 b hb
    · intro b hb
      rw [hloc.2, s5] at hb
      exact d5 b hb
    · rw [s3]
      exact d6
  · intro e hdw
    exact mem_dup_part_err k M a gf pos off len e hblk (ih.2 e hdw)
  · intro w1 e hdw hs
    obtain ⟨d, M1, d1, d2, d3, d4, d5, d6⟩ := ih.1 w1 hdw
    have hb1 : M1.getD a .free = .part_ud gf pos off len := by rw [d4 a ha, hblk]
    rw [mem_dup_part_ok k M a gf pos off len d M1 gf pos off len hblk d1 hb1]
    exact mem_open_part_err k M1 d off len e ((mem_seek_sim k M1 d w1 off d2).2 e hs)

/-- A duplicate through the `ud` pointers succeeds or raises as `gar_gfile_dup` on the
stream value does; when it succeeds the new stream stands for the duplicated value, all its
blocks are new, and the blocks allocated before are as they were. -/
theorem mem_dup_sim (k : Nat) : ∀ (M : gar_mem) (g : gfile_ref) (v : gar_gfile_t),
    mem_abs k M g = some v →
    (∀ vd, gar_gfile_dup v = .ok vd →
      ∃ d M1, mem_dup k M g = .ok (d, M1)
        ∧ mem_abs k M1 d = some vd
        ∧ M.length ≤ M1.length
        ∧ (∀ b, b < M.length → M1.getD b .free = M.getD b .free)
        ∧ (∀ b ∈ mem_blocks k M1 d, M.length ≤ b)
        ∧ ref_below d M1.length = true)
    ∧ (∀ e, gar_gfile_dup v = .error e → mem_dup k M g = .error e) := by
  have hnull : ∀ (k : Nat) (M : gar_mem) (v : gar_gfile_t),
      mem_abs k M .null = some v →
      (∀ vd, gar_gfile_dup v = .ok vd →
        ∃ d M1, mem_dup k M .null = .ok (d, M1)
          ∧ mem_abs k M1 d = some vd
          ∧ M.length ≤ M1.length
          ∧ (∀ b, b < M.length → M1.getD b .free = M.getD b .free)
          ∧ (∀ b ∈ mem_blocks k M1 d, M.length ≤ b)
          ∧ ref_below d M1.length = true)
      ∧ (∀ e, gar_gfile_dup v = .error e → mem_dup k M .null = .error e) := by
    intro k M v h
    rw [mem_abs_null] at h
    cases h
    constructor
    · intro vd hv
      simp only [gar_gfile_dup, Except.ok.injEq] at hv
      subst hv
      refine ⟨.null, M, mem_dup_null k M, mem_abs_null k M, Nat.le_refl _, fun _ _ => rfl, ?_,
        rfl⟩
      intro b hb
      rw [mem_blocks_null] at hb
      cases hb
    · intro e hv
      simp only [gar_gfile_dup, reduceCtorEq] at hv
  have hfile : ∀ (k : Nat) (M : gar_mem) (a : Nat) (v : gar_gfile_t),
      mem_abs k M (.file a) = some v →
      (∀ vd, gar_gfile_dup v = .ok vd →
        ∃ d M1, mem_dup k M (.file a) = .ok (d, M1)
          ∧ mem_abs k M1 d = some vd
          ∧ M.length ≤ M1.length
          ∧ (∀ b, b < M.length → M1.getD b .free = M.getD b .free)
          ∧ (∀ b ∈ mem_blocks k M1 d, M.length ≤ b)
          ∧ ref_below d M1.length = true)
      ∧ (∀ e, gar_gfile_dup v = .error e → mem_dup k M (.file a) = .error e) := by
    intro k M a v h
    obtain ⟨data, fpos, hblk, hv⟩ := mem_abs_file_inv k M a v h
    subst hv
    constructor
    · intro vd hv
      simp only [gar_gfile_dup, Except.ok.injEq] at hv
      subst hv
      refine ⟨.file M.length, M ++ [.file_ud data 0], mem_dup_file k M a data fpos hblk, ?_, ?_,
        ?_, ?_, ?_⟩
      · exact mem_abs_file_eq k _ _ data 0 (getD_append_len M _ _)
      · rw [List.length_append]
        omega
      · intro b hb
        exact getD_append_lt M _ b _ hb
      · intro b hb
        rw [mem_blocks_file] at hb
        rw [List.mem_singleton.1 hb]
      · simp only [ref_below, List.length_append, List.length_singleton, decide_eq_true_eq]
        omega
    · intro e hv
      simp only [gar_gfile_dup, reduceCtorEq] at hv
  induction k with
  | zero =>
    intro M g v h
    cases g with
    | null => exact hnull 0 M v h
    | file a => exact hfile 0 M a v h
    | part a => simp only [mem_abs, reduceCtorEq] at h
  | succ k ih =>
    intro M g v h
    cases g with
    | null => exact hnull _ M v h
    | file a => exact hfile _ M a v h
    | part a =>
      obtain ⟨k1, gf, pos, off, len, w, hk, hblk, hrb, hw, hv⟩ := mem_abs_part_inv _ M a v h
      cases hk
      subst hv
      obtain ⟨t1, t2, t3⟩ := mem_dup_step k M a gf pos off len w hblk (ih M gf w hw)
      cases hdw : gar_gfile_dup w with
      | error e1 =>
        constructor
        · intro vd hv
          simp only [gar_gfile_dup, hdw, reduceCtorEq] at hv
        · intro e hv
          simp only [gar_gfile_dup, hdw, Except.error.injEq] at hv
          rw [← hv]
          exact t2 e1 hdw
      | ok w1 =>
        cases hs : gar_gfile_seek w1 off with
        | error e1 =>
          constructor
          · intro vd hv
            simp only [gar_gfile_dup, hdw, gar_gfile_open_part, hs, reduceCtorEq] at hv
          · intro e hv
            simp only [gar_gfile_dup, hdw, gar_gfile_open_part, hs, Except.error.injEq] at hv
            rw [← hv]
            exact t3 w1 e1 hdw hs
        | ok w2 =>
          constructor
          · intro vd hv
            simp only [gar_gfile_dup, hdw, gar_gfile_open_part, hs, Except.ok.injEq] at hv
            subst hv
            obtain ⟨g1, M2, u1, u2, u3, u4, u5, u6⟩ := t1 w1 w2 hdw hs
            refine ⟨.part M2.length, M2 ++ [.part_ud g1 0 off len], u1, ?_, ?_, u4, ?_, ?_⟩
            · exact mem_abs_part_eq k _ _ g1 0 off len w2 (getD_append_len M2 _ _) u6 u2
            · rw [List.length_append]
              omega
            · intro b hb
              rw [mem_blocks_part k _ _ g1 0 off len (getD_append_len M2 _ _)] at hb
              rcases List.mem_cons.1 hb with h1 | h1
              · omega
              · exact u5 b h1
            · simp only [ref_below, List.length_append, List.length_singleton,
                decide_eq_true_eq]
              omega
          · intro e hv
            simp only [gar_gfile_dup, hdw, gar_gfile_open_part, hs, reduceCtorEq] at hv

/-- C17. Streams are blocks in a memory, reached through `ud` pointers. Let the slice at
address `a` be well formed and stand for the window `(off, len)` at position `pos` over a
source that stands for `w`. A successful `gar_gfile_dup` of it returns a slice whose block
`q` is newly allocated and holds `pos = 0` and the same `off` and `len`; the source of the
new slice stands for the duplicate of `w` sought to `off`. Every block allocated before is
as it was, so the block of the original still holds its source, `pos`, `off` and `len`, and
the original stands for the same stream value. The blocks of the original lie below the
old end of the memory and those of the duplicate at or above it, so the two streams share
no block. After any interleaving of reads and seeks on the two streams, a read on either
returns the bytes the stream returns after its own operations alone. -/
theorem gfile_part_dup_frame (k : Nat) (M : gar_mem) (a : Nat) (w : gar_gfile_t)
    (pos off len : Nat) (d : gfile_ref) (M1 : gar_mem)
    (ha : mem_abs k M (.part a) = some (.part w pos off len))
    (hd : mem_dup k M (.part a) = .ok (d, M1)) :
    ∃ q g1 w1 w2 gf,
      d = .part q ∧ M.length ≤ q
      ∧ M1.getD q .free = .part_ud g1 0 off len
      ∧ gar_gfile_dup w = .ok w1 ∧ gar_gfile_seek w1 off = .ok w2
      ∧ mem_abs k M1 (.part q) = some (.part w2 0 off len)
      ∧ a < M.length
      ∧ M.getD a .free = .part_ud gf pos off len
      ∧ M1.getD a .free = .part_ud gf pos off len
      ∧ (∀ b, b < M.length → M1.getD b .free = M.getD b .free)
      ∧ mem_abs k M1 (.part a) = some (.part w pos off len)
      ∧ (∀ b ∈ mem_blocks k M1 (.part a), b < M.length)
      ∧ (∀ b ∈ mem_blocks k M1 (.part q), M.length ≤ b)
      ∧ ∀ (ops : List (Bool × gfile_op)) (n : Nat),
          mem_read_bytes k (mem_run2 k (.part a) (.part q) M1 ops) (.part a) n
            = some (gar_gfile_read (gfile_run (.part w pos off len) (ops_of false ops)) n).1
          ∧ mem_read_bytes k (mem_run2 k (.part a) (.part q) M1 ops) (.part q) n
            = some (gar_gfile_read (gfile_run (.part w2 0 off len) (ops_of true ops)) n).1
          ∧ mem_abs k (mem_run2 k (.part a) (.part q) M1 ops) (.part a)
            = some (gfile_run (.part w pos off len) (ops_of false ops))
          ∧ mem_abs k (mem_run2 k (.part a) (.part q) M1 ops) (.part q)
            = some (gfile_run (.part w2 0 off len) (ops_of true ops)) := by
  obtain ⟨k1, gf, pos1, off1, len1, w0, hk, hblk, hrb, hw, hv⟩ := mem_abs_part_inv k M a _ ha
  subst hk
  simp only [gar_gfile_t.part.injEq] at hv
  obtain ⟨hv1, hv2, hv3, hv4⟩ := hv
  subst hv1 hv2 hv3 hv4
  have halt : a < M.length := mem_block_lt M a (by rw [hblk]; exact fun hc => by cases hc)
  obtain ⟨t1, t2, t3⟩ := mem_dup_step k1 M a gf pos off len w hblk (mem_dup_sim k1 M gf w hw)
  cases hdw : gar_gfile_dup w with
  | error e =>
    rw [t2 e hdw] at hd
    cases hd
  | ok w1 =>
    cases hs : gar_gfile_seek w1 off with
    | error e =>
      rw [t3 w1 e hdw hs] at hd
      cases hd
    | ok w2 =>
      obtain ⟨g1, M2, u1, u2, u3, u4, u5, u6⟩ := t1 w1 w2 hdw hs
      rw [u1] at hd
      simp only [Except.ok.injEq, Prod.mk.injEq] at hd
      obtain ⟨hd1, hd2⟩ := hd
      subst hd1 hd2
      have hq : mem_abs (k1 + 1) (M2 ++ [.part_ud g1 0 off len]) (.part M2.length)
          = some (.part w2 0 off len) :=
        mem_abs_part_eq k1 _ _ g1 0 off len w2 (getD_append_len M2 _ _) u6 u2
      have hloc := mem_abs_local (k1 + 1) M (M2 ++ [.part_ud g1 0 off len]) (.part a) _ ha
        (fun b hb => u4 b (mem_blocks_lt (k1 + 1) M (.part a) _ ha b hb))
      have ba : ∀ b ∈ mem_blocks (k1 + 1) (M2 ++ [.part_ud g1 0 off len]) (.part a),
          b < M.length := by
        intro b hb
        rw [hloc.2] at hb
        exact mem_blocks_lt (k1 + 1) M (.part a) _ ha b hb
      have bq : ∀ b ∈ mem_blocks (k1 + 1) (M2 ++ [.part_ud g1 0 off len]) (.part M2.length),
          M.length ≤ b := by
        intro b hb
        rw [mem_blocks_part k1 _ _ g1 0 off len (getD_append_len M2 _ _)] at hb
        rcases List.mem_cons.1 hb with h1 | h1
        · omega
        · exact u5 b h1
      refine ⟨M2.length, g1, w1, w2, gf, rfl, u3, getD_append_len M2 _ _, rfl, hs, hq, halt,
        hblk, ?_, u4, hloc.1, ba, bq, ?_⟩
      · rw [u4 a halt, hblk]
      · intro ops n
        obtain ⟨r1, r2⟩ := mem_run2_sim (k1 + 1) (.part a) (.part M2.length) M.length ops
          (M2 ++ [.part_ud g1 0 off len]) _ _ hloc.1 hq ba bq
        exact ⟨mem_read_bytes_sim _ _ _ _ n r1, mem_read_bytes_sim _ _ _ _ n r2, r1, r2⟩

/-- Witness for C17: the slice `[1, 3)` of a four-byte file, standing at position 1, in the
memory `ex_mem`. The duplicate is the slice at address 3 over the file block at address 2,
both new. -/
theorem gfile_part_dup_frame_witness :
    mem_abs 1 ex_mem (.part 1) = some (.part (.file [1, 2, 3, 4] 2) 1 1 2)
    ∧ mem_dup 1 ex_mem (.part 1) = .ok (.part 3, ex_mem_dup)
    ∧ ∃ q g1 w1 w2 gf,
      gfile_ref.part 3 = .part q ∧ ex_mem.length ≤ q
      ∧ ex_mem_dup.getD q .free = .part_ud g1 0 1 2
      ∧ gar_gfile_dup (.file [1, 2, 3, 4] 2) = .ok w1 ∧ gar_gfile_seek w1 1 = .ok w2
      ∧ mem_abs 1 ex_mem_dup (.part q) = some (.part w2 0 1 2)
      ∧ 1 < ex_mem.length
      ∧ ex_mem.getD 1 .free = .part_ud gf 1 1 2
      ∧ ex_mem_dup.getD 1 .free = .part_ud gf 1 1 2
      ∧ (∀ b, b < ex_mem.length → ex_mem_dup.getD b .free = ex_mem.getD b .free)
      ∧ mem_abs 1 ex_mem_dup (.part 1) = some (.part (.file [1, 2, 3, 4] 2) 1 1 2)
      ∧ (∀ b ∈ mem_blocks 1 ex_mem_dup (.part 1), b < ex_mem.length)
      ∧ (∀ b ∈ mem_blocks 1 ex_mem_dup (.part q), ex_mem.length ≤ b)
      ∧ ∀ (ops : List (Bool × gfile_op)) (n : Nat),
          mem_read_bytes 1 (mem_run2 1 (.part 1) (.part q) ex_mem_dup ops) (.part 1) n
            = some (gar_gfile_read
                (gfile_run (.part (.file [1, 2, 3, 4] 2) 1 1 2) (ops_of false ops)) n).1
          ∧ mem_read_bytes 1 (mem_run2 1 (.part 1) (.part q) ex_mem_dup ops) (.part q) n
            = some (gar_gfile_read (gfile_run (.part w2 0 1 2) (ops_of true ops)) n).1
          ∧ mem_abs 1 (mem_run2 1 (.part 1) (.part q) ex_mem_dup ops) (.part 1)
            = some (gfile_run (.part (.file [1, 2, 3, 4] 2) 1 1 2) (ops_of false ops))
          ∧ mem_abs 1 (mem_run2 1 (.part 1) (.part q) ex_mem_dup ops) (.part q)
            = some (gfile_run (.part w2 0 1 2) (ops_of true ops)) :=
  ⟨rfl, rfl, gfile_part_dup_frame 1 ex_mem 1 (.file [1, 2, 3, 4] 2) 1 1 2 (.part 3) ex_mem_dup
    rfl rfl⟩

end Gar
